import Mathlib

/-!
# Householder kernels of the dense-matrix engine: LQ / RQ unblocked factorizations

Shallow embedding of `gelq2.hpp`, `gerq2.hpp` and `unmrq.hpp`, followed by
`householder_qr.hpp`, `swap.hpp`, `ul_mult.hpp`,
`potrf_blocked_right_looking.hpp`, `getri.hpp`, `lansy.hpp`, `lantr.hpp` and
`gghrd.hpp`.

* Matrices and vectors are views: a shape together with an entry function on
  natural-number indices.  A slice is a view with shifted indices; a kernel
  that writes through a slice is modelled by writing its result back into the
  parent inside the slice's index range only.
* The sub-kernels `larfg`, `larf_work`, `larf_worksize`, `larfb_worksize` are
  not part of the translated sources; the kernels take them as parameters.
* Every run carries a chronological trace of the sub-kernel invocations it
  made (slice coordinates, arguments and results).
-/

namespace tlapack

/-! ## Enumerations of the call interface -/

/-- Side on which an operator is applied. -/
inductive Side
  | Left
  | Right
  deriving DecidableEq

/-- Operation applied to a matrix operand. -/
inductive Op
  | NoTrans
  | Trans
  | ConjTrans
  deriving DecidableEq

/-- Direction of elimination: `Forward` has its pivot first, `Backward` last. -/
inductive Direction
  | Forward
  | Backward
  deriving DecidableEq

/-- Storage axis of the reflector vectors. -/
inductive StoreV
  | Columnwise
  | Rowwise
  deriving DecidableEq

/-! ## Views -/

/-- Vector view: `size(v)` and the element access `v[i]`. -/
structure Vec (K : Type) where
  len : Nat
  e : Nat → K

/-- Matrix view: `nrows(A)`, `ncols(A)` and the element access `A(i, j)`. -/
structure Mat (K : Type) where
  m : Nat
  n : Nat
  e : Nat → Nat → K

/-- Modelled from the spec: the workspace descriptor `WorkInfo{rows, columns}`
(its declaration is not among the sources): rows `m` and columns `n` of the
scratch matrix. -/
structure WorkInfo where
  m : Nat
  n : Nat
  deriving DecidableEq

/-- Modelled from the spec: the one-argument constructor `WorkInfo(s)`, one
scratch vector of `s` entries held as a column; `WorkInfo(0)` is size 0. -/
def WorkInfo.ofSize (s : Nat) : WorkInfo := ⟨s, 1⟩

/-- Elementwise maximum of two workspace descriptors. -/
def WorkInfo.sup (a b : WorkInfo) : WorkInfo := ⟨max a.m b.m, max a.n b.n⟩

/-- Elementwise order on workspace descriptors: `a` fits inside `b`. -/
def WorkInfo.le (a b : WorkInfo) : Prop := a.m ≤ b.m ∧ a.n ≤ b.n

/-- Elementwise maximum over a sequence of workspace descriptors, the maximum
over no descriptor being `WorkInfo(0)`. -/
def WorkInfo.maxOver : List WorkInfo → WorkInfo
  | [] => WorkInfo.ofSize 0
  | w :: ws => ws.foldl WorkInfo.sup w

/-- Checked element access `v[i]`: `none` when `i` is out of range. -/
def Vec.get? {K : Type} (v : Vec K) (i : Nat) : Option K :=
  if i < v.len then some (v.e i) else none

/-- Assignment `v[i] = x`. -/
def Vec.set {K : Type} (v : Vec K) (i : Nat) (x : K) : Vec K :=
  ⟨v.len, fun a => if a = i then x else v.e a⟩

/-- The view `slice(A, range(r0, r1), range(c0, c1))`. -/
def Mat.slice {K : Type} (A : Mat K) (r0 r1 c0 c1 : Nat) : Mat K :=
  ⟨r1 - r0, c1 - c0, fun i j => A.e (r0 + i) (c0 + j)⟩

/-- The view `slice(A, i, range(c0, c1))`: part of row `i`. -/
def Mat.sliceRow {K : Type} (A : Mat K) (i c0 c1 : Nat) : Vec K :=
  ⟨c1 - c0, fun j => A.e i (c0 + j)⟩

/-- The view `rows(A, range(r0, r1))`. -/
def Mat.rows {K : Type} (A : Mat K) (r0 r1 : Nat) : Mat K :=
  A.slice r0 r1 0 A.n

/-- The view `row(A, i)`. -/
def Mat.row {K : Type} (A : Mat K) (i : Nat) : Vec K :=
  A.sliceRow i 0 A.n

/-- Effect on the parent of overwriting the view
`slice(A, range(r0, r1), range(c0, c1))` with the entries of `B`. -/
def Mat.setSlice {K : Type} (A : Mat K) (r0 r1 c0 c1 : Nat) (B : Mat K) : Mat K :=
  ⟨A.m, A.n, fun i j =>
    if r0 ≤ i ∧ i < r1 ∧ c0 ≤ j ∧ j < c1 then B.e (i - r0) (j - c0) else A.e i j⟩

/-- Effect on the parent of overwriting the view `slice(A, i, range(c0, c1))`
with the entries of `v`. -/
def Mat.setRowSlice {K : Type} (A : Mat K) (i c0 c1 : Nat) (v : Vec K) : Mat K :=
  ⟨A.m, A.n, fun r j =>
    if r = i ∧ c0 ≤ j ∧ j < c1 then v.e (j - c0) else A.e r j⟩

/-- Matrix given by its rows; entries outside the lists read as zero. -/
def Mat.ofRows {K : Type} [Zero K] (m n : Nat) (rs : List (List K)) : Mat K :=
  ⟨m, n, fun i j => (rs.getD i []).getD j 0⟩

/-- Vector given by its entries; entries outside the list read as zero. -/
def Vec.ofList {K : Type} [Zero K] (l : List K) : Vec K :=
  ⟨l.length, fun i => l.getD i 0⟩

/-- The matrix `new_matrix(work_, m, n)` that the functor `Create` makes over a
fresh buffer `work_`. -/
def Mat.zeros {K : Type} [Zero K] (m n : Nat) : Mat K :=
  ⟨m, n, fun _ _ => 0⟩

/-! ## Sub-kernel interfaces and the invocation trace -/

/-- Type of `larfg(direction, storeMode, v, tau)`: from the vector on entry to
the vector on exit and the scalar `tau`. -/
abbrev LarfgFn (K : Type) := Direction → StoreV → Vec K → Vec K × K

/-- Type of `larf_work(side, direction, storeMode, v, tau, C, work)`: from the
arguments to `C` and `work` on exit. -/
abbrev LarfWorkFn (K : Type) :=
  Side → Direction → StoreV → Vec K → K → Mat K → Mat K → Mat K × Mat K

/-- Type of `larf_worksize<T>(side, direction, storeMode, v, tau, C)`. -/
abbrev LarfWorksizeFn (K : Type) :=
  Side → Direction → StoreV → Vec K → K → Mat K → WorkInfo

/-- One sub-kernel invocation: where its views sit in `A`, what it was given
and what it left behind. -/
inductive Call (K : Type)
  | larfg (direction : Direction) (storeMode : StoreV)
      (row c0 c1 tauIdx : Nat) (x y : Vec K) (tau : K)
  | larf_work (side : Side) (direction : Direction) (storeMode : StoreV)
      (r0 r1 c0 c1 : Nat) (v : Vec K) (tau : K) (C work C' work' : Mat K)

/-- Whether the invocation is a call of `larfg`. -/
def Call.isLarfg {K : Type} : Call K → Bool
  | .larfg .. => true
  | .larf_work .. => false

/-- Whether the invocation is a call of `larf_work`. -/
def Call.isLarf {K : Type} : Call K → Bool
  | .larfg .. => false
  | .larf_work .. => true

/-- Memory reachable from a kernel call, with the trace of sub-kernel invocations. -/
structure State (K : Type) where
  A : Mat K
  tau : Vec K
  work : Mat K
  log : List (Call K)

/-- How a kernel call ends: `tlapack_check_false` fired (with the memory at
that moment), or the kernel returned an integer.  The macro is not among the
sources; following the spec, a violated precondition is reported immediately
and ends the call. -/
inductive Outcome (K : Type)
  | checkFailed (s : State K)
  | returned (info : Int) (s : State K)

/-- Whether the call ended in a precondition failure. -/
def Outcome.failed {K : Type} : Outcome K → Bool
  | .checkFailed _ => true
  | .returned _ _ => false

/-- Memory at the end of the call. -/
def Outcome.state {K : Type} : Outcome K → State K
  | .checkFailed s => s
  | .returned _ s => s

/-- Returned integer, if the call returned. -/
def Outcome.info? {K : Type} : Outcome K → Option Int
  | .checkFailed _ => none
  | .returned i _ => some i

/-! ## gelq2.hpp -/

/-- Workspace query `gelq2_worksize<T>(A, tauw)`; `none` is an out-of-range
element access. -/
def gelq2_worksize {K : Type} (larf_worksize : LarfWorksizeFn K)
    (A : Mat K) (tauw : Vec K) : Option WorkInfo :=
  let m := A.m
  if m > 1 then
    let C := A.rows 1 m
    match tauw.get? 0 with
    | none => none
    | some t0 =>
      some (larf_worksize Side.Right Direction.Forward StoreV.Rowwise (A.row 0) t0 C)
  else
    some (WorkInfo.ofSize 0)

/-- Body of the loop of `gelq2_work` for the index `j`. -/
def gelq2_step {K : Type} (larfg : LarfgFn K) (larf_work : LarfWorkFn K)
    (m n k j : Nat) (s : State K) : State K :=
  -- Define w := A(j,j:n)
  let w := s.A.sliceRow j j n
  -- Generate elementary reflector H(j) to annihilate A(j,j+1:n)
  let g := larfg Direction.Forward StoreV.Rowwise w
  let A1 := s.A.setRowSlice j j n g.1
  let tau1 := s.tau.set j g.2
  let log1 := s.log ++
    [Call.larfg Direction.Forward StoreV.Rowwise j j n j w g.1 g.2]
  if j < k - 1 ∨ k < m then
    -- Apply H(j) to A(j+1:m,j:n) from the right
    let w1 := A1.sliceRow j j n
    let Q11 := A1.slice (j + 1) m j n
    let r := larf_work Side.Right Direction.Forward StoreV.Rowwise
      w1 (tau1.e j) Q11 s.work
    { A := A1.setSlice (j + 1) m j n r.1
      tau := tau1
      work := r.2
      log := log1 ++
        [Call.larf_work Side.Right Direction.Forward StoreV.Rowwise
          (j + 1) m j n w1 (tau1.e j) Q11 s.work r.1 r.2] }
  else
    { A := A1, tau := tau1, work := s.work, log := log1 }

/-- The kernel `gelq2_work(A, tauw, work)`. -/
def gelq2_work {K : Type} (larfg : LarfgFn K) (larf_work : LarfWorkFn K)
    (A : Mat K) (tauw : Vec K) (work : Mat K) : Outcome K :=
  let m := A.m
  let n := A.n
  let k := min m n
  -- check arguments
  if tauw.len < k then
    Outcome.checkFailed ⟨A, tauw, work, []⟩
  else
    Outcome.returned 0
      ((List.range k).foldl (fun s j => gelq2_step larfg larf_work m n k j s)
        ⟨A, tauw, work, []⟩)

/-- The convenience form `gelq2(A, tauw)`: queries, allocates, executes.
`none` is an out-of-range element access. -/
def gelq2 {K : Type} [Zero K] (larfg : LarfgFn K) (larf_work : LarfWorkFn K)
    (larf_worksize : LarfWorksizeFn K) (A : Mat K) (tauw : Vec K) :
    Option (Outcome K) :=
  match gelq2_worksize larf_worksize A tauw with
  | none => none
  | some workinfo =>
    let work : Mat K := Mat.zeros workinfo.m workinfo.n
    some (gelq2_work larfg larf_work A tauw work)

/-! ## gerq2.hpp -/

/-- Workspace query `gerq2_worksize<T>(A, tau)`; `none` is an out-of-range
element access. -/
def gerq2_worksize {K : Type} (larf_worksize : LarfWorksizeFn K)
    (A : Mat K) (tau : Vec K) : Option WorkInfo :=
  let m := A.m
  if m > 1 then
    let C := A.rows 1 m
    match tau.get? 0 with
    | none => none
    | some t0 =>
      some (larf_worksize Side.Right Direction.Backward StoreV.Rowwise (A.row 0) t0 C)
  else
    some (WorkInfo.ofSize 0)

/-- Body of the loop of `gerq2_work` for the counter `i2`. -/
def gerq2_step {K : Type} (larfg : LarfgFn K) (larf_work : LarfWorkFn K)
    (m n k i2 : Nat) (s : State K) : State K :=
  let i := k - 1 - i2
  -- Define v := A[m-1-i2,0:n-i2]
  let v := s.A.sliceRow (m - 1 - i2) 0 (n - i2)
  -- Generate the (i+1)-th elementary Householder reflection on v
  let g := larfg Direction.Backward StoreV.Rowwise v
  let A1 := s.A.setRowSlice (m - 1 - i2) 0 (n - i2) g.1
  let tau1 := s.tau.set i g.2
  let log1 := s.log ++
    [Call.larfg Direction.Backward StoreV.Rowwise (m - 1 - i2) 0 (n - i2) i v g.1 g.2]
  -- Apply the reflector to the rest of the matrix
  if m > i2 + 1 then
    let v1 := A1.sliceRow (m - 1 - i2) 0 (n - i2)
    let C := A1.slice 0 (m - 1 - i2) 0 (n - i2)
    let r := larf_work Side.Right Direction.Backward StoreV.Rowwise
      v1 (tau1.e i) C s.work
    { A := A1.setSlice 0 (m - 1 - i2) 0 (n - i2) r.1
      tau := tau1
      work := r.2
      log := log1 ++
        [Call.larf_work Side.Right Direction.Backward StoreV.Rowwise
          0 (m - 1 - i2) 0 (n - i2) v1 (tau1.e i) C s.work r.1 r.2] }
  else
    { A := A1, tau := tau1, work := s.work, log := log1 }

/-- The kernel `gerq2_work(A, tau, work)`. -/
def gerq2_work {K : Type} (larfg : LarfgFn K) (larf_work : LarfWorkFn K)
    (A : Mat K) (tau : Vec K) (work : Mat K) : Outcome K :=
  let m := A.m
  let n := A.n
  let k := min m n
  -- check arguments
  if tau.len < k then
    Outcome.checkFailed ⟨A, tau, work, []⟩
  else if n ≤ 0 then
    -- quick return
    Outcome.returned 0 ⟨A, tau, work, []⟩
  else
    Outcome.returned 0
      ((List.range k).foldl (fun s i2 => gerq2_step larfg larf_work m n k i2 s)
        ⟨A, tau, work, []⟩)

/-- The convenience form `gerq2(A, tau)`.  `none` is an out-of-range element access. -/
def gerq2 {K : Type} [Zero K] (larfg : LarfgFn K) (larf_work : LarfWorkFn K)
    (larf_worksize : LarfWorksizeFn K) (A : Mat K) (tau : Vec K) :
    Option (Outcome K) :=
  let n := A.n
  -- quick return
  if n ≤ 0 then
    some (Outcome.returned 0 ⟨A, tau, Mat.zeros 0 0, []⟩)
  else
    match gerq2_worksize larf_worksize A tau with
    | none => none
    | some workinfo =>
      let work : Mat K := Mat.zeros workinfo.m workinfo.n
      some (gerq2_work larfg larf_work A tau work)

/-! ## Elementary reflectors and the contracts of the sub-kernels -/

/-- The view read as a Mathlib matrix of the given shape. -/
def matOf {K : Type} (m n : Nat) (e : Nat → Nat → K) : Matrix (Fin m) (Fin n) K :=
  Matrix.of fun i j => e i.val j.val

/-- Pivot position of a reflector vector of length `len`: first entry for
`Forward`, last entry for `Backward`. -/
def Direction.pivot : Direction → Nat → Nat
  | Direction.Forward, _ => 0
  | Direction.Backward, len => len - 1

/-- The stored vector with the implicit unit entry at the pivot. -/
def unitAt {K : Type} [One K] (p : Nat) (v : Nat → K) : Nat → K :=
  fun a => if a = p then 1 else v a

/-- Row-wise reflector `H = I - tau * vᴴ * v` of order `n`, `v` a row vector. -/
def reflectorRow {K : Type} [CommRing K] [StarRing K]
    (n : Nat) (tau : K) (v : Nat → K) : Matrix (Fin n) (Fin n) K :=
  Matrix.of fun a b => (if a = b then 1 else 0) - tau * star (v a.val) * v b.val

/-- Column-wise reflector `H = I - tau * v * vᴴ` of order `n`, `v` a column vector. -/
def reflectorCol {K : Type} [CommRing K] [StarRing K]
    (n : Nat) (tau : K) (v : Nat → K) : Matrix (Fin n) (Fin n) K :=
  Matrix.of fun a b => (if a = b then 1 else 0) - tau * v a.val * star (v b.val)

/-- The reflector defined by a stored vector in the given storage mode. -/
def reflector {K : Type} [CommRing K] [StarRing K]
    (storeMode : StoreV) (n : Nat) (tau : K) (v : Nat → K) : Matrix (Fin n) (Fin n) K :=
  match storeMode with
  | StoreV.Rowwise => reflectorRow n tau v
  | StoreV.Columnwise => reflectorCol n tau v

/-- Contract of one sub-kernel invocation.

* `larfg`: with `v` the vector on exit and a unit pivot, `H` is unitary and
  `x * H = (beta at the pivot, 0 elsewhere)` for row-wise storage
  (`Hᴴ * x` for column-wise storage), `beta` being the pivot entry on exit.
* `larf_work`: `C` on exit is `C * H` (side Right) or `H * C` (side Left),
  `H` the reflector of `v` with a unit pivot and of `tau`. -/
def Call.MeetsContract {K : Type} [CommRing K] [StarRing K] : Call K → Prop
  | Call.larfg d st _ _ _ _ x y tau =>
    let p := d.pivot x.len
    let H := reflector st x.len tau (unitAt p y.e)
    H.conjTranspose * H = 1 ∧
    (match st with
     | StoreV.Rowwise =>
       matOf 1 x.len (fun _ b => x.e b) * H
         = matOf 1 x.len (fun _ b => if b = p then y.e p else 0)
     | StoreV.Columnwise =>
       H.conjTranspose * matOf x.len 1 (fun a _ => x.e a)
         = matOf x.len 1 (fun a _ => if a = p then y.e p else 0))
  | Call.larf_work side d st _ _ _ _ v tau C _ C' _ =>
    match side with
    | Side.Right =>
      matOf C.m C.n C'.e
        = matOf C.m C.n C.e * reflector st C.n tau (unitAt (d.pivot C.n) v.e)
    | Side.Left =>
      matOf C.m C.n C'.e
        = reflector st C.m tau (unitAt (d.pivot C.m) v.e) * matOf C.m C.n C.e

/-! ## The factors encoded by the output of gelq2 -/

/-- The vector `w` of the reflector `H(j)` of `gelq2`, read from the entries
`e` of the output: `w[0..j-1] = 0`, `w[j] = 1`, and `w[c]ᴴ` is stored in
`A(j, c)` for `c > j`. -/
def gelq2_w {K : Type} [CommRing K] [StarRing K] (e : Nat → Nat → K) (j : Nat) : Nat → K :=
  fun c => if c < j then 0 else if c = j then 1 else star (e j c)

/-- The reflector `H(j) = I - tauw[j] * w * wᴴ` of `gelq2`, of order `n`. -/
def gelq2_H {K : Type} [CommRing K] [StarRing K]
    (n : Nat) (e : Nat → Nat → K) (tauw : Nat → K) (j : Nat) : Matrix (Fin n) (Fin n) K :=
  reflectorCol n (tauw j) (gelq2_w e j)

/-- The product `H(j)ᴴ ... H(2)ᴴ H(1)ᴴ` of the first `j` reflectors of `gelq2`. -/
def gelq2_Q {K : Type} [CommRing K] [StarRing K]
    (n : Nat) (e : Nat → Nat → K) (tauw : Nat → K) : Nat → Matrix (Fin n) (Fin n) K
  | 0 => 1
  | j + 1 => (gelq2_H n e tauw j).conjTranspose * gelq2_Q n e tauw j

/-- The lower trapezoidal factor `L`: the entries on and below the diagonal. -/
def gelq2_L {K : Type} [Zero K] (m n : Nat) (e : Nat → Nat → K) : Matrix (Fin m) (Fin n) K :=
  matOf m n (fun i j => if j ≤ i then e i j else 0)

/-! ## The factors encoded by the output of gerq2 -/

/-- The row vector `v` of the reflector `H_i` of `gerq2` for an `m`-by-`n`
matrix (`k = min(m, n)`), read from the entries `e` of the output: stored in
row `m-k+i`, columns `0 .. n-k+i-1`, unit pivot at column `n-k+i`, zero beyond. -/
def gerq2_v {K : Type} [Zero K] [One K] (m n : Nat) (e : Nat → Nat → K) (i : Nat) : Nat → K :=
  fun c => if c < n - min m n + i then e (m - min m n + i) c
    else if c = n - min m n + i then 1 else 0

/-- The reflector `H_i = I - tau[i] * vᴴ * v` of `gerq2`, of order `n`. -/
def gerq2_H {K : Type} [CommRing K] [StarRing K]
    (m n : Nat) (e : Nat → Nat → K) (tau : Nat → K) (i : Nat) : Matrix (Fin n) (Fin n) K :=
  reflectorRow n (tau i) (gerq2_v m n e i)

/-- The product `H_1ᴴ H_2ᴴ ... H_jᴴ` of the first `j` reflectors of `gerq2`. -/
def gerq2_Qfull {K : Type} [CommRing K] [StarRing K]
    (m n : Nat) (e : Nat → Nat → K) (tau : Nat → K) : Nat → Matrix (Fin n) (Fin n) K
  | 0 => 1
  | j + 1 => gerq2_Qfull m n e tau j * (gerq2_H m n e tau j).conjTranspose

/-- The `k`-by-`n` matrix `Q` generated from the stored reflectors: the last
`k = min(m, n)` rows of `H_1ᴴ H_2ᴴ ... H_kᴴ`. -/
def gerq2_Q {K : Type} [CommRing K] [StarRing K]
    (m n : Nat) (e : Nat → Nat → K) (tau : Nat → K) : Matrix (Fin (min m n)) (Fin n) K :=
  Matrix.of fun a b =>
    gerq2_Qfull m n e tau (min m n) ⟨n - min m n + a.val, by have := a.isLt; omega⟩ b

/-- The block `A(0:m, n-k:n)` of the output with the reflector entries zeroed,
as the test builds it: `A(r, c)` holds a reflector entry when `r ≥ m-k` and
`c < n-m+r`. -/
def gerq2_R {K : Type} [Zero K] (m n : Nat) (e : Nat → Nat → K) :
    Matrix (Fin m) (Fin (min m n)) K :=
  Matrix.of fun r j =>
    if m ≤ r.val + min m n ∧ (n - min m n + j.val) + m < n + r.val then 0
    else e r.val (n - min m n + j.val)

/-! ## Auxiliary definitions for the proofs -/

/-- Rank-one form of `M * (I - tau * vᴴ * v)` on natural-number indices, the
operator being of order `n`. -/
def applyRight {K : Type} [CommRing K] [StarRing K]
    (n : Nat) (M : Nat → Nat → K) (tau : K) (v : Nat → K) : Nat → Nat → K :=
  fun r b => M r b - tau * (∑ a in Finset.range n, M r a * star (v a)) * v b

/-- Squared norm `∑ v[c] * v[c]ᴴ` of the first `n` entries. -/
def normSq {K : Type} [CommRing K] [StarRing K] (n : Nat) (v : Nat → K) : K :=
  ∑ c in Finset.range n, v c * star (v c)

/-- Logical content of `A` after `j` steps of `gelq2_work`: the rows already
reduced carry zeros above the diagonal, where the reflectors are stored. -/
def gelq2_logical {K : Type} [Zero K] (j : Nat) (e : Nat → Nat → K) : Nat → Nat → K :=
  fun r c => if r < j ∧ r < c then 0 else e r c

/-- Row vector stored for the reflector of step `j` of `gelq2_work`, in full length. -/
def gelq2_vrow {K : Type} [Zero K] [One K] (e : Nat → Nat → K) (j : Nat) : Nat → K :=
  fun c => if c < j then 0 else if c = j then 1 else e j c

/-- Product of the row-wise reflectors of the steps `0 .. j-1` of `gelq2_work`. -/
def gelq2_P {K : Type} [CommRing K] [StarRing K] (n : Nat) (e : Nat → Nat → K)
    (t : Nat → K) : Nat → Matrix (Fin n) (Fin n) K
  | 0 => 1
  | j + 1 => gelq2_P n e t j * reflectorRow n (t j) (gelq2_vrow e j)

/-- Logical content of `A` after `i2` steps of `gerq2_work` on an `m`-by-`n`
matrix: the rows already reduced carry zeros where the reflectors are stored. -/
def gerq2_logical {K : Type} [Zero K] (m n i2 : Nat) (e : Nat → Nat → K) : Nat → Nat → K :=
  fun r c => if m ≤ r + i2 ∧ c + m < n + r then 0 else e r c

/-- Product `H_{k-1} H_{k-2} ... H_{k-i2}` of the reflectors generated by the
first `i2` steps of `gerq2_work`, in the order of generation. -/
def gerq2_P {K : Type} [CommRing K] [StarRing K] (m n : Nat) (e : Nat → Nat → K)
    (t : Nat → K) : Nat → Matrix (Fin n) (Fin n) K
  | 0 => 1
  | i2 + 1 => gerq2_P m n e t i2
      * reflectorRow n (t (min m n - 1 - i2)) (gerq2_v m n e (min m n - 1 - i2))

/-- Product `H_loᴴ H_{lo+1}ᴴ ... H_{lo+len-1}ᴴ` of reflectors of `gerq2`. -/
def gerq2_Qseg {K : Type} [CommRing K] [StarRing K] (m n : Nat) (e : Nat → Nat → K)
    (t : Nat → K) (lo : Nat) : Nat → Matrix (Fin n) (Fin n) K
  | 0 => 1
  | len + 1 => gerq2_Qseg m n e t lo len * (gerq2_H m n e t (lo + len)).conjTranspose

/-! ## Workspace queries: properties of `larf_worksize` and of the trace -/

/-- The query `larf_worksize` reads shapes only. -/
def LarfWorksizeShapeOnly {K : Type} (lw : LarfWorksizeFn K) : Prop :=
  ∀ side d st (v v' : Vec K) (t t' : K) (C C' : Mat K),
    v.len = v'.len → C.m = C'.m → C.n = C'.n →
    lw side d st v t C = lw side d st v' t' C'

/-- The query `larf_worksize` is monotone in the shape of `C`. -/
def LarfWorksizeMonotone {K : Type} (lw : LarfWorksizeFn K) : Prop :=
  ∀ side d st (v v' : Vec K) (t t' : K) (C C' : Mat K),
    C.m ≤ C'.m → C.n ≤ C'.n →
    (lw side d st v t C).le (lw side d st v' t' C')

/-- The block `C` handed to `larf_work`, for an invocation of `larf_work`. -/
def Call.block? {K : Type} : Call K → Option (Mat K)
  | Call.larfg _ _ _ _ _ _ _ _ _ => none
  | Call.larf_work _ _ _ _ _ _ _ _ _ C _ _ _ => some C

/-- The query `larf_worksize` evaluated on the arguments of an invocation of
`larf_work`. -/
def Call.worksize? {K : Type} (lw : LarfWorksizeFn K) : Call K → Option WorkInfo
  | Call.larfg _ _ _ _ _ _ _ _ _ => none
  | Call.larf_work side d st _ _ _ _ v t C _ _ _ => some (lw side d st v t C)

/-! ## unmrq.hpp -/

/-- Options struct for unmrq. -/
structure UnmrqOpts where
  nb : Nat := 32

/-- Type of `larfb_worksize<T>(side, trans, direction, storeMode, V, matrixT, C)`. -/
abbrev LarfbWorksizeFn (K : Type) :=
  Side → Op → Direction → StoreV → Mat K → Mat K → Mat K → WorkInfo

/-- Local workspace sizes of `unmrq_worksize` (the conditional expression on
`is_same_v<T, type_t<matrixT_t>>`, here the flag `sameT`). -/
def unmrq_local_worksize (sameT : Bool) (nb : Nat) : WorkInfo :=
  if sameT then WorkInfo.mk nb nb else WorkInfo.ofSize 0

/-- Workspace query `unmrq_worksize<T>(side, trans, A, tau, C, opts)`.  The
flag `sameT` is `is_same_v<T, type_t<matrix_type<matrixA_t, tau_t>>>`, and
`plus` is `WorkInfo::operator+=`. -/
def unmrq_worksize {K : Type} (sameT : Bool) (plus : WorkInfo → WorkInfo → WorkInfo)
    (larfb_worksize : LarfbWorksizeFn K)
    (side : Side) (trans : Op) (A : Mat K) (tau : Vec K) (C : Mat K)
    (opts : UnmrqOpts) : WorkInfo :=
  -- Constants
  let k := tau.len
  let nb := min opts.nb k
  -- Local workspace sizes
  let workinfo := unmrq_local_worksize sameT nb
  -- larfb:
  let m := C.m
  let n := C.n
  let nA := if side = Side.Left then m else n
  -- Empty matrices
  let V := A.slice 0 nb 0 nA
  let matrixT := A.slice 0 nb 0 nb
  -- Internal workspace queries
  plus workinfo
    (larfb_worksize side (if trans = Op.NoTrans then Op.ConjTrans else Op.NoTrans)
      Direction.Backward StoreV.Rowwise V matrixT C)

/-- A 2-by-0 rational matrix. -/
def exampleEmpty : Mat ℚ := Mat.ofRows 2 0 []

/-- An empty vector of rational scalars. -/
def exampleTauEmpty : Vec ℚ := Vec.ofList []

/-- A vector of one rational scalar. -/
def exampleTauOne : Vec ℚ := Vec.ofList [0]

/-! ## Exact-arithmetic instances of the sub-kernels -/

/-- Modelled from the spec: `generate-reflector` (`larfg.hpp` is not among the
sources), over the rationals.  With `alpha` the pivot entry: when the vector
beyond the pivot is zero, `tau = 0` and the vector is unchanged; otherwise
`beta` is the norm with the sign opposite to `alpha`, the entries beyond the
pivot are scaled by `1 / (alpha - beta)`, the pivot receives `beta` and
`tau = (beta - alpha) / beta`.  The result is exact whenever the norm is rational. -/
def larfg_exact : LarfgFn ℚ := fun direction _ x =>
  let p := direction.pivot x.len
  let alpha := x.e p
  let xnorm2 := ∑ a in Finset.range x.len, if a = p then 0 else x.e a * x.e a
  if xnorm2 = 0 then (x, 0)
  else
    let nrm := Rat.sqrt (alpha * alpha + xnorm2)
    let beta := if 0 ≤ alpha then -nrm else nrm
    (⟨x.len, fun a => if a = p then beta else x.e a / (alpha - beta)⟩, (beta - alpha) / beta)

/-- Modelled from the spec: `apply-reflector` (`larf.hpp` is not among the
sources): one rank-1 update of `C` by the reflector of `v` (unit pivot) and
`tau`, through one scratch vector kept in the first column of `work`. -/
def larf_exact {K : Type} [CommRing K] [StarRing K] : LarfWorkFn K :=
  fun side direction storeMode v tau C work =>
    let L := match side with
      | Side.Left => C.m
      | Side.Right => C.n
    let u := unitAt (direction.pivot L) v.e
    let ua : Nat → K := fun a => match storeMode with
      | StoreV.Rowwise => star (u a)
      | StoreV.Columnwise => u a
    let ub : Nat → K := fun b => match storeMode with
      | StoreV.Rowwise => u b
      | StoreV.Columnwise => star (u b)
    match side with
    | Side.Right =>
      let w : Nat → K := fun i => ∑ a in Finset.range C.n, C.e i a * ua a
      (⟨C.m, C.n, fun i b => C.e i b - tau * w i * ub b⟩,
       ⟨work.m, work.n, fun i c => if c = 0 then w i else work.e i c⟩)
    | Side.Left =>
      let w : Nat → K := fun j => ∑ c in Finset.range C.m, ub c * C.e c j
      (⟨C.m, C.n, fun a j => C.e a j - tau * ua a * w j⟩,
       ⟨work.m, work.n, fun i c => if c = 0 then w i else work.e i c⟩)

/-- Modelled from the spec: workspace query of `apply-reflector`
(`larf.hpp` is not among the sources): one scratch vector, as long as `C`
has columns (side Left) or rows (side Right). -/
def larf_worksize_exact {K : Type} : LarfWorksizeFn K := fun side _ _ _ _ C =>
  match side with
  | Side.Left => WorkInfo.ofSize C.n
  | Side.Right => WorkInfo.ofSize C.m

/-! ## Concrete inputs -/

/-- The 2-by-2 rational matrix with rows `(3, 4)` and `(1, 2)`. -/
def exampleA : Mat ℚ := Mat.ofRows 2 2 [[3, 4], [1, 2]]

/-- The 2-by-2 rational matrix with rows `(1, 2)` and `(4, 3)`. -/
def exampleB : Mat ℚ := Mat.ofRows 2 2 [[1, 2], [4, 3]]

/-- A vector of two rational scalars. -/
def exampleTau : Vec ℚ := Vec.ofList [0, 0]

/-- A one-entry rational workspace. -/
def exampleWork : Mat ℚ := Mat.zeros 1 1

/-! ## Driver dispatch of the Householder QR factorization (`householder_qr.hpp`) -/

/-- Variants of the algorithm to compute the QR factorization. -/
inductive HouseholderQRVariant
  | Level2
  | Blocked
  deriving DecidableEq

/-- Options struct for `householder_qr()`: the options of `geqrf` (the base
class `GeqrfOpts`, whose declaration is not among the sources, is the type
parameter `G`) together with the variant, `Blocked` unless set otherwise. -/
structure HouseholderQROpts (G : Type) where
  toGeqrfOpts : G
  variant : HouseholderQRVariant := HouseholderQRVariant.Blocked

/-- The options value `{}`: the base part default-constructed (`g0`) and the
variant left at its member initializer. -/
def HouseholderQROpts.default {G : Type} (g0 : G) : HouseholderQROpts G :=
  { toGeqrfOpts := g0 }

/-- Workspace query `householder_qr_worksize<T>(A, tau, opts)`. -/
def householder_qr_worksize {K G W : Type}
    (geqr2_worksize : Mat K → Vec K → W)
    (geqrf_worksize : Mat K → Vec K → G → W)
    (A : Mat K) (tau : Vec K) (opts : HouseholderQROpts G) : W :=
  if opts.variant = HouseholderQRVariant.Level2 then
    geqr2_worksize A tau
  else
    geqrf_worksize A tau opts.toGeqrfOpts

/-- The form `householder_qr_work(A, tau, work, opts)`. -/
def householder_qr_work {K G Wk R : Type}
    (geqr2_work : Mat K → Vec K → Wk → R)
    (geqrf_work : Mat K → Vec K → Wk → G → R)
    (A : Mat K) (tau : Vec K) (work : Wk) (opts : HouseholderQROpts G) : R :=
  if opts.variant = HouseholderQRVariant.Level2 then
    geqr2_work A tau work
  else
    geqrf_work A tau work opts.toGeqrfOpts

/-- The convenience form `householder_qr(A, tau, opts)`. -/
def householder_qr {K G R : Type}
    (geqr2 : Mat K → Vec K → R)
    (geqrf : Mat K → Vec K → G → R)
    (A : Mat K) (tau : Vec K) (opts : HouseholderQROpts G) : R :=
  if opts.variant = HouseholderQRVariant.Level2 then
    geqr2 A tau
  else
    geqrf A tau opts.toGeqrfOpts

/-- Kernel family reached by a driver call. -/
inductive KernelFamily
  | geqr2
  | geqrf
  deriving DecidableEq

/-! ## Vector swap (`swap.hpp`) -/

/-- Compile-time facts that the overload set of the two-type `swap` depends
on, for one concrete pair of vector types: whether `TLAPACK_USE_LAPACKPP` is
defined, whether both types satisfy the constraint `TLAPACK_LEGACY_VECTOR`,
and the value of `allow_optblas<pair<vectorX_t, T>, pair<vectorY_t, T>>`
(the trait is declared outside the translated sources). -/
structure SwapDispatch where
  use_lapackpp : Bool
  legacy_vector : Bool
  allow_optblas : Bool
  deriving DecidableEq

/-- The generic overload takes part in overload resolution: its guard is
`disable_if_allow_optblas_t`. -/
def swap_generic_enabled (d : SwapDispatch) : Bool :=
  !d.allow_optblas

/-- The backend overload (`legacy_vector` + `::blas::swap`) takes part in
overload resolution: it is declared under `#ifdef TLAPACK_USE_LAPACKPP`, for
`TLAPACK_LEGACY_VECTOR` types, with guard `enable_if_allow_optblas_t`. -/
def swap_backend_enabled (d : SwapDispatch) : Bool :=
  d.use_lapackpp && (d.legacy_vector && d.allow_optblas)

/-- Number of two-type `swap` overloads that are viable for the pair. -/
def swap_enabled_count (d : SwapDispatch) : Nat :=
  (if swap_generic_enabled d then 1 else 0) + (if swap_backend_enabled d then 1 else 0)

/-- Modelled from the spec: the trait `allow_optblas` is declared outside the
translated sources, so its value is a field of `SwapDispatch`.  By the spec a
call resolves to the backend form only if the backend feature is enabled at
build time and the concrete type pair is convertible to the flat strided
("legacy") layout the backend expects; accordingly the trait holds for a pair
only in a build with `TLAPACK_USE_LAPACKPP` and only for legacy vector
types. -/
def SwapDispatch.TraitFromSpec (d : SwapDispatch) : Prop :=
  d.allow_optblas = true → d.use_lapackpp = true ∧ d.legacy_vector = true

/-- The condition on the trait can be decided. -/
instance SwapDispatch.decTraitFromSpec (d : SwapDispatch) : Decidable d.TraitFromSpec :=
  inferInstanceAs
    (Decidable (d.allow_optblas = true → d.use_lapackpp = true ∧ d.legacy_vector = true))

/-- Outcome of a `swap` call: the precondition check failed, or the call
returned; both carry `x` and `y` as they are at that point. -/
inductive SwapOutcome (K : Type)
  | checkFailed (x y : Vec K)
  | returned (x y : Vec K)

/-- One pass of the loop body of `swap`:
`aux = x[i]; x[i] = y[i]; y[i] = aux;`. -/
def swap_step {K : Type} (xy : Vec K × Vec K) (i : Nat) : Vec K × Vec K :=
  let aux := xy.1.e i
  let x1 := xy.1.set i (xy.2.e i)
  let y1 := xy.2.set i aux
  (x1, y1)

/-- The generic `swap(x, y)`: `tlapack_check_false(size(y) != n)` with
`n = size(x)`, then the element loop `i = 0, ..., n-1`. -/
def swap {K : Type} (x y : Vec K) : SwapOutcome K :=
  let n := x.len
  if y.len ≠ n then SwapOutcome.checkFailed x y
  else
    let xy := (List.range n).foldl swap_step (x, y)
    SwapOutcome.returned xy.1 xy.2
/-! ## Product of the triangular factors stored in one matrix (`ul_mult.hpp`) -/

/-- Triangle of a matrix that a kernel works on; `General` stands for every
value of the enumeration other than the two triangles. -/
inductive Uplo
  | Upper
  | Lower
  | General
  deriving DecidableEq

/-- Whether the diagonal of a triangular operand is taken as stored or as
all ones. -/
inductive Diag
  | NonUnit
  | Unit
  deriving DecidableEq

/-- Type of `gemm(transA, transB, alpha, A, B, beta, C)`: from the arguments to
`C` on exit. -/
abbrev GemmFn (K : Type) := Op → Op → K → Mat K → Mat K → K → Mat K → Mat K

/-- Type of `trmm(side, uplo, trans, diag, alpha, A, B)`: from the arguments
to `B` on exit. -/
abbrev TrmmFn (K : Type) := Side → Uplo → Op → Diag → K → Mat K → Mat K → Mat K

/-- Outcome of a kernel that works in place on one matrix: a failed argument
check, or a returned integer; both carry the matrix as it is at that point. -/
inductive MatOutcome (K : Type)
  | checkFailed (A : Mat K)
  | returned (info : Int) (A : Mat K)

/-- The part of the body of `ul_mult` between its two recursive calls, for
`n = ncols(A) > 1` and `n0 = n / 2`; `A` is the matrix after the first
recursive call:
`gemm(NO_TRANS, NO_TRANS, T(1), A01, A10, T(1), A00)`,
`trmm(LEFT_SIDE, UPPER_TRIANGLE, NO_TRANS, NON_UNIT_DIAG, T(1), A11, A10)`,
`trmm(RIGHT_SIDE, LOWER_TRIANGLE, NO_TRANS, UNIT_DIAG, T(1), A11, A01)`. -/
def ul_mult_mid {K : Type} [One K] (gemm : GemmFn K) (trmm : TrmmFn K) (A : Mat K) : Mat K :=
  let n := A.n
  let n0 := n / 2
  -- calculate top left corner
  let A2 := A.setSlice 0 n0 0 n0
    (gemm Op.NoTrans Op.NoTrans 1 (A.slice 0 n0 n0 n) (A.slice n0 n 0 n0) 1
      (A.slice 0 n0 0 n0))
  -- calculate bottom left corner
  let A3 := A2.setSlice n0 n 0 n0
    (trmm Side.Left Uplo.Upper Op.NoTrans Diag.NonUnit 1 (A2.slice n0 n n0 n)
      (A2.slice n0 n 0 n0))
  -- calculate top right
  A3.setSlice 0 n0 n0 n
    (trmm Side.Right Uplo.Lower Op.NoTrans Diag.Unit 1 (A3.slice n0 n n0 n)
      (A3.slice 0 n0 n0 n))

/-- The kernel `ul_mult(A)`.  The recursion of the source is followed for at
most `fuel` nested calls; `none` means that the nesting went deeper. -/
def ul_mult {K : Type} [One K] (gemm : GemmFn K) (trmm : TrmmFn K) :
    Nat → Mat K → Option (MatOutcome K)
  | 0, _ => none
  | fuel + 1, A =>
    -- check arguments
    if A.m ≠ A.n then some (MatOutcome.checkFailed A)
    else
      let n := A.n
      -- if L and U are 1-by-1
      if n = 1 then some (MatOutcome.returned 0 A)
      else
        let n0 := n / 2
        -- ul_mult(A00)
        match ul_mult gemm trmm fuel (A.slice 0 n0 0 n0) with
        | none => none
        | some (MatOutcome.checkFailed _) => some (MatOutcome.checkFailed A)
        | some (MatOutcome.returned _ A00) =>
          let A4 := ul_mult_mid gemm trmm (A.setSlice 0 n0 0 n0 A00)
          -- ul_mult(A11)
          match ul_mult gemm trmm fuel (A4.slice n0 n n0 n) with
          | none => none
          | some (MatOutcome.checkFailed _) => some (MatOutcome.checkFailed A4)
          | some (MatOutcome.returned _ A11) =>
            some (MatOutcome.returned 0 (A4.setSlice n0 n n0 n A11))

/-- Entry `(i, j)` of the triangular operand that `trmm` reads out of `A`:
the triangle named by `uplo`, with a diagonal of ones when `diag` is `Unit`,
and zero elsewhere. -/
def triEntry {K : Type} [Zero K] [One K] (uplo : Uplo) (diag : Diag) (A : Mat K)
    (i j : Nat) : K :=
  if i = j then (if diag = Diag.Unit then 1 else A.e i j)
  else if (uplo = Uplo.Upper ∧ i < j) ∨ (uplo = Uplo.Lower ∧ j < i) then A.e i j
  else 0

/-- Modelled from the spec: `gemm` without transposition as the exact product,
`C := alpha * A * B + beta * C`. -/
def gemm_exact {K : Type} [CommRing K] : GemmFn K :=
  fun _ _ alpha A B beta C =>
    ⟨C.m, C.n, fun i j => alpha * (∑ l in Finset.range A.n, A.e i l * B.e l j) + beta * C.e i j⟩

/-- Modelled from the spec: `trmm` without transposition as the exact product,
`B := alpha * T * B` on the left and `B := alpha * B * T` on the right, where
`T` is the triangular operand read out of `A`. -/
def trmm_exact {K : Type} [CommRing K] : TrmmFn K :=
  fun side uplo _ diag alpha A B =>
    match side with
    | Side.Left =>
      ⟨B.m, B.n, fun i j => alpha * ∑ l in Finset.range B.m, triEntry uplo diag A i l * B.e l j⟩
    | Side.Right =>
      ⟨B.m, B.n, fun i j => alpha * ∑ l in Finset.range B.n, B.e i l * triEntry uplo diag A l j⟩

/-- Contract of `gemm` in exact arithmetic, for the untransposed product. -/
def GemmExact {K : Type} [CommRing K] (gemm : GemmFn K) : Prop :=
  ∀ (alpha beta : K) (A B C : Mat K) (i j : Nat), i < C.m → j < C.n →
    (gemm Op.NoTrans Op.NoTrans alpha A B beta C).e i j
      = alpha * (∑ l in Finset.range A.n, A.e i l * B.e l j) + beta * C.e i j

/-- Contract of `trmm` in exact arithmetic, for the untransposed product. -/
def TrmmExact {K : Type} [CommRing K] (trmm : TrmmFn K) : Prop :=
  ∀ (uplo : Uplo) (diag : Diag) (alpha : K) (A B : Mat K) (i j : Nat),
    i < B.m → j < B.n →
    (trmm Side.Left uplo Op.NoTrans diag alpha A B).e i j
        = alpha * ∑ l in Finset.range B.m, triEntry uplo diag A i l * B.e l j
    ∧ (trmm Side.Right uplo Op.NoTrans diag alpha A B).e i j
        = alpha * ∑ l in Finset.range B.n, B.e i l * triEntry uplo diag A l j

/-- Entry `(i, l)` of the upper triangular `U` held in the diagonal and
superdiagonal part of a matrix with entries `e`. -/
def ulU {K : Type} [Zero K] (e : Nat → Nat → K) (i l : Nat) : K :=
  if i ≤ l then e i l else 0

/-- Entry `(l, j)` of the unit lower triangular `L` whose strictly lower part
is that of a matrix with entries `e`. -/
def ulL {K : Type} [Zero K] [One K] (e : Nat → Nat → K) (l j : Nat) : K :=
  if j < l then e l j else if l = j then 1 else 0

/-- The factor `U` as an `n`-by-`n` matrix. -/
def ul_U {K : Type} [Zero K] (n : Nat) (e : Nat → Nat → K) : Matrix (Fin n) (Fin n) K :=
  matOf n n (ulU e)

/-- The factor `L` as an `n`-by-`n` matrix. -/
def ul_L {K : Type} [Zero K] [One K] (n : Nat) (e : Nat → Nat → K) :
    Matrix (Fin n) (Fin n) K :=
  matOf n n (ulL e)

/-- The 2-by-2 integer matrix of ones. -/
def exampleOnes : Mat ℤ := Mat.ofRows 2 2 [[1, 1], [1, 1]]

/-! ## Blocked right-looking Cholesky factorization (`potrf_blocked_right_looking.hpp`) -/

/-- Type of `potf2(uplo, A)`: the returned integer and `A` on exit. -/
abbrev Potf2Fn (K : Type) := Uplo → Mat K → Int × Mat K

/-- Type of `trsm(side, uplo, trans, diag, alpha, A, B)`: from the arguments
to `B` on exit. -/
abbrev TrsmFn (K : Type) := Side → Uplo → Op → Diag → K → Mat K → Mat K → Mat K

/-- Type of `herk(uplo, trans, alpha, A, beta, C)`: from the arguments to `C`
on exit. -/
abbrev HerkFn (K : Type) := Uplo → Op → K → Mat K → K → Mat K → Mat K

/-- One sub-kernel invocation of `potrf_rl`, as recorded in the trace: the
panel offset `j` and width `jb`, the arguments on entry and the results. -/
inductive CholCall (K : Type)
  | potf2 (uplo : Uplo) (j jb : Nat) (A : Mat K) (info : Int) (A1 : Mat K)
  | trsm (side : Side) (uplo : Uplo) (trans : Op) (diag : Diag) (j jb : Nat)
      (A B B1 : Mat K)
  | herk (uplo : Uplo) (trans : Op) (j jb : Nat) (B C C1 : Mat K)

/-- Memory of a `potrf_rl` run: the matrix and the chronological trace of the
sub-kernel invocations made so far. -/
structure CholState (K : Type) where
  A : Mat K
  log : List (CholCall K)

/-- Outcome of a `potrf_rl` call: a failed argument check or a returned
integer, with the memory at that point. -/
inductive CholOutcome (K : Type)
  | checkFailed (s : CholState K)
  | returned (info : Int) (s : CholState K)

/-- Returned integer, if the call returned. -/
def CholOutcome.info? {K : Type} : CholOutcome K → Option Int
  | .checkFailed _ => none
  | .returned i _ => some i

/-- Memory at the end of the call. -/
def CholOutcome.state {K : Type} : CholOutcome K → CholState K
  | .checkFailed s => s
  | .returned _ s => s

/-- The update of the blocks right of and below the factored diagonal block
`AJJ = slice(A, {j, j+jb}, {j, j+jb})`, executed when `j + jb < n`.
Upper loop: `B = slice(A, {j, j+jb}, {j+jb, n})`,
`trsm(LEFT_SIDE, UPPER_TRIANGLE, CONJ_TRANS, NON_UNIT_DIAG, one, AJJ, B)`,
`herk(UPPER_TRIANGLE, CONJ_TRANS, -one, B, one, C)`.
Lower loop: `B = slice(A, {j+jb, n}, {j, j+jb})`,
`trsm(RIGHT_SIDE, LOWER_TRIANGLE, CONJ_TRANS, NON_UNIT_DIAG, one, AJJ, B)`,
`herk(LOWER_TRIANGLE, NO_TRANS, -one, B, one, C)`.
In both, `C = slice(A, {j+jb, n}, {j+jb, n})`. -/
def potrf_rl_update {K : Type} [One K] [Neg K] (trsm : TrsmFn K) (herk : HerkFn K)
    (uplo : Uplo) (n j jb : Nat) (s : CholState K) : CholState K :=
  if uplo = Uplo.Upper then
    let AJJ := s.A.slice j (j + jb) j (j + jb)
    let B := s.A.slice j (j + jb) (j + jb) n
    let B1 := trsm Side.Left Uplo.Upper Op.ConjTrans Diag.NonUnit 1 AJJ B
    let A2 := s.A.setSlice j (j + jb) (j + jb) n B1
    let B2 := A2.slice j (j + jb) (j + jb) n
    let C := A2.slice (j + jb) n (j + jb) n
    let C1 := herk Uplo.Upper Op.ConjTrans (-1) B2 1 C
    ⟨A2.setSlice (j + jb) n (j + jb) n C1,
      s.log ++ [CholCall.trsm Side.Left Uplo.Upper Op.ConjTrans Diag.NonUnit j jb AJJ B B1,
        CholCall.herk Uplo.Upper Op.ConjTrans j jb B2 C C1]⟩
  else
    let AJJ := s.A.slice j (j + jb) j (j + jb)
    let B := s.A.slice (j + jb) n j (j + jb)
    let B1 := trsm Side.Right Uplo.Lower Op.ConjTrans Diag.NonUnit 1 AJJ B
    let A2 := s.A.setSlice (j + jb) n j (j + jb) B1
    let B2 := A2.slice (j + jb) n j (j + jb)
    let C := A2.slice (j + jb) n (j + jb) n
    let C1 := herk Uplo.Lower Op.NoTrans (-1) B2 1 C
    ⟨A2.setSlice (j + jb) n (j + jb) n C1,
      s.log ++ [CholCall.trsm Side.Right Uplo.Lower Op.ConjTrans Diag.NonUnit j jb AJJ B B1,
        CholCall.herk Uplo.Lower Op.NoTrans j jb B2 C C1]⟩

/-- The panel loop `for (j = 0; j < n; j += nb)` of `potrf_rl`, entered at the
loop test with counter `j`; `uplo` is `Upper` in the first loop of the source
and `Lower` in the second.  At most `fuel` loop tests are made; `none` means
that the loop was still running after them.  `tlapack_error` only reports.
The sum `info + j` is taken in the integers (sizes stay within `int`). -/
def potrf_rl_loop {K : Type} [One K] [Neg K] (potf2 : Potf2Fn K) (trsm : TrsmFn K)
    (herk : HerkFn K) (uplo : Uplo) (n nb : Nat) :
    Nat → Nat → CholState K → Option (CholOutcome K)
  | 0, _, _ => none
  | fuel + 1, j, s =>
    if j < n then
      let jb := min nb (n - j)
      -- Define AJJ
      let AJJ := s.A.slice j (j + jb) j (j + jb)
      let r := potf2 uplo AJJ
      let s1 : CholState K :=
        ⟨s.A.setSlice j (j + jb) j (j + jb) r.2,
          s.log ++ [CholCall.potf2 uplo j jb AJJ r.1 r.2]⟩
      if r.1 ≠ 0 then some (CholOutcome.returned (r.1 + (j : Int)) s1)
      else if j + jb < n then
        potrf_rl_loop potf2 trsm herk uplo n nb fuel (j + nb)
          (potrf_rl_update trsm herk uplo n j jb s1)
      else
        potrf_rl_loop potf2 trsm herk uplo n nb fuel (j + nb) s1
    else some (CholOutcome.returned 0 s)

/-- The kernel `potrf_rl(uplo, A, opts)` with `nb = opts.nb` (the options type
`BlockedCholeskyOpts` is declared outside the translated sources). -/
def potrf_rl {K : Type} [One K] [Neg K] (potf2 : Potf2Fn K) (trsm : TrsmFn K)
    (herk : HerkFn K) (fuel : Nat) (uplo : Uplo) (A : Mat K) (nb : Nat) :
    Option (CholOutcome K) :=
  let n := A.m
  -- check arguments
  if ¬ (uplo = Uplo.Lower ∨ uplo = Uplo.Upper) then some (CholOutcome.checkFailed ⟨A, []⟩)
  else if A.m ≠ A.n then some (CholOutcome.checkFailed ⟨A, []⟩)
  -- Quick return
  else if n ≤ 0 then some (CholOutcome.returned 0 ⟨A, []⟩)
  -- Unblocked code
  else if nb ≥ n then
    let r := potf2 uplo A
    some (CholOutcome.returned r.1 ⟨r.2, [CholCall.potf2 uplo 0 n A r.1 r.2]⟩)
  -- Blocked code
  else if uplo = Uplo.Upper then
    potrf_rl_loop potf2 trsm herk Uplo.Upper n nb fuel 0 ⟨A, []⟩
  else
    potrf_rl_loop potf2 trsm herk Uplo.Lower n nb fuel 0 ⟨A, []⟩

/-! ### Contracts of the sub-kernels of `potrf_rl` -/

/-- Entry `(i, j)` of `op(T)` for an operand with entries `T`. -/
def opEntry {K : Type} [Star K] (trans : Op) (T : Nat → Nat → K) (i j : Nat) : K :=
  match trans with
  | Op.NoTrans => T i j
  | Op.Trans => T j i
  | Op.ConjTrans => star (T j i)

/-- The triangle `uplo` of `F` is a Cholesky factor of the triangle `uplo` of
`M`, both of order `k`: entrywise `U^H U = M` on and above the diagonal for
`Upper`, `L L^H = M` on and below the diagonal for `Lower`. -/
def FactorOf {K : Type} [CommRing K] [StarRing K] (uplo : Uplo) (k : Nat)
    (F M : Nat → Nat → K) : Prop :=
  match uplo with
  | Uplo.Lower =>
    ∀ r c, c ≤ r → r < k → ∑ t in Finset.range (c + 1), F r t * star (F c t) = M r c
  | _ =>
    ∀ r c, r ≤ c → c < k → ∑ t in Finset.range (r + 1), star (F t r) * F t c = M r c

/-- The triangle `uplo` of a matrix read as an upper triangle: the entry
itself for `Upper`, the conjugate of the mirrored entry for `Lower` (a lower
factor `L` is read as `U = L^H`). -/
def triView {K : Type} [Star K] (uplo : Uplo) (e : Nat → Nat → K) (r c : Nat) : K :=
  if uplo = Uplo.Lower then star (e c r) else e r c

/-- The Hermitian matrix whose upper triangle is `M` has a leading principal
block of order `p` with the Cholesky factor `F` (positive diagonal), while the
pivot of index `p` has no positive square root: the leading minor of order
`p + 1` is the first that is not positive definite. -/
def FailsAt {K : Type} [CommRing K] [StarRing K] (pos : K → Prop) (p : Nat)
    (M F : Nat → Nat → K) : Prop :=
  (∀ r, r < p → pos (F r r))
  ∧ (∀ r c, r < p → r ≤ c → c ≤ p →
      ∑ t in Finset.range (r + 1), star (F t r) * F t c = M r c)
  ∧ ¬ ∃ u, pos u ∧ u * u = M p p - ∑ t in Finset.range p, star (F t p) * F t p

/-- Contract of `potf2` in exact arithmetic, with `pos` the real positive
scalars: on a triangle with real diagonal, the code is in `[0, k]`; code 0
comes with the factor (positive diagonal) in the triangle; a code `p + 1`
says that the leading minor of order `p + 1` is the first that is not
positive definite. -/
def Potf2Contract {K : Type} [CommRing K] [StarRing K] (pos : K → Prop)
    (potf2 : Potf2Fn K) : Prop :=
  ∀ (uplo : Uplo) (M : Mat K), (uplo = Uplo.Upper ∨ uplo = Uplo.Lower) → M.m = M.n →
    (∀ r, r < M.m → star (M.e r r) = M.e r r) →
    ((potf2 uplo M).1 = 0 →
      (∀ r, r < M.m → pos ((potf2 uplo M).2.e r r))
      ∧ FactorOf uplo M.m (potf2 uplo M).2.e M.e)
    ∧ ((potf2 uplo M).1 ≠ 0 →
      1 ≤ (potf2 uplo M).1 ∧ (potf2 uplo M).1 ≤ (M.m : Int)
      ∧ ∃ F, FailsAt pos ((potf2 uplo M).1 - 1).toNat (triView uplo M.e) F)

/-- Contract of `trsm` in exact arithmetic for the two forms that `potrf_rl`
calls (conjugate-transposed triangular operand, stored diagonal): when the
diagonal of the triangular operand has no zero, the result `X` solves
`op(T) * X = alpha * B` on the left, `X * op(T) = alpha * B` on the right. -/
def TrsmContract {K : Type} [CommRing K] [StarRing K] (trsm : TrsmFn K) : Prop :=
  ∀ (alpha : K) (A B : Mat K),
    ((∀ r, r < B.m → A.e r r ≠ 0) →
      ∀ r c, r < B.m → c < B.n →
        ∑ t in Finset.range B.m,
          opEntry Op.ConjTrans (triEntry Uplo.Upper Diag.NonUnit A) r t
            * (trsm Side.Left Uplo.Upper Op.ConjTrans Diag.NonUnit alpha A B).e t c
          = alpha * B.e r c)
    ∧ ((∀ r, r < B.n → A.e r r ≠ 0) →
      ∀ r c, r < B.m → c < B.n →
        ∑ t in Finset.range B.n,
          (trsm Side.Right Uplo.Lower Op.ConjTrans Diag.NonUnit alpha A B).e r t
            * opEntry Op.ConjTrans (triEntry Uplo.Lower Diag.NonUnit A) t c
          = alpha * B.e r c)

/-- Contract of `herk` in exact arithmetic: on a triangle of `C` with real
diagonal, `C := alpha * B * B^H + beta * C` for `NoTrans` and
`C := alpha * B^H * B + beta * C` for `ConjTrans`, on the triangle `uplo`. -/
def HerkContract {K : Type} [CommRing K] [StarRing K] (herk : HerkFn K) : Prop :=
  ∀ (alpha beta : K) (B C : Mat K), (∀ r, r < C.m → star (C.e r r) = C.e r r) →
    (∀ r c, r ≤ c → c < C.m →
      (herk Uplo.Upper Op.ConjTrans alpha B beta C).e r c
        = alpha * (∑ t in Finset.range B.m, star (B.e t r) * B.e t c) + beta * C.e r c)
    ∧ (∀ r c, c ≤ r → r < C.m →
      (herk Uplo.Lower Op.NoTrans alpha B beta C).e r c
        = alpha * (∑ t in Finset.range B.n, B.e r t * star (B.e c t)) + beta * C.e r c)

/-- Loop invariant of `potrf_rl` at the loop test with counter `J`, on the
triangle read as an upper triangle (`V` the current matrix, `M` the matrix on
entry): rows before `J` hold finished rows of the factor, the rows from `J` on
hold the Schur complement. -/
def CholInv {K : Type} [CommRing K] [StarRing K] (pos : K → Prop) (n J : Nat)
    (M V : Nat → Nat → K) : Prop :=
  (∀ r, r < n → r < J → pos (V r r))
  ∧ (∀ r c, r ≤ c → c < n → r < J →
      ∑ t in Finset.range (r + 1), star (V t r) * V t c = M r c)
  ∧ (∀ r c, r ≤ c → c < n → J ≤ r →
      V r c = M r c - ∑ t in Finset.range J, star (V t r) * V t c)

/-- The upper triangular matrix in the upper triangle of `e`. -/
def chol_U {K : Type} [Zero K] (n : Nat) (e : Nat → Nat → K) : Matrix (Fin n) (Fin n) K :=
  Matrix.of fun i j => if i.val ≤ j.val then e i.val j.val else 0

/-- The lower triangular matrix in the lower triangle of `e`. -/
def chol_L {K : Type} [Zero K] (n : Nat) (e : Nat → Nat → K) : Matrix (Fin n) (Fin n) K :=
  Matrix.of fun i j => if j.val ≤ i.val then e i.val j.val else 0

/-- Whether a `potf2` invocation of the trace reported a code in `[0, jb]`
(no condition on the other invocations). -/
def CholCall.InfoInRange {K : Type} : CholCall K → Prop
  | .potf2 _ _ jb _ info _ => 0 ≤ info ∧ info ≤ (jb : Int)
  | _ => True

/-- The matrix is square and Hermitian. -/
def Mat.IsHermitian {K : Type} [Star K] (A : Mat K) : Prop :=
  A.m = A.n ∧ ∀ r c, r < A.m → c < A.m → A.e r c = star (A.e c r)
/-! ### Exact models of the sub-kernels of `potrf_rl` -/

/-- Rows `0, ..., p-1` of the Cholesky factor of the Hermitian matrix with
upper triangle `M`, computed row by row over the rationals; the first
component is the index of the first pivot that is not the square of a
positive rational, if there is one among the first `p`. -/
def chol_rows (M : Nat → Nat → ℚ) : Nat → Option Nat × (Nat → Nat → ℚ)
  | 0 => (none, fun _ _ => 0)
  | p + 1 =>
    match (chol_rows M p).1 with
    | some q => (some q, (chol_rows M p).2)
    | none =>
      let F := (chol_rows M p).2
      let d := M p p - ∑ t in Finset.range p, F t p * F t p
      if 0 < d ∧ Rat.sqrt d * Rat.sqrt d = d then
        (none, fun r c =>
          if r = p then
            (if c = p then Rat.sqrt d
              else (M p c - ∑ t in Finset.range p, F t p * F t c) / Rat.sqrt d)
          else F r c)
      else (some p, F)

/-- Modelled from the spec: the unblocked Cholesky factorization `potf2`
(`potf2.hpp` is not among the sources), over the rationals: the factor is
computed row by row from the triangle `uplo`; when a pivot is not the square
of a positive rational the code is its index plus one and the rows computed so
far stay in the triangle; on success the code is 0 and the triangle holds the
factor.  The other triangle is neither read nor written. -/
def potf2_exact : Potf2Fn ℚ := fun uplo A =>
  let res := chol_rows (triView uplo A.e) A.m
  let rows := match res.1 with
    | some q => q
    | none => A.m
  let A1 : Mat ℚ := ⟨A.m, A.n, fun r c =>
    if uplo = Uplo.Lower then
      (if c ≤ r ∧ r < A.m ∧ c < rows then res.2 c r else A.e r c)
    else
      (if r ≤ c ∧ c < A.m ∧ r < rows then res.2 r c else A.e r c)⟩
  match res.1 with
  | some q => ((q : Int) + 1, A1)
  | none => (0, A1)

/-- Forward substitution: the first `p` unknowns of the lower triangular
system `sum_{t <= r} l r t * x t = rhs r`. -/
def fwd_rows {K : Type} [Field K] (l : Nat → Nat → K) (rhs : Nat → K) : Nat → Nat → K
  | 0 => fun _ => 0
  | p + 1 => fun r =>
    if r = p then
      (rhs p - ∑ t in Finset.range p, l p t * fwd_rows l rhs p t) / l p p
    else fwd_rows l rhs p r

/-- Modelled from the spec: the triangular solve `trsm` (`trsm.hpp` is not
among the sources) in exact arithmetic, `op(T) * X = alpha * B` on the left
and `X * op(T) = alpha * B` on the right, by substitution.  When `op(T)` is
lower triangular on the left or upper triangular on the right the
substitution runs forward; in the other cases it runs backward, which is
forward substitution on the reversed indices. -/
def trsm_exact {K : Type} [Field K] [StarRing K] : TrsmFn K :=
  fun side uplo trans diag alpha A B =>
    let T := opEntry trans (triEntry uplo diag A)
    let fwd : Bool := match side with
      | Side.Left => decide ((uplo = Uplo.Lower) = (trans = Op.NoTrans))
      | Side.Right => decide ((uplo = Uplo.Upper) = (trans = Op.NoTrans))
    match side with
    | Side.Left =>
      ⟨B.m, B.n, fun r c =>
        if fwd then fwd_rows (fun i t => T i t) (fun i => alpha * B.e i c) B.m r
        else fwd_rows (fun i t => T (B.m - 1 - i) (B.m - 1 - t))
          (fun i => alpha * B.e (B.m - 1 - i) c) B.m (B.m - 1 - r)⟩
    | Side.Right =>
      ⟨B.m, B.n, fun r c =>
        if fwd then fwd_rows (fun i t => T t i) (fun i => alpha * B.e r i) B.n c
        else fwd_rows (fun i t => T (B.n - 1 - t) (B.n - 1 - i))
          (fun i => alpha * B.e r (B.n - 1 - i)) B.n (B.n - 1 - c)⟩

/-- Modelled from the spec: the Hermitian rank-k update `herk` (`herk.hpp` is
not among the sources) in exact arithmetic: on the triangle `uplo`,
`C := alpha * B * B^H + beta * C` for `NoTrans` and
`C := alpha * B^H * B + beta * C` otherwise; the other triangle is left as it
is. -/
def herk_exact {K : Type} [CommRing K] [StarRing K] : HerkFn K :=
  fun uplo trans alpha B beta C =>
    ⟨C.m, C.n, fun r c =>
      if (uplo = Uplo.Lower ∧ c ≤ r) ∨ (uplo ≠ Uplo.Lower ∧ r ≤ c) then
        (match trans with
          | Op.NoTrans => alpha * (∑ t in Finset.range B.n, B.e r t * star (B.e c t))
          | _ => alpha * (∑ t in Finset.range B.m, star (B.e t r) * B.e t c))
          + beta * C.e r c
      else C.e r c⟩

/-- The positive rationals. -/
def ratPos (u : ℚ) : Prop := 0 < u

/-- The symmetric positive definite rational matrix with rows `(4, 2)`, `(2, 5)`. -/
def exampleSPD : Mat ℚ := Mat.ofRows 2 2 [[4, 2], [2, 5]]

/-! ### The triangle that `potrf_rl` works on -/

/-- The position `(r, c)` lies in the triangle `uplo`, diagonal included. -/
def inTri (uplo : Uplo) (r c : Nat) : Prop :=
  (uplo = Uplo.Lower ∧ c ≤ r) ∨ (uplo = Uplo.Upper ∧ r ≤ c)

/-- Two `n`-by-`n` matrices agree on the triangle `uplo`. -/
def TriAgree {K : Type} (uplo : Uplo) (n : Nat) (e f : Nat → Nat → K) : Prop :=
  ∀ r c, r < n → c < n → inTri uplo r c → e r c = f r c

/-- `potf2` respects the triangle it is given: its code and the triangle on
exit depend on the triangle on entry only, and the rest of the matrix is left
as it is. -/
def Potf2Respects {K : Type} (potf2 : Potf2Fn K) : Prop :=
  ∀ (uplo : Uplo) (M N : Mat K), (uplo = Uplo.Upper ∨ uplo = Uplo.Lower) →
    M.m = N.m → M.n = N.n → M.m = M.n → TriAgree uplo M.m M.e N.e →
    (potf2 uplo M).1 = (potf2 uplo N).1
    ∧ TriAgree uplo M.m (potf2 uplo M).2.e (potf2 uplo N).2.e
    ∧ (∀ r c, r < M.m → c < M.m → ¬ inTri uplo r c → (potf2 uplo M).2.e r c = M.e r c)

/-- `trsm` respects the triangle of its triangular operand, for the two forms
that `potrf_rl` calls: the result depends on that triangle and on `B` only. -/
def TrsmRespects {K : Type} (trsm : TrsmFn K) : Prop :=
  ∀ (alpha : K) (T T1 B B1 : Mat K), B.m = B1.m → B.n = B1.n →
    (∀ r c, r < B.m → c < B.n → B.e r c = B1.e r c) →
    (TriAgree Uplo.Upper B.m T.e T1.e →
      ∀ r c, r < B.m → c < B.n →
        (trsm Side.Left Uplo.Upper Op.ConjTrans Diag.NonUnit alpha T B).e r c
          = (trsm Side.Left Uplo.Upper Op.ConjTrans Diag.NonUnit alpha T1 B1).e r c)
    ∧ (TriAgree Uplo.Lower B.n T.e T1.e →
      ∀ r c, r < B.m → c < B.n →
        (trsm Side.Right Uplo.Lower Op.ConjTrans Diag.NonUnit alpha T B).e r c
          = (trsm Side.Right Uplo.Lower Op.ConjTrans Diag.NonUnit alpha T1 B1).e r c)

/-- `herk` respects the triangle of `C` it is given, for the two forms that
`potrf_rl` calls (with `B` conforming to `C`): the triangle on exit depends on
that triangle and on `B` only, and the rest of `C` is left as it is. -/
def HerkRespects {K : Type} (herk : HerkFn K) : Prop :=
  ∀ (alpha beta : K) (B B1 C C1 : Mat K), B.m = B1.m → B.n = B1.n → C.m = C1.m →
    (∀ r c, r < B.m → c < B.n → B.e r c = B1.e r c) →
    (B.n = C.m → TriAgree Uplo.Upper C.m C.e C1.e →
      TriAgree Uplo.Upper C.m (herk Uplo.Upper Op.ConjTrans alpha B beta C).e
        (herk Uplo.Upper Op.ConjTrans alpha B1 beta C1).e)
    ∧ (B.m = C.m → TriAgree Uplo.Lower C.m C.e C1.e →
      TriAgree Uplo.Lower C.m (herk Uplo.Lower Op.NoTrans alpha B beta C).e
        (herk Uplo.Lower Op.NoTrans alpha B1 beta C1).e)
    ∧ (∀ r c, r < C.m → c < C.m → ¬ inTri Uplo.Upper r c →
      (herk Uplo.Upper Op.ConjTrans alpha B beta C).e r c = C.e r c)
    ∧ (∀ r c, r < C.m → c < C.m → ¬ inTri Uplo.Lower r c →
      (herk Uplo.Lower Op.NoTrans alpha B beta C).e r c = C.e r c)

/-- The rational matrix with rows `(4, 2)`, `(7, 5)`: the upper triangle of
`exampleSPD` over another strictly lower part. -/
def exampleSPDUpper : Mat ℚ := Mat.ofRows 2 2 [[4, 2], [7, 5]]

/-! ## Applying the RQ factor (`unmrq.hpp`) -/

/-- Type of `unmq(side, trans, direction, storeMode, V, tau, C, UnmqOpts{nb})`:
from the arguments to the returned integer and `C` on exit. -/
abbrev UnmqFn (K : Type) :=
  Side → Op → Direction → StoreV → Mat K → Vec K → Mat K → Nat → MatOutcome K

/-- The kernel `unmrq(side, trans, A, tau, C, opts)`. -/
def unmrq {K : Type} (unmq : UnmqFn K) (side : Side) (trans : Op) (A : Mat K) (tau : Vec K)
    (C : Mat K) (opts : UnmrqOpts) : MatOutcome K :=
  unmq side trans Direction.Backward StoreV.Rowwise A tau C opts.nb

/-- Modelled from the spec: the vector of the `i`-th of `k` reflectors of order
`nQ` held in `V` (`unmq.hpp` is not among the sources): stored in column `i`
(column-wise) or row `i` (row-wise) of `V`; for `Forward` the unit entry is at
position `i` with zeros before it, for `Backward` it is at position
`nQ - k + i` with zeros after it. -/
def unmq_v {K : Type} [Zero K] [One K] (direction : Direction) (storeMode : StoreV)
    (nQ k : Nat) (V : Mat K) (i : Nat) : Nat → K :=
  fun c =>
    match direction with
    | Direction.Forward =>
      if c < i then 0 else if c = i then 1
      else (match storeMode with
        | StoreV.Columnwise => V.e c i
        | StoreV.Rowwise => V.e i c)
    | Direction.Backward =>
      if c < nQ - k + i then
        (match storeMode with
          | StoreV.Columnwise => V.e c i
          | StoreV.Rowwise => V.e i c)
      else if c = nQ - k + i then 1 else 0

/-- Modelled from the spec: the `i`-th elementary reflector that `unmq` works
with, `H_i = I - tau[i] * v * vᴴ` for a column `v` and `I - tau[i] * vᴴ * v`
for a row `v`. -/
def unmq_H {K : Type} [CommRing K] [StarRing K] (direction : Direction) (storeMode : StoreV)
    (nQ k : Nat) (V : Mat K) (tau : Vec K) (i : Nat) : Matrix (Fin nQ) (Fin nQ) K :=
  reflector storeMode nQ (tau.e i) (unmq_v direction storeMode nQ k V i)

/-- Modelled from the spec: the block operator of the panel of `ib` reflectors
that starts at reflector `i`, the operator `I - V T Vᴴ` that the compact-WY
builder `larft` encodes: `H_i H_{i+1} ... H_{i+ib-1}` for `Forward`,
`H_{i+ib-1} ... H_{i+1} H_i` for `Backward`. -/
def unmq_block {K : Type} [CommRing K] [StarRing K] (direction : Direction)
    (storeMode : StoreV) (nQ k : Nat) (V : Mat K) (tau : Vec K) (i : Nat) :
    Nat → Matrix (Fin nQ) (Fin nQ) K
  | 0 => 1
  | ib + 1 =>
    match direction with
    | Direction.Forward =>
      unmq_block direction storeMode nQ k V tau i ib
        * unmq_H direction storeMode nQ k V tau (i + ib)
    | Direction.Backward =>
      unmq_H direction storeMode nQ k V tau (i + ib)
        * unmq_block direction storeMode nQ k V tau i ib

/-- Modelled from the spec: the blocked update `larfb` (`larfb.hpp` is not
among the sources) by a block operator `H` of order `nQ`: `C := H C` or
`C := Hᴴ C` on the left, `C := C H` or `C := C Hᴴ` on the right, `H` itself
for `NoTrans`. -/
def larfb_apply {K : Type} [CommRing K] [StarRing K] (side : Side) (trans : Op) (nQ : Nat)
    (H : Matrix (Fin nQ) (Fin nQ) K) (C : Mat K) : Mat K :=
  let P : Matrix (Fin nQ) (Fin nQ) K := match trans with
    | Op.NoTrans => H
    | _ => H.conjTranspose
  match side with
  | Side.Left =>
    ⟨C.m, C.n, fun r c =>
      if h : r < nQ then ∑ a : Fin nQ, P ⟨r, h⟩ a * C.e a.val c else C.e r c⟩
  | Side.Right =>
    ⟨C.m, C.n, fun r c =>
      if h : c < nQ then ∑ a : Fin nQ, C.e r a.val * P a ⟨c, h⟩ else C.e r c⟩

/-- Modelled from the spec: the first reflectors `0, nb, 2 nb, ...` of the
panels of `unmq`, in the order in which the loop visits them. -/
def unmq_panels (positiveInc : Bool) (k nb : Nat) : List Nat :=
  let starts := (List.range ((k - 1) / nb + 1)).map (fun p => p * nb)
  if positiveInc then starts else starts.reverse

/-- Modelled from the spec: the blocked applier `unmq` (`unmq.hpp` is not
among the sources).  With `k = size(tau)` reflectors of order `nQ` (the number
of rows of `C` on the left, of columns on the right) and panels of
`nb = min(opts.nb, k)` reflectors, each panel is applied through its block
operator, panels being visited in increasing or decreasing order so that the
reflectors act in the order that `op(Q)` requires; for row-wise storage the
stored reflectors are those of `Qᴴ`, so the block operator is applied with the
opposite operation (as the workspace query of `unmrq` does).  `Trans` is
treated as `ConjTrans`.  Quick return when `C` or `tau` is empty. -/
def unmq_model {K : Type} [CommRing K] [StarRing K] : UnmqFn K :=
  fun side trans direction storeMode V tau C nb0 =>
    let m := C.m
    let n := C.n
    let k := tau.len
    let nQ := if side = Side.Left then m else n
    let nb := min nb0 k
    if m ≤ 0 ∨ n ≤ 0 ∨ k ≤ 0 then MatOutcome.returned 0 C
    else
      let positiveIncLeft : Bool := match storeMode with
        | StoreV.Columnwise =>
          (match direction with
            | Direction.Backward => decide (trans = Op.NoTrans)
            | Direction.Forward => decide (trans ≠ Op.NoTrans))
        | StoreV.Rowwise =>
          (match direction with
            | Direction.Forward => decide (trans = Op.NoTrans)
            | Direction.Backward => decide (trans ≠ Op.NoTrans))
      let positiveInc : Bool := if side = Side.Left then positiveIncLeft else !positiveIncLeft
      let transB : Op := match storeMode with
        | StoreV.Columnwise => trans
        | StoreV.Rowwise => if trans = Op.NoTrans then Op.ConjTrans else Op.NoTrans
      MatOutcome.returned 0
        ((unmq_panels positiveInc k nb).foldl
          (fun Ci i => larfb_apply side transB nQ
            (unmq_block direction storeMode nQ k V tau i (min nb (k - i))) Ci) C)

/-- The output of `gerq2` on the rational matrix with rows `(1, 2)`, `(4, 3)`. -/
def exampleRQ : Mat ℚ := Mat.ofRows 2 2 [[-1, -2], [1 / 2, -5]]

/-- The scalars `tau` of `gerq2` on the rational matrix with rows `(1, 2)`, `(4, 3)`. -/
def exampleTauRQ : Vec ℚ := Vec.ofList [0, 8 / 5]

/-! ## Inverse from the LU factors (`getri.hpp`) -/

/-- Variants of the algorithm that computes the inverse. -/
inductive GetriVariant
  | UILI
  | UXLI
  deriving DecidableEq

/-- Options of `getri`; the member initializer selects `UILI`. -/
structure GetriOpts where
  variant : GetriVariant := GetriVariant.UILI

/-- Type of an inversion variant (`getri_uili(A)`, `getri_uxli(A)`; their
headers are not among the translated sources): from `A` on entry to the
outcome of the call. -/
abbrev GetriVariantFn (K : Type) := Mat K → MatOutcome K

/-- Type of `getri_uxli_work(A, work)`. -/
abbrev GetriVariantWorkFn (K W : Type) := Mat K → W → MatOutcome K

/-- Outcome of a `getri` call: a failed argument check, an access outside a
vector or matrix, or a returned integer; each carries `A` as it is at that
point. -/
inductive GetriOutcome (K : Type)
  | checkFailed (A : Mat K)
  | outOfRange (A : Mat K)
  | returned (info : Int) (A : Mat K)

/-- The view `col(A, j)`. -/
def Mat.col {K : Type} (A : Mat K) (j : Nat) : Vec K :=
  ⟨A.m, fun i => A.e i j⟩

/-- Effect on the parent of overwriting the view `col(A, j)` with the entries
of `v`. -/
def Mat.setCol {K : Type} (A : Mat K) (j : Nat) (v : Vec K) : Mat K :=
  ⟨A.m, A.n, fun r c => if c = j ∧ r < A.m then v.e r else A.e r c⟩

/-- The column-swap loop of `getri`, for the values `j` in the order given:
`if (piv[j] != j) swap(col(A, j), col(A, piv[j]))`. -/
def getri_swap_cols {K : Type} (piv : Vec Nat) : List Nat → Mat K → GetriOutcome K
  | [], A => GetriOutcome.returned 0 A
  | j :: js, A =>
    match piv.get? j with
    | none => GetriOutcome.outOfRange A
    | some p =>
      if p ≠ j then
        if A.n ≤ j ∨ A.n ≤ p then GetriOutcome.outOfRange A
        else
          match swap (A.col j) (A.col p) with
          | SwapOutcome.checkFailed _ _ => GetriOutcome.checkFailed A
          | SwapOutcome.returned vect1 vect2 =>
            getri_swap_cols piv js ((A.setCol j vect1).setCol p vect2)
      else getri_swap_cols piv js A

/-- The kernel `getri_work(A, piv, work, opts)`: the selected variant, the
early return on a nonzero code, then the column swaps for
`j = n-1, ..., 0`. -/
def getri_work {K W : Type} (getri_uili : GetriVariantFn K)
    (getri_uxli_work : GetriVariantWorkFn K W)
    (A : Mat K) (piv : Vec Nat) (work : W) (opts : GetriOpts) : GetriOutcome K :=
  let n := A.n
  -- Call variant
  match (if opts.variant = GetriVariant.UXLI then getri_uxli_work A work
         else getri_uili A) with
  | MatOutcome.checkFailed A1 => GetriOutcome.checkFailed A1
  | MatOutcome.returned info A1 =>
    -- Return is matrix is not invertible
    if info ≠ 0 then GetriOutcome.returned info A1
    else getri_swap_cols piv (List.range n).reverse A1

/-- The kernel `getri(A, piv, opts)`. -/
def getri {K : Type} (getri_uili : GetriVariantFn K) (getri_uxli : GetriVariantFn K)
    (A : Mat K) (piv : Vec Nat) (opts : GetriOpts) : GetriOutcome K :=
  let n := A.n
  -- Call variant
  match (if opts.variant = GetriVariant.UXLI then getri_uxli A else getri_uili A) with
  | MatOutcome.checkFailed A1 => GetriOutcome.checkFailed A1
  | MatOutcome.returned info A1 =>
    -- Return is matrix is not invertible
    if info ≠ 0 then GetriOutcome.returned info A1
    else getri_swap_cols piv (List.range n).reverse A1

/-- Effect on a matrix of the row interchange `i <-> p`. -/
def rowInterchange {K : Type} (i p : Nat) (e : Nat → Nat → K) : Nat → Nat → K :=
  fun r c => e (if r = i then p else if r = p then i else r) c

/-- Entries of the matrix obtained from the identity by the row interchanges
`i <-> piv[i]` for `i = 0, 1, ..., k-1`, in that order. -/
def getri_P_entries {K : Type} [Zero K] [One K] (piv : Nat → Nat) : Nat → Nat → Nat → K
  | 0 => fun r c => if r = c then 1 else 0
  | k + 1 => rowInterchange k (piv k) (getri_P_entries piv k)

/-- The permutation matrix `P` of `P A = L U` encoded by the pivot vector. -/
def getri_P {K : Type} [Zero K] [One K] (n : Nat) (piv : Nat → Nat) :
    Matrix (Fin n) (Fin n) K :=
  matOf n n (getri_P_entries piv n)

/-- A variant that returns 0 and leaves its argument as it is (used to
exercise the column swaps on a given `X`). -/
def variant_keep {K : Type} : GetriVariantFn K := fun A => MatOutcome.returned 0 A

/-- A variant that reports a singular matrix with code 2. -/
def variant_singular {K : Type} : GetriVariantFn K := fun A => MatOutcome.returned 2 A

/-- The pivot vector `(1, 2, 2)`. -/
def examplePiv : Vec Nat := ⟨3, fun i => if i = 0 then 1 else 2⟩

/-- A 3-by-3 integer matrix with distinct entries. -/
def exampleX : Mat ℤ := Mat.ofRows 3 3 [[1, 2, 3], [4, 5, 6], [7, 8, 9]]

/-- Index map of the interchange `j <-> p`. -/
def swapIdx (j p c : Nat) : Nat :=
  if c = j then p else if c = p then j else c

/-- Column of the input that ends up in column `c` after the column swaps for
`j = k-1, ..., 0`. -/
def getri_sigma (piv : Nat → Nat) : Nat → Nat → Nat
  | 0, c => c
  | k + 1, c => swapIdx k (piv k) (getri_sigma piv k c)

/-! ## Norms of symmetric and triangular matrices (`lansy.hpp`, `lantr.hpp`) -/

/-- Norm selected by `normType`. -/
inductive Norm
  | One
  | Two
  | Inf
  | Fro
  | Max
  deriving DecidableEq

/-- Outcome of a norm routine: a failed argument check, or a returned value. -/
inductive NormOutcome (R : Type)
  | checkFailed
  | returned (value : R)

/-- Type of `lassq(x, scale, sumsq)` (its header is not among the translated
sources): from the vector and the two scalars on entry to the two scalars on
exit. -/
abbrev LassqFn (K : Type) := Vec K → K → K → K × K

/-- The view `slice(A, range(r0, r1), j)`: part of column `j`. -/
def Mat.sliceCol {K : Type} (A : Mat K) (r0 r1 j : Nat) : Vec K :=
  ⟨r1 - r0, fun i => A.e (r0 + i) j⟩

/-- The view `diag(A, 0)`. -/
def Mat.diag {K : Type} (A : Mat K) : Vec K :=
  ⟨min A.m A.n, fun i => A.e i i⟩

/-- The update of the running maximum,
`if (temp > norm) norm = temp; else if (isnan(temp)) return temp;`.
The state is `ok norm` while the scan runs and `error v` once `v` has been
returned from inside the loops. -/
def norm_update {K : Type} [LinearOrder K] (isnan : K → Bool) (st : Except K K) (temp : K) :
    Except K K :=
  match st with
  | Except.error v => Except.error v
  | Except.ok norm =>
    if temp > norm then Except.ok temp
    else if isnan temp then Except.error temp
    else Except.ok norm

/-- Value that a scan returns, from inside the loops or at the final
`return norm`. -/
def norm_result {K : Type} (st : Except K K) : NormOutcome K :=
  match st with
  | Except.error v => NormOutcome.returned v
  | Except.ok norm => NormOutcome.returned norm

/-- The routine `lansy(normType, uplo, A)` over an ordered field `K`; the test
`isnan`, `lassq` and `sqrt` are parameters. -/
def lansy {K : Type} [LinearOrderedField K] (isnan : K → Bool) (lassq : LassqFn K)
    (sqrt : K → K) (normType : Norm) (uplo : Uplo) (A : Mat K) : NormOutcome K :=
  let n := A.m
  -- check arguments
  if normType ≠ Norm.Fro ∧ normType ≠ Norm.Inf ∧ normType ≠ Norm.Max ∧ normType ≠ Norm.One then
    NormOutcome.checkFailed
  else if uplo ≠ Uplo.Lower ∧ uplo ≠ Uplo.Upper then NormOutcome.checkFailed
  -- quick return
  else if n ≤ 0 then NormOutcome.returned 0
  else if normType = Norm.Max then
    if uplo = Uplo.Upper then
      norm_result ((List.range n).foldl (fun st j =>
        (List.range (j + 1)).foldl (fun st i => norm_update isnan st |A.e i j|) st)
        (Except.ok 0))
    else
      norm_result ((List.range n).foldl (fun st j =>
        (List.range' j (n - j)).foldl (fun st i => norm_update isnan st |A.e i j|) st)
        (Except.ok 0))
  else if normType = Norm.One ∨ normType = Norm.Inf then
    if uplo = Uplo.Upper then
      norm_result ((List.range n).foldl (fun st j =>
        let temp := (List.range (j + 1)).foldl (fun t i => t + |A.e i j|) 0
        let temp := (List.range' (j + 1) (n - (j + 1))).foldl (fun t i => t + |A.e j i|) temp
        norm_update isnan st temp) (Except.ok 0))
    else
      norm_result ((List.range n).foldl (fun st j =>
        let temp := (List.range (j + 1)).foldl (fun t i => t + |A.e j i|) 0
        let temp := (List.range' (j + 1) (n - (j + 1))).foldl (fun t i => t + |A.e i j|) temp
        norm_update isnan st temp) (Except.ok 0))
  else
    -- Scaled ssq; sum off-diagonals
    let off : K × K :=
      if uplo = Uplo.Upper then
        (List.range' 1 (n - 1)).foldl (fun p j => lassq (A.sliceCol 0 j j) p.1 p.2) (0, 1)
      else
        (List.range (n - 1)).foldl (fun p j => lassq (A.sliceCol (j + 1) n j) p.1 p.2) (0, 1)
    -- Sum diagonal
    let all := lassq A.diag off.1 (off.2 * 2)
    -- Compute the scaled square root
    NormOutcome.returned (all.1 * sqrt all.2)

/-- The routine `lantr(normType, uplo, diag, A)` over an ordered field `K`;
the test `isnan`, `lassq` and `sqrt` are parameters. -/
def lantr {K : Type} [LinearOrderedField K] (isnan : K → Bool) (lassq : LassqFn K)
    (sqrt : K → K) (normType : Norm) (uplo : Uplo) (diag : Diag) (A : Mat K) : NormOutcome K :=
  let m := A.m
  let n := A.n
  -- check arguments
  if normType ≠ Norm.Fro ∧ normType ≠ Norm.Inf ∧ normType ≠ Norm.Max ∧ normType ≠ Norm.One then
    NormOutcome.checkFailed
  else if uplo ≠ Uplo.Lower ∧ uplo ≠ Uplo.Upper then NormOutcome.checkFailed
  else if diag ≠ Diag.NonUnit ∧ diag ≠ Diag.Unit then NormOutcome.checkFailed
  -- quick return
  else if m = 0 ∨ n = 0 then NormOutcome.returned 0
  else if normType = Norm.Max then
    if diag = Diag.NonUnit then
      if uplo = Uplo.Upper then
        norm_result ((List.range n).foldl (fun st j =>
          (List.range (min j (m - 1) + 1)).foldl
            (fun st i => norm_update isnan st |A.e i j|) st) (Except.ok 0))
      else
        norm_result ((List.range n).foldl (fun st j =>
          (List.range' j (m - j)).foldl
            (fun st i => norm_update isnan st |A.e i j|) st) (Except.ok 0))
    else
      if uplo = Uplo.Upper then
        norm_result ((List.range n).foldl (fun st j =>
          (List.range (min j m)).foldl
            (fun st i => norm_update isnan st |A.e i j|) st) (Except.ok 1))
      else
        norm_result ((List.range n).foldl (fun st j =>
          (List.range' (j + 1) (m - (j + 1))).foldl
            (fun st i => norm_update isnan st |A.e i j|) st) (Except.ok 1))
  else if normType = Norm.Inf then
    if uplo = Uplo.Upper then
      norm_result ((List.range m).foldl (fun st i =>
        let sum :=
          if diag = Diag.NonUnit then
            (List.range' i (n - i)).foldl (fun t j => t + |A.e i j|) 0
          else
            (List.range' (i + 1) (n - (i + 1))).foldl (fun t j => t + |A.e i j|) 1
        norm_update isnan st sum) (Except.ok 0))
    else
      norm_result ((List.range m).foldl (fun st i =>
        let sum :=
          if diag = Diag.NonUnit ∨ n ≤ i then
            (List.range (min i (n - 1) + 1)).foldl (fun t j => t + |A.e i j|) 0
          else
            (List.range i).foldl (fun t j => t + |A.e i j|) 1
        norm_update isnan st sum) (Except.ok 0))
  else if normType = Norm.One then
    if uplo = Uplo.Upper then
      norm_result ((List.range n).foldl (fun st j =>
        let sum :=
          if diag = Diag.NonUnit ∨ m ≤ j then
            (List.range (min j (m - 1) + 1)).foldl (fun t i => t + |A.e i j|) 0
          else
            (List.range j).foldl (fun t i => t + |A.e i j|) 1
        norm_update isnan st sum) (Except.ok 0))
    else
      norm_result ((List.range n).foldl (fun st j =>
        let sum :=
          if diag = Diag.NonUnit then
            (List.range' j (m - j)).foldl (fun t i => t + |A.e i j|) 0
          else
            (List.range' (j + 1) (m - (j + 1))).foldl (fun t i => t + |A.e i j|) 1
        norm_update isnan st sum) (Except.ok 0))
  else
    let fro : K × K :=
      if uplo = Uplo.Upper then
        if diag = Diag.NonUnit then
          (List.range n).foldl
            (fun p j => lassq (A.sliceCol 0 (min (j + 1) m) j) p.1 p.2) (1, 0)
        else
          (List.range' 1 (n - 1)).foldl
            (fun p j => lassq (A.sliceCol 0 (min j m) j) p.1 p.2) (1, ((min m n : Nat) : K))
      else
        if diag = Diag.NonUnit then
          (List.range (min m n)).foldl
            (fun p j => lassq (A.sliceCol j m j) p.1 p.2) (1, 0)
        else
          (List.range (min (m - 1) n)).foldl
            (fun p j => lassq (A.sliceCol (j + 1) m j) p.1 p.2) (1, ((min m n : Nat) : K))
    NormOutcome.returned (fro.1 * sqrt fro.2)

/-- Entry `(i, j)` of the symmetric matrix whose `uplo` triangle is that of a
matrix with entries `e`. -/
def lansy_S {K : Type} (uplo : Uplo) (e : Nat → Nat → K) (i j : Nat) : K :=
  if (uplo = Uplo.Lower ∧ j ≤ i) ∨ (uplo = Uplo.Upper ∧ i ≤ j) then e i j else e j i

/-- A 2-by-3 rational matrix. -/
def exampleTrap : Mat ℚ := Mat.ofRows 2 3 [[1, -7, 2], [9, -3, 4]]

/-! ## Reduction to generalized Hessenberg form (`gghrd.hpp`) -/

/-- Type of `rotg(a, b, c, s)` (its header is not among the translated
sources): from `a`, `b` on entry to `a`, `b`, `c`, `s` on exit. -/
abbrev RotgFn (K : Type) := K → K → K × K × K × K

/-- Type of `rot(x, y, c, s)`: from the two vectors on entry to the two
vectors on exit. -/
abbrev RotFn (K : Type) := Vec K → Vec K → K → K → Vec K × Vec K

/-- One invocation of a rotation kernel made by `gghrd`, with its arguments
on entry and its results. -/
inductive RotCall (K : Type)
  | rotg (a b a1 b1 c s : K)
  | rot (x y : Vec K) (c s : K) (x1 y1 : Vec K)

/-- Memory that `gghrd` works on, and the rotation kernels invoked so far. -/
structure GghrdState (K : Type) where
  A : Mat K
  B : Mat K
  Q : Mat K
  Z : Mat K
  log : List (RotCall K)

/-- How a `gghrd` call ends: a failed argument check, or a returned integer;
both carry the memory as it is at that point. -/
inductive GghrdOutcome (K : Type)
  | checkFailed (s : GghrdState K)
  | returned (info : Int) (s : GghrdState K)

/-- Assignment `A(i, j) = x`. -/
def Mat.set {K : Type} (A : Mat K) (i j : Nat) (x : K) : Mat K :=
  ⟨A.m, A.n, fun r c => if r = i ∧ c = j then x else A.e r c⟩

/-- Effect on the parent of overwriting the view `slice(A, range(r0, r1), j)`
with the entries of `v`. -/
def Mat.setColSlice {K : Type} (A : Mat K) (r0 r1 j : Nat) (v : Vec K) : Mat K :=
  ⟨A.m, A.n, fun r c => if c = j ∧ r0 ≤ r ∧ r < r1 then v.e (r - r0) else A.e r c⟩

/-- The loops `for j < n, for i = j+1, ..., n-1: B(i, j) = 0`. -/
def gghrd_zero_lower {K : Type} [Zero K] (n : Nat) (B : Mat K) : Mat K :=
  (List.range n).foldl (fun B j =>
    (List.range' (j + 1) (n - (j + 1))).foldl (fun B i => B.set i j 0) B) B

/-- First half of the body of the inner loop of `gghrd`, for the column `j`
and the row `i`: "Rotate rows i-1 and i to eliminate A(i,j)". -/
def gghrd_rotate_rows {K : Type} [Zero K] [Star K] (rotg : RotgFn K) (rot : RotFn K)
    (wantq : Bool) (n j : Nat) (st : GghrdState K) (i : Nat) : GghrdState K :=
  -- rotg(A(i - 1, j), A(i, j), c, s)
  let g := rotg (st.A.e (i - 1) j) (st.A.e i j)
  let c := g.2.2.1
  let s := g.2.2.2
  -- A(i, j) = 0
  let A1 := ((st.A.set (i - 1) j g.1).set i j g.2.1).set i j 0
  let ra := rot (A1.sliceRow (i - 1) (j + 1) n) (A1.sliceRow i (j + 1) n) c s
  let A2 := (A1.setRowSlice (i - 1) (j + 1) n ra.1).setRowSlice i (j + 1) n ra.2
  let rb := rot (st.B.sliceRow (i - 1) (i - 1) n) (st.B.sliceRow i (i - 1) n) c s
  let B1 := (st.B.setRowSlice (i - 1) (i - 1) n rb.1).setRowSlice i (i - 1) n rb.2
  let rq := rot (st.Q.sliceCol 0 n (i - 1)) (st.Q.sliceCol 0 n i) c (star s)
  let Q1 := if wantq then (st.Q.setColSlice 0 n (i - 1) rq.1).setColSlice 0 n i rq.2 else st.Q
  ⟨A2, B1, Q1, st.Z,
    st.log
      ++ [RotCall.rotg (st.A.e (i - 1) j) (st.A.e i j) g.1 g.2.1 c s,
          RotCall.rot (A1.sliceRow (i - 1) (j + 1) n) (A1.sliceRow i (j + 1) n) c s ra.1 ra.2,
          RotCall.rot (st.B.sliceRow (i - 1) (i - 1) n) (st.B.sliceRow i (i - 1) n) c s
            rb.1 rb.2]
      ++ (if wantq then
            [RotCall.rot (st.Q.sliceCol 0 n (i - 1)) (st.Q.sliceCol 0 n i) c (star s)
              rq.1 rq.2]
          else [])⟩

/-- Second half of the body of the inner loop of `gghrd`, for the row `i`:
"The previous step introduced fill-in in B, remove it now". -/
def gghrd_rotate_cols {K : Type} [Zero K] (rotg : RotgFn K) (rot : RotFn K)
    (wantz : Bool) (n ihi : Nat) (st : GghrdState K) (i : Nat) : GghrdState K :=
  -- rotg(B(i, i), B(i, i - 1), c, s)
  let g := rotg (st.B.e i i) (st.B.e i (i - 1))
  let c := g.2.2.1
  let s := g.2.2.2
  -- B(i, i - 1) = 0
  let B2 := ((st.B.set i i g.1).set i (i - 1) g.2.1).set i (i - 1) 0
  let ra := rot (st.A.sliceCol 0 ihi i) (st.A.sliceCol 0 ihi (i - 1)) c s
  let A3 := (st.A.setColSlice 0 ihi i ra.1).setColSlice 0 ihi (i - 1) ra.2
  let rb := rot (B2.sliceCol 0 i i) (B2.sliceCol 0 i (i - 1)) c s
  let B3 := (B2.setColSlice 0 i i rb.1).setColSlice 0 i (i - 1) rb.2
  let rz := rot (st.Z.sliceCol 0 n i) (st.Z.sliceCol 0 n (i - 1)) c s
  let Z1 := if wantz then (st.Z.setColSlice 0 n i rz.1).setColSlice 0 n (i - 1) rz.2 else st.Z
  ⟨A3, B3, st.Q, Z1,
    st.log
      ++ [RotCall.rotg (st.B.e i i) (st.B.e i (i - 1)) g.1 g.2.1 c s,
          RotCall.rot (st.A.sliceCol 0 ihi i) (st.A.sliceCol 0 ihi (i - 1)) c s ra.1 ra.2,
          RotCall.rot (B2.sliceCol 0 i i) (B2.sliceCol 0 i (i - 1)) c s rb.1 rb.2]
      ++ (if wantz then
            [RotCall.rot (st.Z.sliceCol 0 n i) (st.Z.sliceCol 0 n (i - 1)) c s rz.1 rz.2]
          else [])⟩

/-- Body of the inner loop of `gghrd` for the column `j` and the row `i`. -/
def gghrd_step {K : Type} [Zero K] [Star K] (rotg : RotgFn K) (rot : RotFn K)
    (wantq wantz : Bool) (n ihi j : Nat) (st : GghrdState K) (i : Nat) : GghrdState K :=
  gghrd_rotate_cols rotg rot wantz n ihi (gghrd_rotate_rows rotg rot wantq n j st i) i

/-- The inner loop `for (i = ihi - 1; i > j + 1; --i)` of `gghrd`. -/
def gghrd_inner {K : Type} [Zero K] [Star K] (rotg : RotgFn K) (rot : RotFn K)
    (wantq wantz : Bool) (n ihi j : Nat) (st : GghrdState K) : GghrdState K :=
  (List.range' (j + 2) (ihi - (j + 2))).reverse.foldl
    (gghrd_step rotg rot wantq wantz n ihi j) st

/-- The outer loop `for (j = ilo; j + 2 < ihi; ++j)` of `gghrd`. -/
def gghrd_loop {K : Type} [Zero K] [Star K] (rotg : RotgFn K) (rot : RotFn K)
    (wantq wantz : Bool) (n ilo ihi : Nat) (st : GghrdState K) : GghrdState K :=
  (List.range' ilo (ihi - 2 - ilo)).foldl
    (fun st j => gghrd_inner rotg rot wantq wantz n ihi j st) st

/-- The kernel `gghrd(wantq, wantz, ilo, ihi, A, B, Q, Z)`; the indices `ilo`,
`ihi` are integers, so that the check `ilo >= 0` can be stated. -/
def gghrd {K : Type} [Zero K] [Star K] (rotg : RotgFn K) (rot : RotFn K)
    (wantq wantz : Bool) (ilo ihi : Int) (A B Q Z : Mat K) : GghrdOutcome K :=
  let n := A.n
  -- check arguments
  if ¬ (ilo ≥ 0 ∧ ilo < (n : Int)) then GghrdOutcome.checkFailed ⟨A, B, Q, Z, []⟩
  else if ¬ (ihi > ilo ∧ ihi ≤ (n : Int)) then GghrdOutcome.checkFailed ⟨A, B, Q, Z, []⟩
  else if ¬ (n = A.m) then GghrdOutcome.checkFailed ⟨A, B, Q, Z, []⟩
  else if ¬ (n = B.n) then GghrdOutcome.checkFailed ⟨A, B, Q, Z, []⟩
  else if ¬ (n = B.m) then GghrdOutcome.checkFailed ⟨A, B, Q, Z, []⟩
  else if ¬ (n = Q.n) then GghrdOutcome.checkFailed ⟨A, B, Q, Z, []⟩
  else if ¬ (n = Q.m) then GghrdOutcome.checkFailed ⟨A, B, Q, Z, []⟩
  else if ¬ (n = Z.n) then GghrdOutcome.checkFailed ⟨A, B, Q, Z, []⟩
  else if ¬ (n = Z.m) then GghrdOutcome.checkFailed ⟨A, B, Q, Z, []⟩
  -- quick return
  else if n ≤ 1 then GghrdOutcome.returned 0 ⟨A, B, Q, Z, []⟩
  else
    -- Zero out lower triangle of B
    let B0 := gghrd_zero_lower n B
    GghrdOutcome.returned 0
      (gghrd_loop rotg rot wantq wantz n ilo.toNat ihi.toNat ⟨A, B0, Q, Z, []⟩)

/-- The memory and trace that an outcome carries. -/
def GghrdOutcome.state {K : Type} : GghrdOutcome K → GghrdState K
  | GghrdOutcome.checkFailed s => s
  | GghrdOutcome.returned _ s => s

/-- Contract of one invocation of a rotation kernel, in exact arithmetic:
`rotg(a, b, c, s)` gives a real `c` and an `s` with `c^2 + |s|^2 = 1` such that
the rotation `[c s; -conj(s) c]` maps `(a, b)` to `(r, 0)`, and leaves `r` in
`a`; `rot(x, y, c, s)` applies that rotation to each pair `(x[i], y[i])`. -/
def RotCall.Meets {K : Type} [CommRing K] [StarRing K] : RotCall K → Prop
  | RotCall.rotg a b a1 _ c s =>
    star c = c ∧ c * c + s * star s = 1 ∧ a1 = c * a + s * b ∧ c * b - star s * a = 0
  | RotCall.rot x y c s x1 y1 =>
    ∀ i, i < x.len →
      x1.e i = c * x.e i + s * y.e i ∧ y1.e i = c * y.e i - star s * x.e i

/-- Effect on the entries of a matrix of the plane rotation `[c s; -conj(s) c]`
applied to the rows `p`, `q`. -/
def rotRows {K : Type} [CommRing K] [StarRing K] (p q : Nat) (c s : K) (e : Nat → Nat → K) :
    Nat → Nat → K :=
  fun r k =>
    if r = p then c * e p k + s * e q k
    else if r = q then c * e q k - star s * e p k
    else e r k

/-- Effect on the entries of a matrix of the plane rotation `[c s; -conj(s) c]`
applied to the columns `p`, `q`. -/
def rotCols {K : Type} [CommRing K] [StarRing K] (p q : Nat) (c s : K) (e : Nat → Nat → K) :
    Nat → Nat → K :=
  fun r k =>
    if k = p then c * e r p + s * e r q
    else if k = q then c * e r q - star s * e r p
    else e r k

/-- Entries of the upper triangle of a matrix, with zeros below the
diagonal. -/
def triu {K : Type} [Zero K] (e : Nat → Nat → K) : Nat → Nat → K :=
  fun r k => if k < r then 0 else e r k

/-! ### Zero patterns kept by the loops of `gghrd` -/

/-- Columns `ilo .. J-1` of `A` are reduced, and column `J` from row `I` on. -/
def HessZeros {K : Type} [Zero K] (ilo ihi J I : Nat) (A : Mat K) : Prop :=
  ∀ r k, ilo ≤ k → r < ihi → ((k < J ∧ k + 2 ≤ r) ∨ (k = J ∧ I ≤ r ∧ k + 2 ≤ r)) → A.e r k = 0


/-- Every entry strictly below the diagonal, within the first `n` rows, is
zero. -/
def LowerZero {K : Type} [Zero K] (n : Nat) (B : Mat K) : Prop :=
  ∀ r k, k < r → r < n → B.e r k = 0

/-- Invariant of the loops of `gghrd` behind the unitary equivalence: the two
products and the Gram matrices of `Q` and `Z` keep their values, `B` stays upper
triangular, the columns of `A` reduced so far stay reduced, and `A` stays
upper triangular in the columns before `ilo` and the rows from `ihi` on. -/
def EquivInv {K : Type} [CommRing K] [StarRing K] (n ilo ihi J I : Nat)
    (MA MB UQ UZ : Matrix (Fin n) (Fin n) K) (st : GghrdState K) : Prop :=
  matOf n n st.Q.e * matOf n n st.A.e * (matOf n n st.Z.e).conjTranspose = MA
  ∧ matOf n n st.Q.e * matOf n n st.B.e * (matOf n n st.Z.e).conjTranspose = MB
  ∧ matOf n n st.Q.e * (matOf n n st.Q.e).conjTranspose = UQ
  ∧ matOf n n st.Z.e * (matOf n n st.Z.e).conjTranspose = UZ
  ∧ LowerZero n st.B
  ∧ HessZeros ilo ihi J I st.A
  ∧ (∀ r k, r < n → k < r → (k < ilo ∨ ihi ≤ r) → st.A.e r k = 0)

/-! ### Exact instances of the rotation kernels and concrete inputs -/

/-- Modelled from the spec: `rot` in exact arithmetic (`rot.hpp` is not among
the sources): `x[i] := c x[i] + s y[i]`, `y[i] := c y[i] - conj(s) x[i]`. -/
def rot_exact {K : Type} [CommRing K] [StarRing K] : RotFn K := fun x y c s =>
  (⟨x.len, fun i => c * x.e i + s * y.e i⟩, ⟨y.len, fun i => c * y.e i - star s * x.e i⟩)

/-- Modelled from the spec: `rotg` over the integers (`rotg.hpp` is not among
the sources), where the plane rotations are the identity and the quarter
turns: for `b = 0` the identity (`c = 1`, `s = 0`, `r = a`), otherwise the
quarter turn (`c = 0`, `s = 1`, `r = b`), which eliminates `b` exactly when
`a = 0`. -/
def rotg_int : RotgFn ℤ := fun a b =>
  if b = 0 then (a, 0, 1, 0) else (b, 0, 0, 1)

/-- The contract of a rotation call can be decided over the integers. -/
instance RotCall.decMeets : (c : RotCall ℤ) → Decidable c.Meets
  | RotCall.rotg a b a1 _ c s =>
    inferInstanceAs (Decidable
      (star c = c ∧ c * c + s * star s = 1 ∧ a1 = c * a + s * b ∧ c * b - star s * a = 0))
  | RotCall.rot x y c s x1 y1 =>
    inferInstanceAs (Decidable (∀ i, i < x.len →
      x1.e i = c * x.e i + s * y.e i ∧ y1.e i = c * y.e i - star s * x.e i))

/-- A 3-by-3 integer matrix with `A(1,0) = 0`. -/
def exampleHA : Mat ℤ := Mat.ofRows 3 3 [[2, 1, 3], [0, 4, 5], [1, 6, 7]]

/-- A 3-by-3 integer matrix with a nonzero strictly lower triangle. -/
def exampleHB : Mat ℤ := Mat.ofRows 3 3 [[1, 2, 3], [9, 1, 0], [8, 7, 4]]

/-- The 3-by-3 identity. -/
def exampleHI : Mat ℤ := Mat.ofRows 3 3 [[1, 0, 0], [0, 1, 0], [0, 0, 1]]

/-- A 4-by-4 integer matrix with `A(3,1) = 1` below the diagonal in its last
row. -/
def exampleNA : Mat ℤ := Mat.ofRows 4 4 [[1, 0, 0, 0], [0, 1, 0, 0], [1, 0, 1, 0], [0, 1, 0, 1]]

/-- The 4-by-4 identity. -/
def exampleNI : Mat ℤ := Mat.ofRows 4 4 [[1, 0, 0, 0], [0, 1, 0, 0], [0, 0, 1, 0], [0, 0, 0, 1]]

/-! ## Step structure of `gelq2_work` and `gerq2_work` -/

/-- State of `gelq2_work` when the loop test is made for the index `j`: the
loop body has run for `0, 1, ..., j-1`, in that order, from the state on
entry. -/
def gelq2_state {K : Type} (larfg : LarfgFn K) (larf_work : LarfWorkFn K)
    (A : Mat K) (tauw : Vec K) (work : Mat K) (j : Nat) : State K :=
  (List.range j).foldl (fun s j => gelq2_step larfg larf_work A.m A.n (min A.m A.n) j s)
    ⟨A, tauw, work, []⟩

/-- State of `gerq2_work` when the loop test is made for the counter `i2`. -/
def gerq2_state {K : Type} (larfg : LarfgFn K) (larf_work : LarfWorkFn K)
    (A : Mat K) (tau : Vec K) (work : Mat K) (i2 : Nat) : State K :=
  (List.range i2).foldl (fun s i2 => gerq2_step larfg larf_work A.m A.n (min A.m A.n) i2 s)
    ⟨A, tau, work, []⟩

/-- The sub-kernel invocations made by the pass of the loop body of
`gelq2_work` for the index `j`: what that pass adds to the trace. -/
def gelq2_calls {K : Type} (larfg : LarfgFn K) (larf_work : LarfWorkFn K)
    (A : Mat K) (tauw : Vec K) (work : Mat K) (j : Nat) : List (Call K) :=
  (gelq2_state larfg larf_work A tauw work (j + 1)).log.drop
    (gelq2_state larfg larf_work A tauw work j).log.length

/-- The sub-kernel invocations made by the pass of the loop body of
`gerq2_work` for the counter `i2`. -/
def gerq2_calls {K : Type} (larfg : LarfgFn K) (larf_work : LarfWorkFn K)
    (A : Mat K) (tau : Vec K) (work : Mat K) (i2 : Nat) : List (Call K) :=
  (gerq2_state larfg larf_work A tau work (i2 + 1)).log.drop
    (gerq2_state larfg larf_work A tau work i2).log.length

/-- The views handed to a sub-kernel lie inside an `m`-by-`n` matrix and the
`tau` index is below `k`: a row index below `m`, ranges with
`lo <= hi <= dimension`. -/
def Call.InBounds {K : Type} (m n k : Nat) : Call K → Prop
  | Call.larfg _ _ row c0 c1 tauIdx x _ _ =>
    row < m ∧ c0 ≤ c1 ∧ c1 ≤ n ∧ tauIdx < k ∧ x.len = c1 - c0
  | Call.larf_work _ _ _ r0 r1 c0 c1 v _ C _ _ _ =>
    r0 ≤ r1 ∧ r1 ≤ m ∧ c0 ≤ c1 ∧ c1 ≤ n ∧ v.len = c1 - c0 ∧ C.m = r1 - r0 ∧ C.n = c1 - c0

/-- Subtraction `a - b` in an unsigned index type of `w` bits: the difference
modulo `2^w`. -/
def idx_sub (w a b : Nat) : Nat :=
  (a + (2 ^ w - b % 2 ^ w)) % 2 ^ w

/-- The positions of `tau` an invocation writes: `larfg` stores its scalar at
`tauIdx`; `larf_work` only reads its scalar argument. -/
def Call.tauWrites {K : Type} : Call K → List Nat
  | Call.larfg _ _ _ _ _ tauIdx _ _ _ => [tauIdx]
  | Call.larf_work .. => []

/-! # Theorems -/

theorem matOf_mul_reflectorRow {K : Type} [CommRing K] [StarRing K] (m n : Nat) (M : Nat → Nat → K) (tau : K) (v : Nat → K) :
    matOf m n M * reflectorRow n tau v = matOf m n (applyRight n M tau v) := by
  ext i b
  simp only [Matrix.mul_apply, matOf, reflectorRow, applyRight, Matrix.of_apply]
  simp only [mul_sub, Finset.sum_sub_distrib, mul_ite, mul_one, mul_zero]
  rw [Finset.sum_ite_eq' Finset.univ b (fun a => M i.val a.val)]
  simp only [Finset.mem_univ, if_true]
  congr 1
  rw [Finset.mul_sum, Finset.sum_mul,
    ← Fin.sum_univ_eq_sum_range (fun a => tau * (M i.val a * star (v a)) * v b.val) n]
  apply Finset.sum_congr rfl
  intro a _
  ring

/-- Entries of `Hᴴ * H` for a row-wise reflector. -/
theorem reflectorRow_conj_mul_self {K : Type} [CommRing K] [StarRing K] (n : Nat) (tau : K) (v : Nat → K) (a b : Fin n) :
    ((reflectorRow n tau v).conjTranspose * reflectorRow n tau v) a b
      = (if a = b then 1 else 0)
        - (tau + star tau - star tau * tau * normSq n v) * star (v a.val) * v b.val := by
  simp only [Matrix.mul_apply, Matrix.conjTranspose_apply, reflectorRow, Matrix.of_apply,
    normSq]
  have key : ∀ c : Fin n,
      star ((if c = a then (1:K) else 0) - tau * star (v c.val) * v a.val)
        * ((if c = b then (1:K) else 0) - tau * star (v c.val) * v b.val)
      = (if c = a then (if a = b then (1:K) else 0) else 0)
        - (if c = a then tau * star (v a.val) * v b.val else 0)
        - (if c = b then star tau * star (v a.val) * v b.val else 0)
        + star tau * tau * (v c.val * star (v c.val)) * star (v a.val) * v b.val := by
    intro c
    by_cases hca : c = a
    · subst hca
      by_cases hcb : c = b
      · subst hcb
        simp only [if_true, star_sub, star_mul, star_star, star_one]
        ring
      · simp only [if_true, if_neg hcb, star_sub, star_mul, star_star, star_one]
        ring
    · by_cases hcb : c = b
      · subst hcb
        simp only [if_true, if_neg hca, star_sub, star_mul, star_star, star_zero]
        ring
      · simp only [if_neg hca, if_neg hcb, star_sub, star_mul, star_star, star_zero]
        ring
  rw [Finset.sum_congr rfl (fun c _ => key c)]
  rw [Finset.sum_add_distrib, Finset.sum_sub_distrib, Finset.sum_sub_distrib]
  rw [Finset.sum_ite_eq' Finset.univ a (fun _ => if a = b then (1:K) else 0)]
  rw [Finset.sum_ite_eq' Finset.univ a (fun _ => tau * star (v a.val) * v b.val)]
  rw [Finset.sum_ite_eq' Finset.univ b (fun _ => star tau * star (v a.val) * v b.val)]
  simp only [Finset.mem_univ, if_true]
  rw [← Fin.sum_univ_eq_sum_range (fun c => v c * star (v c)) n]
  have hs : ∑ c : Fin n, star tau * tau * (v c.val * star (v c.val)) * star (v a.val) * v b.val
      = star tau * tau * (∑ c : Fin n, v c.val * star (v c.val)) * star (v a.val) * v b.val := by
    rw [Finset.mul_sum, Finset.sum_mul, Finset.sum_mul]
  rw [hs]
  ring

/-- A row-wise reflector with a unit entry is unitary exactly when
`tau + tauᴴ = tauᴴ * tau * ‖v‖²`. -/
theorem reflectorRow_unitary_iff {K : Type} [CommRing K] [StarRing K] (n : Nat) (tau : K) (v : Nat → K) (p : Nat)
    (hp : p < n) (hv : v p = 1) :
    (reflectorRow n tau v).conjTranspose * reflectorRow n tau v = 1
      ↔ tau + star tau - star tau * tau * normSq n v = 0 := by
  constructor
  · intro h
    have := congrFun (congrFun h ⟨p, hp⟩) ⟨p, hp⟩
    rw [reflectorRow_conj_mul_self] at this
    simpa [hv] using this
  · intro h
    ext a b
    rw [reflectorRow_conj_mul_self, h]
    simp [Matrix.one_apply]

theorem sum_range_shift {K : Type} [CommRing K] (n j : Nat) (hj : j ≤ n) (f : Nat → K) (hf : ∀ a, a < j → f a = 0) :
    ∑ a in Finset.range n, f a = ∑ a in Finset.range (n - j), f (j + a) := by
  have hn : n = j + (n - j) := by omega
  conv_lhs => rw [hn]
  rw [Finset.sum_range_add]
  have h0 : ∑ a in Finset.range j, f a = 0 :=
    Finset.sum_eq_zero (fun a ha => hf a (Finset.mem_range.mp ha))
  rw [h0, zero_add]

theorem sum_range_head {K : Type} [CommRing K] (n l : Nat) (hl : l ≤ n) (f : Nat → K) (hf : ∀ a, l ≤ a → f a = 0) :
    ∑ a in Finset.range n, f a = ∑ a in Finset.range l, f a := by
  have hn : n = l + (n - l) := by omega
  conv_lhs => rw [hn]
  rw [Finset.sum_range_add]
  have h0 : ∑ a in Finset.range (n - l), f (l + a) = 0 :=
    Finset.sum_eq_zero (fun a _ => hf (l + a) (Nat.le_add_right l a))
  rw [h0, add_zero]

theorem larfg_rowwise_contract {K : Type} [CommRing K] [StarRing K] (d : Direction) (row c0 c1 ti : Nat) (x y : Vec K) (t : K)
    (h : (Call.larfg d StoreV.Rowwise row c0 c1 ti x y t).MeetsContract) :
    (∀ b, b < x.len →
      applyRight x.len (fun _ a => x.e a) t (unitAt (d.pivot x.len) y.e) 0 b
        = if b = d.pivot x.len then y.e (d.pivot x.len) else 0) ∧
    (d.pivot x.len < x.len →
      t + star t - star t * t * normSq x.len (unitAt (d.pivot x.len) y.e) = 0) := by
  obtain ⟨hU, hX⟩ := h
  constructor
  · intro b hb
    simp only [reflector] at hX
    rw [matOf_mul_reflectorRow] at hX
    have := congrFun (congrFun hX ⟨0, by omega⟩) ⟨b, hb⟩
    simpa [matOf] using this
  · intro hp
    simp only [reflector] at hU
    exact (reflectorRow_unitary_iff x.len t _ (d.pivot x.len) hp (by simp [unitAt])).mp hU

theorem larf_right_rowwise_contract {K : Type} [CommRing K] [StarRing K] (d : Direction) (r0 r1 c0 c1 : Nat) (v : Vec K) (t : K)
    (C w C' w' : Mat K)
    (h : (Call.larf_work Side.Right d StoreV.Rowwise r0 r1 c0 c1 v t C w C' w').MeetsContract) :
    ∀ i b, i < C.m → b < C.n →
      C'.e i b = applyRight C.n C.e t (unitAt (d.pivot C.n) v.e) i b := by
  intro i b hi hb
  simp only [Call.MeetsContract, reflector] at h
  rw [matOf_mul_reflectorRow] at h
  have := congrFun (congrFun h ⟨i, hi⟩) ⟨b, hb⟩
  simpa [matOf] using this

theorem gelq2_step_tau {K : Type} (larfg : LarfgFn K) (larf_work : LarfWorkFn K)
    (m n k j : Nat) (s : State K) :
    (gelq2_step larfg larf_work m n k j s).tau
      = s.tau.set j (larfg Direction.Forward StoreV.Rowwise (s.A.sliceRow j j n)).2 := by
  unfold gelq2_step
  split <;> rfl

theorem gelq2_step_A {K : Type} (larfg : LarfgFn K) (larf_work : LarfWorkFn K)
    (m n k j : Nat) (s : State K) :
    (gelq2_step larfg larf_work m n k j s).A
      = if j < k - 1 ∨ k < m then
          (s.A.setRowSlice j j n
              (larfg Direction.Forward StoreV.Rowwise (s.A.sliceRow j j n)).1).setSlice
            (j + 1) m j n
            (larf_work Side.Right Direction.Forward StoreV.Rowwise
              ((s.A.setRowSlice j j n
                (larfg Direction.Forward StoreV.Rowwise (s.A.sliceRow j j n)).1).sliceRow j j n)
              ((s.tau.set j
                (larfg Direction.Forward StoreV.Rowwise (s.A.sliceRow j j n)).2).e j)
              ((s.A.setRowSlice j j n
                (larfg Direction.Forward StoreV.Rowwise (s.A.sliceRow j j n)).1).slice
                (j + 1) m j n)
              s.work).1
        else
          s.A.setRowSlice j j n
            (larfg Direction.Forward StoreV.Rowwise (s.A.sliceRow j j n)).1 := by
  unfold gelq2_step
  split <;> rfl

theorem gelq2_step_log_larfg {K : Type} (larfg : LarfgFn K) (larf_work : LarfWorkFn K)
    (m n k j : Nat) (s : State K) :
    Call.larfg Direction.Forward StoreV.Rowwise j j n j (s.A.sliceRow j j n)
        (larfg Direction.Forward StoreV.Rowwise (s.A.sliceRow j j n)).1
        (larfg Direction.Forward StoreV.Rowwise (s.A.sliceRow j j n)).2
      ∈ (gelq2_step larfg larf_work m n k j s).log := by
  unfold gelq2_step
  split <;> simp

theorem gelq2_step_log_larf {K : Type} (larfg : LarfgFn K) (larf_work : LarfWorkFn K)
    (m n k j : Nat) (s : State K) (hg : j < k - 1 ∨ k < m) :
    Call.larf_work Side.Right Direction.Forward StoreV.Rowwise (j + 1) m j n
        ((s.A.setRowSlice j j n
          (larfg Direction.Forward StoreV.Rowwise (s.A.sliceRow j j n)).1).sliceRow j j n)
        ((s.tau.set j (larfg Direction.Forward StoreV.Rowwise (s.A.sliceRow j j n)).2).e j)
        ((s.A.setRowSlice j j n
          (larfg Direction.Forward StoreV.Rowwise (s.A.sliceRow j j n)).1).slice (j + 1) m j n)
        s.work
        (larf_work Side.Right Direction.Forward StoreV.Rowwise
          ((s.A.setRowSlice j j n
            (larfg Direction.Forward StoreV.Rowwise (s.A.sliceRow j j n)).1).sliceRow j j n)
          ((s.tau.set j (larfg Direction.Forward StoreV.Rowwise (s.A.sliceRow j j n)).2).e j)
          ((s.A.setRowSlice j j n
            (larfg Direction.Forward StoreV.Rowwise (s.A.sliceRow j j n)).1).slice
            (j + 1) m j n)
          s.work).1
        (larf_work Side.Right Direction.Forward StoreV.Rowwise
          ((s.A.setRowSlice j j n
            (larfg Direction.Forward StoreV.Rowwise (s.A.sliceRow j j n)).1).sliceRow j j n)
          ((s.tau.set j (larfg Direction.Forward StoreV.Rowwise (s.A.sliceRow j j n)).2).e j)
          ((s.A.setRowSlice j j n
            (larfg Direction.Forward StoreV.Rowwise (s.A.sliceRow j j n)).1).slice
            (j + 1) m j n)
          s.work).2
      ∈ (gelq2_step larfg larf_work m n k j s).log := by
  unfold gelq2_step
  rw [if_pos hg]
  simp

theorem gelq2_step_log_sub {K : Type} (larfg : LarfgFn K) (larf_work : LarfWorkFn K)
    (m n k j : Nat) (s : State K) (c : Call K) (hc : c ∈ s.log) :
    c ∈ (gelq2_step larfg larf_work m n k j s).log := by
  unfold gelq2_step
  split <;> simp [hc]

theorem Mat.setSlice_e_in {K : Type} (A B : Mat K) (r0 r1 c0 c1 i j : Nat)
    (h : r0 ≤ i ∧ i < r1 ∧ c0 ≤ j ∧ j < c1) :
    (A.setSlice r0 r1 c0 c1 B).e i j = B.e (i - r0) (j - c0) :=
  if_pos h

theorem Mat.setSlice_e_out {K : Type} (A B : Mat K) (r0 r1 c0 c1 i j : Nat)
    (h : ¬ (r0 ≤ i ∧ i < r1 ∧ c0 ≤ j ∧ j < c1)) :
    (A.setSlice r0 r1 c0 c1 B).e i j = A.e i j :=
  if_neg h

theorem Mat.setRowSlice_e_in {K : Type} (A : Mat K) (v : Vec K) (i c0 c1 r j : Nat)
    (h : r = i ∧ c0 ≤ j ∧ j < c1) :
    (A.setRowSlice i c0 c1 v).e r j = v.e (j - c0) :=
  if_pos h

theorem Mat.setRowSlice_e_out {K : Type} (A : Mat K) (v : Vec K) (i c0 c1 r j : Nat)
    (h : ¬ (r = i ∧ c0 ≤ j ∧ j < c1)) :
    (A.setRowSlice i c0 c1 v).e r j = A.e r j :=
  if_neg h

theorem gelq2_step_A_pivot_row {K : Type} (larfg : LarfgFn K) (larf_work : LarfWorkFn K)
    (m n k j : Nat) (s : State K) (a : Nat) (ha : a < n - j) :
    (gelq2_step larfg larf_work m n k j s).A.e j (j + a)
      = (larfg Direction.Forward StoreV.Rowwise (s.A.sliceRow j j n)).1.e a := by
  rw [gelq2_step_A]
  have h7 : j + a - j = a := by omega
  split
  · rw [Mat.setSlice_e_out _ _ _ _ _ _ _ _ (by omega),
      Mat.setRowSlice_e_in _ _ _ _ _ _ _ (by omega), h7]
  · rw [Mat.setRowSlice_e_in _ _ _ _ _ _ _ (by omega), h7]

theorem gelq2_step_A_frame {K : Type} (larfg : LarfgFn K) (larf_work : LarfWorkFn K)
    (m n k j : Nat) (s : State K) (r c : Nat) (h : r < j ∨ c < j) :
    (gelq2_step larfg larf_work m n k j s).A.e r c = s.A.e r c := by
  rw [gelq2_step_A]
  split
  · rw [Mat.setSlice_e_out _ _ _ _ _ _ _ _ (by omega),
      Mat.setRowSlice_e_out _ _ _ _ _ _ _ (by omega)]
  · rw [Mat.setRowSlice_e_out _ _ _ _ _ _ _ (by omega)]

theorem gelq2_step_A_below {K : Type} (larfg : LarfgFn K) (larf_work : LarfWorkFn K)
    (m n k j : Nat) (s : State K) (hg : j < k - 1 ∨ k < m) (i b : Nat)
    (hi : i < m - (j + 1)) (hb : b < n - j) :
    (gelq2_step larfg larf_work m n k j s).A.e (j + 1 + i) (j + b)
      = (larf_work Side.Right Direction.Forward StoreV.Rowwise
              ((s.A.setRowSlice j j n
                (larfg Direction.Forward StoreV.Rowwise (s.A.sliceRow j j n)).1).sliceRow j j n)
              ((s.tau.set j
                (larfg Direction.Forward StoreV.Rowwise (s.A.sliceRow j j n)).2).e j)
              ((s.A.setRowSlice j j n
                (larfg Direction.Forward StoreV.Rowwise (s.A.sliceRow j j n)).1).slice
                (j + 1) m j n)
              s.work).1.e i b := by
  rw [gelq2_step_A, if_pos hg]
  have h7 : j + 1 + i - (j + 1) = i := by omega
  have h8 : j + b - j = b := by omega
  rw [Mat.setSlice_e_in _ _ _ _ _ _ _ _ (by omega), h7, h8]

theorem gelq2_step_spec {K : Type} [CommRing K] [StarRing K] (larfg : LarfgFn K) (larf_work : LarfWorkFn K)
    (m n k j : Nat) (s : State K) (hk : k = min m n) (hj : j < k)
    (hc : ∀ c ∈ (gelq2_step larfg larf_work m n k j s).log, c.MeetsContract) :
    (∀ r c, r < m → c < n →
      gelq2_logical (j + 1) (gelq2_step larfg larf_work m n k j s).A.e r c
        = applyRight n (gelq2_logical j s.A.e)
            ((gelq2_step larfg larf_work m n k j s).tau.e j)
            (gelq2_vrow (gelq2_step larfg larf_work m n k j s).A.e j) r c) ∧
    (reflectorRow n ((gelq2_step larfg larf_work m n k j s).tau.e j)
        (gelq2_vrow (gelq2_step larfg larf_work m n k j s).A.e j)).conjTranspose
      * reflectorRow n ((gelq2_step larfg larf_work m n k j s).tau.e j)
        (gelq2_vrow (gelq2_step larfg larf_work m n k j s).A.e j) = 1 := by
  have hguard : (j < k - 1 ∨ k < m) ↔ j + 1 < m := by omega
  have hjn : j < n := by omega
  have hjm : j < m := by omega
  have h1 := hc _ (gelq2_step_log_larfg larfg larf_work m n k j s)
  have h2 := fun hg => hc _ (gelq2_step_log_larf larfg larf_work m n k j s hg)
  have hrow := gelq2_step_A_pivot_row larfg larf_work m n k j s
  have hfr := gelq2_step_A_frame larfg larf_work m n k j s
  have hbelow := gelq2_step_A_below larfg larf_work m n k j s
  have htau : (gelq2_step larfg larf_work m n k j s).tau.e j
      = (larfg Direction.Forward StoreV.Rowwise (s.A.sliceRow j j n)).2 := by
    rw [gelq2_step_tau]
    simp [Vec.set]
  rw [htau]
  generalize (gelq2_step larfg larf_work m n k j s).A = A' at hrow hfr hbelow ⊢
  generalize larfg Direction.Forward StoreV.Rowwise (s.A.sliceRow j j n) = g
    at h1 h2 hrow hbelow ⊢
  obtain ⟨hrank, hunit⟩ := larfg_rowwise_contract _ _ _ _ _ _ _ _ h1
  simp only [Mat.sliceRow, Direction.pivot] at hrank hunit
  have hunit := hunit (by omega)
  -- the stored row vector of the reflector, in full length
  have hV0 : ∀ a, a < j → gelq2_vrow A'.e j a = 0 := by
    intro a ha
    simp [gelq2_vrow, ha]
  have hVs : ∀ a, a < n - j → gelq2_vrow A'.e j (j + a) = unitAt 0 g.1.e a := by
    intro a ha
    by_cases ha0 : a = 0
    · subst ha0
      simp [gelq2_vrow, unitAt]
    · have h3 : ¬ (j + a < j) := by omega
      have h4 : ¬ (j + a = j) := by omega
      simp only [gelq2_vrow, unitAt, if_neg h3, if_neg h4, if_neg ha0]
      exact hrow a ha
  have hnorm : normSq n (gelq2_vrow A'.e j) = normSq (n - j) (unitAt 0 g.1.e) := by
    unfold normSq
    rw [sum_range_shift n j (by omega) _ (fun a ha => by rw [hV0 a ha, zero_mul])]
    apply Finset.sum_congr rfl
    intro a ha
    rw [hVs a (Finset.mem_range.mp ha)]
  have hdot0 : ∀ r, r < j →
      ∑ a in Finset.range n, gelq2_logical j s.A.e r a * star (gelq2_vrow A'.e j a) = 0 := by
    intro r hr
    apply Finset.sum_eq_zero
    intro a _
    by_cases hra : r < a
    · simp [gelq2_logical, hr, hra]
    · rw [hV0 a (by omega), star_zero, mul_zero]
  have hdot : ∀ r, j ≤ r →
      ∑ a in Finset.range n, gelq2_logical j s.A.e r a * star (gelq2_vrow A'.e j a)
        = ∑ a in Finset.range (n - j), s.A.e r (j + a) * star (unitAt 0 g.1.e a) := by
    intro r hr
    rw [sum_range_shift n j (by omega) _
      (fun a ha => by rw [hV0 a ha, star_zero, mul_zero])]
    apply Finset.sum_congr rfl
    intro a ha
    have h3 : ¬ (r < j ∧ r < j + a) := by omega
    rw [hVs a (Finset.mem_range.mp ha)]
    simp only [gelq2_logical, if_neg h3]
  refine ⟨?_, ?_⟩
  · intro r c hr hcn
    unfold applyRight
    rcases Nat.lt_trichotomy r j with hlt | heq | hgt
    · -- rows reduced before
      rw [hdot0 r hlt, mul_zero, zero_mul, sub_zero]
      simp only [gelq2_logical]
      rw [hfr r c (Or.inl hlt)]
      by_cases hrc : r < c
      · rw [if_pos ⟨by omega, hrc⟩, if_pos ⟨hlt, hrc⟩]
      · rw [if_neg (fun h => hrc h.2), if_neg (fun h => hrc h.2)]
    · -- the pivot row
      subst heq
      rw [hdot r (le_refl r)]
      by_cases hcr : c < r
      · rw [hV0 c hcr, mul_zero, sub_zero]
        simp only [gelq2_logical]
        rw [if_neg (by omega), if_neg (by omega), hfr r c (Or.inr hcr)]
      · obtain ⟨b, rfl⟩ : ∃ b, c = r + b := ⟨c - r, by omega⟩
        have hb : b < n - r := by omega
        have := hrank b hb
        unfold applyRight at this
        rw [hVs b hb]
        have h3 : ¬ (r < r ∧ r < r + b) := by omega
        simp only [gelq2_logical, if_neg h3]
        rw [this]
        by_cases hb0 : b = 0
        · subst hb0
          rw [if_neg (by omega), if_pos rfl]
          exact hrow 0 hb
        · rw [if_pos (by omega), if_neg hb0]
    · -- rows below the pivot row
      rw [hdot r (le_of_lt hgt)]
      have h3 : ¬ (r < j + 1 ∧ r < c) := by omega
      have h4 : ¬ (r < j ∧ r < c) := by omega
      simp only [gelq2_logical, if_neg h3, if_neg h4]
      by_cases hcj : c < j
      · rw [hV0 c hcj, mul_zero, sub_zero, hfr r c (Or.inr hcj)]
      · obtain ⟨b, rfl⟩ : ∃ b, c = j + b := ⟨c - j, by omega⟩
        obtain ⟨i, rfl⟩ : ∃ i, r = j + 1 + i := ⟨r - (j + 1), by omega⟩
        have hb : b < n - j := by omega
        have hi : i < m - (j + 1) := by omega
        have hg : j < k - 1 ∨ k < m := hguard.mpr (by omega)
        rw [hbelow hg i b hi hb, hVs b hb]
        have hl := larf_right_rowwise_contract _ _ _ _ _ _ _ _ _ _ _ (h2 hg) i b
          (by simp only [Mat.slice]; omega) (by simp only [Mat.slice]; omega)
        rw [hl]
        simp only [Mat.slice, Mat.sliceRow, Direction.pivot, applyRight, Vec.set, if_true]
        have hu : ∀ a, a < n - j →
            unitAt 0 (fun x => (s.A.setRowSlice j j n g.1).e j (j + x)) a
              = unitAt 0 g.1.e a := by
          intro a ha
          simp only [unitAt]
          by_cases ha0 : a = 0
          · rw [if_pos ha0, if_pos ha0]
          · rw [if_neg ha0, if_neg ha0, Mat.setRowSlice_e_in _ _ _ _ _ _ _ (by omega)]
            congr 1
            omega
        rw [hu b hb, Mat.setRowSlice_e_out _ _ _ _ _ _ _ (by omega)]
        congr 3
        apply Finset.sum_congr rfl
        intro a ha
        rw [hu a (Finset.mem_range.mp ha), Mat.setRowSlice_e_out _ _ _ _ _ _ _ (by omega)]
  · exact (reflectorRow_unitary_iff n g.2 _ j hjn (by simp [gelq2_vrow])).mpr
      (by rw [hnorm]; exact hunit)

theorem gelq2_P_congr {K : Type} [CommRing K] [StarRing K] (n : Nat) (e e' : Nat → Nat → K) (t t' : Nat → K) (j : Nat)
    (he : ∀ r c, r < j → e r c = e' r c) (ht : ∀ i, i < j → t i = t' i) :
    gelq2_P n e t j = gelq2_P n e' t' j := by
  induction j with
  | zero => rfl
  | succ j ih =>
    have hv : gelq2_vrow e j = gelq2_vrow e' j := by
      funext c
      simp only [gelq2_vrow, he j c (Nat.lt_succ_self j)]
    simp only [gelq2_P]
    rw [ih (fun r c hr => he r c (Nat.lt_succ_of_lt hr)) (fun i hi => ht i (Nat.lt_succ_of_lt hi)),
      ht j (Nat.lt_succ_self j), hv]

theorem gelq2_H_eq_reflectorRow {K : Type} [CommRing K] [StarRing K] (n : Nat) (e : Nat → Nat → K) (t : Nat → K) (j : Nat) :
    gelq2_H n e t j = reflectorRow n (t j) (gelq2_vrow e j) := by
  ext a b
  have hw : ∀ c, gelq2_w e j c = star (gelq2_vrow e j c) := by
    intro c
    simp only [gelq2_w, gelq2_vrow]
    split_ifs <;> simp
  simp only [gelq2_H, reflectorCol, reflectorRow, Matrix.of_apply, hw, star_star]

theorem gelq2_Q_eq {K : Type} [CommRing K] [StarRing K] (n : Nat) (e : Nat → Nat → K) (t : Nat → K) (j : Nat) :
    gelq2_Q n e t j = (gelq2_P n e t j).conjTranspose := by
  induction j with
  | zero => simp [gelq2_Q, gelq2_P]
  | succ j ih =>
    simp only [gelq2_Q, gelq2_P, Matrix.conjTranspose_mul, ih, gelq2_H_eq_reflectorRow]

/-- Invariant of the loop of `gelq2_work` after `j` steps. -/
theorem gelq2_loop_inv {K : Type} [CommRing K] [StarRing K] (larfg : LarfgFn K) (larf_work : LarfWorkFn K)
    (m n k : Nat) (s0 : State K) (hk : k = min m n) (j : Nat) (hj : j ≤ k)
    (hc : ∀ c ∈ ((List.range j).foldl
        (fun s j => gelq2_step larfg larf_work m n k j s) s0).log, c.MeetsContract) :
    matOf m n (gelq2_logical j ((List.range j).foldl
        (fun s j => gelq2_step larfg larf_work m n k j s) s0).A.e)
      = matOf m n s0.A.e * gelq2_P n ((List.range j).foldl
        (fun s j => gelq2_step larfg larf_work m n k j s) s0).A.e
          ((List.range j).foldl
            (fun s j => gelq2_step larfg larf_work m n k j s) s0).tau.e j ∧
    (gelq2_P n ((List.range j).foldl
        (fun s j => gelq2_step larfg larf_work m n k j s) s0).A.e
          ((List.range j).foldl
            (fun s j => gelq2_step larfg larf_work m n k j s) s0).tau.e j).conjTranspose
      * gelq2_P n ((List.range j).foldl
        (fun s j => gelq2_step larfg larf_work m n k j s) s0).A.e
          ((List.range j).foldl
            (fun s j => gelq2_step larfg larf_work m n k j s) s0).tau.e j = 1 := by
  induction j with
  | zero =>
    refine ⟨?_, ?_⟩
    · simp only [List.range_zero, List.foldl_nil, gelq2_P, mul_one]
      ext r c
      simp [matOf, gelq2_logical]
    · simp [gelq2_P]
  | succ j ih =>
    rw [List.range_succ, List.foldl_append] at hc ⊢
    simp only [List.foldl_cons, List.foldl_nil] at hc ⊢
    generalize (List.range j).foldl
      (fun s j => gelq2_step larfg larf_work m n k j s) s0 = s at ih hc ⊢
    obtain ⟨ih1, ih2⟩ := ih (by omega)
      (fun c hcs => hc c (gelq2_step_log_sub larfg larf_work m n k j s c hcs))
    obtain ⟨hs1, hs2⟩ := gelq2_step_spec larfg larf_work m n k j s hk (by omega) hc
    have hP : gelq2_P n (gelq2_step larfg larf_work m n k j s).A.e
        (gelq2_step larfg larf_work m n k j s).tau.e j = gelq2_P n s.A.e s.tau.e j := by
      apply gelq2_P_congr
      · intro r c hr
        exact gelq2_step_A_frame larfg larf_work m n k j s r c (Or.inl hr)
      · intro i hi
        rw [gelq2_step_tau]
        have : i ≠ j := by omega
        simp [Vec.set, this]
    simp only [gelq2_P]
    rw [hP]
    refine ⟨?_, ?_⟩
    · rw [← Matrix.mul_assoc, ← ih1, matOf_mul_reflectorRow]
      ext r c
      simp only [matOf, Matrix.of_apply]
      exact hs1 r.val c.val r.isLt c.isLt
    · rw [Matrix.conjTranspose_mul, Matrix.mul_assoc,
        ← Matrix.mul_assoc _ (gelq2_P n s.A.e s.tau.e j), ih2, Matrix.one_mul, hs2]

theorem gelq2_logical_final {K : Type} [Zero K] (m n : Nat) (e : Nat → Nat → K) :
    matOf m n (gelq2_logical (min m n) e) = gelq2_L m n e := by
  ext r c
  have hr := r.isLt
  have hc := c.isLt
  simp only [matOf, gelq2_L, gelq2_logical, Matrix.of_apply]
  by_cases h : c.val ≤ r.val
  · rw [if_neg (by omega), if_pos h]
  · rw [if_pos (by omega), if_neg h]

theorem gelq2_work_eq_loop {K : Type} (larfg : LarfgFn K) (larf_work : LarfWorkFn K)
    (A : Mat K) (tauw : Vec K) (work : Mat K) (hsize : min A.m A.n ≤ tauw.len) :
    gelq2_work larfg larf_work A tauw work
      = Outcome.returned 0
          ((List.range (min A.m A.n)).foldl
            (fun s j => gelq2_step larfg larf_work A.m A.n (min A.m A.n) j s)
            ⟨A, tauw, work, []⟩) := by
  have hlt : ¬ tauw.len < min A.m A.n := by omega
  simp only [gelq2_work, if_neg hlt]

/-- C1 (LQ reconstruction). If every sub-kernel invocation made by
`gelq2_work` on an `m`-by-`n` matrix `A` with `size(tauw) ≥ k = min(m, n)`
meets its elementary-reflector contract, then the kernel returns 0 and leaves
in `A` the lower trapezoidal `L` (on and below the diagonal) and, above the
diagonal together with `tauw`, reflectors `H(j) = I - tauw[j] * w * wᴴ` such
that `A_original = L * Q` with `Q = H(k)ᴴ ... H(1)ᴴ` unitary. -/
theorem gelq2_work_reconstruction {K : Type} [CommRing K] [StarRing K]
    (larfg : LarfgFn K) (larf_work : LarfWorkFn K) (A : Mat K) (tauw : Vec K) (work : Mat K)
    (hsize : min A.m A.n ≤ tauw.len)
    (hcontract : ∀ c ∈ (gelq2_work larfg larf_work A tauw work).state.log, c.MeetsContract) :
    ∃ out : State K,
      gelq2_work larfg larf_work A tauw work = Outcome.returned 0 out ∧
      matOf A.m A.n A.e
        = gelq2_L A.m A.n out.A.e * gelq2_Q A.n out.A.e out.tau.e (min A.m A.n) ∧
      (gelq2_Q A.n out.A.e out.tau.e (min A.m A.n)).conjTranspose
        * gelq2_Q A.n out.A.e out.tau.e (min A.m A.n) = 1 ∧
      gelq2_Q A.n out.A.e out.tau.e (min A.m A.n)
        * (gelq2_Q A.n out.A.e out.tau.e (min A.m A.n)).conjTranspose = 1 := by
  rw [gelq2_work_eq_loop larfg larf_work A tauw work hsize] at hcontract ⊢
  simp only [Outcome.state] at hcontract
  refine ⟨_, rfl, ?_⟩
  obtain ⟨h1, h2⟩ := gelq2_loop_inv larfg larf_work A.m A.n (min A.m A.n)
    ⟨A, tauw, work, []⟩ rfl (min A.m A.n) (le_refl _) hcontract
  have h3 := Matrix.mul_eq_one_comm.mp h2
  rw [gelq2_logical_final] at h1
  simp only [gelq2_Q_eq, Matrix.conjTranspose_conjTranspose]
  refine ⟨?_, h3, h2⟩
  rw [h1, Matrix.mul_assoc, h3, Matrix.mul_one]

theorem sum_split_pivot (n p : Nat) (hp : p < n) (f : Nat → ℚ) :
    ∑ a in Finset.range n, f a
      = f p + ∑ a in Finset.range n, if a = p then 0 else f a := by
  have h : ∀ a, f a = (if a = p then f p else 0) + (if a = p then 0 else f a) := by
    intro a
    by_cases ha : a = p
    · subst ha
      simp
    · simp [ha]
  conv_lhs => rw [Finset.sum_congr rfl (fun a _ => h a)]
  rw [Finset.sum_add_distrib, Finset.sum_ite_eq' (Finset.range n) p (fun _ => f p)]
  simp [hp]

/-- The exact `larf_work` meets the contract of a right-side row-wise application. -/
theorem larf_exact_meets {K : Type} [CommRing K] [StarRing K]
    (d : Direction) (r0 r1 c0 c1 : Nat) (v : Vec K) (t : K) (C work : Mat K) :
    (Call.larf_work Side.Right d StoreV.Rowwise r0 r1 c0 c1 v t C work
      (larf_exact Side.Right d StoreV.Rowwise v t C work).1
      (larf_exact Side.Right d StoreV.Rowwise v t C work).2).MeetsContract := by
  simp only [Call.MeetsContract, reflector]
  rw [matOf_mul_reflectorRow]
  rfl

/-- The exact `larfg` meets the row-wise contract whenever the norm of its
argument is rational. -/
theorem larfg_exact_meets (d : Direction) (row c0 c1 ti : Nat) (x : Vec ℚ) (hlen : 0 < x.len)
    (hsq : Rat.sqrt (x.e (d.pivot x.len) * x.e (d.pivot x.len)
        + ∑ a in Finset.range x.len, if a = d.pivot x.len then 0 else x.e a * x.e a)
      * Rat.sqrt (x.e (d.pivot x.len) * x.e (d.pivot x.len)
        + ∑ a in Finset.range x.len, if a = d.pivot x.len then 0 else x.e a * x.e a)
      = x.e (d.pivot x.len) * x.e (d.pivot x.len)
        + ∑ a in Finset.range x.len, if a = d.pivot x.len then 0 else x.e a * x.e a) :
    (Call.larfg d StoreV.Rowwise row c0 c1 ti x
      (larfg_exact d StoreV.Rowwise x).1 (larfg_exact d StoreV.Rowwise x).2).MeetsContract := by
  have hp : d.pivot x.len < x.len := by
    cases d <;> simp only [Direction.pivot] <;> omega
  have hnn : ∀ a ∈ Finset.range x.len,
      (0:ℚ) ≤ (if a = d.pivot x.len then 0 else x.e a * x.e a) := by
    intro a _
    split_ifs
    · exact le_refl 0
    · exact mul_self_nonneg _
  simp only [Call.MeetsContract, reflector]
  rw [matOf_mul_reflectorRow,
    reflectorRow_unitary_iff x.len _ _ (d.pivot x.len) hp (by simp [unitAt])]
  by_cases h0 : (∑ a in Finset.range x.len,
      if a = d.pivot x.len then 0 else x.e a * x.e a) = 0
  · -- nothing to annihilate: tau = 0
    have hz : ∀ b, b < x.len → b ≠ d.pivot x.len → x.e b = 0 := by
      intro b hb hbp
      have := (Finset.sum_eq_zero_iff_of_nonneg hnn).mp h0 b (Finset.mem_range.mpr hb)
      rw [if_neg hbp] at this
      exact mul_self_eq_zero.mp this
    have hg : larfg_exact d StoreV.Rowwise x = (x, 0) := by
      simp only [larfg_exact]
      rw [if_pos h0]
    rw [hg]
    refine ⟨by simp, ?_⟩
    ext i b
    simp only [matOf, applyRight, Matrix.of_apply, zero_mul, sub_zero]
    by_cases hb : b.val = d.pivot x.len
    · rw [if_pos hb, hb]
    · rw [if_neg hb, hz b.val b.isLt hb]
  · -- a proper reflection
    generalize hq : Rat.sqrt (x.e (d.pivot x.len) * x.e (d.pivot x.len)
        + ∑ a in Finset.range x.len, if a = d.pivot x.len then 0 else x.e a * x.e a) = nrm
      at hsq
    have hpos : 0 < ∑ a in Finset.range x.len,
        if a = d.pivot x.len then 0 else x.e a * x.e a :=
      lt_of_le_of_ne (Finset.sum_nonneg hnn) (Ne.symm h0)
    have hg : larfg_exact d StoreV.Rowwise x
        = (⟨x.len, fun a => if a = d.pivot x.len then
              (if 0 ≤ x.e (d.pivot x.len) then -nrm else nrm)
            else x.e a / (x.e (d.pivot x.len)
              - (if 0 ≤ x.e (d.pivot x.len) then -nrm else nrm))⟩,
           ((if 0 ≤ x.e (d.pivot x.len) then -nrm else nrm) - x.e (d.pivot x.len))
             / (if 0 ≤ x.e (d.pivot x.len) then -nrm else nrm)) := by
      simp only [larfg_exact]
      rw [if_neg h0, hq]
    rw [hg]
    generalize hbeta : (if 0 ≤ x.e (d.pivot x.len) then -nrm else nrm) = beta
    have hbb : beta * beta = x.e (d.pivot x.len) * x.e (d.pivot x.len)
        + ∑ a in Finset.range x.len, if a = d.pivot x.len then 0 else x.e a * x.e a := by
      rw [← hsq, ← hbeta]
      split_ifs <;> ring
    generalize hS : (∑ a in Finset.range x.len,
        if a = d.pivot x.len then 0 else x.e a * x.e a) = S at hbb hpos
    generalize hal : x.e (d.pivot x.len) = alpha at hbb
    have hb0 : beta ≠ 0 := by
      intro h
      rw [h] at hbb
      nlinarith [mul_self_nonneg alpha]
    have hab : alpha - beta ≠ 0 := by
      intro h
      have : alpha = beta := by linarith
      rw [this] at hbb
      linarith
    -- inner product of the argument with the reflector vector
    have hdot : ∑ a in Finset.range x.len, x.e a * star (unitAt (d.pivot x.len)
        (fun a => if a = d.pivot x.len then beta else x.e a / (alpha - beta)) a)
        = alpha + S / (alpha - beta) := by
      rw [sum_split_pivot x.len (d.pivot x.len) hp]
      simp only [unitAt, if_true, star_trivial, mul_one, hal]
      congr 1
      rw [← hS, Finset.sum_div]
      apply Finset.sum_congr rfl
      intro a _
      by_cases ha : a = d.pivot x.len
      · simp [ha]
      · simp only [if_neg ha]
        ring
    have hnorm : normSq x.len (unitAt (d.pivot x.len)
        (fun a => if a = d.pivot x.len then beta else x.e a / (alpha - beta)))
        = 1 + S / ((alpha - beta) * (alpha - beta)) := by
      unfold normSq
      rw [sum_split_pivot x.len (d.pivot x.len) hp]
      simp only [unitAt, if_true, star_trivial, mul_one]
      congr 1
      rw [← hS, Finset.sum_div]
      apply Finset.sum_congr rfl
      intro a _
      by_cases ha : a = d.pivot x.len
      · simp [ha]
      · simp only [if_neg ha]
        field_simp
    have hSeq : S = beta * beta - alpha * alpha := by linarith
    refine ⟨?_, ?_⟩
    · simp only [hnorm, star_trivial]
      rw [hSeq]
      field_simp
      ring
    · ext i b
      simp only [matOf, applyRight, Matrix.of_apply, hdot]
      by_cases hb : b.val = d.pivot x.len
      · simp only [unitAt, if_pos hb, hb, hal]
        rw [hSeq]
        field_simp
        ring
      · simp only [unitAt, if_neg hb]
        rw [hSeq]
        field_simp
        ring

theorem gelq2_step_log_cases {K : Type} (larfg : LarfgFn K) (larf_work : LarfWorkFn K)
    (m n k j : Nat) (s : State K) (c : Call K)
    (hc : c ∈ (gelq2_step larfg larf_work m n k j s).log) :
    c ∈ s.log ∨
    c = Call.larfg Direction.Forward StoreV.Rowwise j j n j (s.A.sliceRow j j n)
        (larfg Direction.Forward StoreV.Rowwise (s.A.sliceRow j j n)).1
        (larfg Direction.Forward StoreV.Rowwise (s.A.sliceRow j j n)).2 ∨
    c = Call.larf_work Side.Right Direction.Forward StoreV.Rowwise (j + 1) m j n
        ((s.A.setRowSlice j j n
          (larfg Direction.Forward StoreV.Rowwise (s.A.sliceRow j j n)).1).sliceRow j j n)
        ((s.tau.set j (larfg Direction.Forward StoreV.Rowwise (s.A.sliceRow j j n)).2).e j)
        ((s.A.setRowSlice j j n
          (larfg Direction.Forward StoreV.Rowwise (s.A.sliceRow j j n)).1).slice (j + 1) m j n)
        s.work
        (larf_work Side.Right Direction.Forward StoreV.Rowwise
          ((s.A.setRowSlice j j n
            (larfg Direction.Forward StoreV.Rowwise (s.A.sliceRow j j n)).1).sliceRow j j n)
          ((s.tau.set j (larfg Direction.Forward StoreV.Rowwise (s.A.sliceRow j j n)).2).e j)
          ((s.A.setRowSlice j j n
            (larfg Direction.Forward StoreV.Rowwise (s.A.sliceRow j j n)).1).slice
            (j + 1) m j n)
          s.work).1
        (larf_work Side.Right Direction.Forward StoreV.Rowwise
          ((s.A.setRowSlice j j n
            (larfg Direction.Forward StoreV.Rowwise (s.A.sliceRow j j n)).1).sliceRow j j n)
          ((s.tau.set j (larfg Direction.Forward StoreV.Rowwise (s.A.sliceRow j j n)).2).e j)
          ((s.A.setRowSlice j j n
            (larfg Direction.Forward StoreV.Rowwise (s.A.sliceRow j j n)).1).slice
            (j + 1) m j n)
          s.work).2 := by
  unfold gelq2_step at hc
  split at hc
  · simp only [List.mem_append, List.mem_singleton] at hc
    rcases hc with (h | h) | h
    · exact Or.inl h
    · exact Or.inr (Or.inl h)
    · exact Or.inr (Or.inr h)
  · simp only [List.mem_append, List.mem_singleton] at hc
    rcases hc with h | h
    · exact Or.inl h
    · exact Or.inr (Or.inl h)

theorem rat_sqrt_mul_self_of_sq (q r : ℚ) (h : q = r * r) :
    Rat.sqrt q * Rat.sqrt q = q := by
  rw [h, Rat.sqrt_eq, abs_mul_abs_self]

theorem exampleA_contracts :
    ∀ c ∈ (gelq2_work larfg_exact larf_exact exampleA exampleTau exampleWork).state.log,
      c.MeetsContract := by
  intro c hc
  rw [gelq2_work_eq_loop _ _ _ _ _ (by decide)] at hc
  change c ∈ (gelq2_step larfg_exact larf_exact 2 2 2 1
    (gelq2_step larfg_exact larf_exact 2 2 2 0
      ⟨exampleA, exampleTau, exampleWork, []⟩)).log at hc
  rcases gelq2_step_log_cases _ _ _ _ _ _ _ c hc with h | h | h
  · rcases gelq2_step_log_cases _ _ _ _ _ _ _ c h with h | h | h
    · simp at h
    · rw [h]
      apply larfg_exact_meets
      · decide
      · apply rat_sqrt_mul_self_of_sq _ 5
        simp [exampleA, Mat.ofRows, Mat.sliceRow, Direction.pivot, Finset.sum_range_succ]
        norm_num
    · rw [h]
      exact larf_exact_meets _ _ _ _ _ _ _ _ _
  · rw [h]
    apply larfg_exact_meets
    · decide
    · apply rat_sqrt_mul_self_of_sq _ _ _
      · exact (((gelq2_step larfg_exact larf_exact 2 2 2 0
          ⟨exampleA, exampleTau, exampleWork, []⟩).A.sliceRow 1 1 2).e 0)
      · simp [Mat.sliceRow, Direction.pivot, Finset.sum_range_succ]
  · rw [h]
    exact larf_exact_meets _ _ _ _ _ _ _ _ _

/-- Witness of C1: the run on the rational matrix with rows `(3, 4)`, `(1, 2)`. -/
theorem gelq2_work_reconstruction_witness :
    min exampleA.m exampleA.n ≤ exampleTau.len ∧
    (∀ c ∈ (gelq2_work larfg_exact larf_exact exampleA exampleTau exampleWork).state.log,
      c.MeetsContract) ∧
    ∃ out : State ℚ,
      gelq2_work larfg_exact larf_exact exampleA exampleTau exampleWork
        = Outcome.returned 0 out ∧
      matOf exampleA.m exampleA.n exampleA.e
        = gelq2_L exampleA.m exampleA.n out.A.e
          * gelq2_Q exampleA.n out.A.e out.tau.e (min exampleA.m exampleA.n) ∧
      (gelq2_Q exampleA.n out.A.e out.tau.e (min exampleA.m exampleA.n)).conjTranspose
        * gelq2_Q exampleA.n out.A.e out.tau.e (min exampleA.m exampleA.n) = 1 ∧
      gelq2_Q exampleA.n out.A.e out.tau.e (min exampleA.m exampleA.n)
        * (gelq2_Q exampleA.n out.A.e out.tau.e (min exampleA.m exampleA.n)).conjTranspose = 1 :=
  ⟨by decide, exampleA_contracts,
    gelq2_work_reconstruction larfg_exact larf_exact exampleA exampleTau exampleWork
      (by decide) exampleA_contracts⟩

theorem gerq2_step_tau {K : Type} (larfg : LarfgFn K) (larf_work : LarfWorkFn K)
    (m n k i2 : Nat) (s : State K) :
    (gerq2_step larfg larf_work m n k i2 s).tau
      = s.tau.set (k - 1 - i2)
          (larfg Direction.Backward StoreV.Rowwise
            (s.A.sliceRow (m - 1 - i2) 0 (n - i2))).2 := by
  unfold gerq2_step
  split <;> rfl

theorem gerq2_step_A {K : Type} (larfg : LarfgFn K) (larf_work : LarfWorkFn K)
    (m n k i2 : Nat) (s : State K) :
    (gerq2_step larfg larf_work m n k i2 s).A
      = if m > i2 + 1 then
          (s.A.setRowSlice (m - 1 - i2) 0 (n - i2)
              (larfg Direction.Backward StoreV.Rowwise
                (s.A.sliceRow (m - 1 - i2) 0 (n - i2))).1).setSlice
            0 (m - 1 - i2) 0 (n - i2)
            (larf_work Side.Right Direction.Backward StoreV.Rowwise
              ((s.A.setRowSlice (m - 1 - i2) 0 (n - i2)
                (larfg Direction.Backward StoreV.Rowwise
                  (s.A.sliceRow (m - 1 - i2) 0 (n - i2))).1).sliceRow
                (m - 1 - i2) 0 (n - i2))
              ((s.tau.set (k - 1 - i2)
                (larfg Direction.Backward StoreV.Rowwise
                  (s.A.sliceRow (m - 1 - i2) 0 (n - i2))).2).e (k - 1 - i2))
              ((s.A.setRowSlice (m - 1 - i2) 0 (n - i2)
                (larfg Direction.Backward StoreV.Rowwise
                  (s.A.sliceRow (m - 1 - i2) 0 (n - i2))).1).slice
                0 (m - 1 - i2) 0 (n - i2))
              s.work).1
        else
          s.A.setRowSlice (m - 1 - i2) 0 (n - i2)
            (larfg Direction.Backward StoreV.Rowwise
              (s.A.sliceRow (m - 1 - i2) 0 (n - i2))).1 := by
  unfold gerq2_step
  split <;> rfl

theorem gerq2_step_log_cases {K : Type} (larfg : LarfgFn K) (larf_work : LarfWorkFn K)
    (m n k i2 : Nat) (s : State K) (c : Call K)
    (hc : c ∈ (gerq2_step larfg larf_work m n k i2 s).log) :
    c ∈ s.log ∨
    c = Call.larfg Direction.Backward StoreV.Rowwise (m - 1 - i2) 0 (n - i2) (k - 1 - i2)
        (s.A.sliceRow (m - 1 - i2) 0 (n - i2))
        (larfg Direction.Backward StoreV.Rowwise (s.A.sliceRow (m - 1 - i2) 0 (n - i2))).1
        (larfg Direction.Backward StoreV.Rowwise (s.A.sliceRow (m - 1 - i2) 0 (n - i2))).2 ∨
    c = Call.larf_work Side.Right Direction.Backward StoreV.Rowwise
        0 (m - 1 - i2) 0 (n - i2)
        ((s.A.setRowSlice (m - 1 - i2) 0 (n - i2)
          (larfg Direction.Backward StoreV.Rowwise
            (s.A.sliceRow (m - 1 - i2) 0 (n - i2))).1).sliceRow (m - 1 - i2) 0 (n - i2))
        ((s.tau.set (k - 1 - i2)
          (larfg Direction.Backward StoreV.Rowwise
            (s.A.sliceRow (m - 1 - i2) 0 (n - i2))).2).e (k - 1 - i2))
        ((s.A.setRowSlice (m - 1 - i2) 0 (n - i2)
          (larfg Direction.Backward StoreV.Rowwise
            (s.A.sliceRow (m - 1 - i2) 0 (n - i2))).1).slice 0 (m - 1 - i2) 0 (n - i2))
        s.work
        (larf_work Side.Right Direction.Backward StoreV.Rowwise
          ((s.A.setRowSlice (m - 1 - i2) 0 (n - i2)
            (larfg Direction.Backward StoreV.Rowwise
              (s.A.sliceRow (m - 1 - i2) 0 (n - i2))).1).sliceRow (m - 1 - i2) 0 (n - i2))
          ((s.tau.set (k - 1 - i2)
            (larfg Direction.Backward StoreV.Rowwise
              (s.A.sliceRow (m - 1 - i2) 0 (n - i2))).2).e (k - 1 - i2))
          ((s.A.setRowSlice (m - 1 - i2) 0 (n - i2)
            (larfg Direction.Backward StoreV.Rowwise
              (s.A.sliceRow (m - 1 - i2) 0 (n - i2))).1).slice 0 (m - 1 - i2) 0 (n - i2))
          s.work).1
        (larf_work Side.Right Direction.Backward StoreV.Rowwise
          ((s.A.setRowSlice (m - 1 - i2) 0 (n - i2)
            (larfg Direction.Backward StoreV.Rowwise
              (s.A.sliceRow (m - 1 - i2) 0 (n - i2))).1).sliceRow (m - 1 - i2) 0 (n - i2))
          ((s.tau.set (k - 1 - i2)
            (larfg Direction.Backward StoreV.Rowwise
              (s.A.sliceRow (m - 1 - i2) 0 (n - i2))).2).e (k - 1 - i2))
          ((s.A.setRowSlice (m - 1 - i2) 0 (n - i2)
            (larfg Direction.Backward StoreV.Rowwise
              (s.A.sliceRow (m - 1 - i2) 0 (n - i2))).1).slice 0 (m - 1 - i2) 0 (n - i2))
          s.work).2 := by
  unfold gerq2_step at hc
  split at hc
  · simp only [List.mem_append, List.mem_singleton] at hc
    rcases hc with (h | h) | h
    · exact Or.inl h
    · exact Or.inr (Or.inl h)
    · exact Or.inr (Or.inr h)
  · simp only [List.mem_append, List.mem_singleton] at hc
    rcases hc with h | h
    · exact Or.inl h
    · exact Or.inr (Or.inl h)

theorem gerq2_step_log_larfg {K : Type} (larfg : LarfgFn K) (larf_work : LarfWorkFn K)
    (m n k i2 : Nat) (s : State K) :
    Call.larfg Direction.Backward StoreV.Rowwise (m - 1 - i2) 0 (n - i2) (k - 1 - i2)
        (s.A.sliceRow (m - 1 - i2) 0 (n - i2))
        (larfg Direction.Backward StoreV.Rowwise (s.A.sliceRow (m - 1 - i2) 0 (n - i2))).1
        (larfg Direction.Backward StoreV.Rowwise (s.A.sliceRow (m - 1 - i2) 0 (n - i2))).2
      ∈ (gerq2_step larfg larf_work m n k i2 s).log := by
  unfold gerq2_step
  split <;> simp

theorem gerq2_step_log_larf {K : Type} (larfg : LarfgFn K) (larf_work : LarfWorkFn K)
    (m n k i2 : Nat) (s : State K) (hg : m > i2 + 1) :
    Call.larf_work Side.Right Direction.Backward StoreV.Rowwise
        0 (m - 1 - i2) 0 (n - i2)
        ((s.A.setRowSlice (m - 1 - i2) 0 (n - i2)
          (larfg Direction.Backward StoreV.Rowwise
            (s.A.sliceRow (m - 1 - i2) 0 (n - i2))).1).sliceRow (m - 1 - i2) 0 (n - i2))
        ((s.tau.set (k - 1 - i2)
          (larfg Direction.Backward StoreV.Rowwise
            (s.A.sliceRow (m - 1 - i2) 0 (n - i2))).2).e (k - 1 - i2))
        ((s.A.setRowSlice (m - 1 - i2) 0 (n - i2)
          (larfg Direction.Backward StoreV.Rowwise
            (s.A.sliceRow (m - 1 - i2) 0 (n - i2))).1).slice 0 (m - 1 - i2) 0 (n - i2))
        s.work
        (larf_work Side.Right Direction.Backward StoreV.Rowwise
          ((s.A.setRowSlice (m - 1 - i2) 0 (n - i2)
            (larfg Direction.Backward StoreV.Rowwise
              (s.A.sliceRow (m - 1 - i2) 0 (n - i2))).1).sliceRow (m - 1 - i2) 0 (n - i2))
          ((s.tau.set (k - 1 - i2)
            (larfg Direction.Backward StoreV.Rowwise
              (s.A.sliceRow (m - 1 - i2) 0 (n - i2))).2).e (k - 1 - i2))
          ((s.A.setRowSlice (m - 1 - i2) 0 (n - i2)
            (larfg Direction.Backward StoreV.Rowwise
              (s.A.sliceRow (m - 1 - i2) 0 (n - i2))).1).slice 0 (m - 1 - i2) 0 (n - i2))
          s.work).1
        (larf_work Side.Right Direction.Backward StoreV.Rowwise
          ((s.A.setRowSlice (m - 1 - i2) 0 (n - i2)
            (larfg Direction.Backward StoreV.Rowwise
              (s.A.sliceRow (m - 1 - i2) 0 (n - i2))).1).sliceRow (m - 1 - i2) 0 (n - i2))
          ((s.tau.set (k - 1 - i2)
            (larfg Direction.Backward StoreV.Rowwise
              (s.A.sliceRow (m - 1 - i2) 0 (n - i2))).2).e (k - 1 - i2))
          ((s.A.setRowSlice (m - 1 - i2) 0 (n - i2)
            (larfg Direction.Backward StoreV.Rowwise
              (s.A.sliceRow (m - 1 - i2) 0 (n - i2))).1).slice 0 (m - 1 - i2) 0 (n - i2))
          s.work).2
      ∈ (gerq2_step larfg larf_work m n k i2 s).log := by
  unfold gerq2_step
  rw [if_pos hg]
  simp

theorem gerq2_step_log_sub {K : Type} (larfg : LarfgFn K) (larf_work : LarfWorkFn K)
    (m n k i2 : Nat) (s : State K) (c : Call K) (hc : c ∈ s.log) :
    c ∈ (gerq2_step larfg larf_work m n k i2 s).log := by
  unfold gerq2_step
  split <;> simp [hc]

theorem gerq2_step_A_pivot_row {K : Type} (larfg : LarfgFn K) (larf_work : LarfWorkFn K)
    (m n k i2 : Nat) (s : State K) (a : Nat) (ha : a < n - i2) :
    (gerq2_step larfg larf_work m n k i2 s).A.e (m - 1 - i2) a
      = (larfg Direction.Backward StoreV.Rowwise
          (s.A.sliceRow (m - 1 - i2) 0 (n - i2))).1.e a := by
  rw [gerq2_step_A]
  split
  · rw [Mat.setSlice_e_out _ _ _ _ _ _ _ _ (by omega),
      Mat.setRowSlice_e_in _ _ _ _ _ _ _ (by omega), Nat.sub_zero]
  · rw [Mat.setRowSlice_e_in _ _ _ _ _ _ _ (by omega), Nat.sub_zero]

theorem gerq2_step_A_frame {K : Type} (larfg : LarfgFn K) (larf_work : LarfWorkFn K)
    (m n k i2 : Nat) (s : State K) (r c : Nat) (h : m - 1 - i2 < r ∨ n - i2 ≤ c) :
    (gerq2_step larfg larf_work m n k i2 s).A.e r c = s.A.e r c := by
  rw [gerq2_step_A]
  split
  · rw [Mat.setSlice_e_out _ _ _ _ _ _ _ _ (by omega),
      Mat.setRowSlice_e_out _ _ _ _ _ _ _ (by omega)]
  · rw [Mat.setRowSlice_e_out _ _ _ _ _ _ _ (by omega)]

theorem gerq2_step_A_above {K : Type} (larfg : LarfgFn K) (larf_work : LarfWorkFn K)
    (m n k i2 : Nat) (s : State K) (hg : m > i2 + 1) (i b : Nat)
    (hi : i < m - 1 - i2) (hb : b < n - i2) :
    (gerq2_step larfg larf_work m n k i2 s).A.e i b
      = (larf_work Side.Right Direction.Backward StoreV.Rowwise
              ((s.A.setRowSlice (m - 1 - i2) 0 (n - i2)
                (larfg Direction.Backward StoreV.Rowwise
                  (s.A.sliceRow (m - 1 - i2) 0 (n - i2))).1).sliceRow
                (m - 1 - i2) 0 (n - i2))
              ((s.tau.set (k - 1 - i2)
                (larfg Direction.Backward StoreV.Rowwise
                  (s.A.sliceRow (m - 1 - i2) 0 (n - i2))).2).e (k - 1 - i2))
              ((s.A.setRowSlice (m - 1 - i2) 0 (n - i2)
                (larfg Direction.Backward StoreV.Rowwise
                  (s.A.sliceRow (m - 1 - i2) 0 (n - i2))).1).slice
                0 (m - 1 - i2) 0 (n - i2))
              s.work).1.e i b := by
  rw [gerq2_step_A, if_pos hg]
  rw [Mat.setSlice_e_in _ _ _ _ _ _ _ _ (by omega), Nat.sub_zero, Nat.sub_zero]

theorem gerq2_step_spec {K : Type} [CommRing K] [StarRing K] (larfg : LarfgFn K) (larf_work : LarfWorkFn K)
    (m n k i2 : Nat) (s : State K) (hk : k = min m n) (hi2 : i2 < k)
    (hc : ∀ c ∈ (gerq2_step larfg larf_work m n k i2 s).log, c.MeetsContract) :
    (∀ r c, r < m → c < n →
      gerq2_logical m n (i2 + 1) (gerq2_step larfg larf_work m n k i2 s).A.e r c
        = applyRight n (gerq2_logical m n i2 s.A.e)
            ((gerq2_step larfg larf_work m n k i2 s).tau.e (k - 1 - i2))
            (gerq2_v m n (gerq2_step larfg larf_work m n k i2 s).A.e (k - 1 - i2)) r c) ∧
    (reflectorRow n ((gerq2_step larfg larf_work m n k i2 s).tau.e (k - 1 - i2))
        (gerq2_v m n (gerq2_step larfg larf_work m n k i2 s).A.e (k - 1 - i2))).conjTranspose
      * reflectorRow n ((gerq2_step larfg larf_work m n k i2 s).tau.e (k - 1 - i2))
        (gerq2_v m n (gerq2_step larfg larf_work m n k i2 s).A.e (k - 1 - i2)) = 1 := by
  have h1 := hc _ (gerq2_step_log_larfg larfg larf_work m n k i2 s)
  have h2 := fun hg => hc _ (gerq2_step_log_larf larfg larf_work m n k i2 s hg)
  have hrow := gerq2_step_A_pivot_row larfg larf_work m n k i2 s
  have hfr := gerq2_step_A_frame larfg larf_work m n k i2 s
  have habove := gerq2_step_A_above larfg larf_work m n k i2 s
  have htau : (gerq2_step larfg larf_work m n k i2 s).tau.e (k - 1 - i2)
      = (larfg Direction.Backward StoreV.Rowwise
          (s.A.sliceRow (m - 1 - i2) 0 (n - i2))).2 := by
    rw [gerq2_step_tau]
    simp [Vec.set]
  rw [htau]
  generalize (gerq2_step larfg larf_work m n k i2 s).A = A' at hrow hfr habove ⊢
  generalize larfg Direction.Backward StoreV.Rowwise
    (s.A.sliceRow (m - 1 - i2) 0 (n - i2)) = g at h1 h2 hrow habove ⊢
  obtain ⟨hrank, hunit⟩ := larfg_rowwise_contract _ _ _ _ _ _ _ _ h1
  simp only [Mat.sliceRow, Direction.pivot, Nat.sub_zero, Nat.zero_add] at hrank hunit
  have hunit := hunit (by omega)
  -- the stored row vector of the reflector, in full length
  have hVs : ∀ a, a < n - i2 →
      gerq2_v m n A'.e (k - 1 - i2) a = unitAt (n - i2 - 1) g.1.e a := by
    intro a ha
    have e1 : n - min m n + (k - 1 - i2) = n - i2 - 1 := by omega
    have e2 : m - min m n + (k - 1 - i2) = m - 1 - i2 := by omega
    simp only [gerq2_v, unitAt, e1, e2]
    by_cases ha1 : a < n - i2 - 1
    · rw [if_pos ha1, if_neg (by omega)]
      exact hrow a ha
    · rw [if_neg ha1, if_pos (by omega), if_pos (by omega)]
  have hV0 : ∀ a, n - i2 ≤ a → gerq2_v m n A'.e (k - 1 - i2) a = 0 := by
    intro a ha
    have e1 : n - min m n + (k - 1 - i2) = n - i2 - 1 := by omega
    simp only [gerq2_v, e1]
    rw [if_neg (by omega), if_neg (by omega)]
  have hnorm : normSq n (gerq2_v m n A'.e (k - 1 - i2))
      = normSq (n - i2) (unitAt (n - i2 - 1) g.1.e) := by
    unfold normSq
    rw [sum_range_head n (n - i2) (by omega) _ (fun a ha => by rw [hV0 a ha, zero_mul])]
    apply Finset.sum_congr rfl
    intro a ha
    rw [hVs a (Finset.mem_range.mp ha)]
  have hdot0 : ∀ r, m ≤ r + i2 → r < m →
      ∑ a in Finset.range n,
        gerq2_logical m n i2 s.A.e r a * star (gerq2_v m n A'.e (k - 1 - i2) a) = 0 := by
    intro r hr hrm
    apply Finset.sum_eq_zero
    intro a _
    by_cases hra : a < n - i2
    · have h3 : m ≤ r + i2 ∧ a + m < n + r := by omega
      simp only [gerq2_logical, if_pos h3, zero_mul]
    · rw [hV0 a (by omega), star_zero, mul_zero]
  have hdot : ∀ r, r + i2 < m →
      ∑ a in Finset.range n,
        gerq2_logical m n i2 s.A.e r a * star (gerq2_v m n A'.e (k - 1 - i2) a)
        = ∑ a in Finset.range (n - i2), s.A.e r a * star (unitAt (n - i2 - 1) g.1.e a) := by
    intro r hr
    rw [sum_range_head n (n - i2) (by omega) _
      (fun a ha => by rw [hV0 a ha, star_zero, mul_zero])]
    apply Finset.sum_congr rfl
    intro a ha
    have h3 : ¬ (m ≤ r + i2 ∧ a + m < n + r) := by omega
    rw [hVs a (Finset.mem_range.mp ha)]
    simp only [gerq2_logical, if_neg h3]
  refine ⟨?_, ?_⟩
  · intro r c hr hcn
    unfold applyRight
    rcases Nat.lt_trichotomy (r + i2 + 1) m with hlt | heq | hgt
    · -- rows above the pivot row
      rw [hdot r (by omega)]
      have h3 : ¬ (m ≤ r + (i2 + 1) ∧ c + m < n + r) := by omega
      have h4 : ¬ (m ≤ r + i2 ∧ c + m < n + r) := by omega
      simp only [gerq2_logical, if_neg h3, if_neg h4]
      by_cases hcl : n - i2 ≤ c
      · rw [hV0 c hcl, mul_zero, sub_zero, hfr r c (Or.inr hcl)]
      · have hb : c < n - i2 := by omega
        have hi : r < m - 1 - i2 := by omega
        have hg : m > i2 + 1 := by omega
        rw [habove hg r c hi hb, hVs c hb]
        have hl := larf_right_rowwise_contract _ _ _ _ _ _ _ _ _ _ _ (h2 hg) r c
          (by simp only [Mat.slice]; omega) (by simp only [Mat.slice]; omega)
        rw [hl]
        simp only [Mat.slice, Mat.sliceRow, Direction.pivot, applyRight, Vec.set, if_true,
          Nat.sub_zero, Nat.zero_add]
        have hu : ∀ a, a < n - i2 →
            unitAt (n - i2 - 1)
                (fun x => (s.A.setRowSlice (m - 1 - i2) 0 (n - i2) g.1).e (m - 1 - i2) x) a
              = unitAt (n - i2 - 1) g.1.e a := by
          intro a ha
          simp only [unitAt]
          by_cases ha0 : a = n - i2 - 1
          · rw [if_pos ha0, if_pos ha0]
          · rw [if_neg ha0, if_neg ha0, Mat.setRowSlice_e_in _ _ _ _ _ _ _ (by omega),
              Nat.sub_zero]
        rw [hu c hb, Mat.setRowSlice_e_out _ _ _ _ _ _ _ (by omega)]
        congr 3
        apply Finset.sum_congr rfl
        intro a ha
        rw [hu a (Finset.mem_range.mp ha), Mat.setRowSlice_e_out _ _ _ _ _ _ _ (by omega)]
    · -- the pivot row
      have hrp : r = m - 1 - i2 := by omega
      rw [hdot r (by omega)]
      have h4 : ¬ (m ≤ r + i2 ∧ c + m < n + r) := by omega
      simp only [gerq2_logical, if_neg h4]
      by_cases hcl : n - i2 ≤ c
      · rw [hV0 c hcl, mul_zero, sub_zero, if_neg (by omega), hfr r c (Or.inr hcl)]
      · have hb : c < n - i2 := by omega
        have := hrank c hb
        unfold applyRight at this
        rw [hVs c hb, hrp, this]
        by_cases hcp : c = n - i2 - 1
        · rw [if_pos hcp, if_neg (by omega), hcp]
          exact hrow (n - i2 - 1) (by omega)
        · rw [if_neg hcp, if_pos (by omega)]
    · -- rows reduced before
      rw [hdot0 r (by omega) hr, mul_zero, zero_mul, sub_zero]
      simp only [gerq2_logical]
      rw [hfr r c (Or.inl (by omega))]
      by_cases hrc : c + m < n + r
      · rw [if_pos ⟨by omega, hrc⟩, if_pos ⟨by omega, hrc⟩]
      · rw [if_neg (fun h => hrc h.2), if_neg (fun h => hrc h.2)]
  · exact (reflectorRow_unitary_iff n g.2 _ (n - i2 - 1) (by omega)
      (by rw [hVs _ (by omega)]; simp [unitAt])).mpr (by rw [hnorm]; exact hunit)

theorem gerq2_P_congr {K : Type} [CommRing K] [StarRing K] (m n : Nat) (e e' : Nat → Nat → K) (t t' : Nat → K) (j : Nat)
    (hj : j ≤ min m n)
    (he : ∀ r c, m ≤ r + j → e r c = e' r c) (ht : ∀ i, min m n ≤ i + j → t i = t' i) :
    gerq2_P m n e t j = gerq2_P m n e' t' j := by
  induction j with
  | zero => rfl
  | succ j ih =>
    have hv : gerq2_v m n e (min m n - 1 - j) = gerq2_v m n e' (min m n - 1 - j) := by
      funext c
      simp only [gerq2_v]
      rw [he (m - min m n + (min m n - 1 - j)) c (by omega)]
    simp only [gerq2_P]
    rw [ih (by omega) (fun r c hr => he r c (by omega)) (fun i hi => ht i (by omega)),
      ht (min m n - 1 - j) (by omega), hv]

theorem gerq2_Qseg_succ_left {K : Type} [CommRing K] [StarRing K] (m n : Nat) (e : Nat → Nat → K) (t : Nat → K) (lo len : Nat) :
    gerq2_Qseg m n e t lo (len + 1)
      = (gerq2_H m n e t lo).conjTranspose * gerq2_Qseg m n e t (lo + 1) len := by
  induction len with
  | zero => simp [gerq2_Qseg]
  | succ len ih =>
    have e1 : lo + 1 + len = lo + (len + 1) := by omega
    rw [gerq2_Qseg, ih, gerq2_Qseg, Matrix.mul_assoc, e1]

theorem gerq2_P_conjTranspose {K : Type} [CommRing K] [StarRing K] (m n : Nat) (e : Nat → Nat → K) (t : Nat → K) (j : Nat)
    (hj : j ≤ min m n) :
    (gerq2_P m n e t j).conjTranspose = gerq2_Qseg m n e t (min m n - j) j := by
  induction j with
  | zero => simp [gerq2_P, gerq2_Qseg]
  | succ j ih =>
    have e1 : min m n - (j + 1) + 1 = min m n - j := by omega
    have e2 : min m n - 1 - j = min m n - (j + 1) := by omega
    rw [gerq2_P, Matrix.conjTranspose_mul, ih (by omega), gerq2_Qseg_succ_left, e1, e2]
    rfl

theorem gerq2_Qfull_eq_Qseg {K : Type} [CommRing K] [StarRing K] (m n : Nat) (e : Nat → Nat → K) (t : Nat → K) (j : Nat) :
    gerq2_Qfull m n e t j = gerq2_Qseg m n e t 0 j := by
  induction j with
  | zero => rfl
  | succ j ih => rw [gerq2_Qfull, gerq2_Qseg, ih, Nat.zero_add]

theorem gerq2_Qfull_eq {K : Type} [CommRing K] [StarRing K] (m n : Nat) (e : Nat → Nat → K) (t : Nat → K) :
    gerq2_Qfull m n e t (min m n) = (gerq2_P m n e t (min m n)).conjTranspose := by
  rw [gerq2_P_conjTranspose m n e t (min m n) (le_refl _), Nat.sub_self, gerq2_Qfull_eq_Qseg]

/-- Invariant of the loop of `gerq2_work` after `j` steps. -/
theorem gerq2_loop_inv {K : Type} [CommRing K] [StarRing K] (larfg : LarfgFn K) (larf_work : LarfWorkFn K)
    (m n k : Nat) (s0 : State K) (hk : k = min m n) (j : Nat) (hj : j ≤ k)
    (hc : ∀ c ∈ ((List.range j).foldl
        (fun s i2 => gerq2_step larfg larf_work m n k i2 s) s0).log, c.MeetsContract) :
    matOf m n (gerq2_logical m n j ((List.range j).foldl
        (fun s i2 => gerq2_step larfg larf_work m n k i2 s) s0).A.e)
      = matOf m n s0.A.e * gerq2_P m n ((List.range j).foldl
        (fun s i2 => gerq2_step larfg larf_work m n k i2 s) s0).A.e
          ((List.range j).foldl
            (fun s i2 => gerq2_step larfg larf_work m n k i2 s) s0).tau.e j ∧
    (gerq2_P m n ((List.range j).foldl
        (fun s i2 => gerq2_step larfg larf_work m n k i2 s) s0).A.e
          ((List.range j).foldl
            (fun s i2 => gerq2_step larfg larf_work m n k i2 s) s0).tau.e j).conjTranspose
      * gerq2_P m n ((List.range j).foldl
        (fun s i2 => gerq2_step larfg larf_work m n k i2 s) s0).A.e
          ((List.range j).foldl
            (fun s i2 => gerq2_step larfg larf_work m n k i2 s) s0).tau.e j = 1 := by
  induction j with
  | zero =>
    refine ⟨?_, ?_⟩
    · simp only [List.range_zero, List.foldl_nil, gerq2_P, Matrix.mul_one]
      ext r c
      have hr := r.isLt
      have h3 : ¬ (m ≤ r.val + 0 ∧ c.val + m < n + r.val) := by omega
      simp only [matOf, gerq2_logical, Matrix.of_apply, if_neg h3]
    · simp [gerq2_P]
  | succ j ih =>
    rw [List.range_succ, List.foldl_append] at hc ⊢
    simp only [List.foldl_cons, List.foldl_nil] at hc ⊢
    generalize (List.range j).foldl
      (fun s i2 => gerq2_step larfg larf_work m n k i2 s) s0 = s at ih hc ⊢
    obtain ⟨ih1, ih2⟩ := ih (by omega)
      (fun c hcs => hc c (gerq2_step_log_sub larfg larf_work m n k j s c hcs))
    obtain ⟨hs1, hs2⟩ := gerq2_step_spec larfg larf_work m n k j s hk (by omega) hc
    have hP : gerq2_P m n (gerq2_step larfg larf_work m n k j s).A.e
        (gerq2_step larfg larf_work m n k j s).tau.e j = gerq2_P m n s.A.e s.tau.e j := by
      apply gerq2_P_congr m n _ _ _ _ j (by omega)
      · intro r c hr
        exact gerq2_step_A_frame larfg larf_work m n k j s r c (Or.inl (by omega))
      · intro i hi
        rw [gerq2_step_tau]
        have : i ≠ k - 1 - j := by omega
        simp [Vec.set, this]
    simp only [gerq2_P]
    rw [hP, ← hk]
    refine ⟨?_, ?_⟩
    · rw [← Matrix.mul_assoc, ← ih1, matOf_mul_reflectorRow]
      ext r c
      simp only [matOf, Matrix.of_apply]
      exact hs1 r.val c.val r.isLt c.isLt
    · rw [Matrix.conjTranspose_mul, Matrix.mul_assoc,
        ← Matrix.mul_assoc _ (gerq2_P m n s.A.e s.tau.e j), ih2, Matrix.one_mul, hs2]

theorem gerq2_work_eq_loop {K : Type} (larfg : LarfgFn K) (larf_work : LarfWorkFn K)
    (A : Mat K) (tau : Vec K) (work : Mat K) (hsize : min A.m A.n ≤ tau.len) :
    gerq2_work larfg larf_work A tau work
      = Outcome.returned 0
          ((List.range (min A.m A.n)).foldl
            (fun s i2 => gerq2_step larfg larf_work A.m A.n (min A.m A.n) i2 s)
            ⟨A, tau, work, []⟩) := by
  have hlt : ¬ tau.len < min A.m A.n := by omega
  simp only [gerq2_work, if_neg hlt]
  split
  · have h0 : min A.m A.n = 0 := by omega
    rw [h0]
    rfl
  · rfl

/-- Reconstruction for the kernel `gerq2_work`, whatever the workspace. -/
theorem gerq2_work_factors {K : Type} [CommRing K] [StarRing K] (larfg : LarfgFn K) (larf_work : LarfWorkFn K)
    (A : Mat K) (tau : Vec K) (work : Mat K) (hsize : min A.m A.n ≤ tau.len)
    (hcontract : ∀ c ∈ (gerq2_work larfg larf_work A tau work).state.log, c.MeetsContract) :
    ∃ out : State K,
      gerq2_work larfg larf_work A tau work = Outcome.returned 0 out ∧
      gerq2_Q A.m A.n out.A.e out.tau.e * (gerq2_Q A.m A.n out.A.e out.tau.e).conjTranspose
        = 1 ∧
      matOf A.m A.n A.e * (gerq2_Q A.m A.n out.A.e out.tau.e).conjTranspose
        = gerq2_R A.m A.n out.A.e ∧
      ∀ (i : Fin A.m) (j : Fin (min A.m A.n)),
        j.val + (A.m - min A.m A.n) < i.val → gerq2_R A.m A.n out.A.e i j = 0 := by
  rw [gerq2_work_eq_loop larfg larf_work A tau work hsize] at hcontract ⊢
  simp only [Outcome.state] at hcontract
  refine ⟨_, rfl, ?_⟩
  obtain ⟨h1, h2⟩ := gerq2_loop_inv larfg larf_work A.m A.n (min A.m A.n)
    ⟨A, tau, work, []⟩ rfl (min A.m A.n) (le_refl _) hcontract
  generalize (List.range (min A.m A.n)).foldl
    (fun s i2 => gerq2_step larfg larf_work A.m A.n (min A.m A.n) i2 s)
    ⟨A, tau, work, []⟩ = out at h1 h2 ⊢
  simp only at h1
  have hQ := gerq2_Qfull_eq A.m A.n out.A.e out.tau.e
  refine ⟨?_, ?_, ?_⟩
  · ext a b
    have := congrFun (congrFun h2
      ⟨A.n - min A.m A.n + a.val, by have := a.isLt; omega⟩)
      ⟨A.n - min A.m A.n + b.val, by have := b.isLt; omega⟩
    simp only [Matrix.mul_apply, Matrix.conjTranspose_apply, gerq2_Q, Matrix.of_apply, hQ,
      Matrix.one_apply, star_star] at this ⊢
    rw [this]
    have ha := a.isLt
    have hb := b.isLt
    by_cases hab : a = b
    · subst hab
      simp
    · have : a.val ≠ b.val := fun h => hab (Fin.ext h)
      rw [if_neg hab, if_neg]
      intro h
      have := congrArg Fin.val h
      simp only at this
      omega
  · ext r j
    have := congrFun (congrFun h1 r)
      ⟨A.n - min A.m A.n + j.val, by have := j.isLt; omega⟩
    simp only [Matrix.mul_apply, Matrix.conjTranspose_apply, gerq2_Q, Matrix.of_apply, hQ,
      gerq2_R, matOf, gerq2_logical, star_star] at this ⊢
    rw [← this]
  · intro i j hij
    have hi := i.isLt
    have hj := j.isLt
    simp only [gerq2_R, Matrix.of_apply]
    rw [if_pos (by omega)]

theorem gerq2_eq_work {K : Type} [CommRing K] [StarRing K]
    (larfg : LarfgFn K) (larf_work : LarfWorkFn K) (larf_worksize : LarfWorksizeFn K)
    (A : Mat K) (tau : Vec K) (hsize : min A.m A.n ≤ tau.len) :
    ∃ work : Mat K,
      gerq2 larfg larf_work larf_worksize A tau
        = some (gerq2_work larfg larf_work A tau work) := by
  have hlt : ¬ tau.len < min A.m A.n := by omega
  by_cases hn : A.n ≤ 0
  · refine ⟨Mat.zeros 0 0, ?_⟩
    simp only [gerq2, gerq2_work, if_pos hn, if_neg hlt]
  · by_cases hm : A.m > 1
    · have h0 : 0 < tau.len := by omega
      refine ⟨Mat.zeros
        (larf_worksize Side.Right Direction.Backward StoreV.Rowwise (A.row 0) (tau.e 0)
          (A.rows 1 A.m)).m
        (larf_worksize Side.Right Direction.Backward StoreV.Rowwise (A.row 0) (tau.e 0)
          (A.rows 1 A.m)).n, ?_⟩
      simp only [gerq2, gerq2_worksize, if_neg hn, if_pos hm, Vec.get?, if_pos h0]
    · refine ⟨Mat.zeros (WorkInfo.ofSize 0).m (WorkInfo.ofSize 0).n, ?_⟩
      simp only [gerq2, gerq2_worksize, if_neg hn, if_neg hm]

/-- C2 (RQ reconstruction, test_gerq2). If every sub-kernel invocation made
by `gerq2` on an `m`-by-`n` matrix `A` (`k = min(m, n) ≤ size(tau)`) meets
its reflector contract, then `gerq2` returns 0, the `k`-by-`n` matrix `Q`
generated from rows `m-k .. m-1` of the output and `tau` has orthonormal rows
(`Q * Qᴴ = I_k`), and `A_original * Qᴴ` equals the `m`-by-`k` block
`R = output(0:m, n-k:n)` with the reflector entries zeroed, which vanishes
below its `(m-k)`-th subdiagonal (upper triangular when `m ≤ n`, upper
trapezoidal below the `(m-n)`-th subdiagonal when `m ≥ n`). -/
theorem gerq2_reconstruction {K : Type} [CommRing K] [StarRing K]
    (larfg : LarfgFn K) (larf_work : LarfWorkFn K) (larf_worksize : LarfWorksizeFn K)
    (A : Mat K) (tau : Vec K) (hsize : min A.m A.n ≤ tau.len)
    (hcontract : ∀ o, gerq2 larfg larf_work larf_worksize A tau = some o →
      ∀ c ∈ o.state.log, c.MeetsContract) :
    ∃ out : State K,
      gerq2 larfg larf_work larf_worksize A tau = some (Outcome.returned 0 out) ∧
      gerq2_Q A.m A.n out.A.e out.tau.e * (gerq2_Q A.m A.n out.A.e out.tau.e).conjTranspose
        = 1 ∧
      matOf A.m A.n A.e * (gerq2_Q A.m A.n out.A.e out.tau.e).conjTranspose
        = gerq2_R A.m A.n out.A.e ∧
      ∀ (i : Fin A.m) (j : Fin (min A.m A.n)),
        j.val + (A.m - min A.m A.n) < i.val → gerq2_R A.m A.n out.A.e i j = 0 := by
  obtain ⟨work, hw⟩ := gerq2_eq_work larfg larf_work larf_worksize A tau hsize
  obtain ⟨out, ho, h⟩ := gerq2_work_factors larfg larf_work A tau work hsize
    (hcontract _ hw)
  exact ⟨out, by rw [hw, ho], h⟩

theorem exampleB_contracts :
    ∀ o, gerq2 larfg_exact larf_exact larf_worksize_exact exampleB exampleTau = some o →
      ∀ c ∈ o.state.log, c.MeetsContract := by
  intro o ho c hc
  have hrun : gerq2 larfg_exact larf_exact larf_worksize_exact exampleB exampleTau
      = some (Outcome.returned 0 (gerq2_step larfg_exact larf_exact 2 2 2 1
          (gerq2_step larfg_exact larf_exact 2 2 2 0
            ⟨exampleB, exampleTau, Mat.zeros 1 1, []⟩))) := by
    rfl
  rw [hrun] at ho
  cases ho
  change c ∈ (gerq2_step larfg_exact larf_exact 2 2 2 1
      (gerq2_step larfg_exact larf_exact 2 2 2 0
        ⟨exampleB, exampleTau, Mat.zeros 1 1, []⟩)).log at hc
  rcases gerq2_step_log_cases _ _ _ _ _ _ _ c hc with h | h | h
  · rcases gerq2_step_log_cases _ _ _ _ _ _ _ c h with h | h | h
    · simp at h
    · rw [h]
      apply larfg_exact_meets
      · decide
      · apply rat_sqrt_mul_self_of_sq _ 5
        simp [exampleB, Mat.ofRows, Mat.sliceRow, Direction.pivot, Finset.sum_range_succ]
        norm_num
    · rw [h]
      exact larf_exact_meets _ _ _ _ _ _ _ _ _
  · rw [h]
    apply larfg_exact_meets
    · decide
    · apply rat_sqrt_mul_self_of_sq _ _ _
      · exact (((gerq2_step larfg_exact larf_exact 2 2 2 0
          ⟨exampleB, exampleTau, Mat.zeros 1 1, []⟩).A.sliceRow 0 0 1).e 0)
      · simp [Mat.sliceRow, Direction.pivot, Finset.sum_range_succ]
  · rw [h]
    exact larf_exact_meets _ _ _ _ _ _ _ _ _

/-- Witness of C2: the run on the rational matrix with rows `(1, 2)`, `(4, 3)`. -/
theorem gerq2_reconstruction_witness :
    min exampleB.m exampleB.n ≤ exampleTau.len ∧
    (∀ o, gerq2 larfg_exact larf_exact larf_worksize_exact exampleB exampleTau = some o →
      ∀ c ∈ o.state.log, c.MeetsContract) ∧
    ∃ out : State ℚ,
      gerq2 larfg_exact larf_exact larf_worksize_exact exampleB exampleTau
        = some (Outcome.returned 0 out) ∧
      gerq2_Q exampleB.m exampleB.n out.A.e out.tau.e
        * (gerq2_Q exampleB.m exampleB.n out.A.e out.tau.e).conjTranspose
        = (1 : Matrix (Fin (min exampleB.m exampleB.n)) (Fin (min exampleB.m exampleB.n)) ℚ) ∧
      matOf exampleB.m exampleB.n exampleB.e
        * (gerq2_Q exampleB.m exampleB.n out.A.e out.tau.e).conjTranspose
        = gerq2_R exampleB.m exampleB.n out.A.e ∧
      ∀ (i : Fin exampleB.m) (j : Fin (min exampleB.m exampleB.n)),
        j.val + (exampleB.m - min exampleB.m exampleB.n) < i.val →
          gerq2_R exampleB.m exampleB.n out.A.e i j = 0 :=
  ⟨by decide, exampleB_contracts,
    gerq2_reconstruction larfg_exact larf_exact larf_worksize_exact exampleB exampleTau
      (by decide) exampleB_contracts⟩

/-! ## Return values, precondition failures, degenerate shapes -/

/-- C3. For every `m`-by-`n` matrix `A`, every `tau` with
`size(tau) ≥ min(m, n)` and every workspace, `gelq2_work` and `gerq2_work`
return 0. -/
theorem gelq2_gerq2_work_return_zero {K : Type} (larfg : LarfgFn K) (larf_work : LarfWorkFn K)
    (A : Mat K) (tau : Vec K) (work : Mat K) (hsize : min A.m A.n ≤ tau.len) :
    (gelq2_work larfg larf_work A tau work).info? = some 0 ∧
    (gerq2_work larfg larf_work A tau work).info? = some 0 := by
  have hlt : ¬ tau.len < min A.m A.n := by omega
  constructor
  · simp only [gelq2_work, if_neg hlt, Outcome.info?]
  · simp only [gerq2_work, if_neg hlt]
    split <;> rfl

/-- Witness of C3. -/
theorem gelq2_gerq2_work_return_zero_witness :
    min exampleA.m exampleA.n ≤ exampleTau.len ∧
    (gelq2_work larfg_exact larf_exact exampleA exampleTau exampleWork).info? = some 0 ∧
    (gerq2_work larfg_exact larf_exact exampleA exampleTau exampleWork).info? = some 0 :=
  ⟨by decide,
    gelq2_gerq2_work_return_zero larfg_exact larf_exact exampleA exampleTau exampleWork
      (by decide)⟩

/-- C4. `gelq2_work` and `gerq2_work` signal a precondition failure if and
only if `size(tau) < min(m, n)`, and then `A`, `tau` and the workspace are as
on entry and no sub-kernel has been invoked. -/
theorem gelq2_gerq2_work_check {K : Type} (larfg : LarfgFn K) (larf_work : LarfWorkFn K)
    (A : Mat K) (tau : Vec K) (work : Mat K) :
    ((gelq2_work larfg larf_work A tau work).failed = true ↔ tau.len < min A.m A.n) ∧
    ((gelq2_work larfg larf_work A tau work).failed = true →
      gelq2_work larfg larf_work A tau work = Outcome.checkFailed ⟨A, tau, work, []⟩) ∧
    ((gerq2_work larfg larf_work A tau work).failed = true ↔ tau.len < min A.m A.n) ∧
    ((gerq2_work larfg larf_work A tau work).failed = true →
      gerq2_work larfg larf_work A tau work = Outcome.checkFailed ⟨A, tau, work, []⟩) := by
  by_cases h : tau.len < min A.m A.n
  · simp [gelq2_work, gerq2_work, h, Outcome.failed]
  · refine ⟨?_, ?_, ?_, ?_⟩
    · simp [gelq2_work, h, Outcome.failed]
    · simp [gelq2_work, h, Outcome.failed]
    · simp only [gerq2_work, if_neg h]
      split <;> simp [Outcome.failed, h]
    · simp only [gerq2_work, if_neg h]
      split <;> simp [Outcome.failed]

/-- C5. Whenever `m = 0` or `n = 0`, `gelq2_work` and `gerq2_work` return 0
with an empty trace (neither `larfg` nor `larf_work` is invoked) and leave
`A`, `tau` and the workspace unchanged. -/
theorem gelq2_gerq2_work_degenerate {K : Type} (larfg : LarfgFn K) (larf_work : LarfWorkFn K)
    (A : Mat K) (tau : Vec K) (work : Mat K) (h : A.m = 0 ∨ A.n = 0) :
    gelq2_work larfg larf_work A tau work = Outcome.returned 0 ⟨A, tau, work, []⟩ ∧
    gerq2_work larfg larf_work A tau work = Outcome.returned 0 ⟨A, tau, work, []⟩ := by
  have hk : min A.m A.n = 0 := by omega
  have hlt : ¬ tau.len < 0 := by omega
  constructor
  · simp only [gelq2_work, hk, if_neg hlt, List.range_zero, List.foldl_nil]
  · simp only [gerq2_work, hk, if_neg hlt, List.range_zero, List.foldl_nil]
    split <;> rfl

/-- Witness of C5: a 2-by-0 matrix. -/
theorem gelq2_gerq2_work_degenerate_witness :
    (exampleEmpty.m = 0 ∨ exampleEmpty.n = 0) ∧
    gelq2_work larfg_exact larf_exact exampleEmpty exampleTauEmpty exampleWork
      = Outcome.returned 0 ⟨exampleEmpty, exampleTauEmpty, exampleWork, []⟩ ∧
    gerq2_work larfg_exact larf_exact exampleEmpty exampleTauEmpty exampleWork
      = Outcome.returned 0 ⟨exampleEmpty, exampleTauEmpty, exampleWork, []⟩ :=
  ⟨by decide,
    gelq2_gerq2_work_degenerate larfg_exact larf_exact exampleEmpty exampleTauEmpty
      exampleWork (by decide)⟩

/-! ## Workspace queries -/

theorem larf_worksize_exact_shapeOnly {K : Type} :
    LarfWorksizeShapeOnly (larf_worksize_exact : LarfWorksizeFn K) := by
  intro side d st v v' t t' C C' _ hm hn
  cases side <;> simp [larf_worksize_exact, hm, hn]

theorem larf_worksize_exact_monotone {K : Type} :
    LarfWorksizeMonotone (larf_worksize_exact : LarfWorksizeFn K) := by
  intro side d st v v' t t' C C' hm hn
  cases side <;> simp [larf_worksize_exact, WorkInfo.le, WorkInfo.ofSize, hm, hn]

/-- Shape-only sizing where `tau[0]` exists.  For a `larf_worksize` that reads
shapes only and two matrices of the same shape, whatever their entries and
whatever the entries of `tau`, `tau'`: `gelq2_worksize` and `gerq2_worksize`
return the same `WorkInfo` whenever both return one, they have the same
outcome when `tau` and `tau'` are both empty or both non-empty, and they do
return a `WorkInfo` when `m ≤ 1` or `tau` is non-empty. -/
theorem worksize_shape_only {K : Type} (lw : LarfWorksizeFn K)
    (A A' : Mat K) (tau tau' : Vec K)
    (hlw : LarfWorksizeShapeOnly lw) (hm : A.m = A'.m) (hn : A.n = A'.n) :
    (∀ w w', gelq2_worksize lw A tau = some w → gelq2_worksize lw A' tau' = some w' →
      w = w') ∧
    (∀ w w', gerq2_worksize lw A tau = some w → gerq2_worksize lw A' tau' = some w' →
      w = w') ∧
    ((0 < tau.len ↔ 0 < tau'.len) →
      gelq2_worksize lw A tau = gelq2_worksize lw A' tau' ∧
      gerq2_worksize lw A tau = gerq2_worksize lw A' tau') ∧
    (A.m ≤ 1 ∨ 0 < tau.len →
      (∃ w, gelq2_worksize lw A tau = some w) ∧ (∃ w, gerq2_worksize lw A tau = some w)) := by
  have key : ∀ d, lw Side.Right d StoreV.Rowwise (A.row 0) (tau.e 0) (A.rows 1 A.m)
      = lw Side.Right d StoreV.Rowwise (A'.row 0) (tau'.e 0) (A'.rows 1 A'.m) := by
    intro d
    apply hlw
    · simp [Mat.row, Mat.sliceRow, hn]
    · simp [Mat.rows, Mat.slice, hm]
    · simp [Mat.rows, Mat.slice, hn]
  by_cases h1 : A.m > 1
  · have h1' : A'.m > 1 := by omega
    by_cases ht : 0 < tau.len <;> by_cases ht' : 0 < tau'.len <;>
      simp [gelq2_worksize, gerq2_worksize, h1, h1', Vec.get?, ht, ht', key]
  · have h1' : ¬ A'.m > 1 := by omega
    simp [gelq2_worksize, gerq2_worksize, h1, h1']

/-- Two 2-by-2 matrices with different entries and two `tau` with different
entries and lengths receive the same sizes. -/
theorem worksize_shape_only_witness :
    LarfWorksizeShapeOnly (larf_worksize_exact : LarfWorksizeFn ℚ) ∧
    exampleA.m = exampleB.m ∧ exampleA.n = exampleB.n ∧
    (∀ w w', gelq2_worksize larf_worksize_exact exampleA exampleTau = some w →
      gelq2_worksize larf_worksize_exact exampleB exampleTauOne = some w' → w = w') ∧
    (∀ w w', gerq2_worksize larf_worksize_exact exampleA exampleTau = some w →
      gerq2_worksize larf_worksize_exact exampleB exampleTauOne = some w' → w = w') ∧
    ((0 < exampleTau.len ↔ 0 < exampleTauOne.len) →
      gelq2_worksize larf_worksize_exact exampleA exampleTau
        = gelq2_worksize larf_worksize_exact exampleB exampleTauOne ∧
      gerq2_worksize larf_worksize_exact exampleA exampleTau
        = gerq2_worksize larf_worksize_exact exampleB exampleTauOne) ∧
    (exampleA.m ≤ 1 ∨ 0 < exampleTau.len →
      (∃ w, gelq2_worksize larf_worksize_exact exampleA exampleTau = some w) ∧
      (∃ w, gerq2_worksize larf_worksize_exact exampleA exampleTau = some w)) :=
  ⟨larf_worksize_exact_shapeOnly, rfl, rfl,
    worksize_shape_only larf_worksize_exact exampleA exampleB exampleTau exampleTauOne
      larf_worksize_exact_shapeOnly rfl rfl⟩

theorem foldl_log_forall {K : Type} (f : State K → Nat → State K) (P : Call K → Prop)
    (l : List Nat)
    (hf : ∀ s j, j ∈ l → (∀ c ∈ s.log, P c) → ∀ c ∈ (f s j).log, P c)
    (s0 : State K) (h0 : ∀ c ∈ s0.log, P c) :
    ∀ c ∈ (l.foldl f s0).log, P c := by
  induction l generalizing s0 with
  | nil => exact h0
  | cons j l ih =>
    rw [List.foldl_cons]
    exact ih (fun s i hi => hf s i (List.mem_cons_of_mem j hi)) (f s0 j)
      (hf s0 j (List.mem_cons_self j l) h0)

theorem foldl_log_mono {K : Type} (f : State K → Nat → State K)
    (hf : ∀ s j c, c ∈ s.log → c ∈ (f s j).log)
    (l : List Nat) (s0 : State K) (c : Call K) (h0 : c ∈ s0.log) :
    c ∈ (l.foldl f s0).log := by
  induction l generalizing s0 with
  | nil => exact h0
  | cons j l ih =>
    rw [List.foldl_cons]
    exact ih (f s0 j) (hf s0 j c h0)

theorem gelq2_step_no_larf {K : Type} (larfg : LarfgFn K) (larf_work : LarfWorkFn K)
    (m n k j : Nat) (s : State K) (hg : ¬ (j < k - 1 ∨ k < m))
    (h : ∀ c ∈ s.log, c.isLarf = false) :
    ∀ c ∈ (gelq2_step larfg larf_work m n k j s).log, c.isLarf = false := by
  intro c hc
  unfold gelq2_step at hc
  rw [if_neg hg] at hc
  simp only [List.mem_append, List.mem_singleton] at hc
  rcases hc with hc | hc
  · exact h c hc
  · rw [hc]
    rfl

theorem gerq2_step_no_larf {K : Type} (larfg : LarfgFn K) (larf_work : LarfWorkFn K)
    (m n k i2 : Nat) (s : State K) (hg : ¬ (m > i2 + 1))
    (h : ∀ c ∈ s.log, c.isLarf = false) :
    ∀ c ∈ (gerq2_step larfg larf_work m n k i2 s).log, c.isLarf = false := by
  intro c hc
  unfold gerq2_step at hc
  rw [if_neg hg] at hc
  simp only [List.mem_append, List.mem_singleton] at hc
  rcases hc with hc | hc
  · exact h c hc
  · rw [hc]
    rfl

/-- Every block handed to `larf_work` by the loop of `gelq2_work` has at most
`m - 1` rows and at most `n` columns. -/
theorem gelq2_loop_blocks {K : Type} (larfg : LarfgFn K) (larf_work : LarfWorkFn K)
    (m n k : Nat) (l : List Nat) (s0 : State K) (h0 : s0.log = []) :
    ∀ c ∈ (l.foldl (fun s j => gelq2_step larfg larf_work m n k j s) s0).log,
      ∀ C, c.block? = some C → C.m ≤ m - 1 ∧ C.n ≤ n := by
  apply foldl_log_forall
  · intro s j _ hs c hc
    rcases gelq2_step_log_cases larfg larf_work m n k j s c hc with h | h | h
    · exact hs c h
    · rw [h]
      intro C hC
      simp [Call.block?] at hC
    · rw [h]
      intro C hC
      simp only [Call.block?, Option.some.injEq] at hC
      rw [← hC]
      simp only [Mat.slice]
      omega
  · rw [h0]
    intro c hc
    simp at hc

/-- Every block handed to `larf_work` by the loop of `gerq2_work` has at most
`m - 1` rows and at most `n` columns. -/
theorem gerq2_loop_blocks {K : Type} (larfg : LarfgFn K) (larf_work : LarfWorkFn K)
    (m n k : Nat) (l : List Nat) (s0 : State K) (h0 : s0.log = []) :
    ∀ c ∈ (l.foldl (fun s i2 => gerq2_step larfg larf_work m n k i2 s) s0).log,
      ∀ C, c.block? = some C → C.m ≤ m - 1 ∧ C.n ≤ n := by
  apply foldl_log_forall
  · intro s j _ hs c hc
    rcases gerq2_step_log_cases larfg larf_work m n k j s c hc with h | h | h
    · exact hs c h
    · rw [h]
      intro C hC
      simp [Call.block?] at hC
    · rw [h]
      intro C hC
      simp only [Call.block?, Option.some.injEq] at hC
      rw [← hC]
      simp only [Mat.slice]
      omega
  · rw [h0]
    intro c hc
    simp at hc

theorem gelq2_work_blocks {K : Type} (larfg : LarfgFn K) (larf_work : LarfWorkFn K)
    (A : Mat K) (tau : Vec K) (work : Mat K) :
    ∀ c ∈ (gelq2_work larfg larf_work A tau work).state.log,
      ∀ C, c.block? = some C → C.m ≤ A.m - 1 ∧ C.n ≤ A.n := by
  simp only [gelq2_work]
  split
  · intro c hc
    simp [Outcome.state] at hc
  · exact gelq2_loop_blocks larfg larf_work A.m A.n (min A.m A.n) _ _ rfl

theorem gerq2_work_blocks {K : Type} (larfg : LarfgFn K) (larf_work : LarfWorkFn K)
    (A : Mat K) (tau : Vec K) (work : Mat K) :
    ∀ c ∈ (gerq2_work larfg larf_work A tau work).state.log,
      ∀ C, c.block? = some C → C.m ≤ A.m - 1 ∧ C.n ≤ A.n := by
  simp only [gerq2_work]
  split
  · intro c hc
    simp [Outcome.state] at hc
  · split
    · intro c hc
      simp [Outcome.state] at hc
    · exact gerq2_loop_blocks larfg larf_work A.m A.n (min A.m A.n) _ _ rfl

theorem gelq2_work_no_larf {K : Type} (larfg : LarfgFn K) (larf_work : LarfWorkFn K)
    (A : Mat K) (tau : Vec K) (work : Mat K) (hm : A.m ≤ 1) :
    ∀ c ∈ (gelq2_work larfg larf_work A tau work).state.log, c.isLarf = false := by
  simp only [gelq2_work]
  split
  · intro c hc
    simp [Outcome.state] at hc
  · apply foldl_log_forall
    · intro s j hj hs
      have hj' := List.mem_range.mp hj
      exact gelq2_step_no_larf larfg larf_work _ _ _ j s (by omega) hs
    · intro c hc
      simp at hc

theorem gerq2_work_no_larf {K : Type} (larfg : LarfgFn K) (larf_work : LarfWorkFn K)
    (A : Mat K) (tau : Vec K) (work : Mat K) (hm : A.m ≤ 1) :
    ∀ c ∈ (gerq2_work larfg larf_work A tau work).state.log, c.isLarf = false := by
  simp only [gerq2_work]
  split
  · intro c hc
    simp [Outcome.state] at hc
  · split
    · intro c hc
      simp [Outcome.state] at hc
    · apply foldl_log_forall
      · intro s j _ hs
        exact gerq2_step_no_larf larfg larf_work _ _ _ j s (by omega) hs
      · intro c hc
        simp at hc

theorem gelq2_work_worksizes {K : Type} (larfg : LarfgFn K) (larf_work : LarfWorkFn K)
    (lw : LarfWorksizeFn K) (hmono : LarfWorksizeMonotone lw)
    (A : Mat K) (tau : Vec K) (work : Mat K) (v0 : Vec K) (t0 : K) :
    ∀ c ∈ (gelq2_work larfg larf_work A tau work).state.log,
      ∀ wi, c.worksize? lw = some wi →
        wi.le (lw Side.Right Direction.Forward StoreV.Rowwise v0 t0 (A.rows 1 A.m)) := by
  simp only [gelq2_work]
  split
  · intro c hc
    simp [Outcome.state] at hc
  · apply foldl_log_forall
    · intro s j _ hs c hc
      rcases gelq2_step_log_cases larfg larf_work _ _ _ j s c hc with h | h | h
      · exact hs c h
      · rw [h]
        intro wi hwi
        simp [Call.worksize?] at hwi
      · rw [h]
        intro wi hwi
        simp only [Call.worksize?, Option.some.injEq] at hwi
        rw [← hwi]
        apply hmono
        · simp only [Mat.rows, Mat.slice]
          omega
        · simp only [Mat.rows, Mat.slice]
          omega
    · intro c hc
      simp at hc

theorem gerq2_work_worksizes {K : Type} (larfg : LarfgFn K) (larf_work : LarfWorkFn K)
    (lw : LarfWorksizeFn K) (hmono : LarfWorksizeMonotone lw)
    (A : Mat K) (tau : Vec K) (work : Mat K) (v0 : Vec K) (t0 : K) :
    ∀ c ∈ (gerq2_work larfg larf_work A tau work).state.log,
      ∀ wi, c.worksize? lw = some wi →
        wi.le (lw Side.Right Direction.Backward StoreV.Rowwise v0 t0 (A.rows 1 A.m)) := by
  simp only [gerq2_work]
  split
  · intro c hc
    simp [Outcome.state] at hc
  · split
    · intro c hc
      simp [Outcome.state] at hc
    · apply foldl_log_forall
      · intro s j _ hs c hc
        rcases gerq2_step_log_cases larfg larf_work _ _ _ j s c hc with h | h | h
        · exact hs c h
        · rw [h]
          intro wi hwi
          simp [Call.worksize?] at hwi
        · rw [h]
          intro wi hwi
          simp only [Call.worksize?, Option.some.injEq] at hwi
          rw [← hwi]
          apply hmono
          · simp only [Mat.rows, Mat.slice]
            omega
          · simp only [Mat.rows, Mat.slice]
            omega
      · intro c hc
        simp at hc

theorem worksize?_of_not_larf {K : Type} (lw : LarfWorksizeFn K) (c : Call K)
    (h : c.isLarf = false) : c.worksize? lw = none := by
  cases c with
  | larfg => rfl
  | larf_work => simp [Call.isLarf] at h

/-- C7 (workspace sufficiency). For `gelq2_work` and for `gerq2_work` on an
`m`-by-`n` matrix: every block `C` passed to `larf_work` has at most `m - 1`
rows and at most `n` columns; when `m ≤ 1` the query returns `WorkInfo(0)`
and `larf_work` is never invoked; and for a `larf_worksize` monotone in the
shape of `C`, the queried size bounds `larf_worksize` of every sub-call. -/
theorem workspace_sufficiency {K : Type} (larfg : LarfgFn K) (larf_work : LarfWorkFn K)
    (lw : LarfWorksizeFn K) (A : Mat K) (tau : Vec K) (work : Mat K)
    (hmono : LarfWorksizeMonotone lw) :
    ((∀ c ∈ (gelq2_work larfg larf_work A tau work).state.log,
        ∀ C, c.block? = some C → C.m ≤ A.m - 1 ∧ C.n ≤ A.n) ∧
     (A.m ≤ 1 → gelq2_worksize lw A tau = some (WorkInfo.ofSize 0) ∧
        ∀ c ∈ (gelq2_work larfg larf_work A tau work).state.log, c.isLarf = false) ∧
     (∀ w, gelq2_worksize lw A tau = some w →
        ∀ c ∈ (gelq2_work larfg larf_work A tau work).state.log,
          ∀ wi, c.worksize? lw = some wi → wi.le w)) ∧
    ((∀ c ∈ (gerq2_work larfg larf_work A tau work).state.log,
        ∀ C, c.block? = some C → C.m ≤ A.m - 1 ∧ C.n ≤ A.n) ∧
     (A.m ≤ 1 → gerq2_worksize lw A tau = some (WorkInfo.ofSize 0) ∧
        ∀ c ∈ (gerq2_work larfg larf_work A tau work).state.log, c.isLarf = false) ∧
     (∀ w, gerq2_worksize lw A tau = some w →
        ∀ c ∈ (gerq2_work larfg larf_work A tau work).state.log,
          ∀ wi, c.worksize? lw = some wi → wi.le w)) := by
  refine ⟨⟨gelq2_work_blocks larfg larf_work A tau work, ?_, ?_⟩,
    ⟨gerq2_work_blocks larfg larf_work A tau work, ?_, ?_⟩⟩
  · intro hm
    have h1 : ¬ A.m > 1 := by omega
    exact ⟨by simp only [gelq2_worksize, if_neg h1],
      gelq2_work_no_larf larfg larf_work A tau work hm⟩
  · intro w hw c hc wi hwi
    by_cases h1 : A.m > 1
    · simp only [gelq2_worksize, if_pos h1] at hw
      split at hw
      · simp at hw
      · simp only [Option.some.injEq] at hw
        rw [← hw]
        exact gelq2_work_worksizes larfg larf_work lw hmono A tau work _ _ c hc wi hwi
    · have := worksize?_of_not_larf lw c
        (gelq2_work_no_larf larfg larf_work A tau work (by omega) c hc)
      rw [this] at hwi
      simp at hwi
  · intro hm
    have h1 : ¬ A.m > 1 := by omega
    exact ⟨by simp only [gerq2_worksize, if_neg h1],
      gerq2_work_no_larf larfg larf_work A tau work hm⟩
  · intro w hw c hc wi hwi
    by_cases h1 : A.m > 1
    · simp only [gerq2_worksize, if_pos h1] at hw
      split at hw
      · simp at hw
      · simp only [Option.some.injEq] at hw
        rw [← hw]
        exact gerq2_work_worksizes larfg larf_work lw hmono A tau work _ _ c hc wi hwi
    · have := worksize?_of_not_larf lw c
        (gerq2_work_no_larf larfg larf_work A tau work (by omega) c hc)
      rw [this] at hwi
      simp at hwi

/-- Witness of C7: the 2-by-2 rational example with the one-vector query. -/
theorem workspace_sufficiency_witness :
    LarfWorksizeMonotone (larf_worksize_exact : LarfWorksizeFn ℚ) ∧
    ((∀ c ∈ (gelq2_work larfg_exact larf_exact exampleA exampleTau exampleWork).state.log,
        ∀ C, c.block? = some C → C.m ≤ exampleA.m - 1 ∧ C.n ≤ exampleA.n) ∧
     (exampleA.m ≤ 1 →
        gelq2_worksize larf_worksize_exact exampleA exampleTau = some (WorkInfo.ofSize 0) ∧
        ∀ c ∈ (gelq2_work larfg_exact larf_exact exampleA exampleTau exampleWork).state.log,
          c.isLarf = false) ∧
     (∀ w, gelq2_worksize larf_worksize_exact exampleA exampleTau = some w →
        ∀ c ∈ (gelq2_work larfg_exact larf_exact exampleA exampleTau exampleWork).state.log,
          ∀ wi, c.worksize? larf_worksize_exact = some wi → wi.le w)) ∧
    ((∀ c ∈ (gerq2_work larfg_exact larf_exact exampleA exampleTau exampleWork).state.log,
        ∀ C, c.block? = some C → C.m ≤ exampleA.m - 1 ∧ C.n ≤ exampleA.n) ∧
     (exampleA.m ≤ 1 →
        gerq2_worksize larf_worksize_exact exampleA exampleTau = some (WorkInfo.ofSize 0) ∧
        ∀ c ∈ (gerq2_work larfg_exact larf_exact exampleA exampleTau exampleWork).state.log,
          c.isLarf = false) ∧
     (∀ w, gerq2_worksize larf_worksize_exact exampleA exampleTau = some w →
        ∀ c ∈ (gerq2_work larfg_exact larf_exact exampleA exampleTau exampleWork).state.log,
          ∀ wi, c.worksize? larf_worksize_exact = some wi → wi.le w)) :=
  ⟨larf_worksize_exact_monotone,
    workspace_sufficiency larfg_exact larf_exact larf_worksize_exact exampleA exampleTau
      exampleWork larf_worksize_exact_monotone⟩

theorem WorkInfo.le_refl (a : WorkInfo) : a.le a :=
  ⟨Nat.le_refl _, Nat.le_refl _⟩

theorem WorkInfo.le_trans {a b c : WorkInfo} (h1 : a.le b) (h2 : b.le c) : a.le c :=
  ⟨Nat.le_trans h1.1 h2.1, Nat.le_trans h1.2 h2.2⟩

theorem WorkInfo.le_antisymm {a b : WorkInfo} (h1 : a.le b) (h2 : b.le a) : a = b := by
  cases a
  cases b
  simp only [WorkInfo.le] at h1 h2
  simp only [WorkInfo.mk.injEq]
  omega

theorem WorkInfo.le_sup_left (a b : WorkInfo) : a.le (a.sup b) :=
  ⟨Nat.le_max_left _ _, Nat.le_max_left _ _⟩

theorem WorkInfo.le_sup_right (a b : WorkInfo) : b.le (a.sup b) :=
  ⟨Nat.le_max_right _ _, Nat.le_max_right _ _⟩

theorem WorkInfo.sup_le {a b c : WorkInfo} (h1 : a.le c) (h2 : b.le c) : (a.sup b).le c :=
  ⟨Nat.max_le.mpr ⟨h1.1, h2.1⟩, Nat.max_le.mpr ⟨h1.2, h2.2⟩⟩

theorem WorkInfo.foldl_sup_le (W : WorkInfo) (xs : List WorkInfo) (acc : WorkInfo)
    (hacc : acc.le W) (hxs : ∀ x ∈ xs, x.le W) : (xs.foldl WorkInfo.sup acc).le W := by
  induction xs generalizing acc with
  | nil => exact hacc
  | cons x xs ih =>
    rw [List.foldl_cons]
    exact ih (acc.sup x) (WorkInfo.sup_le hacc (hxs x (List.mem_cons_self x xs)))
      (fun y hy => hxs y (List.mem_cons_of_mem x hy))

theorem WorkInfo.le_foldl_sup (xs : List WorkInfo) (acc : WorkInfo) :
    acc.le (xs.foldl WorkInfo.sup acc) ∧ ∀ x ∈ xs, x.le (xs.foldl WorkInfo.sup acc) := by
  induction xs generalizing acc with
  | nil =>
    refine ⟨WorkInfo.le_refl acc, ?_⟩
    intro x hx
    simp at hx
  | cons y ys ih =>
    rw [List.foldl_cons]
    obtain ⟨h1, h2⟩ := ih (acc.sup y)
    refine ⟨WorkInfo.le_trans (WorkInfo.le_sup_left acc y) h1, ?_⟩
    intro x hx
    rcases List.mem_cons.mp hx with h | h
    · rw [h]
      exact WorkInfo.le_trans (WorkInfo.le_sup_right acc y) h1
    · exact h2 x h

/-- The elementwise maximum over a list is its greatest element, when it has one. -/
theorem WorkInfo.maxOver_eq (W : WorkInfo) (l : List WorkInfo)
    (hle : ∀ x ∈ l, x.le W) (hmem : ∃ x ∈ l, W.le x) : WorkInfo.maxOver l = W := by
  cases l with
  | nil =>
    obtain ⟨x, hx, _⟩ := hmem
    simp at hx
  | cons y ys =>
    simp only [WorkInfo.maxOver]
    apply WorkInfo.le_antisymm
    · exact WorkInfo.foldl_sup_le W ys y (hle y (List.mem_cons_self y ys))
        (fun x hx => hle x (List.mem_cons_of_mem y hx))
    · obtain ⟨x, hx, hWx⟩ := hmem
      obtain ⟨h1, h2⟩ := WorkInfo.le_foldl_sup ys y
      rcases List.mem_cons.mp hx with h | h
      · rw [h] at hWx
        exact WorkInfo.le_trans hWx h1
      · exact WorkInfo.le_trans hWx (h2 x h)

theorem filterMap_worksize_nil {K : Type} (lw : LarfWorksizeFn K) (l : List (Call K))
    (h : ∀ c ∈ l, c.isLarf = false) : l.filterMap (Call.worksize? lw) = [] := by
  induction l with
  | nil => rfl
  | cons c cs ih =>
    rw [List.filterMap_cons, worksize?_of_not_larf lw c (h c (List.mem_cons_self c cs))]
    exact ih (fun d hd => h d (List.mem_cons_of_mem c hd))

theorem gelq2_first_larf_mem {K : Type} (larfg : LarfgFn K) (larf_work : LarfWorkFn K)
    (lw : LarfWorksizeFn K) (hmono : LarfWorksizeMonotone lw)
    (A : Mat K) (tau : Vec K) (work : Mat K) (v0 : Vec K) (t0 : K)
    (hsize : min A.m A.n ≤ tau.len) (hm : 1 < A.m) (hn : 1 ≤ A.n) :
    ∃ x ∈ (gelq2_work larfg larf_work A tau work).state.log.filterMap (Call.worksize? lw),
      (lw Side.Right Direction.Forward StoreV.Rowwise v0 t0 (A.rows 1 A.m)).le x := by
  rw [gelq2_work_eq_loop larfg larf_work A tau work hsize]
  obtain ⟨k', hk'⟩ : ∃ k', min A.m A.n = k' + 1 := ⟨min A.m A.n - 1, by omega⟩
  have hg : 0 < min A.m A.n - 1 ∨ min A.m A.n < A.m := by omega
  have hmem := gelq2_step_log_larf larfg larf_work A.m A.n (min A.m A.n) 0
    ⟨A, tau, work, []⟩ hg
  simp only [Outcome.state]
  generalize hkk : min A.m A.n = k at hmem hk' ⊢
  subst hk'
  rw [List.range_succ_eq_map, List.foldl_cons]
  have hmem' := foldl_log_mono (fun s j => gelq2_step larfg larf_work A.m A.n (k' + 1) j s)
    (fun s j c hc => gelq2_step_log_sub larfg larf_work A.m A.n (k' + 1) j s c hc)
    ((List.range k').map Nat.succ) _ _ hmem
  refine ⟨_, List.mem_filterMap.mpr ⟨_, hmem', rfl⟩, ?_⟩
  apply hmono
  · simp only [Mat.rows, Mat.slice, Mat.setRowSlice]
    omega
  · simp only [Mat.rows, Mat.slice, Mat.setRowSlice]
    omega

theorem gerq2_first_larf_mem {K : Type} (larfg : LarfgFn K) (larf_work : LarfWorkFn K)
    (lw : LarfWorksizeFn K) (hmono : LarfWorksizeMonotone lw)
    (A : Mat K) (tau : Vec K) (work : Mat K) (v0 : Vec K) (t0 : K)
    (hsize : min A.m A.n ≤ tau.len) (hm : 1 < A.m) (hn : 1 ≤ A.n) :
    ∃ x ∈ (gerq2_work larfg larf_work A tau work).state.log.filterMap (Call.worksize? lw),
      (lw Side.Right Direction.Backward StoreV.Rowwise v0 t0 (A.rows 1 A.m)).le x := by
  rw [gerq2_work_eq_loop larfg larf_work A tau work hsize]
  obtain ⟨k', hk'⟩ : ∃ k', min A.m A.n = k' + 1 := ⟨min A.m A.n - 1, by omega⟩
  have hg : A.m > 0 + 1 := by omega
  have hmem := gerq2_step_log_larf larfg larf_work A.m A.n (min A.m A.n) 0
    ⟨A, tau, work, []⟩ hg
  simp only [Outcome.state]
  generalize hkk : min A.m A.n = k at hmem hk' ⊢
  subst hk'
  rw [List.range_succ_eq_map, List.foldl_cons]
  have hmem' := foldl_log_mono (fun s j => gerq2_step larfg larf_work A.m A.n (k' + 1) j s)
    (fun s j c hc => gerq2_step_log_sub larfg larf_work A.m A.n (k' + 1) j s c hc)
    ((List.range k').map Nat.succ) _ _ hmem
  refine ⟨_, List.mem_filterMap.mpr ⟨_, hmem', rfl⟩, ?_⟩
  apply hmono
  · simp only [Mat.rows, Mat.slice, Mat.setRowSlice]
    omega
  · simp only [Mat.rows, Mat.slice, Mat.setRowSlice]
    omega

/-- C8 as amended (composability of sizing). For a `larf_worksize` monotone in
the shape of `C`, a `tau` with `size(tau) ≥ min(m, n)`, and a shape with
`n ≥ 1` or `m ≤ 1`: the `WorkInfo` returned by `gelq2_worksize` (resp.
`gerq2_worksize`) is the elementwise maximum of `larf_worksize` over exactly
the invocations of `larf_work` made by `gelq2_work` (resp. `gerq2_work`), the
maximum over no invocation being `WorkInfo(0)`. -/
theorem worksize_eq_max {K : Type} (larfg : LarfgFn K) (larf_work : LarfWorkFn K)
    (lw : LarfWorksizeFn K) (A : Mat K) (tau : Vec K) (work : Mat K)
    (hmono : LarfWorksizeMonotone lw) (hsize : min A.m A.n ≤ tau.len)
    (hshape : 1 ≤ A.n ∨ A.m ≤ 1) :
    gelq2_worksize lw A tau
      = some (WorkInfo.maxOver
          ((gelq2_work larfg larf_work A tau work).state.log.filterMap
            (Call.worksize? lw))) ∧
    gerq2_worksize lw A tau
      = some (WorkInfo.maxOver
          ((gerq2_work larfg larf_work A tau work).state.log.filterMap
            (Call.worksize? lw))) := by
  by_cases h1 : A.m > 1
  · have hn : 1 ≤ A.n := by omega
    have ht : 0 < tau.len := by omega
    constructor
    · simp only [gelq2_worksize, if_pos h1, Vec.get?, if_pos ht]
      rw [WorkInfo.maxOver_eq _ _
        (fun x hx => by
          obtain ⟨c, hc, hcx⟩ := List.mem_filterMap.mp hx
          exact gelq2_work_worksizes larfg larf_work lw hmono A tau work (A.row 0) (tau.e 0)
            c hc x hcx)
        (gelq2_first_larf_mem larfg larf_work lw hmono A tau work (A.row 0) (tau.e 0)
          hsize h1 hn)]
    · simp only [gerq2_worksize, if_pos h1, Vec.get?, if_pos ht]
      rw [WorkInfo.maxOver_eq _ _
        (fun x hx => by
          obtain ⟨c, hc, hcx⟩ := List.mem_filterMap.mp hx
          exact gerq2_work_worksizes larfg larf_work lw hmono A tau work (A.row 0) (tau.e 0)
            c hc x hcx)
        (gerq2_first_larf_mem larfg larf_work lw hmono A tau work (A.row 0) (tau.e 0)
          hsize h1 hn)]
  · constructor
    · rw [filterMap_worksize_nil lw _
        (gelq2_work_no_larf larfg larf_work A tau work (by omega))]
      simp only [gelq2_worksize, if_neg h1, WorkInfo.maxOver]
    · rw [filterMap_worksize_nil lw _
        (gerq2_work_no_larf larfg larf_work A tau work (by omega))]
      simp only [gerq2_worksize, if_neg h1, WorkInfo.maxOver]

/-- Witness of C8 as amended: the 2-by-2 rational example. -/
theorem worksize_eq_max_witness :
    LarfWorksizeMonotone (larf_worksize_exact : LarfWorksizeFn ℚ) ∧
    min exampleA.m exampleA.n ≤ exampleTau.len ∧
    (1 ≤ exampleA.n ∨ exampleA.m ≤ 1) ∧
    gelq2_worksize larf_worksize_exact exampleA exampleTau
      = some (WorkInfo.maxOver
          ((gelq2_work larfg_exact larf_exact exampleA exampleTau exampleWork).state.log.filterMap
            (Call.worksize? larf_worksize_exact))) ∧
    gerq2_worksize larf_worksize_exact exampleA exampleTau
      = some (WorkInfo.maxOver
          ((gerq2_work larfg_exact larf_exact exampleA exampleTau exampleWork).state.log.filterMap
            (Call.worksize? larf_worksize_exact))) :=
  ⟨larf_worksize_exact_monotone, by decide, by decide,
    worksize_eq_max larfg_exact larf_exact larf_worksize_exact exampleA exampleTau exampleWork
      larf_worksize_exact_monotone (by decide) (by decide)⟩

/-- Counterexample to C8 as stated: for a 2-by-0 matrix `gelq2_work` makes no
invocation of `larf_work` (the maximum over no invocation is `WorkInfo(0)`),
while `gelq2_worksize` returns `larf_worksize` of the 1-by-0 block, which is
`WorkInfo(1)` for the one-vector query. -/
theorem worksize_eq_max_counterexample :
    (gelq2_work larfg_exact larf_exact exampleEmpty exampleTauOne exampleWork).state.log.filterMap
        (Call.worksize? larf_worksize_exact) = [] ∧
    gelq2_worksize larf_worksize_exact exampleEmpty exampleTauOne
      = some (WorkInfo.ofSize 1) ∧
    gelq2_worksize larf_worksize_exact exampleEmpty exampleTauOne
      ≠ some (WorkInfo.maxOver
          ((gelq2_work larfg_exact larf_exact exampleEmpty exampleTauOne exampleWork).state.log.filterMap
            (Call.worksize? larf_worksize_exact))) := by
  refine ⟨rfl, rfl, ?_⟩
  decide

/-- C6, evaluated at the failing input: for one and the same 2-by-0 matrix
(so `k = min(m, n) = 0`), whatever the `larf_worksize` sub-kernel, both
workspace queries index `tau[0]` out of range when `tau` is empty and return
the `WorkInfo` of `larf_worksize` when `tau = [0]`: because the queries
evaluate `tau[0]` under the sole guard `m > 1`, their outcome is not a function
of the shape of `A` alone. -/
theorem worksize_shape_only_diverges (lw : LarfWorksizeFn ℚ) :
    gelq2_worksize lw exampleEmpty exampleTauEmpty = none
    ∧ gelq2_worksize lw exampleEmpty exampleTauOne
      = some (lw Side.Right Direction.Forward StoreV.Rowwise (exampleEmpty.row 0)
          (exampleTauOne.e 0) (exampleEmpty.rows 1 exampleEmpty.m))
    ∧ gerq2_worksize lw exampleEmpty exampleTauEmpty = none
    ∧ gerq2_worksize lw exampleEmpty exampleTauOne
      = some (lw Side.Right Direction.Backward StoreV.Rowwise (exampleEmpty.row 0)
          (exampleTauOne.e 0) (exampleEmpty.rows 1 exampleEmpty.m))
    ∧ gelq2_worksize lw exampleEmpty exampleTauEmpty
      ≠ gelq2_worksize lw exampleEmpty exampleTauOne
    ∧ gerq2_worksize lw exampleEmpty exampleTauEmpty
      ≠ gerq2_worksize lw exampleEmpty exampleTauOne := by
  have h1 : gelq2_worksize lw exampleEmpty exampleTauEmpty = none := rfl
  have h2 : gelq2_worksize lw exampleEmpty exampleTauOne
      = some (lw Side.Right Direction.Forward StoreV.Rowwise (exampleEmpty.row 0)
          (exampleTauOne.e 0) (exampleEmpty.rows 1 exampleEmpty.m)) := rfl
  have h3 : gerq2_worksize lw exampleEmpty exampleTauEmpty = none := rfl
  have h4 : gerq2_worksize lw exampleEmpty exampleTauOne
      = some (lw Side.Right Direction.Backward StoreV.Rowwise (exampleEmpty.row 0)
          (exampleTauOne.e 0) (exampleEmpty.rows 1 exampleEmpty.m)) := rfl
  refine ⟨h1, h2, h3, h4, ?_, ?_⟩
  · rw [h1, h2]
    exact fun h => Option.noConfusion h
  · rw [h3, h4]
    exact fun h => Option.noConfusion h

/-- C9, evaluated at the failing input: on a 2-by-0 matrix with an empty
`tau` both workspace queries index `tau[0]` out of range, and so does the
convenience form `gelq2`, while `gerq2` takes its quick return first. -/
theorem worksize_empty_tau_out_of_range :
    gelq2_worksize larf_worksize_exact exampleEmpty exampleTauEmpty = none ∧
    gerq2_worksize larf_worksize_exact exampleEmpty exampleTauEmpty = none ∧
    gelq2 larfg_exact larf_exact larf_worksize_exact exampleEmpty exampleTauEmpty = none ∧
    gerq2 larfg_exact larf_exact larf_worksize_exact exampleEmpty exampleTauEmpty
      = some (Outcome.returned 0 ⟨exampleEmpty, exampleTauEmpty, Mat.zeros 0 0, []⟩) :=
  ⟨rfl, rfl, rfl, rfl⟩

/-! ## unmrq_worksize -/

/-- C10 as amended (blocked-applier sizing). With `nb = min(opts.nb, size(tau))`,
`unmrq_worksize` reserves an `nb`-by-`nb` buffer for the compact-WY factor
when the workspace scalar type `T` coincides with the element type of the
block-factor matrix type, and reports `WorkInfo(0)` locally otherwise; in
both cases the result is that local amount combined with `larfb_worksize`
for the `nb`-by-`nA` panel `V`, the `nb`-by-`nb` factor and `C`, the
operation being flipped and the reflectors `Backward`, `Rowwise`. -/
theorem unmrq_worksize_spec {K : Type} (sameT : Bool)
    (plus : WorkInfo → WorkInfo → WorkInfo) (larfb_worksize : LarfbWorksizeFn K)
    (side : Side) (trans : Op) (A : Mat K) (tau : Vec K) (C : Mat K) (opts : UnmrqOpts) :
    unmrq_worksize sameT plus larfb_worksize side trans A tau C opts
      = plus
          (if sameT then WorkInfo.mk (min opts.nb tau.len) (min opts.nb tau.len)
            else WorkInfo.ofSize 0)
          (larfb_worksize side (if trans = Op.NoTrans then Op.ConjTrans else Op.NoTrans)
            Direction.Backward StoreV.Rowwise
            (A.slice 0 (min opts.nb tau.len) 0 (if side = Side.Left then C.m else C.n))
            (A.slice 0 (min opts.nb tau.len) 0 (min opts.nb tau.len)) C) ∧
    (A.slice 0 (min opts.nb tau.len) 0 (if side = Side.Left then C.m else C.n)).m
      = min opts.nb tau.len ∧
    (A.slice 0 (min opts.nb tau.len) 0 (if side = Side.Left then C.m else C.n)).n
      = (if side = Side.Left then C.m else C.n) ∧
    (A.slice 0 (min opts.nb tau.len) 0 (min opts.nb tau.len)).m = min opts.nb tau.len ∧
    (A.slice 0 (min opts.nb tau.len) 0 (min opts.nb tau.len)).n = min opts.nb tau.len := by
  refine ⟨?_, ?_, ?_, ?_, ?_⟩
  · cases sameT <;> rfl
  · simp [Mat.slice]
  · simp [Mat.slice]
  · simp [Mat.slice]
  · simp [Mat.slice]

/-- Counterexample to C10 as stated: with `size(tau) = 2` and the default
`opts.nb = 32` (so `nb = 2`), the local amount is 2-by-2, not `WorkInfo(0)`,
when `T` coincides with the block-factor element type, and it is
`WorkInfo(0)`, not 2-by-2, when it does not. -/
theorem unmrq_worksize_counterexample :
    unmrq_local_worksize true (min ({} : UnmrqOpts).nb exampleTau.len) = WorkInfo.mk 2 2 ∧
    unmrq_local_worksize true (min ({} : UnmrqOpts).nb exampleTau.len) ≠ WorkInfo.ofSize 0 ∧
    unmrq_local_worksize false (min ({} : UnmrqOpts).nb exampleTau.len) = WorkInfo.ofSize 0 ∧
    unmrq_local_worksize false (min ({} : UnmrqOpts).nb exampleTau.len) ≠ WorkInfo.mk 2 2 := by
  refine ⟨by decide, by decide, by decide, by decide⟩

/-! ## Driver dispatch of `householder_qr` -/

/-- C12: for every options value the three entry points `householder_qr_worksize`,
`householder_qr_work` and `householder_qr` reach the same kernel family: the
unblocked `geqr2` forms exactly when `opts.variant` is `Level2`, otherwise the
blocked `geqrf` forms, called with the same options; hence the size reported
by the query is the size query of the kernel that the work form runs; and a
default-constructed options value selects `Blocked`. -/
theorem householder_qr_dispatch {K G W Wk R : Type}
    (geqr2_worksize : Mat K → Vec K → W) (geqrf_worksize : Mat K → Vec K → G → W)
    (geqr2_work : Mat K → Vec K → Wk → R) (geqrf_work : Mat K → Vec K → Wk → G → R)
    (geqr2 : Mat K → Vec K → R) (geqrf : Mat K → Vec K → G → R)
    (A : Mat K) (tau : Vec K) (work : Wk) (opts : HouseholderQROpts G) (g0 : G) :
    -- the family reached is the same for the three entry points
    (householder_qr_worksize (fun _ _ => KernelFamily.geqr2)
        (fun _ _ _ => KernelFamily.geqrf) A tau opts
      = householder_qr_work (fun _ _ _ => KernelFamily.geqr2)
        (fun _ _ _ _ => KernelFamily.geqrf) A tau work opts
      ∧ householder_qr_work (fun _ _ _ => KernelFamily.geqr2)
        (fun _ _ _ _ => KernelFamily.geqrf) A tau work opts
      = householder_qr (fun _ _ => KernelFamily.geqr2)
        (fun _ _ _ => KernelFamily.geqrf) A tau opts)
    -- it is the unblocked family iff the variant is Level2
    ∧ (householder_qr_work (fun _ _ _ => KernelFamily.geqr2)
        (fun _ _ _ _ => KernelFamily.geqrf) A tau work opts = KernelFamily.geqr2
        ↔ opts.variant = HouseholderQRVariant.Level2)
    -- Level2: the results are those of the geqr2 forms
    ∧ (opts.variant = HouseholderQRVariant.Level2 →
        householder_qr_worksize geqr2_worksize geqrf_worksize A tau opts
          = geqr2_worksize A tau
        ∧ householder_qr_work geqr2_work geqrf_work A tau work opts
          = geqr2_work A tau work
        ∧ householder_qr geqr2 geqrf A tau opts = geqr2 A tau)
    -- otherwise: those of the geqrf forms with the same options
    ∧ (opts.variant ≠ HouseholderQRVariant.Level2 →
        householder_qr_worksize geqr2_worksize geqrf_worksize A tau opts
          = geqrf_worksize A tau opts.toGeqrfOpts
        ∧ householder_qr_work geqr2_work geqrf_work A tau work opts
          = geqrf_work A tau work opts.toGeqrfOpts
        ∧ householder_qr geqr2 geqrf A tau opts = geqrf A tau opts.toGeqrfOpts)
    -- default options
    ∧ (HouseholderQROpts.default g0).variant = HouseholderQRVariant.Blocked
    ∧ householder_qr_work (fun _ _ _ => KernelFamily.geqr2)
        (fun _ _ _ _ => KernelFamily.geqrf) A tau work (HouseholderQROpts.default g0)
        = KernelFamily.geqrf := by
  refine ⟨⟨?_, ?_⟩, ?_, ?_, ?_, rfl, ?_⟩
  · simp only [householder_qr_worksize, householder_qr_work]
  · simp only [householder_qr, householder_qr_work]
  · simp only [householder_qr_work]
    by_cases h : opts.variant = HouseholderQRVariant.Level2
    · simp [h]
    · simp [h]
  · intro h
    simp [householder_qr_worksize, householder_qr_work, householder_qr, h]
  · intro h
    simp [householder_qr_worksize, householder_qr_work, householder_qr, h]
  · simp [householder_qr_work, HouseholderQROpts.default]

/-! ## Overload set and effect of `swap` -/

/-- Overload set of the two-type `swap` for any value of the trait: the generic
element loop is enabled iff `allow_optblas` fails for the pair, the backend
call-through iff `TLAPACK_USE_LAPACKPP` is set, both types are legacy vectors
and `allow_optblas` holds; the two are never enabled together; exactly one is
enabled iff the trait holds only together with the build flag and the
legacy-vector constraint, and otherwise none is. -/
theorem swap_overload_set (d : SwapDispatch) :
    (swap_generic_enabled d = true ↔ d.allow_optblas = false)
    ∧ (swap_backend_enabled d = true ↔
        d.use_lapackpp = true ∧ d.legacy_vector = true ∧ d.allow_optblas = true)
    ∧ ¬ (swap_generic_enabled d = true ∧ swap_backend_enabled d = true)
    ∧ (swap_enabled_count d = 1 ↔ d.TraitFromSpec)
    ∧ (swap_enabled_count d = 0 ↔
        d.allow_optblas = true ∧ ¬ (d.use_lapackpp = true ∧ d.legacy_vector = true)) := by
  rcases d with ⟨a, b, c⟩
  cases a <;> cases b <;> cases c <;>
    simp [swap_generic_enabled, swap_backend_enabled, swap_enabled_count,
      SwapDispatch.TraitFromSpec]

theorem swap_fold_spec {K : Type} (n : Nat) (x y : Vec K) :
    ((List.range n).foldl swap_step (x, y)).1.len = x.len
    ∧ ((List.range n).foldl swap_step (x, y)).2.len = y.len
    ∧ (∀ i, ((List.range n).foldl swap_step (x, y)).1.e i
        = if i < n then y.e i else x.e i)
    ∧ (∀ i, ((List.range n).foldl swap_step (x, y)).2.e i
        = if i < n then x.e i else y.e i) := by
  induction n with
  | zero => simp
  | succ n ih =>
    rw [List.range_succ, List.foldl_append]
    obtain ⟨h1, h2, h3, h4⟩ := ih
    simp only [List.foldl_cons, List.foldl_nil, swap_step, Vec.set]
    refine ⟨h1, h2, ?_, ?_⟩
    · intro i
      by_cases hi : i = n
      · subst hi; simp [h4]
      · simp only [hi, if_false, h3]
        by_cases h : i < n
        · simp [h, Nat.lt_succ_of_lt h]
        · have : ¬ i < n + 1 := by omega
          simp [h, this]
    · intro i
      by_cases hi : i = n
      · subst hi; simp [h3]
      · simp only [hi, if_false, h4]
        by_cases h : i < n
        · simp [h, Nat.lt_succ_of_lt h]
        · have : ¬ i < n + 1 := by omega
          simp [h, this]

/-- C14: for vectors `x`, `y` of equal length `n`, `swap(x, y)` returns with
`x[i]` equal to the original `y[i]` and `y[i]` equal to the original `x[i]`
for every `0 <= i < n` (lengths kept, nothing outside the range touched);
when `size(y)` differs from `size(x)` the call is a precondition failure with
both vectors unchanged. -/
theorem swap_spec {K : Type} (x y : Vec K) :
    (y.len = x.len →
      ∃ x1 y1, swap x y = SwapOutcome.returned x1 y1
        ∧ x1.len = x.len ∧ y1.len = y.len
        ∧ (∀ i, i < x.len → x1.e i = y.e i ∧ y1.e i = x.e i)
        ∧ (∀ i, x.len ≤ i → x1.e i = x.e i ∧ y1.e i = y.e i))
    ∧ (y.len ≠ x.len → swap x y = SwapOutcome.checkFailed x y) := by
  constructor
  · intro h
    obtain ⟨h1, h2, h3, h4⟩ := swap_fold_spec x.len x y
    refine ⟨_, _, ?_, h1, h2, ?_, ?_⟩
    · simp only [swap]
      rw [if_neg (by simpa using h)]
    · intro i hi
      simp [h3, h4, hi]
    · intro i hi
      have : ¬ i < x.len := by omega
      simp [h3, h4, this]
  · intro h
    simp only [swap]
    rw [if_pos h]
/-! ## `ul_mult` -/

theorem sum_range_split {K : Type} [CommRing K] (n n0 : Nat) (h : n0 ≤ n) (f : Nat → K) :
    ∑ l in Finset.range n, f l
      = ∑ l in Finset.range n0, f l + ∑ l in Finset.range (n - n0), f (n0 + l) := by
  have hn : n = n0 + (n - n0) := by omega
  conv_lhs => rw [hn]
  rw [Finset.sum_range_add]

theorem ul_mult_mid_shape {K : Type} [One K] (gemm : GemmFn K) (trmm : TrmmFn K) (A : Mat K) :
    (ul_mult_mid gemm trmm A).m = A.m ∧ (ul_mult_mid gemm trmm A).n = A.n :=
  ⟨rfl, rfl⟩

theorem ul_mult_mid_entries {K : Type} [CommRing K] (gemm : GemmFn K) (trmm : TrmmFn K)
    (hg : GemmExact gemm) (ht : TrmmExact trmm) (A : Mat K) (n : Nat) (hA : A.n = n)
    (i j : Nat) :
    (i < n / 2 → j < n / 2 →
      (ul_mult_mid gemm trmm A).e i j
        = A.e i j + ∑ l in Finset.range (n - n / 2), A.e i (n / 2 + l) * A.e (n / 2 + l) j)
    ∧ (n / 2 ≤ i → i < n → j < n / 2 →
      (ul_mult_mid gemm trmm A).e i j
        = ∑ l in Finset.range (n - n / 2), ulU A.e i (n / 2 + l) * A.e (n / 2 + l) j)
    ∧ (i < n / 2 → n / 2 ≤ j → j < n →
      (ul_mult_mid gemm trmm A).e i j
        = ∑ l in Finset.range (n - n / 2), A.e i (n / 2 + l) * ulL A.e (n / 2 + l) j)
    ∧ (¬ ((i < n / 2 ∧ j < n) ∨ (i < n ∧ j < n / 2)) →
      (ul_mult_mid gemm trmm A).e i j = A.e i j) := by
  subst hA
  refine ⟨?_, ?_, ?_, ?_⟩
  · intro hi hj
    simp only [ul_mult_mid]
    rw [Mat.setSlice_e_out _ _ _ _ _ _ _ _ (by omega),
      Mat.setSlice_e_out _ _ _ _ _ _ _ _ (by omega),
      Mat.setSlice_e_in _ _ _ _ _ _ _ _ (by omega)]
    rw [hg _ _ _ _ _ _ _ (by simpa [Mat.slice] using hi) (by simpa [Mat.slice] using hj)]
    simp only [Mat.slice, Nat.sub_zero, Nat.zero_add, one_mul]
    rw [add_comm]
  · intro hi hi2 hj
    simp only [ul_mult_mid]
    rw [Mat.setSlice_e_out _ _ _ _ _ _ _ _ (by omega),
      Mat.setSlice_e_in _ _ _ _ _ _ _ _ (by omega)]
    rw [(ht _ _ _ _ _ _ _ (by simp only [Mat.slice]; omega)
      (by simp only [Mat.slice]; omega)).1]
    simp only [Mat.slice, Nat.sub_zero, Nat.zero_add, one_mul]
    apply Finset.sum_congr rfl
    intro l hl
    have hl2 := Finset.mem_range.mp hl
    rw [Mat.setSlice_e_out _ _ _ _ _ _ _ _ (by omega)]
    congr 1
    simp only [triEntry, ulU]
    by_cases h1 : i - A.n / 2 = l
    · have : i ≤ A.n / 2 + l := by omega
      have h3 : A.n / 2 + (i - A.n / 2) = i := by omega
      simp only [h1, if_true, this]
      rw [Mat.setSlice_e_out _ _ _ _ _ _ _ _ (by omega)]
      simp only [reduceCtorEq, if_false]
      rw [← h1, h3]
    · simp only [h1, if_false]
      have h3 : A.n / 2 + (i - A.n / 2) = i := by omega
      by_cases h2 : i - A.n / 2 < l
      · have : i ≤ A.n / 2 + l := by omega
        simp only [h2, this, true_and, if_true, true_or]
        rw [Mat.setSlice_e_out _ _ _ _ _ _ _ _ (by omega), h3]
      · have : ¬ i ≤ A.n / 2 + l := by omega
        simp [h2, this]
  · intro hi hj hj2
    simp only [ul_mult_mid]
    rw [Mat.setSlice_e_in _ _ _ _ _ _ _ _ (by omega)]
    rw [(ht _ _ _ _ _ _ _ (by simp only [Mat.slice]; omega)
      (by simp only [Mat.slice]; omega)).2]
    simp only [Mat.slice, Nat.sub_zero, Nat.zero_add, one_mul]
    apply Finset.sum_congr rfl
    intro l hl
    have hl2 := Finset.mem_range.mp hl
    rw [Mat.setSlice_e_out _ _ _ _ _ _ _ _ (by omega),
      Mat.setSlice_e_out _ _ _ _ _ _ _ _ (by omega)]
    congr 1
    simp only [triEntry, ulL]
    have h3 : A.n / 2 + (j - A.n / 2) = j := by omega
    by_cases h1 : l = j - A.n / 2
    · have h4 : ¬ j < A.n / 2 + l := by omega
      have h5 : A.n / 2 + l = j := by omega
      simp [h1, h4, h5, h3]
    · simp only [h1, if_false]
      by_cases h2 : j - A.n / 2 < l
      · have : j < A.n / 2 + l := by omega
        simp only [h2, this, and_true, if_true, or_true]
        rw [Mat.setSlice_e_out _ _ _ _ _ _ _ _ (by omega),
          Mat.setSlice_e_out _ _ _ _ _ _ _ _ (by omega), h3]
      · have h4 : ¬ j < A.n / 2 + l := by omega
        have h5 : ¬ A.n / 2 + l = j := by omega
        simp [h2, h4, h5]
  · intro h
    simp only [ul_mult_mid]
    rw [Mat.setSlice_e_out _ _ _ _ _ _ _ _ (by omega),
      Mat.setSlice_e_out _ _ _ _ _ _ _ _ (by omega),
      Mat.setSlice_e_out _ _ _ _ _ _ _ _ (by omega)]

theorem ul_mult_entries {K : Type} [CommRing K] (gemm : GemmFn K) (trmm : TrmmFn K)
    (hg : GemmExact gemm) (ht : TrmmExact trmm) :
    ∀ (n fuel : Nat) (A : Mat K), 1 ≤ n → A.m = n → A.n = n → n ≤ fuel →
      ∃ A1, ul_mult gemm trmm fuel A = some (MatOutcome.returned 0 A1)
        ∧ A1.m = n ∧ A1.n = n
        ∧ (∀ i j, i < n → j < n →
            A1.e i j = ∑ l in Finset.range n, ulU A.e i l * ulL A.e l j)
        ∧ (∀ i j, ¬ (i < n ∧ j < n) → A1.e i j = A.e i j) := by
  intro n
  induction n using Nat.strong_induction_on with
  | _ n ih =>
    intro fuel A hn hm hA hf
    cases fuel with
    | zero => omega
    | succ f =>
      by_cases h1 : n = 1
      · subst h1
        refine ⟨A, ?_, hm, hA, ?_, fun _ _ _ => rfl⟩
        · simp [ul_mult, hm, hA]
        · intro i j hi hj
          have hi0 : i = 0 := by omega
          have hj0 : j = 0 := by omega
          subst hi0; subst hj0
          simp [ulU, ulL]
      · have hn0 : 1 ≤ n / 2 := by omega
        have hn0lt : n / 2 < n := by omega
        obtain ⟨A00, e00, -, -, ent00, -⟩ := ih (n / 2) hn0lt f (A.slice 0 (n / 2) 0 (n / 2)) hn0
          (by simp [Mat.slice]) (by simp [Mat.slice]) (by omega)
        have hmidn : (A.setSlice 0 (n / 2) 0 (n / 2) A00).n = n := hA
        obtain ⟨A11, e11, -, -, ent11, -⟩ := ih (n - n / 2) (by omega) f
          ((ul_mult_mid gemm trmm (A.setSlice 0 (n / 2) 0 (n / 2) A00)).slice
            (n / 2) n (n / 2) n) (by omega)
          (by simp [Mat.slice]) (by simp [Mat.slice]) (by omega)
        refine ⟨(ul_mult_mid gemm trmm (A.setSlice 0 (n / 2) 0 (n / 2) A00)).setSlice
          (n / 2) n (n / 2) n A11, ?_, ?_, ?_, ?_, ?_⟩
        · simp only [ul_mult]
          rw [if_neg (by simp [hm, hA]), if_neg (by simpa [hA] using h1)]
          simp only [hA]
          rw [e00]
          simp only
          rw [e11]
        · exact hm
        · exact hA
        · intro i j hi hj
          have hmid := ul_mult_mid_entries gemm trmm hg ht
            (A.setSlice 0 (n / 2) 0 (n / 2) A00) n hmidn
          rw [sum_range_split n (n / 2) (by omega)]
          by_cases hi0 : i < n / 2
          · by_cases hj0 : j < n / 2
            · rw [Mat.setSlice_e_out _ _ _ _ _ _ _ _ (by omega), (hmid i j).1 hi0 hj0,
                Mat.setSlice_e_in _ _ _ _ _ _ _ _ (by omega), ent00 _ _ (by omega) (by omega)]
              simp only [Mat.slice, Nat.sub_zero, Nat.zero_add]
              congr 1
              apply Finset.sum_congr rfl
              intro l hl
              have hl2 := Finset.mem_range.mp hl
              rw [Mat.setSlice_e_out _ _ _ _ _ _ _ _ (by omega),
                Mat.setSlice_e_out _ _ _ _ _ _ _ _ (by omega)]
              have h3 : i ≤ n / 2 + l := by omega
              have h4 : j < n / 2 + l := by omega
              simp [ulU, ulL, h3, h4]
            · rw [Mat.setSlice_e_out _ _ _ _ _ _ _ _ (by omega),
                (hmid i j).2.2.1 hi0 (by omega) hj]
              have hz : ∑ l in Finset.range (n / 2), ulU A.e i l * ulL A.e l j = 0 := by
                apply Finset.sum_eq_zero
                intro l hl
                have hl2 := Finset.mem_range.mp hl
                have h3 : ¬ j < l := by omega
                have h4 : ¬ l = j := by omega
                simp [ulL, h3, h4]
              rw [hz, zero_add]
              apply Finset.sum_congr rfl
              intro l hl
              have hl2 := Finset.mem_range.mp hl
              rw [Mat.setSlice_e_out _ _ _ _ _ _ _ _ (by omega)]
              have h3 : i ≤ n / 2 + l := by omega
              congr 1
              · simp [ulU, h3]
              · simp only [ulL]
                by_cases h5 : j < n / 2 + l
                · simp only [h5, if_true]
                  rw [Mat.setSlice_e_out _ _ _ _ _ _ _ _ (by omega)]
                · simp only [h5, if_false]
          · have hzU : ∑ l in Finset.range (n / 2), ulU A.e i l * ulL A.e l j = 0 := by
              apply Finset.sum_eq_zero
              intro l hl
              have hl2 := Finset.mem_range.mp hl
              have h3 : ¬ i ≤ l := by omega
              simp [ulU, h3]
            rw [hzU, zero_add]
            by_cases hj0 : j < n / 2
            · rw [Mat.setSlice_e_out _ _ _ _ _ _ _ _ (by omega),
                (hmid i j).2.1 (by omega) hi hj0]
              apply Finset.sum_congr rfl
              intro l hl
              have hl2 := Finset.mem_range.mp hl
              rw [Mat.setSlice_e_out _ _ _ _ _ _ _ _ (by omega)]
              have h4 : j < n / 2 + l := by omega
              congr 1
              · simp only [ulU]
                by_cases h5 : i ≤ n / 2 + l
                · simp only [h5, if_true]
                  rw [Mat.setSlice_e_out _ _ _ _ _ _ _ _ (by omega)]
                · simp only [h5, if_false]
              · simp [ulL, h4]
            · rw [Mat.setSlice_e_in _ _ _ _ _ _ _ _ (by omega),
                ent11 _ _ (by omega) (by omega)]
              apply Finset.sum_congr rfl
              intro l hl
              have hl2 := Finset.mem_range.mp hl
              have hmidl := fun a b => (ul_mult_mid_entries gemm trmm hg ht
                (A.setSlice 0 (n / 2) 0 (n / 2) A00) n hmidn a b).2.2.2
              have h6 : n / 2 + (i - n / 2) = i := by omega
              have h7 : n / 2 + (j - n / 2) = j := by omega
              congr 1
              · simp only [ulU, Mat.slice]
                by_cases h5 : i ≤ n / 2 + l
                · have : i - n / 2 ≤ l := by omega
                  simp only [h5, this, if_true]
                  rw [hmidl _ _ (by omega), Mat.setSlice_e_out _ _ _ _ _ _ _ _ (by omega), h6]
                · have : ¬ i - n / 2 ≤ l := by omega
                  simp only [h5, this, if_false]
              · simp only [ulL, Mat.slice]
                by_cases h5 : j < n / 2 + l
                · have : j - n / 2 < l := by omega
                  simp only [h5, this, if_true]
                  rw [hmidl _ _ (by omega), Mat.setSlice_e_out _ _ _ _ _ _ _ _ (by omega), h7]
                · have : ¬ j - n / 2 < l := by omega
                  simp only [h5, this, if_false]
                  by_cases h8 : n / 2 + l = j
                  · have : l = j - n / 2 := by omega
                    simp only [this, h7, if_true]
                  · have : ¬ l = j - n / 2 := by omega
                    simp only [h8, this, if_false]
        · intro i j hij
          rw [Mat.setSlice_e_out _ _ _ _ _ _ _ _ (by omega),
            (ul_mult_mid_entries gemm trmm hg ht
              (A.setSlice 0 (n / 2) 0 (n / 2) A00) n hmidn i j).2.2.2 (by omega),
            Mat.setSlice_e_out _ _ _ _ _ _ _ _ (by omega)]

theorem gemm_exact_meets {K : Type} [CommRing K] : GemmExact (gemm_exact : GemmFn K) := by
  intro alpha beta A B C i j _ _
  rfl

theorem trmm_exact_meets {K : Type} [CommRing K] : TrmmExact (trmm_exact : TrmmFn K) := by
  intro uplo diag alpha A B i j _ _
  exact ⟨rfl, rfl⟩

theorem matOf_eq_mul_of_entries {K : Type} [CommRing K] (n : Nat) (e u l : Nat → Nat → K)
    (h : ∀ i j, i < n → j < n → e i j = ∑ a in Finset.range n, u i a * l a j) :
    matOf n n e = matOf n n u * matOf n n l := by
  ext i j
  simp only [matOf, Matrix.of_apply, Matrix.mul_apply]
  rw [h i.val j.val i.isLt j.isLt, Fin.sum_univ_eq_sum_range (fun a => u i.val a * l a j.val) n]

/-- C19: for every `n >= 1` and every `n`-by-`n` matrix `A` over a commutative
ring, with `gemm` and `trmm` exact products, `ul_mult` terminates (any
recursion allowance of at least `n` nested calls is enough), returns 0 and
leaves in `A` the product `U * L`, where `U` is the upper triangular matrix
in the diagonal and superdiagonal part of the input and `L` the unit lower
triangular matrix whose strictly lower part is that of the input. -/
theorem ul_mult_spec {K : Type} [CommRing K] (gemm : GemmFn K) (trmm : TrmmFn K)
    (n fuel : Nat) (A : Mat K)
    (hg : GemmExact gemm) (ht : TrmmExact trmm)
    (hn : 1 ≤ n) (hm : A.m = n) (hA : A.n = n) (hf : n ≤ fuel) :
    ∃ A1, ul_mult gemm trmm fuel A = some (MatOutcome.returned 0 A1)
      ∧ A1.m = n ∧ A1.n = n
      ∧ matOf n n A1.e = ul_U n A.e * ul_L n A.e := by
  obtain ⟨A1, h1, h2, h3, h4, -⟩ := ul_mult_entries gemm trmm hg ht n fuel A hn hm hA hf
  exact ⟨A1, h1, h2, h3, matOf_eq_mul_of_entries n A1.e (ulU A.e) (ulL A.e) h4⟩

/-- C19 (witness): the all-ones 2-by-2 integer matrix with the exact products. -/
theorem ul_mult_spec_witness :
    GemmExact (gemm_exact : GemmFn ℤ) ∧ TrmmExact (trmm_exact : TrmmFn ℤ)
    ∧ ∃ A1, ul_mult gemm_exact trmm_exact 2 exampleOnes = some (MatOutcome.returned 0 A1)
      ∧ A1.m = 2 ∧ A1.n = 2
      ∧ matOf 2 2 A1.e = ul_U 2 exampleOnes.e * ul_L 2 exampleOnes.e :=
  ⟨gemm_exact_meets, trmm_exact_meets,
    ul_mult_spec gemm_exact trmm_exact 2 2 exampleOnes gemm_exact_meets trmm_exact_meets
      (by decide) rfl rfl (by decide)⟩

/-- C20 (amended): for every `n >= 1`, on exit from `ul_mult` the `n`-by-`n`
matrix `A` is overwritten by `U * L` (the upper triangular factor first), with
`L` the unit lower triangular matrix in the strictly lower part of the input
and `U` the upper triangular matrix in its diagonal and superdiagonal part;
this is `L * U` whenever the two factors commute, as they do for `n = 1`. -/
theorem ul_mult_overwrites {K : Type} [CommRing K] (gemm : GemmFn K) (trmm : TrmmFn K)
    (n fuel : Nat) (A : Mat K)
    (hg : GemmExact gemm) (ht : TrmmExact trmm)
    (hn : 1 ≤ n) (hm : A.m = n) (hA : A.n = n) (hf : n ≤ fuel) :
    ∃ A1, ul_mult gemm trmm fuel A = some (MatOutcome.returned 0 A1)
      ∧ matOf n n A1.e = ul_U n A.e * ul_L n A.e
      ∧ (ul_U n A.e * ul_L n A.e = ul_L n A.e * ul_U n A.e →
          matOf n n A1.e = ul_L n A.e * ul_U n A.e)
      ∧ (n = 1 → matOf n n A1.e = ul_L n A.e * ul_U n A.e) := by
  obtain ⟨A1, h1, -, -, h4, -⟩ := ul_mult_entries gemm trmm hg ht n fuel A hn hm hA hf
  have hUL := matOf_eq_mul_of_entries n A1.e (ulU A.e) (ulL A.e) h4
  refine ⟨A1, h1, hUL, fun hc => ?_, fun h => ?_⟩
  · rw [hUL]; exact hc
  · subst h
    rw [hUL]
    ext i j
    simp only [ul_U, ul_L, matOf, Matrix.mul_apply, Matrix.of_apply, Finset.univ_unique,
      Finset.sum_singleton]
    have hi : i = default := Subsingleton.elim _ _
    have hj : j = default := Subsingleton.elim _ _
    rw [hi, hj]
    ring

/-- C20 (witness): the all-ones 2-by-2 integer matrix with the exact products. -/
theorem ul_mult_overwrites_witness :
    ∃ A1, ul_mult gemm_exact trmm_exact 2 exampleOnes = some (MatOutcome.returned 0 A1)
      ∧ matOf 2 2 A1.e = ul_U 2 exampleOnes.e * ul_L 2 exampleOnes.e
      ∧ (ul_U 2 exampleOnes.e * ul_L 2 exampleOnes.e
            = ul_L 2 exampleOnes.e * ul_U 2 exampleOnes.e →
          matOf 2 2 A1.e = ul_L 2 exampleOnes.e * ul_U 2 exampleOnes.e)
      ∧ (2 = 1 → matOf 2 2 A1.e = ul_L 2 exampleOnes.e * ul_U 2 exampleOnes.e) :=
  ul_mult_overwrites gemm_exact trmm_exact 2 2 exampleOnes gemm_exact_meets trmm_exact_meets
    (by decide) rfl rfl (by decide)

/-- C20 (counterexample): on the all-ones 2-by-2 integer matrix `ul_mult`
returns 0 and leaves `[[2, 1], [1, 1]]`, whose entry `(0, 0)` is 2, while
`L * U = [[1, 1], [1, 2]]` has entry `(0, 0)` equal to 1. -/
theorem ul_mult_overwrites_counterexample :
    ∃ A1, ul_mult gemm_exact trmm_exact 2 exampleOnes = some (MatOutcome.returned 0 A1)
      ∧ A1.e 0 0 = 2 ∧ A1.e 0 1 = 1 ∧ A1.e 1 0 = 1 ∧ A1.e 1 1 = 1
      ∧ (ul_L 2 exampleOnes.e * ul_U 2 exampleOnes.e) 0 0 = 1
      ∧ matOf 2 2 A1.e ≠ ul_L 2 exampleOnes.e * ul_U 2 exampleOnes.e := by
  obtain ⟨A1, h1, -, -, h4, -⟩ := ul_mult_entries (gemm_exact : GemmFn ℤ) trmm_exact
    gemm_exact_meets trmm_exact_meets 2 2 exampleOnes (by decide) rfl rfl (by decide)
  have e00 : A1.e 0 0 = 2 := by
    rw [h4 0 0 (by decide) (by decide)]
    simp [Finset.sum_range_succ, ulU, ulL, exampleOnes, Mat.ofRows]
  have e01 : A1.e 0 1 = 1 := by
    rw [h4 0 1 (by decide) (by decide)]
    simp [Finset.sum_range_succ, ulU, ulL, exampleOnes, Mat.ofRows]
  have e10 : A1.e 1 0 = 1 := by
    rw [h4 1 0 (by decide) (by decide)]
    simp [Finset.sum_range_succ, ulU, ulL, exampleOnes, Mat.ofRows]
  have e11 : A1.e 1 1 = 1 := by
    rw [h4 1 1 (by decide) (by decide)]
    simp [Finset.sum_range_succ, ulU, ulL, exampleOnes, Mat.ofRows]
  have hLU : (ul_L 2 exampleOnes.e * ul_U 2 exampleOnes.e) 0 0 = 1 := by
    simp [ul_L, ul_U, matOf, Matrix.mul_apply, Fin.sum_univ_two, ulU, ulL, exampleOnes,
      Mat.ofRows]
  refine ⟨A1, h1, e00, e01, e10, e11, hLU, ?_⟩
  intro h
  have h2 := congrFun (congrFun h 0) 0
  rw [hLU] at h2
  simp only [matOf, Matrix.of_apply, Fin.val_zero] at h2
  rw [e00] at h2
  exact absurd h2 (by decide)

/-! ## `potrf_rl`: trace and return code -/

theorem potrf_rl_update_log {K : Type} [One K] [Neg K] (trsm : TrsmFn K) (herk : HerkFn K)
    (uplo : Uplo) (n j jb : Nat) (s : CholState K) :
    ∃ a b, (potrf_rl_update trsm herk uplo n j jb s).log = s.log ++ [a, b]
      ∧ (∀ u j1 jb1 M info M1, a ≠ CholCall.potf2 u j1 jb1 M info M1)
      ∧ (∀ u j1 jb1 M info M1, b ≠ CholCall.potf2 u j1 jb1 M info M1) := by
  unfold potrf_rl_update
  split
  · refine ⟨_, _, rfl, ?_, ?_⟩ <;> (intro _ _ _ _ _ _ h; cases h)
  · refine ⟨_, _, rfl, ?_, ?_⟩ <;> (intro _ _ _ _ _ _ h; cases h)

theorem potrf_rl_loop_trace {K : Type} [One K] [Neg K] (potf2 : Potf2Fn K) (trsm : TrsmFn K)
    (herk : HerkFn K) (uplo : Uplo) (n nb : Nat) :
    ∀ (fuel j : Nat) (s : CholState K) (out : CholOutcome K),
      potrf_rl_loop potf2 trsm herk uplo n nb fuel j s = some out →
      ∃ i s1 l, out = CholOutcome.returned i s1 ∧ s1.log = s.log ++ l
        ∧ ((i = 0 ∧ ∀ u j1 jb M info M1, CholCall.potf2 u j1 jb M info M1 ∈ l →
              info = 0 ∧ j1 + jb ≤ n)
          ∨ (∃ l0 u j1 jb M info M1, l = l0 ++ [CholCall.potf2 u j1 jb M info M1]
              ∧ info ≠ 0 ∧ i = info + (j1 : Int) ∧ j1 + jb ≤ n
              ∧ ∀ u2 j2 jb2 M2 info2 M3, CholCall.potf2 u2 j2 jb2 M2 info2 M3 ∈ l0 →
                  info2 = 0 ∧ j2 + jb2 ≤ n)) := by
  intro fuel
  induction fuel with
  | zero => intro j s out h; simp [potrf_rl_loop] at h
  | succ f ih =>
    intro j s out h
    simp only [potrf_rl_loop] at h
    obtain ⟨c0, hc0⟩ : ∃ c0 : CholCall K, c0 = CholCall.potf2 uplo j (min nb (n - j))
          (s.A.slice j (j + min nb (n - j)) j (j + min nb (n - j)))
          (potf2 uplo (s.A.slice j (j + min nb (n - j)) j (j + min nb (n - j)))).1
          (potf2 uplo (s.A.slice j (j + min nb (n - j)) j (j + min nb (n - j)))).2 :=
      ⟨_, rfl⟩
    split at h
    · rename_i hj
      split at h
      · rename_i hinfo
        refine ⟨_, _, [c0], (Option.some.inj h).symm, by rw [hc0], Or.inr ?_⟩
        refine ⟨[], _, _, _, _, _, _, by rw [hc0]; rfl, hinfo, rfl, by omega, ?_⟩
        intro _ _ _ _ _ _ hmem
        cases hmem
      · rename_i hinfo
        have hinfo0 : (potf2 uplo (s.A.slice j (j + min nb (n - j)) j
            (j + min nb (n - j)))).1 = 0 := by
          by_contra hne; exact hinfo hne
        have hc0ok : ∀ u2 j2 jb2 M2 info2 M3,
            CholCall.potf2 u2 j2 jb2 M2 info2 M3 = c0 → info2 = 0 ∧ j2 + jb2 ≤ n := by
          intro u2 j2 jb2 M2 info2 M3 hm
          rw [hc0] at hm
          injection hm with _ h2 h3 _ h5 _
          subst h2; subst h3; subst h5
          exact ⟨hinfo0, by omega⟩
        split at h
        · obtain ⟨a, b, hlog, ha, hb⟩ := potrf_rl_update_log trsm herk uplo n j
            (min nb (n - j))
            ⟨s.A.setSlice j (j + min nb (n - j)) j (j + min nb (n - j))
              (potf2 uplo (s.A.slice j (j + min nb (n - j)) j (j + min nb (n - j)))).2,
              s.log ++ [CholCall.potf2 uplo j (min nb (n - j))
                (s.A.slice j (j + min nb (n - j)) j (j + min nb (n - j)))
                (potf2 uplo (s.A.slice j (j + min nb (n - j)) j (j + min nb (n - j)))).1
                (potf2 uplo (s.A.slice j (j + min nb (n - j)) j (j + min nb (n - j)))).2]⟩
          obtain ⟨i, s1, l, hout, hl, hcase⟩ := ih _ _ _ h
          rw [hlog] at hl
          have hl2 : s1.log = s.log ++ ([c0, a, b] ++ l) := by
            rw [hl, hc0]; simp
          have hhead : ∀ u2 j2 jb2 M2 info2 M3,
              CholCall.potf2 u2 j2 jb2 M2 info2 M3 ∈ [c0, a, b] →
                info2 = 0 ∧ j2 + jb2 ≤ n := by
            intro u2 j2 jb2 M2 info2 M3 hmem
            simp only [List.mem_cons, List.mem_singleton, List.not_mem_nil, or_false] at hmem
            rcases hmem with hm | hm | hm
            · exact hc0ok _ _ _ _ _ _ hm
            · exact absurd hm.symm (ha _ _ _ _ _ _)
            · exact absurd hm.symm (hb _ _ _ _ _ _)
          refine ⟨i, s1, [c0, a, b] ++ l, hout, hl2, ?_⟩
          rcases hcase with ⟨hi, hok⟩ | ⟨l0, u, j1, jb, M, info, M1, hl0, hne, hi, hle, hok⟩
          · refine Or.inl ⟨hi, ?_⟩
            intro u2 j2 jb2 M2 info2 M3 hmem
            rcases List.mem_append.mp hmem with hm | hm
            · exact hhead _ _ _ _ _ _ hm
            · exact hok _ _ _ _ _ _ hm
          · refine Or.inr ⟨[c0, a, b] ++ l0, u, j1, jb, M, info, M1, ?_, hne, hi, hle, ?_⟩
            · rw [hl0, List.append_assoc]
            · intro u2 j2 jb2 M2 info2 M3 hmem
              rcases List.mem_append.mp hmem with hm | hm
              · exact hhead _ _ _ _ _ _ hm
              · exact hok _ _ _ _ _ _ hm
        · obtain ⟨i, s1, l, hout, hl, hcase⟩ := ih _ _ _ h
          have hl2 : s1.log = s.log ++ ([c0] ++ l) := by
            rw [hl, hc0]; simp
          have hhead : ∀ u2 j2 jb2 M2 info2 M3,
              CholCall.potf2 u2 j2 jb2 M2 info2 M3 ∈ [c0] →
                info2 = 0 ∧ j2 + jb2 ≤ n := by
            intro u2 j2 jb2 M2 info2 M3 hmem
            simp only [List.mem_singleton] at hmem
            exact hc0ok _ _ _ _ _ _ hmem
          refine ⟨i, s1, [c0] ++ l, hout, hl2, ?_⟩
          rcases hcase with ⟨hi, hok⟩ | ⟨l0, u, j1, jb, M, info, M1, hl0, hne, hi, hle, hok⟩
          · refine Or.inl ⟨hi, ?_⟩
            intro u2 j2 jb2 M2 info2 M3 hmem
            rcases List.mem_append.mp hmem with hm | hm
            · exact hhead _ _ _ _ _ _ hm
            · exact hok _ _ _ _ _ _ hm
          · refine Or.inr ⟨[c0] ++ l0, u, j1, jb, M, info, M1, ?_, hne, hi, hle, ?_⟩
            · rw [hl0, List.append_assoc]
            · intro u2 j2 jb2 M2 info2 M3 hmem
              rcases List.mem_append.mp hmem with hm | hm
              · exact hhead _ _ _ _ _ _ hm
              · exact hok _ _ _ _ _ _ hm
    · refine ⟨0, s, [], (Option.some.inj h).symm, by simp, Or.inl ⟨rfl, ?_⟩⟩
      intro _ _ _ _ _ _ hmem
      cases hmem

theorem potrf_rl_loop_terminates {K : Type} [One K] [Neg K] (potf2 : Potf2Fn K)
    (trsm : TrsmFn K) (herk : HerkFn K) (uplo : Uplo) (n nb : Nat) (hnb : 1 ≤ nb) :
    ∀ (fuel j : Nat) (s : CholState K), n - j + 1 ≤ fuel →
      ∃ out, potrf_rl_loop potf2 trsm herk uplo n nb fuel j s = some out := by
  intro fuel
  induction fuel with
  | zero => intro j s h; omega
  | succ f ih =>
    intro j s h
    simp only [potrf_rl_loop]
    split
    · split
      · exact ⟨_, rfl⟩
      · split
        · exact ih _ _ (by omega)
        · exact ih _ _ (by omega)
    · exact ⟨_, rfl⟩

theorem potrf_rl_terminates {K : Type} [One K] [Neg K] (potf2 : Potf2Fn K)
    (trsm : TrsmFn K) (herk : HerkFn K) (fuel : Nat) (uplo : Uplo) (A : Mat K) (nb : Nat)
    (hnb : 1 ≤ nb) (hfuel : A.m < fuel) :
    ∃ out, potrf_rl potf2 trsm herk fuel uplo A nb = some out := by
  unfold potrf_rl
  simp only
  split
  · exact ⟨_, rfl⟩
  · split
    · exact ⟨_, rfl⟩
    · split
      · exact ⟨_, rfl⟩
      · split
        · exact ⟨_, rfl⟩
        · split
          · exact potrf_rl_loop_terminates potf2 trsm herk _ _ _ hnb _ _ _ (by omega)
          · exact potrf_rl_loop_terminates potf2 trsm herk _ _ _ hnb _ _ _ (by omega)

theorem list_split_last {α : Type} (l0 l1 l2 : List α) (c c0 : α)
    (h : l0 ++ [c0] = l1 ++ c :: l2) : (l2 = [] ∧ c = c0) ∨ c ∈ l0 := by
  rcases List.eq_nil_or_concat l2 with h2 | ⟨l3, d, h2⟩
  · subst h2
    have := List.append_inj' h rfl
    exact Or.inl ⟨rfl, by simpa using this.2.symm⟩
  · subst h2
    have h3 : l0 ++ [c0] = (l1 ++ c :: l3) ++ [d] := by rw [h]; simp
    have := List.append_inj' h3 rfl
    exact Or.inr (by rw [this.1]; simp)

theorem potrf_rl_trace {K : Type} [One K] [Neg K] (potf2 : Potf2Fn K) (trsm : TrsmFn K)
    (herk : HerkFn K) (fuel : Nat) (uplo : Uplo) (A : Mat K) (nb : Nat)
    (out : CholOutcome K) (h : potrf_rl potf2 trsm herk fuel uplo A nb = some out) :
    (∃ s, out = CholOutcome.checkFailed s ∧ s.log = [])
    ∨ ∃ i s, out = CholOutcome.returned i s
        ∧ ((i = 0 ∧ ∀ u j1 jb M info M1, CholCall.potf2 u j1 jb M info M1 ∈ s.log →
              info = 0 ∧ j1 + jb ≤ A.m)
          ∨ (∃ l0 u j1 jb M info M1, s.log = l0 ++ [CholCall.potf2 u j1 jb M info M1]
              ∧ info ≠ 0 ∧ i = info + (j1 : Int) ∧ j1 + jb ≤ A.m
              ∧ ∀ u2 j2 jb2 M2 info2 M3, CholCall.potf2 u2 j2 jb2 M2 info2 M3 ∈ l0 →
                  info2 = 0 ∧ j2 + jb2 ≤ A.m)) := by
  unfold potrf_rl at h
  simp only at h
  split at h
  · exact Or.inl ⟨_, (Option.some.inj h).symm, rfl⟩
  · split at h
    · exact Or.inl ⟨_, (Option.some.inj h).symm, rfl⟩
    · split at h
      · refine Or.inr ⟨0, _, (Option.some.inj h).symm, Or.inl ⟨rfl, ?_⟩⟩
        intro _ _ _ _ _ _ hmem
        cases hmem
      · split at h
        · refine Or.inr ⟨_, _, (Option.some.inj h).symm, ?_⟩
          by_cases h0 : (potf2 uplo A).1 = 0
          · refine Or.inl ⟨h0, ?_⟩
            intro u j1 jb M info M1 hmem
            simp only [List.mem_singleton] at hmem
            injection hmem with _ h2 h3 _ h5 _
            subst h2; subst h3; subst h5
            exact ⟨h0, by omega⟩
          · refine Or.inr ⟨[], _, _, _, _, _, _, rfl, h0, by simp, by omega, ?_⟩
            intro _ _ _ _ _ _ hmem
            cases hmem
        · have key : ∀ u, potrf_rl_loop potf2 trsm herk u A.m nb fuel 0 ⟨A, []⟩ = some out →
              ∃ i s, out = CholOutcome.returned i s
                ∧ ((i = 0 ∧ ∀ u j1 jb M info M1, CholCall.potf2 u j1 jb M info M1 ∈ s.log →
                      info = 0 ∧ j1 + jb ≤ A.m)
                  ∨ (∃ l0 u j1 jb M info M1,
                      s.log = l0 ++ [CholCall.potf2 u j1 jb M info M1]
                      ∧ info ≠ 0 ∧ i = info + (j1 : Int) ∧ j1 + jb ≤ A.m
                      ∧ ∀ u2 j2 jb2 M2 info2 M3,
                          CholCall.potf2 u2 j2 jb2 M2 info2 M3 ∈ l0 →
                          info2 = 0 ∧ j2 + jb2 ≤ A.m)) := by
            intro u hu
            obtain ⟨i, s1, l, hout, hl, hcase⟩ :=
              potrf_rl_loop_trace potf2 trsm herk u A.m nb fuel 0 _ out hu
            simp only [List.nil_append] at hl
            rw [← hl] at hcase
            exact ⟨i, s1, hout, hcase⟩
          split at h
          · exact Or.inr (key _ h)
          · exact Or.inr (key _ h)

/-- C16: whenever `potf2` reports a nonzero code `info` on the diagonal block
that starts at offset `j`, that invocation is the last sub-kernel call of the
run (no later panel is factored or updated) and `potrf_rl` returns `info + j`;
a nonzero return value always arises in this way; and when every `potf2`
invocation made on a `jb`-by-`jb` block reported a code in `[0, jb]`, every
nonzero return value `i` satisfies `0 < i <= n`.  For `nb >= 1` the run ends
within `n + 1` loop tests. -/
theorem potrf_rl_failure_code {K : Type} [One K] [Neg K] (potf2 : Potf2Fn K)
    (trsm : TrsmFn K) (herk : HerkFn K) (fuel : Nat) (uplo : Uplo) (A : Mat K) (nb : Nat) :
    (1 ≤ nb → A.m < fuel → ∃ out, potrf_rl potf2 trsm herk fuel uplo A nb = some out)
    ∧ ∀ (i : Int) (s : CholState K),
      potrf_rl potf2 trsm herk fuel uplo A nb = some (CholOutcome.returned i s) →
      (∀ l1 l2 u j jb M info M1,
          s.log = l1 ++ CholCall.potf2 u j jb M info M1 :: l2 → info ≠ 0 →
          l2 = [] ∧ i = info + (j : Int))
      ∧ (i ≠ 0 → ∃ l1 u j jb M info M1,
          s.log = l1 ++ [CholCall.potf2 u j jb M info M1] ∧ info ≠ 0
          ∧ i = info + (j : Int) ∧ j + jb ≤ A.m)
      ∧ ((∀ c ∈ s.log, c.InfoInRange) → i ≠ 0 → 0 < i ∧ i ≤ (A.m : Int)) := by
  refine ⟨fun hnb hf => potrf_rl_terminates potf2 trsm herk fuel uplo A nb hnb hf, ?_⟩
  intro i s h
  rcases potrf_rl_trace potf2 trsm herk fuel uplo A nb _ h with
    ⟨s0, hs0, -⟩ | ⟨i1, s1, hout, hcase⟩
  · cases hs0
  · injection hout with hi hs
    subst hi; subst hs
    rcases hcase with ⟨hi, hok⟩ | ⟨l0, u, j1, jb, M, info, M1, hl0, hne, hi, hle, hok⟩
    · refine ⟨?_, fun h0 => absurd hi h0, fun _ h0 => absurd hi h0⟩
      intro l1 l2 u j jb M info M1 hlog hne
      have := (hok u j jb M info M1 (by rw [hlog]; simp)).1
      exact absurd this hne
    · refine ⟨?_, fun _ => ⟨l0, u, j1, jb, M, info, M1, hl0, hne, hi, hle⟩, ?_⟩
      · intro l1 l2 u2 j2 jb2 M2 info2 M3 hlog hne2
        rw [hl0] at hlog
        rcases list_split_last _ _ _ _ _ hlog with ⟨h1, h2⟩ | h1
        · injection h2 with _ h3 _ _ h5 _
          subst h3; subst h5
          exact ⟨h1, hi⟩
        · exact absurd (hok _ _ _ _ _ _ h1).1 hne2
      · intro hrange _
        have hr := hrange (CholCall.potf2 u j1 jb M info M1) (by rw [hl0]; simp)
        simp only [CholCall.InfoInRange] at hr
        constructor
        · rw [hi]; omega
        · rw [hi]; omega
/-! ## `potrf_rl`: the factorization invariant -/

theorem triView_upper {K : Type} [Star K] (e : Nat → Nat → K) (r c : Nat) :
    triView Uplo.Upper e r c = e r c := by
  simp [triView]

theorem triView_lower {K : Type} [Star K] (e : Nat → Nat → K) (r c : Nat) :
    triView Uplo.Lower e r c = star (e c r) := by
  simp [triView]

theorem factorOf_view {K : Type} [CommRing K] [StarRing K] (uplo : Uplo) (k : Nat)
    (F M : Nat → Nat → K) (h : FactorOf uplo k F M) (r c : Nat) (hrc : r ≤ c) (hc : c < k) :
    ∑ t in Finset.range (r + 1), star (triView uplo F t r) * triView uplo F t c
      = triView uplo M r c := by
  cases uplo with
  | Upper => simpa [triView] using h r c hrc hc
  | General => simpa [triView] using h r c hrc hc
  | Lower =>
    have h2 := h c r hrc hc
    simp only [triView_lower]
    rw [← h2, star_sum]
    apply Finset.sum_congr rfl
    intro t _
    simp only [star_mul', star_star]
    ring

theorem cholInv_step {K : Type} [CommRing K] [StarRing K] (pos : K → Prop)
    (n J jb : Nat) (M V W : Nat → Nat → K)
    (inv : CholInv pos n J M V)
    (h1 : ∀ r c, r ≤ c → c < n → r < J → W r c = V r c)
    (h2 : ∀ r, J ≤ r → r < J + jb → r < n → pos (W r r))
    (h3 : ∀ r c, J ≤ r → r < J + jb → r ≤ c → c < n →
      ∑ t in Finset.range (r + 1 - J), star (W (J + t) r) * W (J + t) c = V r c)
    (h4 : ∀ r c, J + jb ≤ r → r ≤ c → c < n →
      W r c = V r c - ∑ t in Finset.range jb, star (W (J + t) r) * W (J + t) c) :
    CholInv pos n (J + jb) M W := by
  obtain ⟨i1, i2, i3⟩ := inv
  have hsumJ : ∀ r c, r ≤ c → c < n → J ≤ r →
      ∑ t in Finset.range J, star (W t r) * W t c
        = ∑ t in Finset.range J, star (V t r) * V t c := by
    intro r c hrc hc hJr
    apply Finset.sum_congr rfl
    intro t ht
    have ht2 := Finset.mem_range.mp ht
    rw [h1 t r (by omega) (by omega) ht2, h1 t c (by omega) hc ht2]
  refine ⟨?_, ?_, ?_⟩
  · intro r hr hrJ
    by_cases hlt : r < J
    · rw [h1 r r (le_refl r) hr hlt]; exact i1 r hr hlt
    · exact h2 r (by omega) hrJ hr
  · intro r c hrc hc hrJ
    by_cases hlt : r < J
    · rw [← i2 r c hrc hc hlt]
      apply Finset.sum_congr rfl
      intro t ht
      have ht2 := Finset.mem_range.mp ht
      rw [h1 t r (by omega) (by omega) (by omega), h1 t c (by omega) hc (by omega)]
    · rw [sum_range_split (r + 1) J (by omega), hsumJ r c hrc hc (by omega),
        h3 r c (by omega) hrJ hrc hc, i3 r c hrc hc (by omega)]
      ring
  · intro r c hrc hc hrJ
    rw [h4 r c hrJ hrc hc, i3 r c hrc hc (by omega),
      sum_range_split (J + jb) J (by omega), hsumJ r c hrc hc (by omega)]
    have : J + jb - J = jb := by omega
    rw [this]
    ring

theorem cholInv_done {K : Type} [CommRing K] [StarRing K] (pos : K → Prop)
    (n J J1 : Nat) (M V : Nat → Nat → K) (hJ : n ≤ J) (hJ1 : n ≤ J1)
    (inv : CholInv pos n J M V) : CholInv pos n J1 M V := by
  obtain ⟨i1, i2, -⟩ := inv
  refine ⟨fun r hr _ => i1 r hr (by omega), fun r c hrc hc _ => i2 r c hrc hc (by omega), ?_⟩
  intro r c hrc hc hJr
  omega

theorem cholInv_diag {K : Type} [CommRing K] [StarRing K] (pos : K → Prop)
    (n J : Nat) (M V : Nat → Nat → K) (hM : ∀ r, r < n → star (M r r) = M r r)
    (inv : CholInv pos n J M V) (r : Nat) (hJ : J ≤ r) (hr : r < n) :
    star (V r r) = V r r := by
  rw [inv.2.2 r r (le_refl r) hr hJ, star_sub, hM r hr, star_sum]
  congr 1
  apply Finset.sum_congr rfl
  intro t _
  rw [star_mul', star_star, mul_comm]

theorem cholInv_zero {K : Type} [CommRing K] [StarRing K] (pos : K → Prop)
    (n : Nat) (M : Nat → Nat → K) : CholInv pos n 0 M M := by
  refine ⟨fun r _ h => absurd h (by omega), fun r c _ _ h => absurd h (by omega), ?_⟩
  intro r c _ _ _
  simp

theorem triView_setSlice_diag {K : Type} [Star K] (uplo : Uplo) (A P : Mat K)
    (J jb r c : Nat) :
    triView uplo (A.setSlice J (J + jb) J (J + jb) P).e r c
      = if J ≤ r ∧ r < J + jb ∧ J ≤ c ∧ c < J + jb then triView uplo P.e (r - J) (c - J)
        else triView uplo A.e r c := by
  unfold triView
  by_cases hb : J ≤ r ∧ r < J + jb ∧ J ≤ c ∧ c < J + jb
  · rw [if_pos hb]
    rw [Mat.setSlice_e_in _ _ _ _ _ _ _ _ hb,
      Mat.setSlice_e_in _ _ _ _ _ _ _ _ ⟨hb.2.2.1, hb.2.2.2, hb.1, hb.2.1⟩]
  · rw [if_neg hb]
    rw [Mat.setSlice_e_out _ _ _ _ _ _ _ _ hb,
      Mat.setSlice_e_out _ _ _ _ _ _ _ _ (fun h => hb ⟨h.2.2.1, h.2.2.2, h.1, h.2.1⟩)]

theorem triView_slice_diag {K : Type} [Star K] (uplo : Uplo) (A : Mat K)
    (J J1 r c : Nat) :
    triView uplo (A.slice J J1 J J1).e r c = triView uplo A.e (J + r) (J + c) := by
  unfold triView
  rfl

theorem triView_diag_selfadj {K : Type} [CommRing K] [StarRing K] (uplo : Uplo)
    (e : Nat → Nat → K) (r : Nat) (h : star (triView uplo e r r) = triView uplo e r r) :
    star (e r r) = e r r := by
  unfold triView at h
  split at h
  · rw [star_star] at h; exact h.symm
  · exact h

theorem opEntry_conj_upper {K : Type} [CommRing K] [StarRing K] (T : Mat K) (r t : Nat) :
    opEntry Op.ConjTrans (triEntry Uplo.Upper Diag.NonUnit T) r t
      = if t ≤ r then star (T.e t r) else 0 := by
  simp only [opEntry, triEntry]
  by_cases h1 : t = r
  · subst h1; simp
  · by_cases h2 : t < r
    · have : t ≤ r := by omega
      simp [h1, h2, this]
    · have : ¬ t ≤ r := by omega
      simp [h1, h2, this]

theorem opEntry_conj_lower {K : Type} [CommRing K] [StarRing K] (T : Mat K) (t c : Nat) :
    opEntry Op.ConjTrans (triEntry Uplo.Lower Diag.NonUnit T) t c
      = if t ≤ c then star (T.e c t) else 0 := by
  simp only [opEntry, triEntry]
  by_cases h1 : c = t
  · subst h1; simp
  · by_cases h2 : t < c
    · have : t ≤ c := by omega
      simp [h1, h2, this]
    · have : ¬ t ≤ c := by omega
      simp [h1, h2, this]

theorem potf2_step_view {K : Type} [CommRing K] [StarRing K] (pos : K → Prop)
    (potf2 : Potf2Fn K) (hp : Potf2Contract pos potf2) (hreal : ∀ u, pos u → star u = u)
    (uplo : Uplo) (hu : uplo = Uplo.Upper ∨ uplo = Uplo.Lower) (A : Mat K) (J jb : Nat)
    (hdiag : ∀ r, J ≤ r → r < J + jb → star (triView uplo A.e r r) = triView uplo A.e r r)
    (hinfo : (potf2 uplo (A.slice J (J + jb) J (J + jb))).1 = 0) :
    (∀ r c, ¬ (J ≤ r ∧ r < J + jb ∧ J ≤ c ∧ c < J + jb) →
      triView uplo (A.setSlice J (J + jb) J (J + jb)
        (potf2 uplo (A.slice J (J + jb) J (J + jb))).2).e r c = triView uplo A.e r c)
    ∧ (∀ r, J ≤ r → r < J + jb →
      pos (triView uplo (A.setSlice J (J + jb) J (J + jb)
        (potf2 uplo (A.slice J (J + jb) J (J + jb))).2).e r r))
    ∧ (∀ r c, J ≤ r → r ≤ c → c < J + jb →
      ∑ t in Finset.range (r + 1 - J),
        star (triView uplo (A.setSlice J (J + jb) J (J + jb)
          (potf2 uplo (A.slice J (J + jb) J (J + jb))).2).e (J + t) r)
        * triView uplo (A.setSlice J (J + jb) J (J + jb)
          (potf2 uplo (A.slice J (J + jb) J (J + jb))).2).e (J + t) c
      = triView uplo A.e r c) := by
  have hm : (A.slice J (J + jb) J (J + jb)).m = jb := by simp [Mat.slice]
  have hpre : ∀ r, r < (A.slice J (J + jb) J (J + jb)).m →
      star ((A.slice J (J + jb) J (J + jb)).e r r) = (A.slice J (J + jb) J (J + jb)).e r r := by
    intro r hr
    rw [hm] at hr
    exact triView_diag_selfadj uplo A.e (J + r) (hdiag (J + r) (by omega) (by omega))
  obtain ⟨hpos, hfac⟩ := (hp uplo (A.slice J (J + jb) J (J + jb)) hu rfl hpre).1 hinfo
  rw [hm] at hpos hfac
  refine ⟨?_, ?_, ?_⟩
  · intro r c hb
    rw [triView_setSlice_diag, if_neg hb]
  · intro r h1 h2
    rw [triView_setSlice_diag, if_pos ⟨h1, h2, h1, h2⟩]
    have hp1 := hpos (r - J) (by omega)
    unfold triView
    split
    · rw [hreal _ hp1]; exact hp1
    · exact hp1
  · intro r c h1 h2 h3
    have hv := factorOf_view uplo jb _ _ hfac (r - J) (c - J) (by omega) (by omega)
    rw [triView_slice_diag] at hv
    have e1 : J + (r - J) = r := by omega
    have e2 : J + (c - J) = c := by omega
    have e3 : r + 1 - J = r - J + 1 := by omega
    rw [e1, e2] at hv
    rw [← hv, e3]
    apply Finset.sum_congr rfl
    intro t ht
    have ht2 := Finset.mem_range.mp ht
    rw [triView_setSlice_diag, if_pos ⟨by omega, by omega, by omega, by omega⟩,
      triView_setSlice_diag, if_pos ⟨by omega, by omega, by omega, by omega⟩]
    have e4 : J + t - J = t := by omega
    rw [e4]

theorem update_view_upper {K : Type} [CommRing K] [StarRing K]
    (trsm : TrsmFn K) (herk : HerkFn K) (ht : TrsmContract trsm) (hh : HerkContract herk)
    (n J jb : Nat) (hJ : J + jb < n) (s : CholState K)
    (hT : ∀ r, J ≤ r → r < J + jb → s.A.e r r ≠ 0)
    (hC : ∀ r, J + jb ≤ r → r < n → star (s.A.e r r) = s.A.e r r) :
    (∀ r c, r ≤ c → ¬ (J ≤ r ∧ J + jb ≤ c ∧ c < n) →
      (potrf_rl_update trsm herk Uplo.Upper n J jb s).A.e r c = s.A.e r c)
    ∧ (∀ r c, J ≤ r → r < J + jb → J + jb ≤ c → c < n →
      ∑ t in Finset.range (r + 1 - J),
        star (s.A.e (J + t) r) * (potrf_rl_update trsm herk Uplo.Upper n J jb s).A.e (J + t) c
      = s.A.e r c)
    ∧ (∀ r c, J + jb ≤ r → r ≤ c → c < n →
      (potrf_rl_update trsm herk Uplo.Upper n J jb s).A.e r c
        = s.A.e r c - ∑ t in Finset.range jb,
            star ((potrf_rl_update trsm herk Uplo.Upper n J jb s).A.e (J + t) r)
              * (potrf_rl_update trsm herk Uplo.Upper n J jb s).A.e (J + t) c) := by
  have hrow : ∀ t c, t < jb →
      (potrf_rl_update trsm herk Uplo.Upper n J jb s).A.e (J + t) c
        = (s.A.setSlice J (J + jb) (J + jb) n
            (trsm Side.Left Uplo.Upper Op.ConjTrans Diag.NonUnit 1
              (s.A.slice J (J + jb) J (J + jb)) (s.A.slice J (J + jb) (J + jb) n))).e (J + t) c := by
    intro t c htj
    simp only [potrf_rl_update, if_true]
    rw [Mat.setSlice_e_out _ _ _ _ _ _ _ _ (by omega)]
  refine ⟨?_, ?_, ?_⟩
  · intro r c hrc hout
    simp only [potrf_rl_update, if_true]
    rw [Mat.setSlice_e_out _ _ _ _ _ _ _ _ (by omega),
      Mat.setSlice_e_out _ _ _ _ _ _ _ _ (by omega)]
  · intro r c h1 h2 h3 h4
    have hc := (ht 1 (s.A.slice J (J + jb) J (J + jb)) (s.A.slice J (J + jb) (J + jb) n)).1
      (by
        intro r0 hr0
        simp only [Mat.slice] at hr0 ⊢
        exact hT (J + r0) (by omega) (by omega))
      (r - J) (c - (J + jb)) (by simp only [Mat.slice]; omega) (by simp only [Mat.slice]; omega)
    have hBm : (s.A.slice J (J + jb) (J + jb) n).m = jb := by simp [Mat.slice]
    rw [hBm, sum_range_head jb (r - J + 1) (by omega) _ (by
      intro a ha
      rw [opEntry_conj_upper, if_neg (by omega), zero_mul])] at hc
    have e1 : J + (r - J) = r := by omega
    have e2 : J + jb + (c - (J + jb)) = c := by omega
    have e3 : r + 1 - J = r - J + 1 := by omega
    simp only [Mat.slice, one_mul, e1, e2] at hc
    rw [← hc, e3]
    apply Finset.sum_congr rfl
    intro t htm
    have ht2 := Finset.mem_range.mp htm
    rw [hrow t c (by omega), Mat.setSlice_e_in _ _ _ _ _ _ _ _ (by omega),
      opEntry_conj_upper, if_pos (by omega)]
    have e4 : J + t - J = t := by omega
    simp only [Mat.slice, e1, e4]
  · intro r c h1 h2 h3
    have hpre : ∀ r0, r0 < ((s.A.setSlice J (J + jb) (J + jb) n
          (trsm Side.Left Uplo.Upper Op.ConjTrans Diag.NonUnit 1
            (s.A.slice J (J + jb) J (J + jb)) (s.A.slice J (J + jb) (J + jb) n))).slice
            (J + jb) n (J + jb) n).m →
        star (((s.A.setSlice J (J + jb) (J + jb) n
          (trsm Side.Left Uplo.Upper Op.ConjTrans Diag.NonUnit 1
            (s.A.slice J (J + jb) J (J + jb)) (s.A.slice J (J + jb) (J + jb) n))).slice
            (J + jb) n (J + jb) n).e r0 r0)
          = ((s.A.setSlice J (J + jb) (J + jb) n
          (trsm Side.Left Uplo.Upper Op.ConjTrans Diag.NonUnit 1
            (s.A.slice J (J + jb) J (J + jb)) (s.A.slice J (J + jb) (J + jb) n))).slice
            (J + jb) n (J + jb) n).e r0 r0 := by
      intro r0 hr0
      simp only [Mat.slice] at hr0 ⊢
      rw [Mat.setSlice_e_out _ _ _ _ _ _ _ _ (by omega)]
      exact hC _ (by omega) (by omega)
    have hk := (hh (-1) 1 ((s.A.setSlice J (J + jb) (J + jb) n
          (trsm Side.Left Uplo.Upper Op.ConjTrans Diag.NonUnit 1
            (s.A.slice J (J + jb) J (J + jb)) (s.A.slice J (J + jb) (J + jb) n))).slice
            J (J + jb) (J + jb) n) _ hpre).1 (r - (J + jb)) (c - (J + jb)) (by omega)
      (by simp only [Mat.slice]; omega)
    have e1 : J + jb + (r - (J + jb)) = r := by omega
    have e2 : J + jb + (c - (J + jb)) = c := by omega
    have hl : (potrf_rl_update trsm herk Uplo.Upper n J jb s).A.e r c
        = (herk Uplo.Upper Op.ConjTrans (-1) ((s.A.setSlice J (J + jb) (J + jb) n
          (trsm Side.Left Uplo.Upper Op.ConjTrans Diag.NonUnit 1
            (s.A.slice J (J + jb) J (J + jb)) (s.A.slice J (J + jb) (J + jb) n))).slice
            J (J + jb) (J + jb) n) 1 ((s.A.setSlice J (J + jb) (J + jb) n
          (trsm Side.Left Uplo.Upper Op.ConjTrans Diag.NonUnit 1
            (s.A.slice J (J + jb) J (J + jb)) (s.A.slice J (J + jb) (J + jb) n))).slice
            (J + jb) n (J + jb) n)).e (r - (J + jb)) (c - (J + jb)) := by
      simp only [potrf_rl_update, if_true]
      rw [Mat.setSlice_e_in _ _ _ _ _ _ _ _ (by omega)]
    rw [hl, hk]
    have hBm : ((s.A.setSlice J (J + jb) (J + jb) n
          (trsm Side.Left Uplo.Upper Op.ConjTrans Diag.NonUnit 1
            (s.A.slice J (J + jb) J (J + jb)) (s.A.slice J (J + jb) (J + jb) n))).slice
            J (J + jb) (J + jb) n).m = jb := by simp [Mat.slice]
    rw [hBm]
    have hsum : ∑ t in Finset.range jb,
        star ((potrf_rl_update trsm herk Uplo.Upper n J jb s).A.e (J + t) r)
          * (potrf_rl_update trsm herk Uplo.Upper n J jb s).A.e (J + t) c
        = ∑ t in Finset.range jb,
          star (((s.A.setSlice J (J + jb) (J + jb) n
          (trsm Side.Left Uplo.Upper Op.ConjTrans Diag.NonUnit 1
            (s.A.slice J (J + jb) J (J + jb)) (s.A.slice J (J + jb) (J + jb) n))).slice
            J (J + jb) (J + jb) n).e t (r - (J + jb)))
          * ((s.A.setSlice J (J + jb) (J + jb) n
          (trsm Side.Left Uplo.Upper Op.ConjTrans Diag.NonUnit 1
            (s.A.slice J (J + jb) J (J + jb)) (s.A.slice J (J + jb) (J + jb) n))).slice
            J (J + jb) (J + jb) n).e t (c - (J + jb)) := by
      apply Finset.sum_congr rfl
      intro t htm
      have ht2 := Finset.mem_range.mp htm
      rw [hrow t r ht2, hrow t c ht2]
      simp only [Mat.slice, e1, e2]
    rw [hsum]
    have hCe : ((s.A.setSlice J (J + jb) (J + jb) n
          (trsm Side.Left Uplo.Upper Op.ConjTrans Diag.NonUnit 1
            (s.A.slice J (J + jb) J (J + jb)) (s.A.slice J (J + jb) (J + jb) n))).slice
            (J + jb) n (J + jb) n).e (r - (J + jb)) (c - (J + jb)) = s.A.e r c := by
      simp only [Mat.slice, e1, e2]
      rw [Mat.setSlice_e_out _ _ _ _ _ _ _ _ (by omega)]
    rw [hCe]
    ring

theorem update_view_lower {K : Type} [CommRing K] [StarRing K]
    (trsm : TrsmFn K) (herk : HerkFn K) (ht : TrsmContract trsm) (hh : HerkContract herk)
    (n J jb : Nat) (hJ : J + jb < n) (s : CholState K)
    (hT : ∀ r, J ≤ r → r < J + jb → s.A.e r r ≠ 0)
    (hC : ∀ r, J + jb ≤ r → r < n → star (s.A.e r r) = s.A.e r r) :
    (∀ r c, r ≤ c → ¬ (J ≤ r ∧ J + jb ≤ c ∧ c < n) →
      (potrf_rl_update trsm herk Uplo.Lower n J jb s).A.e c r = s.A.e c r)
    ∧ (∀ r c, J ≤ r → r < J + jb → J + jb ≤ c → c < n →
      ∑ t in Finset.range (r + 1 - J),
        (potrf_rl_update trsm herk Uplo.Lower n J jb s).A.e c (J + t) * star (s.A.e r (J + t))
      = s.A.e c r)
    ∧ (∀ r c, J + jb ≤ r → r ≤ c → c < n →
      (potrf_rl_update trsm herk Uplo.Lower n J jb s).A.e c r
        = s.A.e c r - ∑ t in Finset.range jb,
            (potrf_rl_update trsm herk Uplo.Lower n J jb s).A.e c (J + t)
              * star ((potrf_rl_update trsm herk Uplo.Lower n J jb s).A.e r (J + t))) := by
  have hne : ¬ (Uplo.Lower = Uplo.Upper) := by decide
  have hcol : ∀ t c, t < jb →
      (potrf_rl_update trsm herk Uplo.Lower n J jb s).A.e c (J + t)
        = (s.A.setSlice (J + jb) n J (J + jb)
            (trsm Side.Right Uplo.Lower Op.ConjTrans Diag.NonUnit 1
              (s.A.slice J (J + jb) J (J + jb)) (s.A.slice (J + jb) n J (J + jb)))).e c (J + t) := by
    intro t c htj
    simp only [potrf_rl_update, hne, if_false]
    rw [Mat.setSlice_e_out _ _ _ _ _ _ _ _ (by omega)]
  refine ⟨?_, ?_, ?_⟩
  · intro r c hrc hout
    simp only [potrf_rl_update, hne, if_false]
    rw [Mat.setSlice_e_out _ _ _ _ _ _ _ _ (by omega),
      Mat.setSlice_e_out _ _ _ _ _ _ _ _ (by omega)]
  · intro r c h1 h2 h3 h4
    have hc := (ht 1 (s.A.slice J (J + jb) J (J + jb)) (s.A.slice (J + jb) n J (J + jb))).2
      (by
        intro r0 hr0
        simp only [Mat.slice] at hr0 ⊢
        exact hT (J + r0) (by omega) (by omega))
      (c - (J + jb)) (r - J) (by simp only [Mat.slice]; omega) (by simp only [Mat.slice]; omega)
    have hBn : (s.A.slice (J + jb) n J (J + jb)).n = jb := by simp [Mat.slice]
    rw [hBn, sum_range_head jb (r - J + 1) (by omega) _ (by
      intro a ha
      rw [opEntry_conj_lower, if_neg (by omega), mul_zero])] at hc
    have e1 : J + (r - J) = r := by omega
    have e2 : J + jb + (c - (J + jb)) = c := by omega
    have e3 : r + 1 - J = r - J + 1 := by omega
    simp only [Mat.slice, one_mul, e1, e2] at hc
    rw [← hc, e3]
    apply Finset.sum_congr rfl
    intro t htm
    have ht2 := Finset.mem_range.mp htm
    rw [hcol t c (by omega), Mat.setSlice_e_in _ _ _ _ _ _ _ _ (by omega),
      opEntry_conj_lower, if_pos (by omega)]
    have e4 : J + t - J = t := by omega
    simp only [Mat.slice, e1, e4]
  · intro r c h1 h2 h3
    have hpre : ∀ r0, r0 < ((s.A.setSlice (J + jb) n J (J + jb)
          (trsm Side.Right Uplo.Lower Op.ConjTrans Diag.NonUnit 1
            (s.A.slice J (J + jb) J (J + jb)) (s.A.slice (J + jb) n J (J + jb)))).slice
            (J + jb) n (J + jb) n).m →
        star (((s.A.setSlice (J + jb) n J (J + jb)
          (trsm Side.Right Uplo.Lower Op.ConjTrans Diag.NonUnit 1
            (s.A.slice J (J + jb) J (J + jb)) (s.A.slice (J + jb) n J (J + jb)))).slice
            (J + jb) n (J + jb) n).e r0 r0)
          = ((s.A.setSlice (J + jb) n J (J + jb)
          (trsm Side.Right Uplo.Lower Op.ConjTrans Diag.NonUnit 1
            (s.A.slice J (J + jb) J (J + jb)) (s.A.slice (J + jb) n J (J + jb)))).slice
            (J + jb) n (J + jb) n).e r0 r0 := by
      intro r0 hr0
      simp only [Mat.slice] at hr0 ⊢
      rw [Mat.setSlice_e_out _ _ _ _ _ _ _ _ (by omega)]
      exact hC _ (by omega) (by omega)
    have hk := (hh (-1) 1 ((s.A.setSlice (J + jb) n J (J + jb)
          (trsm Side.Right Uplo.Lower Op.ConjTrans Diag.NonUnit 1
            (s.A.slice J (J + jb) J (J + jb)) (s.A.slice (J + jb) n J (J + jb)))).slice
            (J + jb) n J (J + jb)) _ hpre).2 (c - (J + jb)) (r - (J + jb)) (by omega)
      (by simp only [Mat.slice]; omega)
    have e1 : J + jb + (r - (J + jb)) = r := by omega
    have e2 : J + jb + (c - (J + jb)) = c := by omega
    have hl : (potrf_rl_update trsm herk Uplo.Lower n J jb s).A.e c r
        = (herk Uplo.Lower Op.NoTrans (-1) ((s.A.setSlice (J + jb) n J (J + jb)
          (trsm Side.Right Uplo.Lower Op.ConjTrans Diag.NonUnit 1
            (s.A.slice J (J + jb) J (J + jb)) (s.A.slice (J + jb) n J (J + jb)))).slice
            (J + jb) n J (J + jb)) 1 ((s.A.setSlice (J + jb) n J (J + jb)
          (trsm Side.Right Uplo.Lower Op.ConjTrans Diag.NonUnit 1
            (s.A.slice J (J + jb) J (J + jb)) (s.A.slice (J + jb) n J (J + jb)))).slice
            (J + jb) n (J + jb) n)).e (c - (J + jb)) (r - (J + jb)) := by
      simp only [potrf_rl_update, hne, if_false]
      rw [Mat.setSlice_e_in _ _ _ _ _ _ _ _ (by omega)]
    rw [hl, hk]
    have hBn : ((s.A.setSlice (J + jb) n J (J + jb)
          (trsm Side.Right Uplo.Lower Op.ConjTrans Diag.NonUnit 1
            (s.A.slice J (J + jb) J (J + jb)) (s.A.slice (J + jb) n J (J + jb)))).slice
            (J + jb) n J (J + jb)).n = jb := by simp [Mat.slice]
    rw [hBn]
    have hsum : ∑ t in Finset.range jb,
        (potrf_rl_update trsm herk Uplo.Lower n J jb s).A.e c (J + t)
          * star ((potrf_rl_update trsm herk Uplo.Lower n J jb s).A.e r (J + t))
        = ∑ t in Finset.range jb,
          ((s.A.setSlice (J + jb) n J (J + jb)
          (trsm Side.Right Uplo.Lower Op.ConjTrans Diag.NonUnit 1
            (s.A.slice J (J + jb) J (J + jb)) (s.A.slice (J + jb) n J (J + jb)))).slice
            (J + jb) n J (J + jb)).e (c - (J + jb)) t
          * star (((s.A.setSlice (J + jb) n J (J + jb)
          (trsm Side.Right Uplo.Lower Op.ConjTrans Diag.NonUnit 1
            (s.A.slice J (J + jb) J (J + jb)) (s.A.slice (J + jb) n J (J + jb)))).slice
            (J + jb) n J (J + jb)).e (r - (J + jb)) t) := by
      apply Finset.sum_congr rfl
      intro t htm
      have ht2 := Finset.mem_range.mp htm
      rw [hcol t r ht2, hcol t c ht2]
      simp only [Mat.slice, e1, e2]
    rw [hsum]
    have hCe : ((s.A.setSlice (J + jb) n J (J + jb)
          (trsm Side.Right Uplo.Lower Op.ConjTrans Diag.NonUnit 1
            (s.A.slice J (J + jb) J (J + jb)) (s.A.slice (J + jb) n J (J + jb)))).slice
            (J + jb) n (J + jb) n).e (c - (J + jb)) (r - (J + jb)) = s.A.e c r := by
      simp only [Mat.slice, e1, e2]
      rw [Mat.setSlice_e_out _ _ _ _ _ _ _ _ (by omega)]
    rw [hCe]
    ring

theorem update_view {K : Type} [CommRing K] [StarRing K]
    (trsm : TrsmFn K) (herk : HerkFn K) (ht : TrsmContract trsm) (hh : HerkContract herk)
    (uplo : Uplo) (hu : uplo = Uplo.Upper ∨ uplo = Uplo.Lower)
    (n J jb : Nat) (hJ : J + jb < n) (s : CholState K)
    (hT : ∀ r, J ≤ r → r < J + jb → triView uplo s.A.e r r ≠ 0)
    (hC : ∀ r, J + jb ≤ r → r < n →
      star (triView uplo s.A.e r r) = triView uplo s.A.e r r) :
    (∀ r c, r ≤ c → ¬ (J ≤ r ∧ J + jb ≤ c ∧ c < n) →
      triView uplo (potrf_rl_update trsm herk uplo n J jb s).A.e r c
        = triView uplo s.A.e r c)
    ∧ (∀ r c, J ≤ r → r < J + jb → J + jb ≤ c → c < n →
      ∑ t in Finset.range (r + 1 - J),
        star (triView uplo s.A.e (J + t) r)
          * triView uplo (potrf_rl_update trsm herk uplo n J jb s).A.e (J + t) c
      = triView uplo s.A.e r c)
    ∧ (∀ r c, J + jb ≤ r → r ≤ c → c < n →
      triView uplo (potrf_rl_update trsm herk uplo n J jb s).A.e r c
        = triView uplo s.A.e r c - ∑ t in Finset.range jb,
            star (triView uplo (potrf_rl_update trsm herk uplo n J jb s).A.e (J + t) r)
              * triView uplo (potrf_rl_update trsm herk uplo n J jb s).A.e (J + t) c) := by
  rcases hu with hu | hu
  · subst hu
    simp only [triView_upper] at hT hC ⊢
    exact update_view_upper trsm herk ht hh n J jb hJ s hT hC
  · subst hu
    simp only [triView_lower] at hT hC ⊢
    have hT2 : ∀ r, J ≤ r → r < J + jb → s.A.e r r ≠ 0 := by
      intro r h1 h2 h0
      exact hT r h1 h2 (by rw [h0, star_zero])
    have hC2 : ∀ r, J + jb ≤ r → r < n → star (s.A.e r r) = s.A.e r r := by
      intro r h1 h2
      have := hC r h1 h2
      rw [star_star] at this
      exact this.symm
    obtain ⟨l1, l2, l3⟩ := update_view_lower trsm herk ht hh n J jb hJ s hT2 hC2
    refine ⟨?_, ?_, ?_⟩
    · intro r c hrc hout
      rw [l1 r c hrc hout]
    · intro r c h1 h2 h3 h4
      rw [← l2 r c h1 h2 h3 h4, star_sum]
      apply Finset.sum_congr rfl
      intro t _
      simp only [star_mul', star_star]
      ring
    · intro r c h1 h2 h3
      rw [l3 r c h1 h2 h3, star_sub, star_sum]
      congr 1
      apply Finset.sum_congr rfl
      intro t _
      simp only [star_mul', star_star]
      ring

theorem potrf_rl_panel_inv {K : Type} [CommRing K] [StarRing K] (pos : K → Prop)
    (potf2 : Potf2Fn K) (trsm : TrsmFn K) (herk : HerkFn K)
    (hp : Potf2Contract pos potf2) (ht : TrsmContract trsm) (hh : HerkContract herk)
    (hreal : ∀ u, pos u → star u = u) (hpos0 : ∀ u, pos u → u ≠ 0)
    (uplo : Uplo) (hu : uplo = Uplo.Upper ∨ uplo = Uplo.Lower)
    (n J jb : Nat) (hJ : J + jb ≤ n) (M : Nat → Nat → K)
    (hM : ∀ r, r < n → star (M r r) = M r r) (s : CholState K) (l : List (CholCall K))
    (inv : CholInv pos n J M (triView uplo s.A.e))
    (hinfo : (potf2 uplo (s.A.slice J (J + jb) J (J + jb))).1 = 0) :
    (J + jb < n → CholInv pos n (J + jb) M
      (triView uplo (potrf_rl_update trsm herk uplo n J jb
        ⟨s.A.setSlice J (J + jb) J (J + jb)
          (potf2 uplo (s.A.slice J (J + jb) J (J + jb))).2, l⟩).A.e))
    ∧ (¬ J + jb < n → CholInv pos n (J + jb) M
      (triView uplo (s.A.setSlice J (J + jb) J (J + jb)
          (potf2 uplo (s.A.slice J (J + jb) J (J + jb))).2).e)) := by
  have hdiag : ∀ r, J ≤ r → r < n → star (triView uplo s.A.e r r) = triView uplo s.A.e r r :=
    fun r h1 h2 => cholInv_diag pos n J M _ hM inv r h1 h2
  obtain ⟨p1, p2, p3⟩ := potf2_step_view pos potf2 hp hreal uplo hu s.A J jb
    (fun r h1 h2 => hdiag r h1 (by omega)) hinfo
  constructor
  · intro hlt
    obtain ⟨u1, u2, u3⟩ := update_view trsm herk ht hh uplo hu n J jb hlt
      ⟨s.A.setSlice J (J + jb) J (J + jb)
          (potf2 uplo (s.A.slice J (J + jb) J (J + jb))).2, l⟩
      (fun r h1 h2 => hpos0 _ (p2 r h1 h2))
      (fun r h1 h2 => by
        show star (triView uplo (s.A.setSlice J (J + jb) J (J + jb)
          (potf2 uplo (s.A.slice J (J + jb) J (J + jb))).2).e r r) = _
        rw [p1 r r (by omega)]
        exact hdiag r (by omega) h2)
    apply cholInv_step pos n J jb M _ _ inv
    · intro r c hrc hc hr
      rw [u1 r c hrc (by omega)]
      exact p1 r c (by omega)
    · intro r h1 h2 _
      rw [u1 r r (le_refl r) (by omega)]
      exact p2 r h1 h2
    · intro r c h1 h2 hrc hc
      by_cases hcb : c < J + jb
      · rw [← p3 r c h1 hrc hcb]
        apply Finset.sum_congr rfl
        intro t htm
        have ht2 := Finset.mem_range.mp htm
        rw [u1 (J + t) r (by omega) (by omega), u1 (J + t) c (by omega) (by omega)]
      · have := u2 r c h1 h2 (by omega) hc
        have e1 : triView uplo (s.A.setSlice J (J + jb) J (J + jb)
            (potf2 uplo (s.A.slice J (J + jb) J (J + jb))).2).e r c
              = triView uplo s.A.e r c := p1 r c (by omega)
        rw [← e1, ← this]
        apply Finset.sum_congr rfl
        intro t htm
        have ht2 := Finset.mem_range.mp htm
        rw [u1 (J + t) r (by omega) (by omega)]
    · intro r c h1 hrc hc
      rw [u3 r c h1 hrc hc]
      congr 1
      exact p1 r c (by omega)
  · intro hge
    apply cholInv_step pos n J jb M _ _ inv
    · intro r c hrc hc hr
      exact p1 r c (by omega)
    · intro r h1 h2 _
      exact p2 r h1 h2
    · intro r c h1 h2 hrc hc
      exact p3 r c h1 hrc (by omega)
    · intro r c h1 hrc hc
      omega

theorem failsAt_glue {K : Type} [CommRing K] [StarRing K] (pos : K → Prop)
    (n J p : Nat) (M V F : Nat → Nat → K) (hp : J + p < n)
    (inv : CholInv pos n J M V)
    (hf : FailsAt pos p (fun r c => V (J + r) (J + c)) F) :
    FailsAt pos (J + p) M (fun r c => if r < J then V r c else F (r - J) (c - J)) := by
  obtain ⟨i1, i2, i3⟩ := inv
  obtain ⟨f1, f2, f3⟩ := hf
  have hsplit : ∀ r c, J ≤ r → r ≤ J + p → r ≤ c → c ≤ J + p →
      ∑ t in Finset.range r,
        star ((fun r c => if r < J then V r c else F (r - J) (c - J)) t r)
          * (fun r c => if r < J then V r c else F (r - J) (c - J)) t c
      = ∑ t in Finset.range J, star (V t r) * V t c
        + ∑ t in Finset.range (r - J), star (F t (r - J)) * F t (c - J) := by
    intro r c h1 h2 h3 h4
    rw [sum_range_split r J h1]
    congr 1
    · apply Finset.sum_congr rfl
      intro t htm
      have ht2 := Finset.mem_range.mp htm
      simp only [ht2, if_true]
    · apply Finset.sum_congr rfl
      intro t htm
      have ht2 := Finset.mem_range.mp htm
      have h5 : ¬ J + t < J := by omega
      have h6 : J + t - J = t := by omega
      simp only [h5, if_false, h6]
  refine ⟨?_, ?_, ?_⟩
  · intro r hr
    by_cases hlt : r < J
    · simp only [hlt, if_true]; exact i1 r (by omega) hlt
    · simp only [hlt, if_false]; exact f1 (r - J) (by omega)
  · intro r c hr hrc hc
    by_cases hlt : r < J
    · rw [← i2 r c hrc (by omega) hlt]
      apply Finset.sum_congr rfl
      intro t htm
      have ht2 := Finset.mem_range.mp htm
      have h5 : t < J := by omega
      simp only [h5, if_true]
    · rw [Finset.sum_range_succ, hsplit r c (by omega) (by omega) hrc hc]
      have hF := f2 (r - J) (c - J) (by omega) (by omega) (by omega)
      rw [Finset.sum_range_succ] at hF
      have e1 : J + (r - J) = r := by omega
      have e2 : J + (c - J) = c := by omega
      simp only [e1, e2] at hF
      simp only [hlt, if_false]
      rw [add_assoc, hF, i3 r c hrc (by omega) (by omega)]
      ring
  · rintro ⟨u, hu, huu⟩
    apply f3
    refine ⟨u, hu, ?_⟩
    have hV : (fun r c => V (J + r) (J + c)) p p = V (J + p) (J + p) := rfl
    rw [huu, hsplit (J + p) (J + p) (by omega) (le_refl _) (le_refl _) (le_refl _), hV,
      i3 (J + p) (J + p) (le_refl _) hp (by omega)]
    have e1 : J + p - J = p := by omega
    simp only [e1]
    ring

theorem potrf_rl_loop_inv {K : Type} [CommRing K] [StarRing K] (pos : K → Prop)
    (potf2 : Potf2Fn K) (trsm : TrsmFn K) (herk : HerkFn K)
    (hp : Potf2Contract pos potf2) (ht : TrsmContract trsm) (hh : HerkContract herk)
    (hreal : ∀ u, pos u → star u = u) (hpos0 : ∀ u, pos u → u ≠ 0)
    (uplo : Uplo) (hu : uplo = Uplo.Upper ∨ uplo = Uplo.Lower)
    (n nb : Nat) (M : Nat → Nat → K) (hM : ∀ r, r < n → star (M r r) = M r r) :
    ∀ (fuel J : Nat) (s : CholState K) (i : Int) (s1 : CholState K),
      CholInv pos n J M (triView uplo s.A.e) →
      potrf_rl_loop potf2 trsm herk uplo n nb fuel J s = some (CholOutcome.returned i s1) →
      (i = 0 → CholInv pos n n M (triView uplo s1.A.e))
      ∧ (i ≠ 0 → ∃ (p : Nat) (F : Nat → Nat → K),
          i = (p : Int) + 1 ∧ p < n ∧ FailsAt pos p M F) := by
  intro fuel
  induction fuel with
  | zero => intro J s i s1 _ h; simp [potrf_rl_loop] at h
  | succ f ih =>
    intro J s i s1 inv h
    simp only [potrf_rl_loop] at h
    split at h
    · rename_i hJ
      have hjb : J + min nb (n - J) ≤ n := by omega
      split at h
      · rename_i hinfo
        injection h with h
        injection h with hi hs
        have hm : (s.A.slice J (J + min nb (n - J)) J (J + min nb (n - J))).m
            = min nb (n - J) := by simp [Mat.slice]
        have hpre : ∀ r, r < (s.A.slice J (J + min nb (n - J)) J (J + min nb (n - J))).m →
            star ((s.A.slice J (J + min nb (n - J)) J (J + min nb (n - J))).e r r)
              = (s.A.slice J (J + min nb (n - J)) J (J + min nb (n - J))).e r r := by
          intro r hr
          rw [hm] at hr
          exact triView_diag_selfadj uplo s.A.e (J + r)
            (cholInv_diag pos n J M _ hM inv (J + r) (by omega) (by omega))
        obtain ⟨h1, h2, F, hF⟩ := (hp uplo _ hu rfl hpre).2 hinfo
        rw [hm] at h2
        refine ⟨fun h0 => ?_, fun _ => ?_⟩
        · exfalso; rw [← hi] at h0; omega
        · refine ⟨J + ((potf2 uplo (s.A.slice J (J + min nb (n - J)) J
              (J + min nb (n - J)))).1 - 1).toNat, _, ?_, ?_,
            failsAt_glue pos n J _ M _ F ?_ inv ?_⟩
          · rw [← hi]; push_cast; omega
          · omega
          · omega
          · have : (fun r c => triView uplo s.A.e (J + r) (J + c))
                = triView uplo (s.A.slice J (J + min nb (n - J)) J (J + min nb (n - J))).e := by
              funext r c
              rw [triView_slice_diag]
            rw [this]
            exact hF
      · rename_i hinfo
        have hinfo0 : (potf2 uplo (s.A.slice J (J + min nb (n - J)) J
            (J + min nb (n - J)))).1 = 0 := by
          by_contra hne; exact hinfo hne
        obtain ⟨q1, q2⟩ := potrf_rl_panel_inv pos potf2 trsm herk hp ht hh hreal hpos0 uplo hu
          n J (min nb (n - J)) hjb M hM s
          (s.log ++ [CholCall.potf2 uplo J (min nb (n - J))
            (s.A.slice J (J + min nb (n - J)) J (J + min nb (n - J)))
            (potf2 uplo (s.A.slice J (J + min nb (n - J)) J (J + min nb (n - J)))).1
            (potf2 uplo (s.A.slice J (J + min nb (n - J)) J (J + min nb (n - J)))).2])
          inv hinfo0
        split at h
        · rename_i hlt
          have hnbeq : min nb (n - J) = nb := by omega
          have inv2 := q1 hlt
          rw [hnbeq] at inv2
          rw [hnbeq] at h
          exact ih _ _ _ _ inv2 h
        · rename_i hge
          have inv2 := q2 hge
          have inv3 := cholInv_done pos n _ (J + nb) M _ (by omega) (by omega) inv2
          exact ih _ _ _ _ inv3 h
    · rename_i hJ
      injection h with h
      injection h with hi hs
      subst hs
      refine ⟨fun _ => cholInv_done pos n J n M _ (by omega) (le_refl n) inv,
        fun h0 => absurd hi.symm h0⟩

theorem triView_pos {K : Type} [CommRing K] [StarRing K] (pos : K → Prop)
    (hreal : ∀ u, pos u → star u = u) (uplo : Uplo) (e : Nat → Nat → K) (r : Nat)
    (h : pos (e r r)) : pos (triView uplo e r r) := by
  unfold triView
  split
  · rw [hreal _ h]; exact h
  · exact h

theorem potrf_rl_view {K : Type} [CommRing K] [StarRing K] (pos : K → Prop)
    (potf2 : Potf2Fn K) (trsm : TrsmFn K) (herk : HerkFn K)
    (hp : Potf2Contract pos potf2) (ht : TrsmContract trsm) (hh : HerkContract herk)
    (hreal : ∀ u, pos u → star u = u) (hpos0 : ∀ u, pos u → u ≠ 0)
    (fuel : Nat) (uplo : Uplo) (A : Mat K) (nb : Nat) (i : Int) (s : CholState K)
    (hherm : A.IsHermitian)
    (hrun : potrf_rl potf2 trsm herk fuel uplo A nb = some (CholOutcome.returned i s)) :
    (uplo = Uplo.Upper ∨ uplo = Uplo.Lower)
    ∧ (i = 0 → CholInv pos A.m A.m (triView uplo A.e) (triView uplo s.A.e))
    ∧ (i ≠ 0 → ∃ (p : Nat) (F : Nat → Nat → K),
        i = (p : Int) + 1 ∧ p < A.m ∧ FailsAt pos p (triView uplo A.e) F) := by
  have hM : ∀ r, r < A.m → star (triView uplo A.e r r) = triView uplo A.e r r := by
    intro r hr
    have h1 := hherm.2 r r hr hr
    unfold triView
    split
    · rw [star_star]; exact h1
    · exact h1.symm
  unfold potrf_rl at hrun
  simp only at hrun
  split at hrun
  · cases hrun
  · rename_i hu
    have hu2 : uplo = Uplo.Upper ∨ uplo = Uplo.Lower := by
      by_contra hne
      exact hu (fun h => hne (Or.symm h))
    refine ⟨hu2, ?_⟩
    split at hrun
    · cases hrun
    · split at hrun
      · rename_i hn
        injection hrun with hrun
        injection hrun with hi hs
        subst hs
        refine ⟨fun _ => ⟨fun r hr _ => absurd hr (by omega),
          fun r c _ hc _ => absurd hc (by omega), fun r c _ hc _ => absurd hc (by omega)⟩,
          fun h0 => absurd hi.symm h0⟩
      · split at hrun
        · injection hrun with hrun
          injection hrun with hi hs
          have hpre : ∀ r, r < A.m → star (A.e r r) = A.e r r :=
            fun r hr => (hherm.2 r r hr hr).symm
          obtain ⟨c1, c2⟩ := hp uplo A hu2 hherm.1 hpre
          rw [hi] at c1 c2
          rw [← hs]
          refine ⟨fun h0 => ?_, fun h0 => ?_⟩
          · obtain ⟨d1, d2⟩ := c1 h0
            refine ⟨fun r hr _ => triView_pos pos hreal uplo _ r (d1 r hr),
              fun r c hrc hc _ => factorOf_view uplo A.m _ _ d2 r c hrc hc,
              fun r c _ hc hr => absurd hc (by omega)⟩
          · obtain ⟨d1, d2, F, hF⟩ := c2 h0
            exact ⟨(i - 1).toNat, F, by omega, by omega, hF⟩
        · have key : ∀ u, u = uplo →
              potrf_rl_loop potf2 trsm herk u A.m nb fuel 0 ⟨A, []⟩
                = some (CholOutcome.returned i s) →
              (i = 0 → CholInv pos A.m A.m (triView uplo A.e) (triView uplo s.A.e))
              ∧ (i ≠ 0 → ∃ (p : Nat) (F : Nat → Nat → K),
                  i = (p : Int) + 1 ∧ p < A.m ∧ FailsAt pos p (triView uplo A.e) F) := by
            intro u hue hl
            subst hue
            exact potrf_rl_loop_inv pos potf2 trsm herk hp ht hh hreal hpos0 u hu2 A.m nb
              (triView u A.e) hM fuel 0 ⟨A, []⟩ i s (cholInv_zero pos A.m _) hl
          split at hrun
          · rename_i hup
            exact key _ hup.symm hrun
          · rename_i hup
            have hlo : uplo = Uplo.Lower := by
              rcases hu2 with h | h
              · exact absurd h hup
              · exact h
            exact key _ hlo.symm hrun

theorem chol_view_gram {K : Type} [CommRing K] [StarRing K] (uplo : Uplo) (n : Nat)
    (e a : Nat → Nat → K) (hherm : ∀ r c, r < n → c < n → a r c = star (a c r))
    (hfac : ∀ r c, r ≤ c → c < n →
      ∑ t in Finset.range (r + 1), star (triView uplo e t r) * triView uplo e t c
        = triView uplo a r c) :
    (chol_U n (triView uplo e)).conjTranspose * chol_U n (triView uplo e) = matOf n n a := by
  ext i j
  simp only [Matrix.mul_apply, Matrix.conjTranspose_apply, chol_U, Matrix.of_apply, matOf]
  rw [Fin.sum_univ_eq_sum_range
    (fun t => star (if t ≤ i.val then triView uplo e t i.val else 0)
      * (if t ≤ j.val then triView uplo e t j.val else 0)) n]
  have hview : ∀ r c, r ≤ c → c < n → triView uplo a r c = a r c := by
    intro r c hrc hc
    unfold triView
    split
    · exact (hherm r c (by omega) hc).symm
    · rfl
  by_cases hij : i.val ≤ j.val
  · rw [sum_range_head n (i.val + 1) (by omega) _ (by
      intro t ht
      have : ¬ t ≤ i.val := by omega
      simp [this])]
    rw [← hview i.val j.val hij j.isLt, ← hfac i.val j.val hij j.isLt]
    apply Finset.sum_congr rfl
    intro t htm
    have ht2 := Finset.mem_range.mp htm
    have h1 : t ≤ i.val := by omega
    have h2 : t ≤ j.val := by omega
    simp only [h1, h2, if_true]
  · have hji : j.val ≤ i.val := by omega
    rw [sum_range_head n (j.val + 1) (by omega) _ (by
      intro t ht
      have : ¬ t ≤ j.val := by omega
      simp [this])]
    rw [hherm i.val j.val i.isLt j.isLt, ← hview j.val i.val hji i.isLt,
      ← hfac j.val i.val hji i.isLt, star_sum]
    apply Finset.sum_congr rfl
    intro t htm
    have ht2 := Finset.mem_range.mp htm
    have h1 : t ≤ i.val := by omega
    have h2 : t ≤ j.val := by omega
    simp only [h1, h2, if_true, star_mul', star_star]
    ring

theorem chol_L_eq_view {K : Type} [CommRing K] [StarRing K] (n : Nat) (e : Nat → Nat → K) :
    chol_L n e = (chol_U n (triView Uplo.Lower e)).conjTranspose := by
  ext i j
  simp only [chol_L, chol_U, Matrix.conjTranspose_apply, Matrix.of_apply, triView_lower]
  split
  · rw [star_star]
  · rw [star_zero]

theorem chol_U_eq_view {K : Type} [CommRing K] [StarRing K] (n : Nat) (e : Nat → Nat → K) :
    chol_U n e = chol_U n (triView Uplo.Upper e) := by
  ext i j
  simp only [chol_U, Matrix.of_apply, triView_upper]

/-- C15: for an `n`-by-`n` Hermitian `A` and a block size `nb >= 1`, with
`potf2`, `trsm` and `herk` meeting their exact-arithmetic contracts, the run
ends (within `n + 1` loop tests), and if `potrf_rl` returns 0 then for
`uplo = Upper` the upper triangle `U` of the output satisfies `U^H U = A`, and
for `uplo = Lower` the lower triangle `L` of the output satisfies
`L L^H = A` (`A` the matrix on entry). -/
theorem potrf_rl_factorization {K : Type} [CommRing K] [StarRing K] (pos : K → Prop)
    (potf2 : Potf2Fn K) (trsm : TrsmFn K) (herk : HerkFn K)
    (fuel : Nat) (uplo : Uplo) (A : Mat K) (nb : Nat) (s : CholState K)
    (hp : Potf2Contract pos potf2) (ht : TrsmContract trsm) (hh : HerkContract herk)
    (hreal : ∀ u, pos u → star u = u) (hpos0 : ∀ u, pos u → u ≠ 0)
    (hnb : 1 ≤ nb) (hherm : A.IsHermitian)
    (hrun : potrf_rl potf2 trsm herk fuel uplo A nb = some (CholOutcome.returned 0 s)) :
    (∀ f, A.m < f → ∃ out, potrf_rl potf2 trsm herk f uplo A nb = some out)
    ∧ (uplo = Uplo.Upper →
        (chol_U A.m s.A.e).conjTranspose * chol_U A.m s.A.e = matOf A.m A.m A.e)
    ∧ (uplo = Uplo.Lower →
        chol_L A.m s.A.e * (chol_L A.m s.A.e).conjTranspose = matOf A.m A.m A.e) := by
  obtain ⟨-, h0, -⟩ := potrf_rl_view pos potf2 trsm herk hp ht hh hreal hpos0 fuel uplo A nb
    0 s hherm hrun
  have hfac := (h0 rfl).2.1
  have hg := chol_view_gram uplo A.m s.A.e A.e hherm.2
    (fun r c hrc hc => hfac r c hrc hc (by omega))
  refine ⟨fun f hf => potrf_rl_terminates potf2 trsm herk f uplo A nb hnb hf, ?_, ?_⟩
  · intro hu
    subst hu
    rw [chol_U_eq_view]
    exact hg
  · intro hu
    subst hu
    rw [chol_L_eq_view, Matrix.conjTranspose_conjTranspose]
    exact hg
/-! ## Exact models meet the contracts -/

theorem chol_rows_succ_some (M : Nat → Nat → ℚ) (p q : Nat)
    (h : (chol_rows M p).1 = some q) : chol_rows M (p + 1) = (some q, (chol_rows M p).2) := by
  simp only [chol_rows, h]

theorem chol_rows_succ_ok (M : Nat → Nat → ℚ) (p : Nat)
    (h : (chol_rows M p).1 = none)
    (hd : 0 < M p p - ∑ t in Finset.range p, (chol_rows M p).2 t p * (chol_rows M p).2 t p
      ∧ Rat.sqrt (M p p - ∑ t in Finset.range p, (chol_rows M p).2 t p * (chol_rows M p).2 t p)
        * Rat.sqrt (M p p - ∑ t in Finset.range p, (chol_rows M p).2 t p * (chol_rows M p).2 t p)
        = M p p - ∑ t in Finset.range p, (chol_rows M p).2 t p * (chol_rows M p).2 t p) :
    chol_rows M (p + 1) = (none, fun r c =>
      if r = p then
        (if c = p then
          Rat.sqrt (M p p - ∑ t in Finset.range p, (chol_rows M p).2 t p * (chol_rows M p).2 t p)
          else (M p c - ∑ t in Finset.range p, (chol_rows M p).2 t p * (chol_rows M p).2 t c)
            / Rat.sqrt (M p p
              - ∑ t in Finset.range p, (chol_rows M p).2 t p * (chol_rows M p).2 t p))
      else (chol_rows M p).2 r c) := by
  simp only [chol_rows, h]
  rw [if_pos hd]

theorem chol_rows_succ_fail (M : Nat → Nat → ℚ) (p : Nat)
    (h : (chol_rows M p).1 = none)
    (hd : ¬ (0 < M p p - ∑ t in Finset.range p, (chol_rows M p).2 t p * (chol_rows M p).2 t p
      ∧ Rat.sqrt (M p p - ∑ t in Finset.range p, (chol_rows M p).2 t p * (chol_rows M p).2 t p)
        * Rat.sqrt (M p p - ∑ t in Finset.range p, (chol_rows M p).2 t p * (chol_rows M p).2 t p)
        = M p p - ∑ t in Finset.range p, (chol_rows M p).2 t p * (chol_rows M p).2 t p)) :
    chol_rows M (p + 1) = (some p, (chol_rows M p).2) := by
  simp only [chol_rows, h]
  rw [if_neg hd]

theorem chol_rows_spec (M : Nat → Nat → ℚ) : ∀ p,
    ((chol_rows M p).1 = none →
      (∀ r, r < p → 0 < (chol_rows M p).2 r r)
      ∧ (∀ r c, r < p → r ≤ c →
          ∑ t in Finset.range (r + 1), (chol_rows M p).2 t r * (chol_rows M p).2 t c = M r c))
    ∧ (∀ q, (chol_rows M p).1 = some q →
      q < p ∧ (∀ r, r < q → 0 < (chol_rows M p).2 r r)
      ∧ (∀ r c, r < q → r ≤ c →
          ∑ t in Finset.range (r + 1), (chol_rows M p).2 t r * (chol_rows M p).2 t c = M r c)
      ∧ ¬ ∃ u : ℚ, 0 < u ∧ u * u
          = M q q - ∑ t in Finset.range q, (chol_rows M p).2 t q * (chol_rows M p).2 t q) := by
  intro p
  induction p with
  | zero =>
    refine ⟨fun _ => ⟨fun r hr => absurd hr (by omega), fun r c hr _ => absurd hr (by omega)⟩, ?_⟩
    intro q hq
    simp [chol_rows] at hq
  | succ p ih =>
    obtain ⟨ih1, ih2⟩ := ih
    cases hprev : (chol_rows M p).1 with
    | some q0 =>
      rw [chol_rows_succ_some M p q0 hprev]
      refine ⟨(fun h => by cases h), ?_⟩
      intro q hq
      have hq2 : q0 = q := by simpa using hq
      subst hq2
      obtain ⟨a, b, c, d⟩ := ih2 q0 hprev
      exact ⟨by omega, b, c, d⟩
    | none =>
      obtain ⟨i1, i2⟩ := ih1 hprev
      by_cases hd : 0 < M p p - ∑ t in Finset.range p,
            (chol_rows M p).2 t p * (chol_rows M p).2 t p
          ∧ Rat.sqrt (M p p - ∑ t in Finset.range p,
              (chol_rows M p).2 t p * (chol_rows M p).2 t p)
            * Rat.sqrt (M p p - ∑ t in Finset.range p,
              (chol_rows M p).2 t p * (chol_rows M p).2 t p)
            = M p p - ∑ t in Finset.range p, (chol_rows M p).2 t p * (chol_rows M p).2 t p
      · rw [chol_rows_succ_ok M p hprev hd]
        refine ⟨fun _ => ?_, fun q hq => by cases hq⟩
        have hs0 : Rat.sqrt (M p p - ∑ t in Finset.range p,
            (chol_rows M p).2 t p * (chol_rows M p).2 t p) ≠ 0 := by
          intro h0
          rw [h0, mul_zero] at hd
          exact absurd hd.1 (by rw [← hd.2]; exact lt_irrefl 0)
        have hsnn : 0 ≤ Rat.sqrt (M p p - ∑ t in Finset.range p,
            (chol_rows M p).2 t p * (chol_rows M p).2 t p) := Rat.sqrt_nonneg _
        constructor
        · intro r hr
          by_cases hrp : r = p
          · subst hrp
            simp only [if_true]
            exact lt_of_le_of_ne hsnn (Ne.symm hs0)
          · simp only [hrp, if_false]
            exact i1 r (by omega)
        · intro r c hr hrc
          by_cases hrp : r = p
          · subst hrp
            rw [Finset.sum_range_succ]
            have hlow : ∑ t in Finset.range r,
                (fun r0 c0 => if r0 = r then
                  (if c0 = r then Rat.sqrt (M r r - ∑ t in Finset.range r,
                      (chol_rows M r).2 t r * (chol_rows M r).2 t r)
                    else (M r c0 - ∑ t in Finset.range r,
                      (chol_rows M r).2 t r * (chol_rows M r).2 t c0)
                      / Rat.sqrt (M r r - ∑ t in Finset.range r,
                        (chol_rows M r).2 t r * (chol_rows M r).2 t r))
                  else (chol_rows M r).2 r0 c0) t r
                * (fun r0 c0 => if r0 = r then
                  (if c0 = r then Rat.sqrt (M r r - ∑ t in Finset.range r,
                      (chol_rows M r).2 t r * (chol_rows M r).2 t r)
                    else (M r c0 - ∑ t in Finset.range r,
                      (chol_rows M r).2 t r * (chol_rows M r).2 t c0)
                      / Rat.sqrt (M r r - ∑ t in Finset.range r,
                        (chol_rows M r).2 t r * (chol_rows M r).2 t r))
                  else (chol_rows M r).2 r0 c0) t c
                = ∑ t in Finset.range r, (chol_rows M r).2 t r * (chol_rows M r).2 t c := by
              apply Finset.sum_congr rfl
              intro t htm
              have ht2 := Finset.mem_range.mp htm
              have : ¬ t = r := by omega
              simp only [this, if_false]
            rw [hlow]
            simp only [if_true]
            by_cases hcr : c = r
            · subst hcr
              simp only [if_true]
              rw [hd.2]
              ring
            · simp only [hcr, if_false]
              field_simp
          · have hlt : r < p := by omega
            rw [← i2 r c hlt hrc]
            apply Finset.sum_congr rfl
            intro t htm
            have ht2 := Finset.mem_range.mp htm
            have : ¬ t = p := by omega
            simp only [this, if_false]
      · rw [chol_rows_succ_fail M p hprev hd]
        refine ⟨(fun h => by cases h), ?_⟩
        intro q hq
        have hq2 : p = q := by simpa using hq
        subst hq2
        refine ⟨by omega, i1, i2, ?_⟩
        rintro ⟨u, hu, huu⟩
        apply hd
        constructor
        · rw [← huu]; exact mul_pos hu hu
        · rw [← huu, Rat.sqrt_eq, abs_mul_abs_self]

theorem potf2_exact_eq_ok (uplo : Uplo) (A : Mat ℚ)
    (h : (chol_rows (triView uplo A.e) A.m).1 = none) :
    potf2_exact uplo A = (0, ⟨A.m, A.n, fun r c =>
      if uplo = Uplo.Lower then
        (if c ≤ r ∧ r < A.m ∧ c < A.m then (chol_rows (triView uplo A.e) A.m).2 c r
          else A.e r c)
      else
        (if r ≤ c ∧ c < A.m ∧ r < A.m then (chol_rows (triView uplo A.e) A.m).2 r c
          else A.e r c)⟩) := by
  simp only [potf2_exact, h]

theorem potf2_exact_eq_fail (uplo : Uplo) (A : Mat ℚ) (q : Nat)
    (h : (chol_rows (triView uplo A.e) A.m).1 = some q) :
    potf2_exact uplo A = ((q : Int) + 1, ⟨A.m, A.n, fun r c =>
      if uplo = Uplo.Lower then
        (if c ≤ r ∧ r < A.m ∧ c < q then (chol_rows (triView uplo A.e) A.m).2 c r
          else A.e r c)
      else
        (if r ≤ c ∧ c < A.m ∧ r < q then (chol_rows (triView uplo A.e) A.m).2 r c
          else A.e r c)⟩) := by
  simp only [potf2_exact, h]

theorem potf2_exact_meets : Potf2Contract ratPos potf2_exact := by
  intro uplo M hu hsq hdiag
  obtain ⟨s1, s2⟩ := chol_rows_spec (triView uplo M.e) M.m
  cases hres : (chol_rows (triView uplo M.e) M.m).1 with
  | none =>
    obtain ⟨p1, p2⟩ := s1 hres
    rw [potf2_exact_eq_ok uplo M hres]
    refine ⟨fun _ => ⟨?_, ?_⟩, fun h => absurd rfl h⟩
    · intro r hr
      show ratPos (if uplo = Uplo.Lower then _ else _)
      have hrr : r ≤ r ∧ r < M.m ∧ r < M.m := ⟨le_refl r, hr, hr⟩
      simp only [hrr, and_self, if_true, ite_self]
      exact p1 r hr
    · rcases hu with hu | hu
      · subst hu
        intro r c hrc hc
        have hne : ¬ (Uplo.Upper = Uplo.Lower) := by decide
        simp only [hne, if_false, star_trivial]
        rw [← triView_upper M.e r c, ← p2 r c (by omega) hrc]
        apply Finset.sum_congr rfl
        intro t htm
        have ht2 := Finset.mem_range.mp htm
        have h1 : t ≤ r ∧ r < M.m ∧ t < M.m := ⟨by omega, by omega, by omega⟩
        have h2 : t ≤ c ∧ c < M.m ∧ t < M.m := ⟨by omega, by omega, by omega⟩
        simp only [h1, h2, and_self, if_true]
      · subst hu
        intro r c hcr hr
        simp only [if_true, star_trivial]
        have e1 : M.e r c = triView Uplo.Lower M.e c r := by
          rw [triView_lower, star_trivial]
        rw [e1, ← p2 c r (by omega) hcr]
        apply Finset.sum_congr rfl
        intro t htm
        have ht2 := Finset.mem_range.mp htm
        have h1 : t ≤ r ∧ r < M.m ∧ t < M.m := ⟨by omega, by omega, by omega⟩
        have h2 : t ≤ c ∧ c < M.m ∧ t < M.m := ⟨by omega, by omega, by omega⟩
        simp only [h1, h2, and_self, if_true]
        ring
  | some q =>
    obtain ⟨q1, q2, q3, q4⟩ := s2 q hres
    rw [potf2_exact_eq_fail uplo M q hres]
    refine ⟨fun h => ?_, fun _ => ⟨?_, ?_, (chol_rows (triView uplo M.e) M.m).2, ?_⟩⟩
    · exfalso
      have : (q : Int) + 1 = 0 := h
      omega
    · show 1 ≤ (q : Int) + 1
      omega
    · show (q : Int) + 1 ≤ (M.m : Int)
      omega
    · have e : ((q : Int) + 1 - 1).toNat = q := by omega
      show FailsAt ratPos ((q : Int) + 1 - 1).toNat _ _
      rw [e]
      refine ⟨q2, ?_, ?_⟩
      · intro r c hr hrc _
        simp only [star_trivial]
        exact q3 r c hr hrc
      · simp only [star_trivial]
        exact q4

theorem fwd_rows_spec {K : Type} [Field K] (l : Nat → Nat → K) (rhs : Nat → K) :
    ∀ p, (∀ r, r < p → l r r ≠ 0) → ∀ r, r < p →
      ∑ t in Finset.range (r + 1), l r t * fwd_rows l rhs p t = rhs r := by
  intro p
  induction p with
  | zero => intro _ r hr; omega
  | succ p ih =>
    intro hl r hr
    by_cases hrp : r = p
    · subst hrp
      rw [Finset.sum_range_succ]
      have hlow : ∑ t in Finset.range r, l r t * fwd_rows l rhs (r + 1) t
          = ∑ t in Finset.range r, l r t * fwd_rows l rhs r t := by
        apply Finset.sum_congr rfl
        intro t htm
        have ht2 := Finset.mem_range.mp htm
        have : ¬ t = r := by omega
        simp only [fwd_rows, this, if_false]
      rw [hlow]
      simp only [fwd_rows, if_true]
      have := hl r (by omega)
      field_simp
    · rw [← ih (fun r0 h0 => hl r0 (by omega)) r (by omega)]
      apply Finset.sum_congr rfl
      intro t htm
      have ht2 := Finset.mem_range.mp htm
      have : ¬ t = p := by omega
      simp only [fwd_rows, this, if_false]

theorem trsm_exact_meets {K : Type} [Field K] [StarRing K] :
    TrsmContract (trsm_exact : TrsmFn K) := by
  intro alpha A B
  constructor
  · intro hdiag r c hr hc
    rw [sum_range_head B.m (r + 1) (by omega) _ (by
      intro a ha
      rw [opEntry_conj_upper, if_neg (by omega), zero_mul])]
    have hfwd := fwd_rows_spec
      (fun i t => opEntry Op.ConjTrans (triEntry Uplo.Upper Diag.NonUnit A) i t)
      (fun i => alpha * B.e i c) B.m
      (by
        intro r0 hr0
        show opEntry Op.ConjTrans (triEntry Uplo.Upper Diag.NonUnit A) r0 r0 ≠ 0
        rw [opEntry_conj_upper, if_pos (le_refl r0)]
        exact fun h => hdiag r0 hr0 (star_eq_zero.mp h))
      r hr
    simp only [trsm_exact]
    simpa using hfwd
  · intro hdiag r c hr hc
    rw [sum_range_head B.n (c + 1) (by omega) _ (by
      intro a ha
      rw [opEntry_conj_lower, if_neg (by omega), mul_zero])]
    have hfwd := fwd_rows_spec
      (fun i t => opEntry Op.ConjTrans (triEntry Uplo.Lower Diag.NonUnit A) t i)
      (fun i => alpha * B.e r i) B.n
      (by
        intro r0 hr0
        show opEntry Op.ConjTrans (triEntry Uplo.Lower Diag.NonUnit A) r0 r0 ≠ 0
        rw [opEntry_conj_lower, if_pos (le_refl r0)]
        exact fun h => hdiag r0 hr0 (star_eq_zero.mp h))
      c hc
    simp only [trsm_exact]
    have hfwd2 : ∑ t in Finset.range (c + 1),
        opEntry Op.ConjTrans (triEntry Uplo.Lower Diag.NonUnit A) t c *
          fwd_rows (fun i t => opEntry Op.ConjTrans (triEntry Uplo.Lower Diag.NonUnit A) t i)
            (fun i => alpha * B.e r i) B.n t = alpha * B.e r c := hfwd
    rw [← hfwd2]
    apply Finset.sum_congr rfl
    intro t _
    simp only [reduceCtorEq, eq_self_iff_true, decide_True, if_true]
    exact mul_comm _ _

theorem herk_exact_meets {K : Type} [CommRing K] [StarRing K] :
    HerkContract (herk_exact : HerkFn K) := by
  intro alpha beta B C _
  constructor
  · intro r c hrc _
    simp only [herk_exact]
    have h : (Uplo.Upper = Uplo.Lower ∧ c ≤ r) ∨ (Uplo.Upper ≠ Uplo.Lower ∧ r ≤ c) :=
      Or.inr ⟨by decide, hrc⟩
    rw [if_pos h]
  · intro r c hcr _
    simp only [herk_exact]
    rw [if_pos (Or.inl ⟨trivial, hcr⟩)]
/-! ## `potrf_rl` against the unblocked factorization -/

theorem factor_rows_unique {K : Type} [Field K] [StarRing K] (pos : K → Prop)
    (hreal : ∀ u, pos u → star u = u) (hpos0 : ∀ u, pos u → u ≠ 0)
    (hsq : ∀ u v, pos u → pos v → u * u = v * v → u = v)
    (q cmax : Nat) (M F G : Nat → Nat → K)
    (hF1 : ∀ r, r < q → pos (F r r)) (hG1 : ∀ r, r < q → pos (G r r))
    (hF2 : ∀ r c, r < q → r ≤ c → c ≤ cmax →
      ∑ t in Finset.range (r + 1), star (F t r) * F t c = M r c)
    (hG2 : ∀ r c, r < q → r ≤ c → c ≤ cmax →
      ∑ t in Finset.range (r + 1), star (G t r) * G t c = M r c) :
    ∀ r c, r < q → r ≤ c → c ≤ cmax → F r c = G r c := by
  intro r
  induction r using Nat.strong_induction_on with
  | _ r ih =>
    intro c hr hrc hc
    have hlow : ∀ c0, r ≤ c0 → c0 ≤ cmax →
        ∑ t in Finset.range r, star (F t r) * F t c0
          = ∑ t in Finset.range r, star (G t r) * G t c0 := by
      intro c0 h1 h2
      apply Finset.sum_congr rfl
      intro t htm
      have ht2 := Finset.mem_range.mp htm
      rw [ih t ht2 r (by omega) (by omega) (by omega),
        ih t ht2 c0 (by omega) (by omega) h2]
    have hd : F r r = G r r := by
      have e1 := hF2 r r hr (le_refl r) (by omega)
      have e2 := hG2 r r hr (le_refl r) (by omega)
      rw [Finset.sum_range_succ, hreal _ (hF1 r hr)] at e1
      rw [Finset.sum_range_succ, hreal _ (hG1 r hr)] at e2
      apply hsq _ _ (hF1 r hr) (hG1 r hr)
      have e3 := hlow r (le_refl r) (by omega)
      have : F r r * F r r = M r r - ∑ t in Finset.range r, star (F t r) * F t r := by
        rw [← e1]; ring
      rw [this, e3, ← e2]
      ring
    have e1 := hF2 r c hr hrc hc
    have e2 := hG2 r c hr hrc hc
    rw [Finset.sum_range_succ, hreal _ (hF1 r hr)] at e1
    rw [Finset.sum_range_succ, hreal _ (hG1 r hr)] at e2
    have e3 := hlow c hrc hc
    have e4 : F r r * F r c = F r r * G r c := by
      have : F r r * F r c = M r c - ∑ t in Finset.range r, star (F t r) * F t c := by
        rw [← e1]; ring
      rw [this, e3, ← e2, hd]
      ring
    exact mul_left_cancel₀ (hpos0 _ (hF1 r hr)) e4

theorem failsAt_of_longer {K : Type} [Field K] [StarRing K] (pos : K → Prop)
    (hreal : ∀ u, pos u → star u = u) (hpos0 : ∀ u, pos u → u ≠ 0)
    (hsq : ∀ u v, pos u → pos v → u * u = v * v → u = v)
    (q cmax p : Nat) (M F G : Nat → Nat → K) (hpq : p < q) (hpc : p ≤ cmax)
    (hG1 : ∀ r, r < q → pos (G r r))
    (hG2 : ∀ r c, r < q → r ≤ c → c ≤ cmax →
      ∑ t in Finset.range (r + 1), star (G t r) * G t c = M r c)
    (hF : FailsAt pos p M F) : False := by
  obtain ⟨f1, f2, f3⟩ := hF
  have huniq := factor_rows_unique pos hreal hpos0 hsq p p M F G f1
    (fun r hr => hG1 r (by omega)) f2
    (fun r c hr hrc hc => hG2 r c (by omega) hrc (by omega))
  apply f3
  refine ⟨G p p, hG1 p hpq, ?_⟩
  have e2 := hG2 p p hpq (le_refl p) hpc
  rw [Finset.sum_range_succ, hreal _ (hG1 p hpq)] at e2
  have hlow : ∑ t in Finset.range p, star (F t p) * F t p
      = ∑ t in Finset.range p, star (G t p) * G t p := by
    apply Finset.sum_congr rfl
    intro t htm
    have ht2 := Finset.mem_range.mp htm
    rw [huniq t p ht2 (by omega) (le_refl p)]
  rw [hlow, ← e2]
  ring

theorem chol_outcome_unique {K : Type} [Field K] [StarRing K] (pos : K → Prop)
    (hreal : ∀ u, pos u → star u = u) (hpos0 : ∀ u, pos u → u ≠ 0)
    (hsq : ∀ u v, pos u → pos v → u * u = v * v → u = v)
    (n : Nat) (M W1 W2 : Nat → Nat → K) (i1 i2 : Int)
    (h1a : i1 = 0 → CholInv pos n n M W1)
    (h1b : i1 ≠ 0 → ∃ (p : Nat) (F : Nat → Nat → K),
      i1 = (p : Int) + 1 ∧ p < n ∧ FailsAt pos p M F)
    (h2a : i2 = 0 → CholInv pos n n M W2)
    (h2b : i2 ≠ 0 → ∃ (p : Nat) (F : Nat → Nat → K),
      i2 = (p : Int) + 1 ∧ p < n ∧ FailsAt pos p M F) :
    i1 = i2 ∧ (i1 = 0 → ∀ r c, r ≤ c → c < n → W1 r c = W2 r c) := by
  have full : ∀ W, CholInv pos n n M W →
      (∀ r, r < n → pos (W r r))
      ∧ (∀ r c, r < n → r ≤ c → c ≤ n - 1 →
          ∑ t in Finset.range (r + 1), star (W t r) * W t c = M r c) := by
    intro W hW
    exact ⟨fun r hr => hW.1 r hr hr, fun r c hr hrc hc => hW.2.1 r c hrc (by omega) hr⟩
  by_cases z1 : i1 = 0
  · by_cases z2 : i2 = 0
    · refine ⟨by rw [z1, z2], fun _ r c hrc hc => ?_⟩
      obtain ⟨a1, a2⟩ := full W1 (h1a z1)
      obtain ⟨b1, b2⟩ := full W2 (h2a z2)
      exact factor_rows_unique pos hreal hpos0 hsq n (n - 1) M W1 W2 a1 b1 a2 b2 r c
        (by omega) hrc (by omega)
    · exfalso
      obtain ⟨p, F, -, hp, hF⟩ := h2b z2
      obtain ⟨a1, a2⟩ := full W1 (h1a z1)
      exact failsAt_of_longer pos hreal hpos0 hsq n (n - 1) p M F W1 hp (by omega) a1 a2 hF
  · by_cases z2 : i2 = 0
    · exfalso
      obtain ⟨p, F, -, hp, hF⟩ := h1b z1
      obtain ⟨b1, b2⟩ := full W2 (h2a z2)
      exact failsAt_of_longer pos hreal hpos0 hsq n (n - 1) p M F W2 hp (by omega) b1 b2 hF
    · refine ⟨?_, fun h => absurd h z1⟩
      obtain ⟨p1, F1, e1, hp1, hF1⟩ := h1b z1
      obtain ⟨p2, F2, e2, hp2, hF2⟩ := h2b z2
      have hpp : p1 = p2 := by
        rcases Nat.lt_trichotomy p1 p2 with h | h | h
        · exact (failsAt_of_longer pos hreal hpos0 hsq p2 p2 p1 M F1 F2 h (by omega)
            hF2.1 hF2.2.1 hF1).elim
        · exact h
        · exact (failsAt_of_longer pos hreal hpos0 hsq p1 p1 p2 M F2 F1 h (by omega)
            hF1.1 hF1.2.1 hF2).elim
      rw [e1, e2, hpp]

theorem potf2_whole_view {K : Type} [CommRing K] [StarRing K] (pos : K → Prop)
    (potf2 : Potf2Fn K) (hp : Potf2Contract pos potf2) (hreal : ∀ u, pos u → star u = u)
    (uplo : Uplo) (hu : uplo = Uplo.Upper ∨ uplo = Uplo.Lower) (A : Mat K)
    (hherm : A.IsHermitian) :
    ((potf2 uplo A).1 = 0 →
      CholInv pos A.m A.m (triView uplo A.e) (triView uplo (potf2 uplo A).2.e))
    ∧ ((potf2 uplo A).1 ≠ 0 → ∃ (p : Nat) (F : Nat → Nat → K),
        (potf2 uplo A).1 = (p : Int) + 1 ∧ p < A.m ∧ FailsAt pos p (triView uplo A.e) F) := by
  have hpre : ∀ r, r < A.m → star (A.e r r) = A.e r r :=
    fun r hr => (hherm.2 r r hr hr).symm
  obtain ⟨c1, c2⟩ := hp uplo A hu hherm.1 hpre
  refine ⟨fun h0 => ?_, fun h0 => ?_⟩
  · obtain ⟨d1, d2⟩ := c1 h0
    exact ⟨fun r hr _ => triView_pos pos hreal uplo _ r (d1 r hr),
      fun r c hrc hc _ => factorOf_view uplo A.m _ _ d2 r c hrc hc,
      fun r c _ hc hr => absurd hc (by omega)⟩
  · obtain ⟨d1, d2, F, hF⟩ := c2 h0
    exact ⟨((potf2 uplo A).1 - 1).toNat, F, by omega, by omega, hF⟩

/-- C17: for an `n`-by-`n` Hermitian `A`, either triangle and a block size
`nb >= 1` (both when `nb >= n`, where `potrf_rl` hands over to `potf2`, and when
`nb < n`, where it runs the panel loop), with `potf2`, `trsm` and `herk`
meeting their exact-arithmetic contracts, the run ends and `potrf_rl` returns
the same integer as `potf2` applied to the whole matrix: 0 on success, and
otherwise `p + 1` where the leading minor of order `p + 1` is the first that
is not positive definite; on success the factor left in the triangle is the
one that `potf2` leaves there. -/
theorem potrf_rl_same_as_potf2 {K : Type} [Field K] [StarRing K] (pos : K → Prop)
    (potf2 : Potf2Fn K) (trsm : TrsmFn K) (herk : HerkFn K)
    (fuel : Nat) (uplo : Uplo) (A : Mat K) (nb : Nat) (i : Int) (s : CholState K)
    (hp : Potf2Contract pos potf2) (ht : TrsmContract trsm) (hh : HerkContract herk)
    (hreal : ∀ u, pos u → star u = u) (hpos0 : ∀ u, pos u → u ≠ 0)
    (hsq : ∀ u v, pos u → pos v → u * u = v * v → u = v)
    (hnb : 1 ≤ nb) (hherm : A.IsHermitian)
    (hrun : potrf_rl potf2 trsm herk fuel uplo A nb = some (CholOutcome.returned i s)) :
    (∀ f, A.m < f → ∃ out, potrf_rl potf2 trsm herk f uplo A nb = some out)
    ∧ i = (potf2 uplo A).1
    ∧ (i = 0 →
        (uplo = Uplo.Upper → chol_U A.m s.A.e = chol_U A.m (potf2 uplo A).2.e)
        ∧ (uplo = Uplo.Lower → chol_L A.m s.A.e = chol_L A.m (potf2 uplo A).2.e))
    ∧ (i ≠ 0 → ∃ (p : Nat) (F : Nat → Nat → K),
        i = (p : Int) + 1 ∧ p < A.m ∧ FailsAt pos p (triView uplo A.e) F) := by
  obtain ⟨hu, v1, v2⟩ := potrf_rl_view pos potf2 trsm herk hp ht hh hreal hpos0 fuel uplo A nb
    i s hherm hrun
  obtain ⟨w1, w2⟩ := potf2_whole_view pos potf2 hp hreal uplo hu A hherm
  obtain ⟨e1, e2⟩ := chol_outcome_unique pos hreal hpos0 hsq A.m (triView uplo A.e)
    (triView uplo s.A.e) (triView uplo (potf2 uplo A).2.e) i (potf2 uplo A).1 v1 v2 w1 w2
  refine ⟨fun f hf => potrf_rl_terminates potf2 trsm herk f uplo A nb hnb hf, e1, ?_, v2⟩
  intro h0
  constructor
  · intro hup
    subst hup
    ext a b
    simp only [chol_U, Matrix.of_apply]
    split
    · rename_i hab
      have := e2 h0 a.val b.val hab b.isLt
      simpa [triView_upper] using this
    · rfl
  · intro hlo
    subst hlo
    ext a b
    simp only [chol_L, Matrix.of_apply]
    split
    · rename_i hba
      have := e2 h0 b.val a.val hba a.isLt
      simp only [triView_lower] at this
      exact star_injective this
    · rfl

theorem ratPos_real : ∀ u : ℚ, ratPos u → star u = u := fun u _ => star_trivial u

theorem ratPos_ne_zero : ∀ u : ℚ, ratPos u → u ≠ 0 := fun _ h => ne_of_gt h

theorem ratPos_sq_inj : ∀ u v : ℚ, ratPos u → ratPos v → u * u = v * v → u = v := by
  intro u v hu hv h
  unfold ratPos at hu hv
  have h2 : (u - v) * (u + v) = 0 := by ring_nf; ring_nf at h; linarith
  rcases mul_eq_zero.mp h2 with h3 | h3
  · linarith
  · linarith

theorem exampleSPD_hermitian : exampleSPD.IsHermitian := by
  refine ⟨rfl, ?_⟩
  intro r c hr hc
  have hr2 : r < 2 := hr
  have hc2 : c < 2 := hc
  rw [star_trivial]
  interval_cases r <;> interval_cases c <;> simp [exampleSPD, Mat.ofRows]

theorem exampleSPD_no_fail (uplo : Uplo) (p : Nat) (F : Nat → Nat → ℚ) (hp : p < 2)
    (hF : FailsAt ratPos p (triView uplo exampleSPD.e) F) : False := by
  have hM : ∀ r c, triView uplo exampleSPD.e r c = exampleSPD.e r c ∨
      triView uplo exampleSPD.e r c = exampleSPD.e c r := by
    intro r c
    unfold triView
    split
    · right; exact star_trivial _
    · left; rfl
  have m00 : triView uplo exampleSPD.e 0 0 = 4 := by
    rcases hM 0 0 with h | h <;> rw [h] <;> simp [exampleSPD, Mat.ofRows]
  have m01 : triView uplo exampleSPD.e 0 1 = 2 := by
    rcases hM 0 1 with h | h <;> rw [h] <;> simp [exampleSPD, Mat.ofRows]
  have m11 : triView uplo exampleSPD.e 1 1 = 5 := by
    rcases hM 1 1 with h | h <;> rw [h] <;> simp [exampleSPD, Mat.ofRows]
  obtain ⟨f1, f2, f3⟩ := hF
  interval_cases p
  · apply f3
    refine ⟨2, by unfold ratPos; norm_num, ?_⟩
    rw [m00]
    norm_num
  · have h0 := f1 0 (by omega)
    have e00 := f2 0 0 (by omega) (le_refl 0) (by omega)
    have e01 := f2 0 1 (by omega) (by omega) (le_refl 1)
    simp only [Finset.sum_range_succ, Finset.sum_range_zero, zero_add, star_trivial,
      m00, m01] at e00 e01
    have hF00 : F 0 0 = 2 :=
      ratPos_sq_inj _ 2 h0 (by unfold ratPos; norm_num) (by rw [e00]; norm_num)
    rw [hF00] at e01
    have hF01 : F 0 1 = 1 := by linarith
    apply f3
    refine ⟨2, by unfold ratPos; norm_num, ?_⟩
    simp only [Finset.sum_range_succ, Finset.sum_range_zero, zero_add, star_trivial, m11, hF01]
    norm_num

theorem exampleSPD_returns_zero (uplo : Uplo) (hu : uplo = Uplo.Upper ∨ uplo = Uplo.Lower)
    (nb : Nat) (hnb : 1 ≤ nb) :
    ∃ s, potrf_rl potf2_exact trsm_exact herk_exact 3 uplo exampleSPD nb
      = some (CholOutcome.returned 0 s) := by
  obtain ⟨out, hout⟩ := potrf_rl_terminates potf2_exact trsm_exact herk_exact 3 uplo
    exampleSPD nb hnb (by decide)
  rcases potrf_rl_trace potf2_exact trsm_exact herk_exact 3 uplo exampleSPD nb out hout with
    ⟨s0, hs0, -⟩ | ⟨i, s, hs, -⟩
  · exfalso
    subst hs0
    unfold potrf_rl at hout
    simp only at hout
    have hm : exampleSPD.m = exampleSPD.n := rfl
    have hu2 : uplo = Uplo.Lower ∨ uplo = Uplo.Upper := Or.symm hu
    rw [if_neg (not_not.mpr hu2), if_neg (not_not.mpr hm)] at hout
    split at hout
    · cases hout
    · split at hout
      · cases hout
      · split at hout
        · obtain ⟨_, _, _, h, _⟩ := potrf_rl_loop_trace _ _ _ _ _ _ _ _ _ _ hout
          cases h
        · obtain ⟨_, _, _, h, _⟩ := potrf_rl_loop_trace _ _ _ _ _ _ _ _ _ _ hout
          cases h
  · subst hs
    obtain ⟨-, -, v2⟩ := potrf_rl_view ratPos potf2_exact trsm_exact herk_exact
      potf2_exact_meets trsm_exact_meets herk_exact_meets ratPos_real ratPos_ne_zero
      3 uplo exampleSPD nb i s exampleSPD_hermitian hout
    by_cases hi : i = 0
    · subst hi
      exact ⟨s, hout⟩
    · exfalso
      obtain ⟨p, F, -, hp, hF⟩ := v2 hi
      exact exampleSPD_no_fail uplo p F hp hF

/-- C15 (witness): the rational matrix with rows `(4, 2)`, `(2, 5)`, upper
triangle, block size 1, with the exact sub-kernels. -/
theorem potrf_rl_factorization_witness :
    Potf2Contract ratPos potf2_exact ∧ TrsmContract (trsm_exact : TrsmFn ℚ)
    ∧ HerkContract (herk_exact : HerkFn ℚ) ∧ exampleSPD.IsHermitian
    ∧ ∃ s, potrf_rl potf2_exact trsm_exact herk_exact 3 Uplo.Upper exampleSPD 1
        = some (CholOutcome.returned 0 s)
      ∧ (chol_U 2 s.A.e).conjTranspose * chol_U 2 s.A.e = matOf 2 2 exampleSPD.e := by
  obtain ⟨s, hs⟩ := exampleSPD_returns_zero Uplo.Upper (Or.inl rfl) 1 (le_refl 1)
  exact ⟨potf2_exact_meets, trsm_exact_meets, herk_exact_meets, exampleSPD_hermitian, s, hs,
    (potrf_rl_factorization ratPos potf2_exact trsm_exact herk_exact 3 Uplo.Upper exampleSPD 1 s
      potf2_exact_meets trsm_exact_meets herk_exact_meets ratPos_real ratPos_ne_zero
      (le_refl 1) exampleSPD_hermitian hs).2.1 rfl⟩

/-- C17 (witness): the rational matrix with rows `(4, 2)`, `(2, 5)`, lower
triangle, block size 1, with the exact sub-kernels. -/
theorem potrf_rl_same_as_potf2_witness :
    ∃ s, potrf_rl potf2_exact trsm_exact herk_exact 3 Uplo.Lower exampleSPD 1
        = some (CholOutcome.returned 0 s)
      ∧ (0 : Int) = (potf2_exact Uplo.Lower exampleSPD).1
      ∧ chol_L 2 s.A.e = chol_L 2 (potf2_exact Uplo.Lower exampleSPD).2.e := by
  obtain ⟨s, hs⟩ := exampleSPD_returns_zero Uplo.Lower (Or.inr rfl) 1 (le_refl 1)
  have h := potrf_rl_same_as_potf2 ratPos potf2_exact trsm_exact herk_exact 3 Uplo.Lower
    exampleSPD 1 0 s potf2_exact_meets trsm_exact_meets herk_exact_meets ratPos_real
    ratPos_ne_zero ratPos_sq_inj (le_refl 1) exampleSPD_hermitian hs
  exact ⟨s, hs, h.2.1, (h.2.2.1 rfl).2 rfl⟩

/-! ## `potrf_rl`: the triangle that is not referenced -/

theorem inTri_shift (uplo : Uplo) (j r c : Nat) :
    inTri uplo (j + r) (j + c) ↔ inTri uplo r c := by
  unfold inTri
  constructor
  · rintro (⟨h1, h2⟩ | ⟨h1, h2⟩)
    · exact Or.inl ⟨h1, by omega⟩
    · exact Or.inr ⟨h1, by omega⟩
  · rintro (⟨h1, h2⟩ | ⟨h1, h2⟩)
    · exact Or.inl ⟨h1, by omega⟩
    · exact Or.inr ⟨h1, by omega⟩

theorem inTri_sub (uplo : Uplo) (j r c : Nat) (hr : j ≤ r) (hc : j ≤ c) :
    inTri uplo (r - j) (c - j) ↔ inTri uplo r c := by
  have := inTri_shift uplo j (r - j) (c - j)
  have e1 : j + (r - j) = r := by omega
  have e2 : j + (c - j) = c := by omega
  rw [e1, e2] at this
  exact this.symm

theorem potf2_step_rel {K : Type} (potf2 : Potf2Fn K) (hp : Potf2Respects potf2)
    (uplo : Uplo) (hu : uplo = Uplo.Upper ∨ uplo = Uplo.Lower) (n J jb : Nat)
    (hJ : J + jb ≤ n) (A B : Mat K) (hrel : TriAgree uplo n A.e B.e) :
    (potf2 uplo (A.slice J (J + jb) J (J + jb))).1
      = (potf2 uplo (B.slice J (J + jb) J (J + jb))).1
    ∧ TriAgree uplo n
        (A.setSlice J (J + jb) J (J + jb) (potf2 uplo (A.slice J (J + jb) J (J + jb))).2).e
        (B.setSlice J (J + jb) J (J + jb) (potf2 uplo (B.slice J (J + jb) J (J + jb))).2).e
    ∧ (∀ r c, ¬ (r < n ∧ c < n ∧ inTri uplo r c) →
        (A.setSlice J (J + jb) J (J + jb)
          (potf2 uplo (A.slice J (J + jb) J (J + jb))).2).e r c = A.e r c) := by
  have hm : (A.slice J (J + jb) J (J + jb)).m = jb := by simp [Mat.slice]
  have hslice : TriAgree uplo (A.slice J (J + jb) J (J + jb)).m
      (A.slice J (J + jb) J (J + jb)).e (B.slice J (J + jb) J (J + jb)).e := by
    intro r c hr hc htri
    rw [hm] at hr hc
    exact hrel (J + r) (J + c) (by omega) (by omega) ((inTri_shift uplo J r c).mpr htri)
  obtain ⟨h1, h2, h3⟩ := hp uplo (A.slice J (J + jb) J (J + jb))
    (B.slice J (J + jb) J (J + jb)) hu rfl rfl rfl hslice
  rw [hm] at h2 h3
  refine ⟨h1, ?_, ?_⟩
  · intro r c hr hc htri
    by_cases hb : J ≤ r ∧ r < J + jb ∧ J ≤ c ∧ c < J + jb
    · rw [Mat.setSlice_e_in _ _ _ _ _ _ _ _ hb, Mat.setSlice_e_in _ _ _ _ _ _ _ _ hb]
      exact h2 (r - J) (c - J) (by omega) (by omega)
        ((inTri_sub uplo J r c hb.1 hb.2.2.1).mpr htri)
    · rw [Mat.setSlice_e_out _ _ _ _ _ _ _ _ hb, Mat.setSlice_e_out _ _ _ _ _ _ _ _ hb]
      exact hrel r c hr hc htri
  · intro r c hout
    by_cases hb : J ≤ r ∧ r < J + jb ∧ J ≤ c ∧ c < J + jb
    · rw [Mat.setSlice_e_in _ _ _ _ _ _ _ _ hb]
      have hnt : ¬ inTri uplo (r - J) (c - J) := by
        intro h
        exact hout ⟨by omega, by omega, (inTri_sub uplo J r c hb.1 hb.2.2.1).mp h⟩
      rw [h3 (r - J) (c - J) (by omega) (by omega) hnt]
      simp only [Mat.slice]
      have e1 : J + (r - J) = r := by omega
      have e2 : J + (c - J) = c := by omega
      rw [e1, e2]
    · rw [Mat.setSlice_e_out _ _ _ _ _ _ _ _ hb]

theorem triAgree_setSlice {K : Type} (uplo : Uplo) (n : Nat) (A B X Y : Mat K)
    (r0 r1 c0 c1 : Nat) (hAB : TriAgree uplo n A.e B.e)
    (hXY : ∀ r c, r0 ≤ r → r < r1 → c0 ≤ c → c < c1 → r < n → c < n → inTri uplo r c →
      X.e (r - r0) (c - c0) = Y.e (r - r0) (c - c0)) :
    TriAgree uplo n (A.setSlice r0 r1 c0 c1 X).e (B.setSlice r0 r1 c0 c1 Y).e := by
  intro r c hr hc htri
  by_cases hb : r0 ≤ r ∧ r < r1 ∧ c0 ≤ c ∧ c < c1
  · rw [Mat.setSlice_e_in _ _ _ _ _ _ _ _ hb, Mat.setSlice_e_in _ _ _ _ _ _ _ _ hb]
    exact hXY r c hb.1 hb.2.1 hb.2.2.1 hb.2.2.2 hr hc htri
  · rw [Mat.setSlice_e_out _ _ _ _ _ _ _ _ hb, Mat.setSlice_e_out _ _ _ _ _ _ _ _ hb]
    exact hAB r c hr hc htri

theorem update_rel_upper {K : Type} [One K] [Neg K] (trsm : TrsmFn K) (herk : HerkFn K)
    (ht : TrsmRespects trsm) (hh : HerkRespects herk) (n J jb : Nat) (hJ : J + jb < n)
    (s s1 : CholState K) (hrel : TriAgree Uplo.Upper n s.A.e s1.A.e) :
    TriAgree Uplo.Upper n (potrf_rl_update trsm herk Uplo.Upper n J jb s).A.e
      (potrf_rl_update trsm herk Uplo.Upper n J jb s1).A.e
    ∧ (∀ r c, ¬ (r < n ∧ c < n ∧ inTri Uplo.Upper r c) →
        (potrf_rl_update trsm herk Uplo.Upper n J jb s).A.e r c = s.A.e r c) := by
  have hup : ∀ r c, inTri Uplo.Upper r c ↔ r ≤ c := by
    intro r c
    unfold inTri
    simp
  have hA2 : TriAgree Uplo.Upper n
      (s.A.setSlice J (J + jb) (J + jb) n
        (trsm Side.Left Uplo.Upper Op.ConjTrans Diag.NonUnit 1
          (s.A.slice J (J + jb) J (J + jb)) (s.A.slice J (J + jb) (J + jb) n))).e
      (s1.A.setSlice J (J + jb) (J + jb) n
        (trsm Side.Left Uplo.Upper Op.ConjTrans Diag.NonUnit 1
          (s1.A.slice J (J + jb) J (J + jb)) (s1.A.slice J (J + jb) (J + jb) n))).e := by
    apply triAgree_setSlice _ _ _ _ _ _ _ _ _ _ hrel
    intro r c h1 h2 h3 h4 hr hc _
    apply (ht 1 (s.A.slice J (J + jb) J (J + jb)) (s1.A.slice J (J + jb) J (J + jb))
      (s.A.slice J (J + jb) (J + jb) n) (s1.A.slice J (J + jb) (J + jb) n) rfl rfl ?_).1 ?_
      (r - J) (c - (J + jb)) (by simp only [Mat.slice]; omega) (by simp only [Mat.slice]; omega)
    · intro r0 c0 hr0 hc0
      simp only [Mat.slice] at hr0 hc0 ⊢
      exact hrel _ _ (by omega) (by omega) ((hup _ _).mpr (by omega))
    · intro r0 c0 hr0 hc0 htri
      simp only [Mat.slice] at hr0 hc0 ⊢
      exact hrel _ _ (by omega) (by omega) ((inTri_shift _ J r0 c0).mpr htri)
  constructor
  · simp only [potrf_rl_update, if_true]
    apply triAgree_setSlice _ _ _ _ _ _ _ _ _ _ hA2
    intro r c h1 h2 h3 h4 hr hc htri
    apply (hh (-1) 1 _ _ _ _ (by rfl) (by rfl) (by rfl) ?_).1 (by rfl) ?_ (r - (J + jb)) (c - (J + jb))
      (by simp only [Mat.slice]; omega) (by simp only [Mat.slice]; omega)
      ((inTri_sub _ (J + jb) r c h1 h3).mpr htri)
    · intro r0 c0 hr0 hc0
      simp only [Mat.slice] at hr0 hc0 ⊢
      exact hA2 _ _ (by omega) (by omega) ((hup _ _).mpr (by omega))
    · intro r0 c0 hr0 hc0 htri
      simp only [Mat.slice] at hr0 hc0 ⊢
      exact hA2 _ _ (by omega) (by omega) ((inTri_shift _ (J + jb) r0 c0).mpr htri)
  · intro r c hout
    simp only [potrf_rl_update, if_true]
    have hnb : ¬ (J ≤ r ∧ r < J + jb ∧ J + jb ≤ c ∧ c < n) := by
      intro hb
      exact hout ⟨by omega, hb.2.2.2, (hup _ _).mpr (by omega)⟩
    by_cases hb : J + jb ≤ r ∧ r < n ∧ J + jb ≤ c ∧ c < n
    · rw [Mat.setSlice_e_in _ _ _ _ _ _ _ _ hb]
      have hnt : ¬ inTri Uplo.Upper (r - (J + jb)) (c - (J + jb)) := by
        intro h
        exact hout ⟨hb.2.1, hb.2.2.2, (inTri_sub _ (J + jb) r c hb.1 hb.2.2.1).mp h⟩
      rw [(hh (-1) 1 _ _ _ _ rfl rfl rfl (fun _ _ _ _ => rfl)).2.2.1 (r - (J + jb))
        (c - (J + jb)) (by simp only [Mat.slice]; omega) (by simp only [Mat.slice]; omega) hnt]
      simp only [Mat.slice]
      have e1 : J + jb + (r - (J + jb)) = r := by omega
      have e2 : J + jb + (c - (J + jb)) = c := by omega
      rw [e1, e2, Mat.setSlice_e_out _ _ _ _ _ _ _ _ hnb]
    · rw [Mat.setSlice_e_out _ _ _ _ _ _ _ _ hb, Mat.setSlice_e_out _ _ _ _ _ _ _ _ hnb]

theorem update_rel_lower {K : Type} [One K] [Neg K] (trsm : TrsmFn K) (herk : HerkFn K)
    (ht : TrsmRespects trsm) (hh : HerkRespects herk) (n J jb : Nat) (hJ : J + jb < n)
    (s s1 : CholState K) (hrel : TriAgree Uplo.Lower n s.A.e s1.A.e) :
    TriAgree Uplo.Lower n (potrf_rl_update trsm herk Uplo.Lower n J jb s).A.e
      (potrf_rl_update trsm herk Uplo.Lower n J jb s1).A.e
    ∧ (∀ r c, ¬ (r < n ∧ c < n ∧ inTri Uplo.Lower r c) →
        (potrf_rl_update trsm herk Uplo.Lower n J jb s).A.e r c = s.A.e r c) := by
  have hne : ¬ (Uplo.Lower = Uplo.Upper) := by decide
  have hlo : ∀ r c, inTri Uplo.Lower r c ↔ c ≤ r := by
    intro r c
    unfold inTri
    simp
  have hA2 : TriAgree Uplo.Lower n
      (s.A.setSlice (J + jb) n J (J + jb)
        (trsm Side.Right Uplo.Lower Op.ConjTrans Diag.NonUnit 1
          (s.A.slice J (J + jb) J (J + jb)) (s.A.slice (J + jb) n J (J + jb)))).e
      (s1.A.setSlice (J + jb) n J (J + jb)
        (trsm Side.Right Uplo.Lower Op.ConjTrans Diag.NonUnit 1
          (s1.A.slice J (J + jb) J (J + jb)) (s1.A.slice (J + jb) n J (J + jb)))).e := by
    apply triAgree_setSlice _ _ _ _ _ _ _ _ _ _ hrel
    intro r c h1 h2 h3 h4 hr hc _
    apply (ht 1 (s.A.slice J (J + jb) J (J + jb)) (s1.A.slice J (J + jb) J (J + jb))
      (s.A.slice (J + jb) n J (J + jb)) (s1.A.slice (J + jb) n J (J + jb)) rfl rfl ?_).2 ?_
      (r - (J + jb)) (c - J) (by simp only [Mat.slice]; omega) (by simp only [Mat.slice]; omega)
    · intro r0 c0 hr0 hc0
      simp only [Mat.slice] at hr0 hc0 ⊢
      exact hrel _ _ (by omega) (by omega) ((hlo _ _).mpr (by omega))
    · intro r0 c0 hr0 hc0 htri
      simp only [Mat.slice] at hr0 hc0 ⊢
      exact hrel _ _ (by omega) (by omega) ((inTri_shift _ J r0 c0).mpr htri)
  constructor
  · simp only [potrf_rl_update, hne, if_false]
    apply triAgree_setSlice _ _ _ _ _ _ _ _ _ _ hA2
    intro r c h1 h2 h3 h4 hr hc htri
    apply (hh (-1) 1 _ _ _ _ (by rfl) (by rfl) (by rfl) ?_).2.1 (by rfl) ?_ (r - (J + jb)) (c - (J + jb))
      (by simp only [Mat.slice]; omega) (by simp only [Mat.slice]; omega)
      ((inTri_sub _ (J + jb) r c h1 h3).mpr htri)
    · intro r0 c0 hr0 hc0
      simp only [Mat.slice] at hr0 hc0 ⊢
      exact hA2 _ _ (by omega) (by omega) ((hlo _ _).mpr (by omega))
    · intro r0 c0 hr0 hc0 htri
      simp only [Mat.slice] at hr0 hc0 ⊢
      exact hA2 _ _ (by omega) (by omega) ((inTri_shift _ (J + jb) r0 c0).mpr htri)
  · intro r c hout
    simp only [potrf_rl_update, hne, if_false]
    have hnb : ¬ (J + jb ≤ r ∧ r < n ∧ J ≤ c ∧ c < J + jb) := by
      intro hb
      exact hout ⟨hb.2.1, by omega, (hlo _ _).mpr (by omega)⟩
    by_cases hb : J + jb ≤ r ∧ r < n ∧ J + jb ≤ c ∧ c < n
    · rw [Mat.setSlice_e_in _ _ _ _ _ _ _ _ hb]
      have hnt : ¬ inTri Uplo.Lower (r - (J + jb)) (c - (J + jb)) := by
        intro h
        exact hout ⟨hb.2.1, hb.2.2.2, (inTri_sub _ (J + jb) r c hb.1 hb.2.2.1).mp h⟩
      rw [(hh (-1) 1 _ _ _ _ rfl rfl rfl (fun _ _ _ _ => rfl)).2.2.2 (r - (J + jb))
        (c - (J + jb)) (by simp only [Mat.slice]; omega) (by simp only [Mat.slice]; omega) hnt]
      simp only [Mat.slice]
      have e1 : J + jb + (r - (J + jb)) = r := by omega
      have e2 : J + jb + (c - (J + jb)) = c := by omega
      rw [e1, e2, Mat.setSlice_e_out _ _ _ _ _ _ _ _ hnb]
    · rw [Mat.setSlice_e_out _ _ _ _ _ _ _ _ hb, Mat.setSlice_e_out _ _ _ _ _ _ _ _ hnb]

theorem potrf_rl_loop_done {K : Type} [One K] [Neg K] (potf2 : Potf2Fn K) (trsm : TrsmFn K)
    (herk : HerkFn K) (uplo : Uplo) (n nb f J : Nat) (s : CholState K) (hJ : ¬ J < n) :
    potrf_rl_loop potf2 trsm herk uplo n nb (f + 1) J s = some (CholOutcome.returned 0 s) := by
  simp only [potrf_rl_loop, hJ, if_false]

theorem potrf_rl_loop_fail {K : Type} [One K] [Neg K] (potf2 : Potf2Fn K) (trsm : TrsmFn K)
    (herk : HerkFn K) (uplo : Uplo) (n nb f J : Nat) (s : CholState K) (hJ : J < n)
    (hinfo : (potf2 uplo (s.A.slice J (J + min nb (n - J)) J (J + min nb (n - J)))).1 ≠ 0) :
    potrf_rl_loop potf2 trsm herk uplo n nb (f + 1) J s
      = some (CholOutcome.returned
          ((potf2 uplo (s.A.slice J (J + min nb (n - J)) J (J + min nb (n - J)))).1 + (J : Int))
          ⟨s.A.setSlice J (J + min nb (n - J)) J (J + min nb (n - J))
            (potf2 uplo (s.A.slice J (J + min nb (n - J)) J (J + min nb (n - J)))).2,
            s.log ++ [CholCall.potf2 uplo J (min nb (n - J))
              (s.A.slice J (J + min nb (n - J)) J (J + min nb (n - J)))
              (potf2 uplo (s.A.slice J (J + min nb (n - J)) J (J + min nb (n - J)))).1
              (potf2 uplo (s.A.slice J (J + min nb (n - J)) J (J + min nb (n - J)))).2]⟩) := by
  simp only [potrf_rl_loop, hJ, if_true]
  rw [if_pos hinfo]

theorem potrf_rl_loop_update {K : Type} [One K] [Neg K] (potf2 : Potf2Fn K) (trsm : TrsmFn K)
    (herk : HerkFn K) (uplo : Uplo) (n nb f J : Nat) (s : CholState K) (hJ : J < n)
    (hinfo : (potf2 uplo (s.A.slice J (J + min nb (n - J)) J (J + min nb (n - J)))).1 = 0)
    (hlt : J + min nb (n - J) < n) :
    potrf_rl_loop potf2 trsm herk uplo n nb (f + 1) J s
      = potrf_rl_loop potf2 trsm herk uplo n nb f (J + nb)
          (potrf_rl_update trsm herk uplo n J (min nb (n - J))
            ⟨s.A.setSlice J (J + min nb (n - J)) J (J + min nb (n - J))
              (potf2 uplo (s.A.slice J (J + min nb (n - J)) J (J + min nb (n - J)))).2,
              s.log ++ [CholCall.potf2 uplo J (min nb (n - J))
                (s.A.slice J (J + min nb (n - J)) J (J + min nb (n - J)))
                (potf2 uplo (s.A.slice J (J + min nb (n - J)) J (J + min nb (n - J)))).1
                (potf2 uplo (s.A.slice J (J + min nb (n - J)) J
                  (J + min nb (n - J)))).2]⟩) := by
  simp only [potrf_rl_loop, hJ, if_true]
  rw [if_neg (not_not.mpr hinfo), if_pos hlt]

theorem potrf_rl_loop_last {K : Type} [One K] [Neg K] (potf2 : Potf2Fn K) (trsm : TrsmFn K)
    (herk : HerkFn K) (uplo : Uplo) (n nb f J : Nat) (s : CholState K) (hJ : J < n)
    (hinfo : (potf2 uplo (s.A.slice J (J + min nb (n - J)) J (J + min nb (n - J)))).1 = 0)
    (hge : ¬ J + min nb (n - J) < n) :
    potrf_rl_loop potf2 trsm herk uplo n nb (f + 1) J s
      = potrf_rl_loop potf2 trsm herk uplo n nb f (J + nb)
          ⟨s.A.setSlice J (J + min nb (n - J)) J (J + min nb (n - J))
            (potf2 uplo (s.A.slice J (J + min nb (n - J)) J (J + min nb (n - J)))).2,
            s.log ++ [CholCall.potf2 uplo J (min nb (n - J))
              (s.A.slice J (J + min nb (n - J)) J (J + min nb (n - J)))
              (potf2 uplo (s.A.slice J (J + min nb (n - J)) J (J + min nb (n - J)))).1
              (potf2 uplo (s.A.slice J (J + min nb (n - J)) J (J + min nb (n - J)))).2]⟩ := by
  simp only [potrf_rl_loop, hJ, if_true]
  rw [if_neg (not_not.mpr hinfo), if_neg hge]

theorem update_rel {K : Type} [One K] [Neg K] (trsm : TrsmFn K) (herk : HerkFn K)
    (ht : TrsmRespects trsm) (hh : HerkRespects herk)
    (uplo : Uplo) (hu : uplo = Uplo.Upper ∨ uplo = Uplo.Lower) (n J jb : Nat) (hJ : J + jb < n)
    (s s1 : CholState K) (hrel : TriAgree uplo n s.A.e s1.A.e) :
    TriAgree uplo n (potrf_rl_update trsm herk uplo n J jb s).A.e
      (potrf_rl_update trsm herk uplo n J jb s1).A.e
    ∧ (∀ r c, ¬ (r < n ∧ c < n ∧ inTri uplo r c) →
        (potrf_rl_update trsm herk uplo n J jb s).A.e r c = s.A.e r c) := by
  rcases hu with hu | hu
  · subst hu; exact update_rel_upper trsm herk ht hh n J jb hJ s s1 hrel
  · subst hu; exact update_rel_lower trsm herk ht hh n J jb hJ s s1 hrel

theorem potrf_rl_loop_rel {K : Type} [One K] [Neg K] (potf2 : Potf2Fn K) (trsm : TrsmFn K)
    (herk : HerkFn K) (hp : Potf2Respects potf2) (ht : TrsmRespects trsm)
    (hh : HerkRespects herk) (uplo : Uplo) (hu : uplo = Uplo.Upper ∨ uplo = Uplo.Lower)
    (n nb : Nat) :
    ∀ (fuel J : Nat) (s s1 : CholState K), TriAgree uplo n s.A.e s1.A.e →
      (potrf_rl_loop potf2 trsm herk uplo n nb fuel J s).map CholOutcome.info?
        = (potrf_rl_loop potf2 trsm herk uplo n nb fuel J s1).map CholOutcome.info?
      ∧ (∀ o o1, potrf_rl_loop potf2 trsm herk uplo n nb fuel J s = some o →
          potrf_rl_loop potf2 trsm herk uplo n nb fuel J s1 = some o1 →
          TriAgree uplo n o.state.A.e o1.state.A.e)
      ∧ (∀ o, potrf_rl_loop potf2 trsm herk uplo n nb fuel J s = some o →
          ∀ r c, ¬ (r < n ∧ c < n ∧ inTri uplo r c) → o.state.A.e r c = s.A.e r c) := by
  intro fuel
  induction fuel with
  | zero =>
    intro J s s1 _
    simp [potrf_rl_loop]
  | succ f ih =>
    intro J s s1 hrel
    by_cases hJ : J < n
    · obtain ⟨h1, h2, h3⟩ := potf2_step_rel potf2 hp uplo hu n J (min nb (n - J)) (by omega)
        s.A s1.A hrel
      by_cases hinfo : (potf2 uplo (s.A.slice J (J + min nb (n - J)) J
          (J + min nb (n - J)))).1 = 0
      · have hinfo1 := hinfo
        rw [h1] at hinfo1
        by_cases hlt : J + min nb (n - J) < n
        · rw [potrf_rl_loop_update potf2 trsm herk uplo n nb f J s hJ hinfo hlt,
            potrf_rl_loop_update potf2 trsm herk uplo n nb f J s1 hJ hinfo1 hlt]
          obtain ⟨u1, u2⟩ := update_rel trsm herk ht hh uplo hu n J (min nb (n - J)) hlt
            ⟨s.A.setSlice J (J + min nb (n - J)) J (J + min nb (n - J))
              (potf2 uplo (s.A.slice J (J + min nb (n - J)) J (J + min nb (n - J)))).2,
              s.log ++ [CholCall.potf2 uplo J (min nb (n - J))
                (s.A.slice J (J + min nb (n - J)) J (J + min nb (n - J)))
                (potf2 uplo (s.A.slice J (J + min nb (n - J)) J (J + min nb (n - J)))).1
                (potf2 uplo (s.A.slice J (J + min nb (n - J)) J (J + min nb (n - J)))).2]⟩
            ⟨s1.A.setSlice J (J + min nb (n - J)) J (J + min nb (n - J))
              (potf2 uplo (s1.A.slice J (J + min nb (n - J)) J (J + min nb (n - J)))).2,
              s1.log ++ [CholCall.potf2 uplo J (min nb (n - J))
                (s1.A.slice J (J + min nb (n - J)) J (J + min nb (n - J)))
                (potf2 uplo (s1.A.slice J (J + min nb (n - J)) J (J + min nb (n - J)))).1
                (potf2 uplo (s1.A.slice J (J + min nb (n - J)) J (J + min nb (n - J)))).2]⟩
            h2
          obtain ⟨g1, g2, g3⟩ := ih (J + nb) _ _ u1
          refine ⟨g1, g2, ?_⟩
          intro o ho r c hout
          rw [g3 o ho r c hout, u2 r c hout]
          exact h3 r c hout
        · rw [potrf_rl_loop_last potf2 trsm herk uplo n nb f J s hJ hinfo hlt,
            potrf_rl_loop_last potf2 trsm herk uplo n nb f J s1 hJ hinfo1 hlt]
          obtain ⟨g1, g2, g3⟩ := ih (J + nb)
            ⟨s.A.setSlice J (J + min nb (n - J)) J (J + min nb (n - J))
              (potf2 uplo (s.A.slice J (J + min nb (n - J)) J (J + min nb (n - J)))).2,
              s.log ++ [CholCall.potf2 uplo J (min nb (n - J))
                (s.A.slice J (J + min nb (n - J)) J (J + min nb (n - J)))
                (potf2 uplo (s.A.slice J (J + min nb (n - J)) J (J + min nb (n - J)))).1
                (potf2 uplo (s.A.slice J (J + min nb (n - J)) J (J + min nb (n - J)))).2]⟩
            ⟨s1.A.setSlice J (J + min nb (n - J)) J (J + min nb (n - J))
              (potf2 uplo (s1.A.slice J (J + min nb (n - J)) J (J + min nb (n - J)))).2,
              s1.log ++ [CholCall.potf2 uplo J (min nb (n - J))
                (s1.A.slice J (J + min nb (n - J)) J (J + min nb (n - J)))
                (potf2 uplo (s1.A.slice J (J + min nb (n - J)) J (J + min nb (n - J)))).1
                (potf2 uplo (s1.A.slice J (J + min nb (n - J)) J (J + min nb (n - J)))).2]⟩
            h2
          refine ⟨g1, g2, ?_⟩
          intro o ho r c hout
          rw [g3 o ho r c hout]
          exact h3 r c hout
      · have hinfo1 := hinfo
        rw [h1] at hinfo1
        rw [potrf_rl_loop_fail potf2 trsm herk uplo n nb f J s hJ hinfo,
          potrf_rl_loop_fail potf2 trsm herk uplo n nb f J s1 hJ hinfo1]
        refine ⟨?_, ?_, ?_⟩
        · simp only [Option.map_some', CholOutcome.info?, h1]
        · intro o o1 ho ho1
          injection ho with ho
          injection ho1 with ho1
          subst ho; subst ho1
          exact h2
        · intro o ho r c hout
          injection ho with ho
          subst ho
          exact h3 r c hout
    · rw [potrf_rl_loop_done potf2 trsm herk uplo n nb f J s hJ,
        potrf_rl_loop_done potf2 trsm herk uplo n nb f J s1 hJ]
      refine ⟨rfl, ?_, ?_⟩
      · intro o o1 ho ho1
        injection ho with ho
        injection ho1 with ho1
        subst ho; subst ho1
        exact hrel
      · intro o ho r c _
        injection ho with ho
        subst ho
        rfl

/-- C18: `potrf_rl` works on the triangle `uplo` only (sub-kernels that respect
the triangle they are given): the matrix on exit has the strictly lower part
(for `Upper`; the strictly upper part for `Lower`) of the matrix on entry, and
for two inputs that agree on the triangle `uplo`, diagonal included, the runs
end alike, with the same return code and with outputs that agree on the
triangle. -/
theorem potrf_rl_unreferenced_triangle {K : Type} [One K] [Neg K] (potf2 : Potf2Fn K)
    (trsm : TrsmFn K) (herk : HerkFn K) (fuel : Nat) (uplo : Uplo) (A A1 : Mat K) (nb : Nat)
    (hp : Potf2Respects potf2) (ht : TrsmRespects trsm) (hh : HerkRespects herk)
    (hm : A.m = A1.m) (hn : A.n = A1.n) (hagree : TriAgree uplo A.m A.e A1.e) :
    (potrf_rl potf2 trsm herk fuel uplo A nb).map CholOutcome.info?
      = (potrf_rl potf2 trsm herk fuel uplo A1 nb).map CholOutcome.info?
    ∧ (∀ o o1, potrf_rl potf2 trsm herk fuel uplo A nb = some o →
        potrf_rl potf2 trsm herk fuel uplo A1 nb = some o1 →
        TriAgree uplo A.m o.state.A.e o1.state.A.e)
    ∧ (∀ o, potrf_rl potf2 trsm herk fuel uplo A nb = some o →
        (uplo = Uplo.Upper → ∀ r c, c < r → r < A.m → o.state.A.e r c = A.e r c)
        ∧ (uplo = Uplo.Lower → ∀ r c, r < c → c < A.m → o.state.A.e r c = A.e r c)) := by
  have frame : (∀ o, potrf_rl potf2 trsm herk fuel uplo A nb = some o →
        ∀ r c, r < A.m → c < A.m → ¬ inTri uplo r c → o.state.A.e r c = A.e r c) →
      (∀ o, potrf_rl potf2 trsm herk fuel uplo A nb = some o →
        (uplo = Uplo.Upper → ∀ r c, c < r → r < A.m → o.state.A.e r c = A.e r c)
        ∧ (uplo = Uplo.Lower → ∀ r c, r < c → c < A.m → o.state.A.e r c = A.e r c)) := by
    intro h o ho
    constructor
    · intro hu r c hcr hr
      apply h o ho r c hr (by omega)
      subst hu
      unfold inTri
      simp only [reduceCtorEq, false_and, true_and, false_or]
      omega
    · intro hu r c hrc hc
      apply h o ho r c (by omega) hc
      subst hu
      unfold inTri
      simp only [reduceCtorEq, false_and, true_and, or_false]
      omega
  suffices hmain : (potrf_rl potf2 trsm herk fuel uplo A nb).map CholOutcome.info?
      = (potrf_rl potf2 trsm herk fuel uplo A1 nb).map CholOutcome.info?
    ∧ (∀ o o1, potrf_rl potf2 trsm herk fuel uplo A nb = some o →
        potrf_rl potf2 trsm herk fuel uplo A1 nb = some o1 →
        TriAgree uplo A.m o.state.A.e o1.state.A.e)
    ∧ (∀ o, potrf_rl potf2 trsm herk fuel uplo A nb = some o →
        ∀ r c, r < A.m → c < A.m → ¬ inTri uplo r c → o.state.A.e r c = A.e r c) from
    ⟨hmain.1, hmain.2.1, frame hmain.2.2⟩
  unfold potrf_rl
  simp only
  rw [← hm, ← hn]
  by_cases hu : uplo = Uplo.Lower ∨ uplo = Uplo.Upper
  · rw [if_neg (not_not.mpr hu), if_neg (not_not.mpr hu)]
    have hu2 : uplo = Uplo.Upper ∨ uplo = Uplo.Lower := Or.symm hu
    by_cases hsq : A.m = A.n
    · rw [if_neg (not_not.mpr hsq), if_neg (not_not.mpr hsq)]
      by_cases hn0 : A.m ≤ 0
      · rw [if_pos hn0, if_pos hn0]
        refine ⟨rfl, ?_, ?_⟩
        · intro o o1 ho ho1
          injection ho with ho
          injection ho1 with ho1
          subst ho; subst ho1
          exact hagree
        · intro o ho r c _ _ _
          injection ho with ho
          subst ho
          rfl
      · rw [if_neg hn0, if_neg hn0]
        by_cases hnb : nb ≥ A.m
        · rw [if_pos hnb, if_pos hnb]
          obtain ⟨h1, h2, h3⟩ := hp uplo A A1 hu2 hm hn hsq hagree
          refine ⟨?_, ?_, ?_⟩
          · simp only [Option.map_some', CholOutcome.info?, h1]
          · intro o o1 ho ho1
            injection ho with ho
            injection ho1 with ho1
            subst ho; subst ho1
            exact h2
          · intro o ho r c hr hc htri
            injection ho with ho
            subst ho
            exact h3 r c hr hc htri
        · rw [if_neg hnb, if_neg hnb]
          have key : ∀ u, u = uplo →
              (potrf_rl_loop potf2 trsm herk u A.m nb fuel 0 ⟨A, []⟩).map CholOutcome.info?
                = (potrf_rl_loop potf2 trsm herk u A.m nb fuel 0 ⟨A1, []⟩).map
                    CholOutcome.info?
              ∧ (∀ o o1, potrf_rl_loop potf2 trsm herk u A.m nb fuel 0 ⟨A, []⟩ = some o →
                  potrf_rl_loop potf2 trsm herk u A.m nb fuel 0 ⟨A1, []⟩ = some o1 →
                  TriAgree uplo A.m o.state.A.e o1.state.A.e)
              ∧ (∀ o, potrf_rl_loop potf2 trsm herk u A.m nb fuel 0 ⟨A, []⟩ = some o →
                  ∀ r c, r < A.m → c < A.m → ¬ inTri uplo r c → o.state.A.e r c = A.e r c) := by
            intro u hue
            subst hue
            obtain ⟨g1, g2, g3⟩ := potrf_rl_loop_rel potf2 trsm herk hp ht hh u hu2 A.m nb
              fuel 0 ⟨A, []⟩ ⟨A1, []⟩ hagree
            exact ⟨g1, g2, fun o ho r c hr hc htri =>
              g3 o ho r c (fun h => htri h.2.2)⟩
          by_cases hup : uplo = Uplo.Upper
          · rw [if_pos hup, if_pos hup]
            exact key _ hup.symm
          · rw [if_neg hup, if_neg hup]
            have hlo : uplo = Uplo.Lower := by
              rcases hu with h | h
              · exact h
              · exact absurd h hup
            exact key _ hlo.symm
    · rw [if_pos hsq, if_pos hsq]
      refine ⟨rfl, ?_, ?_⟩
      · intro o o1 ho ho1
        injection ho with ho
        injection ho1 with ho1
        subst ho; subst ho1
        exact hagree
      · intro o ho r c _ _ _
        injection ho with ho
        subst ho
        rfl
  · rw [if_pos hu, if_pos hu]
    refine ⟨rfl, ?_, ?_⟩
    · intro o o1 ho ho1
      injection ho with ho
      injection ho1 with ho1
      subst ho; subst ho1
      exact hagree
    · intro o ho r c _ _ _
      injection ho with ho
      subst ho
      rfl

theorem chol_rows_congr (M N : Nat → Nat → ℚ) (k : Nat)
    (h : ∀ r c, r ≤ c → c < k → M r c = N r c) :
    ∀ p, p ≤ k → (chol_rows M p).1 = (chol_rows N p).1
      ∧ ∀ r c, r ≤ c → c < k → (chol_rows M p).2 r c = (chol_rows N p).2 r c := by
  intro p
  induction p with
  | zero => intro _; exact ⟨rfl, fun _ _ _ _ => rfl⟩
  | succ p ih =>
    intro hp
    obtain ⟨i1, i2⟩ := ih (by omega)
    have hsum : ∀ c, p ≤ c → c < k →
        ∑ t in Finset.range p, (chol_rows M p).2 t p * (chol_rows M p).2 t c
          = ∑ t in Finset.range p, (chol_rows N p).2 t p * (chol_rows N p).2 t c := by
      intro c hc hck
      apply Finset.sum_congr rfl
      intro t htm
      have ht2 := Finset.mem_range.mp htm
      rw [i2 t p (by omega) (by omega), i2 t c (by omega) hck]
    have hd : M p p - ∑ t in Finset.range p, (chol_rows M p).2 t p * (chol_rows M p).2 t p
        = N p p - ∑ t in Finset.range p, (chol_rows N p).2 t p * (chol_rows N p).2 t p := by
      rw [h p p (le_refl p) (by omega), hsum p (le_refl p) (by omega)]
    cases hprev : (chol_rows M p).1 with
    | some q =>
      have hprevN : (chol_rows N p).1 = some q := by rw [← i1, hprev]
      rw [chol_rows_succ_some M p q hprev, chol_rows_succ_some N p q hprevN]
      exact ⟨rfl, i2⟩
    | none =>
      have hprevN : (chol_rows N p).1 = none := by rw [← i1, hprev]
      by_cases hc : 0 < M p p - ∑ t in Finset.range p,
            (chol_rows M p).2 t p * (chol_rows M p).2 t p
          ∧ Rat.sqrt (M p p - ∑ t in Finset.range p,
              (chol_rows M p).2 t p * (chol_rows M p).2 t p)
            * Rat.sqrt (M p p - ∑ t in Finset.range p,
              (chol_rows M p).2 t p * (chol_rows M p).2 t p)
            = M p p - ∑ t in Finset.range p, (chol_rows M p).2 t p * (chol_rows M p).2 t p
      · have hcN := hc
        rw [hd] at hcN
        rw [chol_rows_succ_ok M p hprev hc, chol_rows_succ_ok N p hprevN hcN]
        refine ⟨rfl, ?_⟩
        intro r c hrc hck
        by_cases hrp : r = p
        · subst hrp
          simp only [if_true]
          by_cases hcr : c = r
          · simp only [hcr, if_true, hd]
          · simp only [hcr, if_false]
            rw [hd, h r c hrc hck, hsum c hrc hck]
        · simp only [hrp, if_false]
          exact i2 r c hrc hck
      · have hcN := hc
        rw [hd] at hcN
        rw [chol_rows_succ_fail M p hprev hc, chol_rows_succ_fail N p hprevN hcN]
        exact ⟨rfl, i2⟩

theorem potf2_exact_respects : Potf2Respects potf2_exact := by
  intro uplo M N hu hm hn hsq hagree
  have hview : ∀ r c, r ≤ c → c < M.m → triView uplo M.e r c = triView uplo N.e r c := by
    intro r c hrc hc
    rcases hu with hu | hu
    · subst hu
      simp only [triView_upper]
      exact hagree r c (by omega) hc (Or.inr ⟨rfl, hrc⟩)
    · subst hu
      simp only [triView_lower]
      rw [hagree c r hc (by omega) (Or.inl ⟨rfl, hrc⟩)]
  obtain ⟨c1, c2⟩ := chol_rows_congr _ _ M.m hview M.m (le_refl _)
  cases hres : (chol_rows (triView uplo M.e) M.m).1 with
  | none =>
    have hresN : (chol_rows (triView uplo N.e) N.m).1 = none := by rw [← hm, ← c1, hres]
    rw [potf2_exact_eq_ok uplo M hres, potf2_exact_eq_ok uplo N hresN]
    refine ⟨rfl, ?_, ?_⟩
    · intro r c hr hc htri
      show (if uplo = Uplo.Lower then _ else _) = (if uplo = Uplo.Lower then _ else _)
      rw [← hm]
      rcases htri with ⟨h1, h2⟩ | ⟨h1, h2⟩
      · subst h1
        simp only [if_true]
        have hb : c ≤ r ∧ r < M.m ∧ c < M.m := ⟨h2, hr, hc⟩
        rw [if_pos hb, if_pos hb]
        exact c2 c r h2 hr
      · subst h1
        have hne : ¬ (Uplo.Upper = Uplo.Lower) := by decide
        simp only [hne, if_false]
        have hb : r ≤ c ∧ c < M.m ∧ r < M.m := ⟨h2, hc, hr⟩
        rw [if_pos hb, if_pos hb]
        exact c2 r c h2 hc
    · intro r c hr hc htri
      show (if uplo = Uplo.Lower then _ else _) = _
      rcases hu with hu | hu
      · subst hu
        have hne : ¬ (Uplo.Upper = Uplo.Lower) := by decide
        simp only [hne, if_false]
        rw [if_neg (fun hb => htri (Or.inr ⟨rfl, hb.1⟩))]
      · subst hu
        simp only [if_true]
        rw [if_neg (fun hb => htri (Or.inl ⟨rfl, hb.1⟩))]
  | some q =>
    have hresN : (chol_rows (triView uplo N.e) N.m).1 = some q := by rw [← hm, ← c1, hres]
    rw [potf2_exact_eq_fail uplo M q hres, potf2_exact_eq_fail uplo N q hresN]
    refine ⟨rfl, ?_, ?_⟩
    · intro r c hr hc htri
      show (if uplo = Uplo.Lower then _ else _) = (if uplo = Uplo.Lower then _ else _)
      rw [← hm]
      rcases htri with ⟨h1, h2⟩ | ⟨h1, h2⟩
      · subst h1
        simp only [if_true]
        by_cases hb : c ≤ r ∧ r < M.m ∧ c < q
        · rw [if_pos hb, if_pos hb]
          exact c2 c r h2 hr
        · rw [if_neg hb, if_neg hb]
          exact hagree r c hr hc (Or.inl ⟨rfl, h2⟩)
      · subst h1
        have hne : ¬ (Uplo.Upper = Uplo.Lower) := by decide
        simp only [hne, if_false]
        by_cases hb : r ≤ c ∧ c < M.m ∧ r < q
        · rw [if_pos hb, if_pos hb]
          exact c2 r c h2 hc
        · rw [if_neg hb, if_neg hb]
          exact hagree r c hr hc (Or.inr ⟨rfl, h2⟩)
    · intro r c hr hc htri
      show (if uplo = Uplo.Lower then _ else _) = _
      rcases hu with hu | hu
      · subst hu
        have hne : ¬ (Uplo.Upper = Uplo.Lower) := by decide
        simp only [hne, if_false]
        rw [if_neg (fun hb => htri (Or.inr ⟨rfl, hb.1⟩))]
      · subst hu
        simp only [if_true]
        rw [if_neg (fun hb => htri (Or.inl ⟨rfl, hb.1⟩))]

theorem fwd_rows_congr {K : Type} [Field K] (l l1 : Nat → Nat → K) (rhs rhs1 : Nat → K)
    (k : Nat) (hl : ∀ i t, t ≤ i → i < k → l i t = l1 i t)
    (hr : ∀ i, i < k → rhs i = rhs1 i) :
    ∀ p, p ≤ k → ∀ r, r < p → fwd_rows l rhs p r = fwd_rows l1 rhs1 p r := by
  intro p
  induction p with
  | zero => intro _ r hr0; omega
  | succ p ih =>
    intro hp r hrp
    simp only [fwd_rows]
    by_cases h : r = p
    · simp only [h, if_true]
      rw [hr p (by omega), hl p p (le_refl p) (by omega)]
      congr 2
      apply Finset.sum_congr rfl
      intro t htm
      have ht2 := Finset.mem_range.mp htm
      rw [hl p t (by omega) (by omega), ih (by omega) t ht2]
    · simp only [h, if_false]
      exact ih (by omega) r (by omega)

theorem trsm_exact_respects {K : Type} [Field K] [StarRing K] :
    TrsmRespects (trsm_exact : TrsmFn K) := by
  intro alpha T T1 B B1 hm hn hB
  constructor
  · intro hT r c hr hc
    simp only [trsm_exact, reduceCtorEq, eq_self_iff_true, decide_True, if_true]
    rw [← hm]
    apply fwd_rows_congr _ _ _ _ B.m ?_ ?_ B.m (le_refl _) r hr
    · intro i t hti hi
      show opEntry Op.ConjTrans (triEntry Uplo.Upper Diag.NonUnit T) i t
        = opEntry Op.ConjTrans (triEntry Uplo.Upper Diag.NonUnit T1) i t
      rw [opEntry_conj_upper, opEntry_conj_upper, if_pos hti, if_pos hti,
        hT t i (by omega) hi (Or.inr ⟨rfl, hti⟩)]
    · intro i hi
      show alpha * B.e i c = alpha * B1.e i c
      rw [hB i c hi hc]
  · intro hT r c hr hc
    simp only [trsm_exact, reduceCtorEq, eq_self_iff_true, decide_True, if_true]
    rw [← hn]
    apply fwd_rows_congr _ _ _ _ B.n ?_ ?_ B.n (le_refl _) c hc
    · intro i t hti hi
      show opEntry Op.ConjTrans (triEntry Uplo.Lower Diag.NonUnit T) t i
        = opEntry Op.ConjTrans (triEntry Uplo.Lower Diag.NonUnit T1) t i
      rw [opEntry_conj_lower, opEntry_conj_lower, if_pos hti, if_pos hti,
        hT i t hi (by omega) (Or.inl ⟨rfl, hti⟩)]
    · intro i hi
      show alpha * B.e r i = alpha * B1.e r i
      rw [hB r i hr hi]

theorem herk_exact_respects {K : Type} [CommRing K] [StarRing K] :
    HerkRespects (herk_exact : HerkFn K) := by
  intro alpha beta B B1 C C1 hm hn hc hB
  refine ⟨?_, ?_, ?_, ?_⟩
  · intro hconf hC r c hr hcc htri
    have hrc : r ≤ c := by
      rcases htri with ⟨h, _⟩ | ⟨_, h⟩
      · cases h
      · exact h
    simp only [herk_exact]
    rw [if_pos (Or.inr ⟨by decide, hrc⟩), if_pos (Or.inr ⟨by decide, hrc⟩), hC r c hr hcc htri,
      ← hm]
    congr 2
    apply Finset.sum_congr rfl
    intro t htm
    have ht2 := Finset.mem_range.mp htm
    rw [hB t r ht2 (by omega), hB t c ht2 (by omega)]
  · intro hconf hC r c hr hcc htri
    have hcr : c ≤ r := by
      rcases htri with ⟨_, h⟩ | ⟨h, _⟩
      · exact h
      · cases h
    simp only [herk_exact]
    rw [if_pos (Or.inl ⟨trivial, hcr⟩), if_pos (Or.inl ⟨trivial, hcr⟩), hC r c hr hcc htri,
      ← hn]
    congr 2
    apply Finset.sum_congr rfl
    intro t htm
    have ht2 := Finset.mem_range.mp htm
    rw [hB r t (by omega) ht2, hB c t (by omega) ht2]
  · intro r c _ _ htri
    simp only [herk_exact]
    rw [if_neg]
    rintro (⟨h, _⟩ | ⟨_, h⟩)
    · cases h
    · exact htri (Or.inr ⟨rfl, h⟩)
  · intro r c _ _ htri
    simp only [herk_exact]
    rw [if_neg]
    rintro (⟨_, h⟩ | ⟨h, _⟩)
    · exact htri (Or.inl ⟨rfl, h⟩)
    · exact h rfl

/-- C18 (witness): the rational matrices with rows `(4, 2)`, `(2, 5)` and
`(4, 2)`, `(7, 5)`, which agree on and above the diagonal, upper triangle,
block size 1, with the exact sub-kernels. -/
theorem potrf_rl_unreferenced_triangle_witness :
    Potf2Respects potf2_exact ∧ TrsmRespects (trsm_exact : TrsmFn ℚ)
    ∧ HerkRespects (herk_exact : HerkFn ℚ)
    ∧ TriAgree Uplo.Upper exampleSPD.m exampleSPD.e exampleSPDUpper.e
    ∧ (potrf_rl potf2_exact trsm_exact herk_exact 3 Uplo.Upper exampleSPD 1).map
        CholOutcome.info?
      = (potrf_rl potf2_exact trsm_exact herk_exact 3 Uplo.Upper exampleSPDUpper 1).map
        CholOutcome.info?
    ∧ (∀ o, potrf_rl potf2_exact trsm_exact herk_exact 3 Uplo.Upper exampleSPDUpper 1 = some o →
        o.state.A.e 1 0 = 7) := by
  have hag : TriAgree Uplo.Upper exampleSPD.m exampleSPD.e exampleSPDUpper.e := by
    intro r c hr hc htri
    have hr2 : r < 2 := hr
    have hc2 : c < 2 := hc
    have hrc : r ≤ c := by
      rcases htri with ⟨h, _⟩ | ⟨_, h⟩
      · cases h
      · exact h
    interval_cases r <;> interval_cases c <;>
      first
        | omega
        | simp [exampleSPD, exampleSPDUpper, Mat.ofRows]
  have hag2 : TriAgree Uplo.Upper exampleSPDUpper.m exampleSPDUpper.e exampleSPDUpper.e :=
    fun _ _ _ _ _ => rfl
  refine ⟨potf2_exact_respects, trsm_exact_respects, herk_exact_respects, hag,
    (potrf_rl_unreferenced_triangle potf2_exact trsm_exact herk_exact 3 Uplo.Upper exampleSPD
      exampleSPDUpper 1 potf2_exact_respects trsm_exact_respects herk_exact_respects rfl rfl
      hag).1, ?_⟩
  intro o ho
  have h := ((potrf_rl_unreferenced_triangle potf2_exact trsm_exact herk_exact 3 Uplo.Upper
    exampleSPDUpper exampleSPDUpper 1 potf2_exact_respects trsm_exact_respects
    herk_exact_respects rfl rfl hag2).2.2 o ho).1 rfl 1 0 (by decide) (by decide)
  rw [h]
  simp [exampleSPDUpper, Mat.ofRows]

/-! ## `unmrq`: applying the RQ factor -/

theorem unmq_H_eq_gerq2_H {K : Type} [CommRing K] [StarRing K] (A : Mat K) (tau : Vec K)
    (i : Nat) :
    unmq_H Direction.Backward StoreV.Rowwise A.n (min A.m A.n)
      (A.rows (A.m - min A.m A.n) A.m) tau i = gerq2_H A.m A.n A.e tau.e i := by
  have hv : unmq_v Direction.Backward StoreV.Rowwise A.n (min A.m A.n)
      (A.rows (A.m - min A.m A.n) A.m) i = gerq2_v A.m A.n A.e i := by
    funext c
    simp only [unmq_v, gerq2_v, Mat.rows, Mat.slice, Nat.zero_add]
  unfold unmq_H gerq2_H reflector
  simp only
  rw [hv]

theorem unmq_block_eq_Qseg {K : Type} [CommRing K] [StarRing K] (A : Mat K) (tau : Vec K)
    (i ib : Nat) :
    unmq_block Direction.Backward StoreV.Rowwise A.n (min A.m A.n)
      (A.rows (A.m - min A.m A.n) A.m) tau i ib
      = (gerq2_Qseg A.m A.n A.e tau.e i ib).conjTranspose := by
  induction ib with
  | zero => simp [unmq_block, gerq2_Qseg]
  | succ ib ih =>
    simp only [unmq_block, gerq2_Qseg]
    rw [ih, unmq_H_eq_gerq2_H, Matrix.conjTranspose_mul, Matrix.conjTranspose_conjTranspose]

theorem gerq2_Qseg_add {K : Type} [CommRing K] [StarRing K] (m n : Nat) (e : Nat → Nat → K)
    (t : Nat → K) (lo a b : Nat) :
    gerq2_Qseg m n e t lo (a + b) = gerq2_Qseg m n e t lo a * gerq2_Qseg m n e t (lo + a) b := by
  induction b with
  | zero => simp [gerq2_Qseg]
  | succ b ih =>
    rw [← Nat.add_assoc, gerq2_Qseg, ih, gerq2_Qseg, Matrix.mul_assoc, Nat.add_assoc]

theorem panels_prod {K : Type} [CommRing K] [StarRing K] (m n : Nat) (e : Nat → Nat → K)
    (t : Nat → K) (k nb : Nat) (hnb : 1 ≤ nb) (hk : 1 ≤ k) :
    ∀ j, j ≤ (k - 1) / nb + 1 →
      ((List.range j).map
        (fun p => gerq2_Qseg m n e t (p * nb) (min nb (k - p * nb)))).prod
        = gerq2_Qseg m n e t 0 (min (j * nb) k) := by
  intro j
  induction j with
  | zero => intro _; simp [gerq2_Qseg]
  | succ j ih =>
    intro hj
    have hjle : j ≤ (k - 1) / nb := by omega
    have h1 : j * nb ≤ (k - 1) / nb * nb := Nat.mul_le_mul_right nb hjle
    have h2 : (k - 1) / nb * nb ≤ k - 1 := Nat.div_mul_le_self (k - 1) nb
    have h3 : min (j * nb) k = j * nb := by omega
    have h4 : min ((j + 1) * nb) k = j * nb + min nb (k - j * nb) := by
      rw [Nat.add_mul, Nat.one_mul]
      omega
    rw [List.range_succ, List.map_append, List.prod_append, ih (by omega), h3, h4,
      gerq2_Qseg_add, Nat.zero_add]
    simp

theorem panels_prod_all {K : Type} [CommRing K] [StarRing K] (m n : Nat) (e : Nat → Nat → K)
    (t : Nat → K) (k nb : Nat) (hnb : 1 ≤ nb) (hk : 1 ≤ k) :
    (((List.range ((k - 1) / nb + 1)).map (fun p => p * nb)).map
      (fun i => gerq2_Qseg m n e t i (min nb (k - i)))).prod
      = gerq2_Qseg m n e t 0 k := by
  rw [List.map_map]
  have h := panels_prod m n e t k nb hnb hk ((k - 1) / nb + 1) (le_refl _)
  have h5 : k - 1 < nb * ((k - 1) / nb + 1) := Nat.lt_mul_div_succ (k - 1) (by omega)
  have h6 : min (((k - 1) / nb + 1) * nb) k = k := by
    rw [Nat.mul_comm] at h5
    omega
  rw [h6] at h
  exact h

theorem foldl_mul_right {n c : Nat} {K : Type} [CommRing K] [StarRing K]
    (P : Nat → Matrix (Fin n) (Fin n) K) (l : List Nat) (C : Matrix (Fin c) (Fin n) K) :
    l.foldl (fun M i => M * P i) C = C * (l.map P).prod := by
  induction l generalizing C with
  | nil => simp
  | cons a l ih => simp [List.foldl_cons, ih, Matrix.mul_assoc]

theorem foldl_mul_right_conj {n c : Nat} {K : Type} [CommRing K] [StarRing K]
    (P : Nat → Matrix (Fin n) (Fin n) K) (l : List Nat) (C : Matrix (Fin c) (Fin n) K) :
    l.reverse.foldl (fun M i => M * (P i).conjTranspose) C
      = C * ((l.map P).prod).conjTranspose := by
  induction l generalizing C with
  | nil => simp
  | cons a l ih =>
    simp only [List.reverse_cons, List.foldl_append, List.foldl_cons, List.foldl_nil,
      List.map_cons, List.prod_cons, Matrix.conjTranspose_mul]
    rw [ih, Matrix.mul_assoc]

theorem foldl_mul_left {n c : Nat} {K : Type} [CommRing K] [StarRing K]
    (P : Nat → Matrix (Fin n) (Fin n) K) (l : List Nat) (C : Matrix (Fin n) (Fin c) K) :
    l.reverse.foldl (fun M i => P i * M) C = (l.map P).prod * C := by
  induction l generalizing C with
  | nil => simp
  | cons a l ih =>
    simp only [List.reverse_cons, List.foldl_append, List.foldl_cons, List.foldl_nil,
      List.map_cons, List.prod_cons]
    rw [ih, Matrix.mul_assoc]

theorem foldl_mul_left_conj {n c : Nat} {K : Type} [CommRing K] [StarRing K]
    (P : Nat → Matrix (Fin n) (Fin n) K) (l : List Nat) (C : Matrix (Fin n) (Fin c) K) :
    l.foldl (fun M i => (P i).conjTranspose * M) C
      = ((l.map P).prod).conjTranspose * C := by
  induction l generalizing C with
  | nil => simp
  | cons a l ih =>
    simp only [List.foldl_cons, List.map_cons, List.prod_cons, Matrix.conjTranspose_mul]
    rw [ih, Matrix.mul_assoc]

theorem larfb_apply_left {K : Type} [CommRing K] [StarRing K] (trans : Op) (nQ cn : Nat)
    (H : Matrix (Fin nQ) (Fin nQ) K) (C : Mat K) :
    matOf nQ cn (larfb_apply Side.Left trans nQ H C).e
      = (match trans with
          | Op.NoTrans => H
          | _ => H.conjTranspose) * matOf nQ cn C.e := by
  ext r c
  simp only [larfb_apply, matOf, Matrix.of_apply, Matrix.mul_apply, r.isLt, dif_pos]

theorem larfb_apply_right {K : Type} [CommRing K] [StarRing K] (trans : Op) (nQ cm : Nat)
    (H : Matrix (Fin nQ) (Fin nQ) K) (C : Mat K) :
    matOf cm nQ (larfb_apply Side.Right trans nQ H C).e
      = matOf cm nQ C.e * (match trans with
          | Op.NoTrans => H
          | _ => H.conjTranspose) := by
  ext r c
  simp only [larfb_apply, matOf, Matrix.of_apply, Matrix.mul_apply, c.isLt, dif_pos]

theorem larfb_apply_shape {K : Type} [CommRing K] [StarRing K] (side : Side) (trans : Op)
    (nQ : Nat) (H : Matrix (Fin nQ) (Fin nQ) K) (C : Mat K) :
    (larfb_apply side trans nQ H C).m = C.m ∧ (larfb_apply side trans nQ H C).n = C.n := by
  cases side <;> exact ⟨rfl, rfl⟩

theorem foldl_larfb_shape {K : Type} [CommRing K] [StarRing K] (side : Side) (trans : Op)
    (nQ : Nat) (B : Nat → Matrix (Fin nQ) (Fin nQ) K) (l : List Nat) (C : Mat K) :
    (l.foldl (fun Ci i => larfb_apply side trans nQ (B i) Ci) C).m = C.m
    ∧ (l.foldl (fun Ci i => larfb_apply side trans nQ (B i) Ci) C).n = C.n := by
  induction l generalizing C with
  | nil => exact ⟨rfl, rfl⟩
  | cons a l ih =>
    simp only [List.foldl_cons]
    obtain ⟨h1, h2⟩ := ih (larfb_apply side trans nQ (B a) C)
    obtain ⟨h3, h4⟩ := larfb_apply_shape side trans nQ (B a) C
    exact ⟨h1.trans h3, h2.trans h4⟩

theorem foldl_larfb_left {K : Type} [CommRing K] [StarRing K] (trans : Op) (nQ cn : Nat)
    (B : Nat → Matrix (Fin nQ) (Fin nQ) K) (l : List Nat) (C : Mat K) :
    matOf nQ cn (l.foldl (fun Ci i => larfb_apply Side.Left trans nQ (B i) Ci) C).e
      = l.foldl (fun M i => (match trans with
          | Op.NoTrans => B i
          | _ => (B i).conjTranspose) * M) (matOf nQ cn C.e) := by
  induction l generalizing C with
  | nil => rfl
  | cons a l ih =>
    simp only [List.foldl_cons]
    rw [ih, larfb_apply_left]

theorem foldl_larfb_right {K : Type} [CommRing K] [StarRing K] (trans : Op) (nQ cm : Nat)
    (B : Nat → Matrix (Fin nQ) (Fin nQ) K) (l : List Nat) (C : Mat K) :
    matOf cm nQ (l.foldl (fun Ci i => larfb_apply Side.Right trans nQ (B i) Ci) C).e
      = l.foldl (fun M i => M * (match trans with
          | Op.NoTrans => B i
          | _ => (B i).conjTranspose)) (matOf cm nQ C.e) := by
  induction l generalizing C with
  | nil => rfl
  | cons a l ih =>
    simp only [List.foldl_cons]
    rw [ih, larfb_apply_right]

theorem unmq_model_quick {K : Type} [CommRing K] [StarRing K] (side : Side) (trans : Op)
    (direction : Direction) (storeMode : StoreV) (V : Mat K) (tau : Vec K) (C : Mat K)
    (nb : Nat) (hq : C.m ≤ 0 ∨ C.n ≤ 0 ∨ tau.len ≤ 0) :
    unmq_model side trans direction storeMode V tau C nb = MatOutcome.returned 0 C := by
  simp only [unmq_model]
  rw [if_pos hq]

theorem unmq_model_left_run {K : Type} [CommRing K] [StarRing K] (trans : Op)
    (V : Mat K) (tau : Vec K) (C : Mat K) (nb : Nat)
    (hq : ¬ (C.m ≤ 0 ∨ C.n ≤ 0 ∨ tau.len ≤ 0)) :
    unmq_model Side.Left trans Direction.Backward StoreV.Rowwise V tau C nb
      = MatOutcome.returned 0
        ((unmq_panels (decide (trans ≠ Op.NoTrans)) tau.len (min nb tau.len)).foldl
          (fun Ci i => larfb_apply Side.Left
            (if trans = Op.NoTrans then Op.ConjTrans else Op.NoTrans) C.m
            (unmq_block Direction.Backward StoreV.Rowwise C.m tau.len V tau i
              (min (min nb tau.len) (tau.len - i))) Ci) C) := by
  simp only [unmq_model]
  rw [if_neg hq]
  rfl

theorem unmq_model_right_run {K : Type} [CommRing K] [StarRing K] (trans : Op)
    (V : Mat K) (tau : Vec K) (C : Mat K) (nb : Nat)
    (hq : ¬ (C.m ≤ 0 ∨ C.n ≤ 0 ∨ tau.len ≤ 0)) :
    unmq_model Side.Right trans Direction.Backward StoreV.Rowwise V tau C nb
      = MatOutcome.returned 0
        ((unmq_panels (!decide (trans ≠ Op.NoTrans)) tau.len (min nb tau.len)).foldl
          (fun Ci i => larfb_apply Side.Right
            (if trans = Op.NoTrans then Op.ConjTrans else Op.NoTrans) C.n
            (unmq_block Direction.Backward StoreV.Rowwise C.n tau.len V tau i
              (min (min nb tau.len) (tau.len - i))) Ci) C) := by
  simp only [unmq_model]
  rw [if_neg hq]
  rfl

theorem gerq2_Qfull_trivial {K : Type} [CommRing K] [StarRing K] (A : Mat K) (tau : Vec K)
    (h : min A.m A.n ≤ 0) : gerq2_Qfull A.m A.n A.e tau.e (min A.m A.n) = 1 := by
  have h0 : min A.m A.n = 0 := by omega
  rw [h0, gerq2_Qfull]

theorem unmq_model_left {K : Type} [CommRing K] [StarRing K] (A : Mat K) (tau : Vec K)
    (cn : Nat) (ce : Nat → Nat → K) (nb : Nat) (hnb : 1 ≤ nb)
    (hk : tau.len = min A.m A.n) :
    (∃ C1, unmq_model Side.Left Op.NoTrans Direction.Backward StoreV.Rowwise
        (A.rows (A.m - min A.m A.n) A.m) tau ⟨A.n, cn, ce⟩ nb = MatOutcome.returned 0 C1
      ∧ C1.m = A.n ∧ C1.n = cn
      ∧ matOf A.n cn C1.e = gerq2_Qfull A.m A.n A.e tau.e (min A.m A.n) * matOf A.n cn ce)
    ∧ (∃ C1, unmq_model Side.Left Op.ConjTrans Direction.Backward StoreV.Rowwise
        (A.rows (A.m - min A.m A.n) A.m) tau ⟨A.n, cn, ce⟩ nb = MatOutcome.returned 0 C1
      ∧ C1.m = A.n ∧ C1.n = cn
      ∧ matOf A.n cn C1.e
        = (gerq2_Qfull A.m A.n A.e tau.e (min A.m A.n)).conjTranspose * matOf A.n cn ce) := by
  by_cases hq : A.n ≤ 0 ∨ cn ≤ 0 ∨ tau.len ≤ 0
  · have hQ : gerq2_Qfull A.m A.n A.e tau.e (min A.m A.n) * matOf A.n cn ce
        = matOf A.n cn ce := by
      rcases hq with h | h | h
      · ext r c; exact absurd r.isLt (by omega)
      · ext r c; exact absurd c.isLt (by omega)
      · rw [gerq2_Qfull_trivial A tau (by omega), Matrix.one_mul]
    have hQc : (gerq2_Qfull A.m A.n A.e tau.e (min A.m A.n)).conjTranspose * matOf A.n cn ce
        = matOf A.n cn ce := by
      rcases hq with h | h | h
      · ext r c; exact absurd r.isLt (by omega)
      · ext r c; exact absurd c.isLt (by omega)
      · rw [gerq2_Qfull_trivial A tau (by omega), Matrix.conjTranspose_one, Matrix.one_mul]
    constructor
    · exact ⟨⟨A.n, cn, ce⟩, unmq_model_quick _ _ _ _ _ _ ⟨A.n, cn, ce⟩ _ hq, rfl, rfl, hQ.symm⟩
    · exact ⟨⟨A.n, cn, ce⟩, unmq_model_quick _ _ _ _ _ _ ⟨A.n, cn, ce⟩ _ hq, rfl, rfl, hQc.symm⟩
  · have hk1 : 1 ≤ min A.m A.n := by omega
    have hnb1 : 1 ≤ min nb (min A.m A.n) := by omega
    have hprod := panels_prod_all A.m A.n A.e tau.e (min A.m A.n) (min nb (min A.m A.n))
      hnb1 hk1
    rw [← gerq2_Qfull_eq_Qseg] at hprod
    constructor
    · rw [unmq_model_left_run Op.NoTrans _ tau ⟨A.n, cn, ce⟩ nb hq]
      refine ⟨_, rfl, (foldl_larfb_shape _ _ _ _ _ _).1, (foldl_larfb_shape _ _ _ _ _ _).2, ?_⟩
      simp only [unmq_panels, hk, ne_eq, not_true_eq_false, decide_False, if_true,
        Bool.false_eq_true, if_false]
      rw [foldl_larfb_left]
      simp only [unmq_block_eq_Qseg, Matrix.conjTranspose_conjTranspose]
      rw [foldl_mul_left (fun i => gerq2_Qseg A.m A.n A.e tau.e i
        (min (min nb (min A.m A.n)) (min A.m A.n - i))), hprod]
    · rw [unmq_model_left_run Op.ConjTrans _ tau ⟨A.n, cn, ce⟩ nb hq]
      refine ⟨_, rfl, (foldl_larfb_shape _ _ _ _ _ _).1, (foldl_larfb_shape _ _ _ _ _ _).2, ?_⟩
      simp only [unmq_panels, hk, ne_eq, reduceCtorEq, not_false_eq_true, decide_True, if_true,
        if_false]
      rw [foldl_larfb_left]
      simp only [unmq_block_eq_Qseg]
      rw [foldl_mul_left_conj (fun i => gerq2_Qseg A.m A.n A.e tau.e i
        (min (min nb (min A.m A.n)) (min A.m A.n - i))), hprod]

theorem unmq_model_right {K : Type} [CommRing K] [StarRing K] (A : Mat K) (tau : Vec K)
    (cm : Nat) (ce : Nat → Nat → K) (nb : Nat) (hnb : 1 ≤ nb)
    (hk : tau.len = min A.m A.n) :
    (∃ C1, unmq_model Side.Right Op.NoTrans Direction.Backward StoreV.Rowwise
        (A.rows (A.m - min A.m A.n) A.m) tau ⟨cm, A.n, ce⟩ nb = MatOutcome.returned 0 C1
      ∧ C1.m = cm ∧ C1.n = A.n
      ∧ matOf cm A.n C1.e = matOf cm A.n ce * gerq2_Qfull A.m A.n A.e tau.e (min A.m A.n))
    ∧ (∃ C1, unmq_model Side.Right Op.ConjTrans Direction.Backward StoreV.Rowwise
        (A.rows (A.m - min A.m A.n) A.m) tau ⟨cm, A.n, ce⟩ nb = MatOutcome.returned 0 C1
      ∧ C1.m = cm ∧ C1.n = A.n
      ∧ matOf cm A.n C1.e
        = matOf cm A.n ce * (gerq2_Qfull A.m A.n A.e tau.e (min A.m A.n)).conjTranspose) := by
  by_cases hq : cm ≤ 0 ∨ A.n ≤ 0 ∨ tau.len ≤ 0
  · have hQ : matOf cm A.n ce * gerq2_Qfull A.m A.n A.e tau.e (min A.m A.n)
        = matOf cm A.n ce := by
      rcases hq with h | h | h
      · ext r c; exact absurd r.isLt (by omega)
      · ext r c; exact absurd c.isLt (by omega)
      · rw [gerq2_Qfull_trivial A tau (by omega), Matrix.mul_one]
    have hQc : matOf cm A.n ce * (gerq2_Qfull A.m A.n A.e tau.e (min A.m A.n)).conjTranspose
        = matOf cm A.n ce := by
      rcases hq with h | h | h
      · ext r c; exact absurd r.isLt (by omega)
      · ext r c; exact absurd c.isLt (by omega)
      · rw [gerq2_Qfull_trivial A tau (by omega), Matrix.conjTranspose_one, Matrix.mul_one]
    constructor
    · exact ⟨⟨cm, A.n, ce⟩, unmq_model_quick _ _ _ _ _ _ ⟨cm, A.n, ce⟩ _ hq, rfl, rfl, hQ.symm⟩
    · exact ⟨⟨cm, A.n, ce⟩, unmq_model_quick _ _ _ _ _ _ ⟨cm, A.n, ce⟩ _ hq, rfl, rfl, hQc.symm⟩
  · have hk1 : 1 ≤ min A.m A.n := by omega
    have hnb1 : 1 ≤ min nb (min A.m A.n) := by omega
    have hprod := panels_prod_all A.m A.n A.e tau.e (min A.m A.n) (min nb (min A.m A.n))
      hnb1 hk1
    rw [← gerq2_Qfull_eq_Qseg] at hprod
    constructor
    · rw [unmq_model_right_run Op.NoTrans _ tau ⟨cm, A.n, ce⟩ nb hq]
      refine ⟨_, rfl, (foldl_larfb_shape _ _ _ _ _ _).1, (foldl_larfb_shape _ _ _ _ _ _).2, ?_⟩
      simp only [unmq_panels, hk, ne_eq, not_true_eq_false, decide_False, Bool.not_false,
        if_true]
      rw [foldl_larfb_right]
      simp only [unmq_block_eq_Qseg, Matrix.conjTranspose_conjTranspose]
      rw [foldl_mul_right (fun i => gerq2_Qseg A.m A.n A.e tau.e i
        (min (min nb (min A.m A.n)) (min A.m A.n - i))), hprod]
    · rw [unmq_model_right_run Op.ConjTrans _ tau ⟨cm, A.n, ce⟩ nb hq]
      refine ⟨_, rfl, (foldl_larfb_shape _ _ _ _ _ _).1, (foldl_larfb_shape _ _ _ _ _ _).2, ?_⟩
      simp only [unmq_panels, hk, ne_eq, reduceCtorEq, not_false_eq_true, decide_True,
        Bool.not_true, Bool.false_eq_true, if_false]
      rw [foldl_larfb_right]
      simp only [unmq_block_eq_Qseg]
      rw [foldl_mul_right_conj (fun i => gerq2_Qseg A.m A.n A.e tau.e i
        (min (min nb (min A.m A.n)) (min A.m A.n - i))), hprod]

theorem gerq2_Qfull_unitary {K : Type} [CommRing K] [StarRing K] (m n : Nat)
    (e : Nat → Nat → K) (t : Nat → K) (k : Nat)
    (hH : ∀ i, i < k → (gerq2_H m n e t i).conjTranspose * gerq2_H m n e t i = 1) :
    ∀ j, j ≤ k → (gerq2_Qfull m n e t j).conjTranspose * gerq2_Qfull m n e t j = 1
      ∧ gerq2_Qfull m n e t j * (gerq2_Qfull m n e t j).conjTranspose = 1 := by
  intro j
  induction j with
  | zero => intro _; simp [gerq2_Qfull]
  | succ j ih =>
    intro hj
    obtain ⟨h1, h2⟩ := ih (by omega)
    have hH1 := hH j (by omega)
    have hH2 : gerq2_H m n e t j * (gerq2_H m n e t j).conjTranspose = 1 :=
      Matrix.mul_eq_one_comm.mp hH1
    constructor
    · rw [gerq2_Qfull, Matrix.conjTranspose_mul, Matrix.conjTranspose_conjTranspose,
        Matrix.mul_assoc, ← Matrix.mul_assoc (gerq2_Qfull m n e t j).conjTranspose, h1,
        Matrix.one_mul, hH2]
    · rw [gerq2_Qfull, Matrix.conjTranspose_mul, Matrix.conjTranspose_conjTranspose,
        Matrix.mul_assoc, ← Matrix.mul_assoc (gerq2_H m n e t j).conjTranspose, hH1,
        Matrix.one_mul, h2]

/-- C11: for an `m`-by-`n` matrix `A` holding `k = min(m, n)` reflectors row-wise
in its rows `m-k .. m-1` as `gerq2` leaves them, with scalars `tau`, every
conforming `C` and every block size `nb >= 1`, `unmrq` applied to
`rows(A, m-k .. m)` returns 0 and overwrites `C` with `Q C` for
`(Left, NoTrans)`, `Qᴴ C` for `(Left, ConjTrans)`, `C Q` for `(Right, NoTrans)`
and `C Qᴴ` for `(Right, ConjTrans)`, where `Q = H_1ᴴ H_2ᴴ ... H_kᴴ` is the
`n`-by-`n` matrix generated from the same reflectors and `tau`, unitary when
the reflectors are; the result is the same for every `nb >= 1`. -/
theorem unmrq_applies_Q {K : Type} [CommRing K] [StarRing K] (A : Mat K) (tau : Vec K)
    (C : Mat K) (nb : Nat) (hnb : 1 ≤ nb) (hk : tau.len = min A.m A.n) :
    (C.m = A.n →
      (∃ C1, unmrq unmq_model Side.Left Op.NoTrans (A.rows (A.m - min A.m A.n) A.m) tau C ⟨nb⟩
          = MatOutcome.returned 0 C1 ∧ C1.m = C.m ∧ C1.n = C.n
        ∧ matOf A.n C.n C1.e
          = gerq2_Qfull A.m A.n A.e tau.e (min A.m A.n) * matOf A.n C.n C.e)
      ∧ (∃ C1, unmrq unmq_model Side.Left Op.ConjTrans (A.rows (A.m - min A.m A.n) A.m) tau C
            ⟨nb⟩ = MatOutcome.returned 0 C1 ∧ C1.m = C.m ∧ C1.n = C.n
        ∧ matOf A.n C.n C1.e
          = (gerq2_Qfull A.m A.n A.e tau.e (min A.m A.n)).conjTranspose * matOf A.n C.n C.e))
    ∧ (C.n = A.n →
      (∃ C1, unmrq unmq_model Side.Right Op.NoTrans (A.rows (A.m - min A.m A.n) A.m) tau C ⟨nb⟩
          = MatOutcome.returned 0 C1 ∧ C1.m = C.m ∧ C1.n = C.n
        ∧ matOf C.m A.n C1.e
          = matOf C.m A.n C.e * gerq2_Qfull A.m A.n A.e tau.e (min A.m A.n))
      ∧ (∃ C1, unmrq unmq_model Side.Right Op.ConjTrans (A.rows (A.m - min A.m A.n) A.m) tau C
            ⟨nb⟩ = MatOutcome.returned 0 C1 ∧ C1.m = C.m ∧ C1.n = C.n
        ∧ matOf C.m A.n C1.e
          = matOf C.m A.n C.e * (gerq2_Qfull A.m A.n A.e tau.e (min A.m A.n)).conjTranspose))
    ∧ ((∀ i, i < min A.m A.n →
          (gerq2_H A.m A.n A.e tau.e i).conjTranspose * gerq2_H A.m A.n A.e tau.e i = 1) →
        (gerq2_Qfull A.m A.n A.e tau.e (min A.m A.n)).conjTranspose
            * gerq2_Qfull A.m A.n A.e tau.e (min A.m A.n) = 1
        ∧ gerq2_Qfull A.m A.n A.e tau.e (min A.m A.n)
            * (gerq2_Qfull A.m A.n A.e tau.e (min A.m A.n)).conjTranspose = 1) := by
  refine ⟨?_, ?_, ?_⟩
  · obtain ⟨cm, cn, ce⟩ := C
    intro h
    simp only at h
    subst h
    exact unmq_model_left A tau cn ce nb hnb hk
  · obtain ⟨cm, cn, ce⟩ := C
    intro h
    simp only at h
    subst h
    exact unmq_model_right A tau cm ce nb hnb hk
  · intro hH
    exact gerq2_Qfull_unitary A.m A.n A.e tau.e (min A.m A.n) hH (min A.m A.n) (le_refl _)

/-- C11 (witness): the reflectors that `gerq2` leaves for the rational matrix
with rows `(1, 2)`, `(4, 3)`, applied with block size 1 to the matrix with
rows `(3, 4)`, `(1, 2)`. -/
theorem unmrq_applies_Q_witness :
    exampleTauRQ.len = min exampleRQ.m exampleRQ.n
    ∧ (∃ C1, unmrq unmq_model Side.Left Op.NoTrans
          (exampleRQ.rows (exampleRQ.m - min exampleRQ.m exampleRQ.n) exampleRQ.m)
          exampleTauRQ exampleA ⟨1⟩ = MatOutcome.returned 0 C1
        ∧ C1.m = exampleA.m ∧ C1.n = exampleA.n
        ∧ matOf exampleRQ.n exampleA.n C1.e
          = gerq2_Qfull exampleRQ.m exampleRQ.n exampleRQ.e exampleTauRQ.e
              (min exampleRQ.m exampleRQ.n) * matOf exampleRQ.n exampleA.n exampleA.e) :=
  ⟨rfl, ((unmrq_applies_Q exampleRQ exampleTauRQ exampleA 1 (le_refl 1) rfl).1 rfl).1⟩

/-! ## `ul_mult` on an empty matrix -/

/-- C21, what the code does: on a 0-by-0 matrix `ul_mult` passes its check,
skips the only base case `n == 1`, takes `n0 = 0` and calls itself on the
0-by-0 block `A00`; the nesting never ends, whatever `gemm` and `trmm` are (no
number of nested calls produces a return value). -/
theorem ul_mult_zero_size_diverges {K : Type} [One K] (gemm : GemmFn K) (trmm : TrmmFn K)
    (fuel : Nat) (e : Nat → Nat → K) :
    ul_mult gemm trmm fuel ⟨0, 0, e⟩ = none := by
  induction fuel generalizing e with
  | zero => rfl
  | succ f ih =>
    have h := ih (fun i j => e i j)
    simp only [ul_mult, Mat.slice]
    simp [h]

/-! ## `getri`: return code and pivot undo -/

theorem swapIdx_self (j c : Nat) : swapIdx j j c = c := by
  unfold swapIdx
  split
  · next h => exact h.symm
  · rfl

theorem swapIdx_lt (n j p c : Nat) (hj : j < n) (hp : p < n) (hc : c < n) :
    swapIdx j p c < n := by
  unfold swapIdx
  split
  · exact hp
  · split
    · exact hj
    · exact hc

theorem swapIdx_eq_iff (j p l c : Nat) : swapIdx j p l = c ↔ l = swapIdx j p c := by
  unfold swapIdx
  split_ifs <;> omega

theorem getri_sigma_lt (piv : Nat → Nat) (n k : Nat) (hk : k ≤ n)
    (hpiv : ∀ j, j < k → piv j < n) (c : Nat) (hc : c < n) :
    getri_sigma piv k c < n := by
  induction k with
  | zero => exact hc
  | succ k ih =>
    simp only [getri_sigma]
    exact swapIdx_lt n k (piv k) _ (by omega) (hpiv k (by omega))
      (ih (by omega) (fun j hj => hpiv j (by omega)))

theorem getri_P_entries_eq {K : Type} [Zero K] [One K] (piv : Nat → Nat) (k l c : Nat) :
    (getri_P_entries piv k l c : K) = if l = getri_sigma piv k c then 1 else 0 := by
  induction k generalizing l with
  | zero => rfl
  | succ k ih =>
    simp only [getri_P_entries, rowInterchange, getri_sigma]
    rw [ih]
    have h : (if l = k then piv k else if l = piv k then k else l) = swapIdx k (piv k) l := rfl
    rw [h]
    have h2 := swapIdx_eq_iff k (piv k) l (getri_sigma piv k c)
    by_cases h3 : swapIdx k (piv k) l = getri_sigma piv k c
    · rw [if_pos h3, if_pos (h2.mp h3)]
    · rw [if_neg h3, if_neg (fun h4 => h3 (h2.mpr h4))]

theorem getri_swap_step_entries {K : Type} (A : Mat K) (j p : Nat) (hjp : p ≠ j) :
    ∃ x y, swap (A.col j) (A.col p) = SwapOutcome.returned x y
      ∧ ((A.setCol j x).setCol p y).m = A.m ∧ ((A.setCol j x).setCol p y).n = A.n
      ∧ ∀ r c, ((A.setCol j x).setCol p y).e r c
          = if r < A.m then A.e r (swapIdx j p c) else A.e r c := by
  obtain ⟨-, -, h3, h4⟩ := swap_fold_spec A.m (A.col j) (A.col p)
  refine ⟨((List.range A.m).foldl swap_step (A.col j, A.col p)).1,
    ((List.range A.m).foldl swap_step (A.col j, A.col p)).2, ?_, rfl, rfl, ?_⟩
  · simp only [swap, Mat.col]
    rw [if_neg (by simp)]
  · intro r c
    simp only [Mat.col] at h3 h4
    simp only [Mat.setCol, Mat.col, h3, h4, swapIdx]
    by_cases hr : r < A.m
    · by_cases h1 : c = p
      · by_cases h2 : c = j
        · exact absurd (h1.symm.trans h2) hjp
        · subst h1
          simp [hr, h2]
      · by_cases h2 : c = j
        · subst h2
          have h5 : ¬ c = p := fun h => hjp h.symm
          simp [hr, h5]
        · simp [hr, h1, h2]
    · simp [hr]

theorem getri_swap_cols_entries {K : Type} (piv : Vec Nat) (n k : Nat) (hk : k ≤ n)
    (hlen : k ≤ piv.len) (hpiv : ∀ j, j < k → piv.e j < n) (Y : Mat K) (hY : Y.n = n) :
    ∃ A1, getri_swap_cols piv (List.range k).reverse Y = GetriOutcome.returned 0 A1
      ∧ A1.m = Y.m ∧ A1.n = Y.n
      ∧ ∀ r c, A1.e r c = if r < Y.m then Y.e r (getri_sigma piv.e k c) else Y.e r c := by
  induction k generalizing Y with
  | zero =>
    refine ⟨Y, rfl, rfl, rfl, ?_⟩
    intro r c
    simp [getri_sigma]
  | succ k ih =>
    rw [List.range_succ, List.reverse_append, List.reverse_singleton, List.singleton_append]
    have hget : piv.get? k = some (piv.e k) := by
      simp only [Vec.get?]
      rw [if_pos (by omega)]
    by_cases hp : piv.e k = k
    · obtain ⟨A1, h1, h2, h3, h4⟩ := ih (by omega) (by omega) (fun j hj => hpiv j (by omega)) Y hY
      refine ⟨A1, ?_, h2, h3, ?_⟩
      · simp only [getri_swap_cols, hget]
        rw [if_neg (not_not.mpr hp)]
        exact h1
      · intro r c
        rw [h4]
        simp only [getri_sigma, hp, swapIdx_self]
    · obtain ⟨x, y, hs, hm, hn, he⟩ := getri_swap_step_entries Y k (piv.e k) hp
      obtain ⟨A1, h1, h2, h3, h4⟩ := ih (by omega) (by omega) (fun j hj => hpiv j (by omega))
        ((Y.setCol k x).setCol (piv.e k) y) (by rw [hn]; exact hY)
      refine ⟨A1, ?_, by rw [h2, hm], by rw [h3, hn], ?_⟩
      · simp only [getri_swap_cols, hget]
        rw [if_pos hp, if_neg (by have := hpiv k (by omega); omega)]
        simp only [hs]
        exact h1
      · intro r c
        rw [h4, hm]
        by_cases hr : r < Y.m
        · simp only [hr, if_true, getri_sigma, he]
        · simp only [hr, if_false, he]

theorem getri_swap_cols_id {K : Type} (piv : Vec Nat) (k : Nat) (hlen : k ≤ piv.len)
    (hpiv : ∀ j, j < k → piv.e j = j) (Y : Mat K) :
    getri_swap_cols piv (List.range k).reverse Y = GetriOutcome.returned 0 Y := by
  induction k with
  | zero => rfl
  | succ k ih =>
    rw [List.range_succ, List.reverse_append, List.reverse_singleton, List.singleton_append]
    have hget : piv.get? k = some (piv.e k) := by
      simp only [Vec.get?]
      rw [if_pos (by omega)]
    simp only [getri_swap_cols, hget]
    rw [if_neg (not_not.mpr (hpiv k (by omega)))]
    exact ih (by omega) (fun j hj => hpiv j (by omega))

theorem getri_swap_cols_info {K : Type} (piv : Vec Nat) (l : List Nat) (Y A1 : Mat K) (i : Int)
    (h : getri_swap_cols piv l Y = GetriOutcome.returned i A1) : i = 0 := by
  induction l generalizing Y with
  | nil =>
    simp only [getri_swap_cols] at h
    injection h with h1 h2
    exact h1.symm
  | cons j js ih =>
    simp only [getri_swap_cols] at h
    split at h
    · cases h
    · split at h
      · split at h
        · cases h
        · split at h
          · cases h
          · exact ih _ h
      · exact ih _ h

theorem getri_swap_cols_mul {K : Type} [Semiring K] (piv : Vec Nat) (n : Nat)
    (hlen : n ≤ piv.len) (hpiv : ∀ j, j < n → piv.e j < n) (X : Mat K) (hX : X.n = n) :
    ∃ A1, getri_swap_cols piv (List.range n).reverse X = GetriOutcome.returned 0 A1
      ∧ A1.m = X.m ∧ A1.n = X.n
      ∧ matOf X.m n A1.e = matOf X.m n X.e * getri_P n piv.e
      ∧ ((∀ j, j < n → piv.e j = j) → A1 = X) := by
  obtain ⟨A1, h1, h2, h3, h4⟩ := getri_swap_cols_entries piv n n (le_refl n) hlen hpiv X hX
  refine ⟨A1, h1, h2, h3, ?_, ?_⟩
  · ext r c
    simp only [matOf, getri_P, Matrix.of_apply, Matrix.mul_apply, getri_P_entries_eq]
    rw [h4, if_pos r.isLt]
    have hlt := getri_sigma_lt piv.e n n (le_refl n) hpiv c.val c.isLt
    rw [Finset.sum_eq_single (⟨getri_sigma piv.e n c.val, hlt⟩ : Fin n)]
    · simp
    · intro b _ hb
      rw [if_neg, mul_zero]
      intro hb2
      exact hb (Fin.ext hb2)
    · intro hb
      exact absurd (Finset.mem_univ _) hb
  · intro hid
    have := getri_swap_cols_id piv n hlen hid X
    rw [this] at h1
    injection h1 with _ h5
    exact h5.symm

/-- C22: when the selected variant returns 0 leaving `X` in `A` (in place:
`ncols(X) = n`), `piv` has at least `n` entries and every `piv[j] < n`, the
column swaps for `j = n-1, ..., 0` end and `getri` and `getri_work` return 0
with `A = X * P`, where `P` is the identity after the row interchanges
`i <-> piv[i]`, `i = 0, ..., n-1` in that order; when `piv[j] = j` for all `j`
the output is `X` itself. -/
theorem getri_pivot_undo {K W : Type} [Semiring K] (getri_uili getri_uxli : GetriVariantFn K)
    (getri_uxli_work : GetriVariantWorkFn K W) (A X : Mat K) (piv : Vec Nat) (work : W)
    (opts : GetriOpts)
    (hlen : A.n ≤ piv.len) (hpiv : ∀ j, j < A.n → piv.e j < A.n) (hn : X.n = A.n) :
    ((if opts.variant = GetriVariant.UXLI then getri_uxli A else getri_uili A)
        = MatOutcome.returned 0 X →
      ∃ A1, getri getri_uili getri_uxli A piv opts = GetriOutcome.returned 0 A1
        ∧ A1.m = X.m ∧ A1.n = X.n
        ∧ matOf X.m A.n A1.e = matOf X.m A.n X.e * getri_P A.n piv.e
        ∧ ((∀ j, j < A.n → piv.e j = j) → A1 = X))
    ∧ ((if opts.variant = GetriVariant.UXLI then getri_uxli_work A work else getri_uili A)
        = MatOutcome.returned 0 X →
      ∃ A1, getri_work getri_uili getri_uxli_work A piv work opts = GetriOutcome.returned 0 A1
        ∧ A1.m = X.m ∧ A1.n = X.n
        ∧ matOf X.m A.n A1.e = matOf X.m A.n X.e * getri_P A.n piv.e
        ∧ ((∀ j, j < A.n → piv.e j = j) → A1 = X)) := by
  obtain ⟨A1, h1, h2, h3, h4, h5⟩ := getri_swap_cols_mul piv A.n hlen hpiv X hn
  constructor
  · intro hsel
    refine ⟨A1, ?_, h2, h3, h4, h5⟩
    simp only [getri, hsel]
    rw [if_neg (by simp)]
    exact h1
  · intro hsel
    refine ⟨A1, ?_, h2, h3, h4, h5⟩
    simp only [getri_work, hsel]
    rw [if_neg (by simp)]
    exact h1

/-- C22 (witness): the pivot vector `(1, 2, 2)` on a 3-by-3 integer matrix,
with a variant that returns 0 and leaves the matrix as it is. -/
theorem getri_pivot_undo_witness :
    exampleX.n ≤ examplePiv.len ∧ (∀ j, j < exampleX.n → examplePiv.e j < exampleX.n)
    ∧ ∃ A1, getri variant_keep variant_keep exampleX examplePiv ⟨GetriVariant.UILI⟩
          = GetriOutcome.returned 0 A1
        ∧ A1.m = exampleX.m ∧ A1.n = exampleX.n
        ∧ matOf exampleX.m exampleX.n A1.e
          = matOf exampleX.m exampleX.n exampleX.e * getri_P exampleX.n examplePiv.e
        ∧ ((∀ j, j < exampleX.n → examplePiv.e j = j) → A1 = exampleX) :=
  have h1 : exampleX.n ≤ examplePiv.len := by decide
  have h2 : ∀ j, j < exampleX.n → examplePiv.e j < exampleX.n := by
    intro j _
    show (if j = 0 then 1 else 2) < 3
    split <;> omega
  ⟨h1, h2, (getri_pivot_undo variant_keep variant_keep (fun A (_ : Unit) => variant_keep A)
    exampleX exampleX examplePiv () ⟨GetriVariant.UILI⟩ h1 h2 rfl).1 rfl⟩

/-- C23: when the selected variant returns `info` leaving `X` in `A`: for
`info != 0`, `getri` and `getri_work` return exactly `info` with `A = X` (no
column is swapped, `piv` is not read); for `info = 0`, given a pivot vector of
at least `n` entries below `n`, they return 0; and whatever `piv` holds, a
value they return is `info`. -/
theorem getri_singular_passthrough {K W : Type} (getri_uili getri_uxli : GetriVariantFn K)
    (getri_uxli_work : GetriVariantWorkFn K W) (A X : Mat K) (piv : Vec Nat) (work : W)
    (opts : GetriOpts) (info : Int)
    (hsel : (if opts.variant = GetriVariant.UXLI then getri_uxli A else getri_uili A)
        = MatOutcome.returned info X)
    (hselw : (if opts.variant = GetriVariant.UXLI then getri_uxli_work A work else getri_uili A)
        = MatOutcome.returned info X) :
    (info ≠ 0 →
      getri getri_uili getri_uxli A piv opts = GetriOutcome.returned info X
      ∧ getri_work getri_uili getri_uxli_work A piv work opts = GetriOutcome.returned info X)
    ∧ (info = 0 → X.n = A.n → A.n ≤ piv.len → (∀ j, j < A.n → piv.e j < A.n) →
      (∃ A1, getri getri_uili getri_uxli A piv opts = GetriOutcome.returned 0 A1)
      ∧ ∃ A1, getri_work getri_uili getri_uxli_work A piv work opts
          = GetriOutcome.returned 0 A1)
    ∧ (∀ i A1, getri getri_uili getri_uxli A piv opts = GetriOutcome.returned i A1 → i = info)
    ∧ (∀ i A1, getri_work getri_uili getri_uxli_work A piv work opts
          = GetriOutcome.returned i A1 → i = info) := by
  refine ⟨?_, ?_, ?_, ?_⟩
  · intro h0
    constructor
    · simp only [getri, hsel]
      rw [if_pos h0]
    · simp only [getri_work, hselw]
      rw [if_pos h0]
  · intro h0 hn hlen hpiv
    subst h0
    obtain ⟨A1, h1, -⟩ := getri_swap_cols_entries piv A.n A.n (le_refl _) hlen hpiv X hn
    constructor
    · refine ⟨A1, ?_⟩
      simp only [getri, hsel]
      rw [if_neg (by simp)]
      exact h1
    · refine ⟨A1, ?_⟩
      simp only [getri_work, hselw]
      rw [if_neg (by simp)]
      exact h1
  · intro i A1 h
    simp only [getri, hsel] at h
    by_cases h0 : info = 0
    · rw [if_neg (not_not.mpr h0)] at h
      rw [h0]
      exact getri_swap_cols_info piv _ X A1 i h
    · rw [if_pos h0] at h
      injection h with h1 _
      exact h1.symm
  · intro i A1 h
    simp only [getri_work, hselw] at h
    by_cases h0 : info = 0
    · rw [if_neg (not_not.mpr h0)] at h
      rw [h0]
      exact getri_swap_cols_info piv _ X A1 i h
    · rw [if_pos h0] at h
      injection h with h1 _
      exact h1.symm

/-- C23 (witness): a variant that reports code 2 on a 3-by-3 integer
matrix. -/
theorem getri_singular_passthrough_witness :
    getri variant_singular variant_singular exampleX examplePiv ⟨GetriVariant.UILI⟩
      = GetriOutcome.returned 2 exampleX
    ∧ getri_work variant_singular (fun A (_ : Unit) => variant_singular A) exampleX examplePiv ()
        ⟨GetriVariant.UILI⟩ = GetriOutcome.returned 2 exampleX :=
  (getri_singular_passthrough variant_singular variant_singular
    (fun A (_ : Unit) => variant_singular A) exampleX exampleX examplePiv ()
    ⟨GetriVariant.UILI⟩ 2 rfl rfl).1 (by decide)

/-! ## `lansy` and `lantr`: the max, one and infinity norms -/

theorem norm_update_ok {K : Type} [LinearOrder K] (v t : K) :
    norm_update (fun _ => false) (Except.ok v) t = Except.ok (max v t) := by
  simp only [norm_update]
  by_cases h : t > v
  · rw [if_pos h, max_eq_right (le_of_lt h)]
  · rw [if_neg h, max_eq_left (not_lt.mp h)]
    rfl

theorem norm_scan_list {K I : Type} [LinearOrder K] (l : List I) (f : I → K) (v : K) :
    ∃ r, l.foldl (fun st i => norm_update (fun _ => false) st (f i)) (Except.ok v)
        = Except.ok r
      ∧ v ≤ r ∧ (∀ i ∈ l, f i ≤ r) ∧ (r = v ∨ ∃ i ∈ l, r = f i) := by
  induction l generalizing v with
  | nil => exact ⟨v, rfl, le_refl v, (fun i hi => by cases hi), Or.inl rfl⟩
  | cons a l ih =>
    obtain ⟨r, h1, h2, h3, h4⟩ := ih (max v (f a))
    refine ⟨r, ?_, le_trans (le_max_left _ _) h2, ?_, ?_⟩
    · rw [List.foldl_cons, norm_update_ok]
      exact h1
    · intro i hi
      rcases List.mem_cons.mp hi with hi | hi
      · rw [hi]
        exact le_trans (le_max_right _ _) h2
      · exact h3 i hi
    · rcases h4 with h4 | ⟨i, hi, h4⟩
      · rcases max_choice v (f a) with hm | hm
        · exact Or.inl (h4.trans hm)
        · exact Or.inr ⟨a, List.mem_cons_self a l, h4.trans hm⟩
      · exact Or.inr ⟨i, List.mem_cons_of_mem a hi, h4⟩

theorem norm_scan_nested {K : Type} [LinearOrder K] (js : List Nat) (is : Nat → List Nat)
    (f : Nat → Nat → K) (v : K) :
    ∃ r, js.foldl (fun st j =>
          (is j).foldl (fun st i => norm_update (fun _ => false) st (f i j)) st) (Except.ok v)
        = Except.ok r
      ∧ v ≤ r ∧ (∀ j ∈ js, ∀ i ∈ is j, f i j ≤ r)
      ∧ (r = v ∨ ∃ j ∈ js, ∃ i ∈ is j, r = f i j) := by
  induction js generalizing v with
  | nil => exact ⟨v, rfl, le_refl v, (fun j hj => by cases hj), Or.inl rfl⟩
  | cons a js ih =>
    obtain ⟨w, g1, g2, g3, g4⟩ := norm_scan_list (is a) (fun i => f i a) v
    obtain ⟨r, h1, h2, h3, h4⟩ := ih w
    refine ⟨r, ?_, le_trans g2 h2, ?_, ?_⟩
    · rw [List.foldl_cons, g1]
      exact h1
    · intro j hj i hi
      rcases List.mem_cons.mp hj with hj | hj
      · subst hj
        exact le_trans (g3 i hi) h2
      · exact h3 j hj i hi
    · rcases h4 with h4 | ⟨j, hj, i, hi, h4⟩
      · rcases g4 with g4 | ⟨i, hi, g4⟩
        · exact Or.inl (h4.trans g4)
        · exact Or.inr ⟨a, List.mem_cons_self a js, i, hi, h4.trans g4⟩
      · exact Or.inr ⟨j, List.mem_cons_of_mem a hj, i, hi, h4⟩

theorem foldl_add_range {K : Type} [AddCommMonoid K] (k : Nat) (g : Nat → K) (a : K) :
    (List.range k).foldl (fun t i => t + g i) a = a + ∑ i in Finset.range k, g i := by
  induction k with
  | zero => simp
  | succ k ih =>
    rw [List.range_succ, List.foldl_append, ih, Finset.sum_range_succ]
    simp [add_assoc]

theorem foldl_add_range' {K : Type} [AddCommMonoid K] (s k : Nat) (g : Nat → K) (a : K) :
    (List.range' s k).foldl (fun t i => t + g i) a
      = a + ∑ i in Finset.range k, g (s + i) := by
  rw [List.range'_eq_map_range, List.foldl_map]
  exact foldl_add_range k (fun i => g (s + i)) a

theorem lansy_max_eq {K : Type} [LinearOrderedField K] (isnan : K → Bool) (lassq : LassqFn K)
    (sqrt : K → K) (A : Mat K) (hn : 1 ≤ A.m) :
    lansy isnan lassq sqrt Norm.Max Uplo.Upper A
      = norm_result ((List.range A.m).foldl (fun st j =>
          (List.range (j + 1)).foldl (fun st i => norm_update isnan st |A.e i j|) st)
          (Except.ok 0))
    ∧ lansy isnan lassq sqrt Norm.Max Uplo.Lower A
      = norm_result ((List.range A.m).foldl (fun st j =>
          (List.range' j (A.m - j)).foldl (fun st i => norm_update isnan st |A.e i j|) st)
          (Except.ok 0)) := by
  have h0 : ¬ A.m ≤ 0 := by omega
  constructor
  · simp [lansy, h0]
  · simp [lansy, h0]

theorem lansy_quick {K : Type} [LinearOrderedField K] (isnan : K → Bool) (lassq : LassqFn K)
    (sqrt : K → K) (normType : Norm) (uplo : Uplo) (A : Mat K)
    (hN : normType ≠ Norm.Two) (hu : uplo = Uplo.Upper ∨ uplo = Uplo.Lower) (hn : A.m = 0) :
    lansy isnan lassq sqrt normType uplo A = NormOutcome.returned 0 := by
  have h1 : ¬ (normType ≠ Norm.Fro ∧ normType ≠ Norm.Inf ∧ normType ≠ Norm.Max
      ∧ normType ≠ Norm.One) := by
    cases normType <;> simp at hN ⊢
  have h2 : ¬ (uplo ≠ Uplo.Lower ∧ uplo ≠ Uplo.Upper) := by
    rcases hu with h | h <;> simp [h]
  unfold lansy
  simp only []
  rw [if_neg h1, if_neg h2, if_pos (by omega)]

/-- C28: over an ordered field (the `isnan` test never fires) and for `uplo`
Upper or Lower, `lansy(Max, uplo, A)` returns a value `r`; when `n >= 1`, `r` is
the greatest of the `|A(i,j)|` over the referenced triangle (`i <= j` for
Upper, `i >= j` for Lower), which is also the greatest absolute entry of the
symmetric matrix defined by that triangle; when `n = 0`, `r = 0`. -/
theorem lansy_max {K : Type} [LinearOrderedField K] (lassq : LassqFn K) (sqrt : K → K)
    (uplo : Uplo) (A : Mat K) (hu : uplo = Uplo.Upper ∨ uplo = Uplo.Lower) :
    ∃ r, lansy (fun _ => false) lassq sqrt Norm.Max uplo A = NormOutcome.returned r
      ∧ (1 ≤ A.m →
          IsGreatest {x | ∃ i j, i < A.m ∧ j < A.m ∧ inTri uplo i j ∧ x = |A.e i j|} r
          ∧ IsGreatest {x | ∃ i j, i < A.m ∧ j < A.m ∧ x = |lansy_S uplo A.e i j|} r)
      ∧ (A.m = 0 → r = 0) := by
  by_cases hn : A.m = 0
  · refine ⟨0, lansy_quick _ lassq sqrt Norm.Max uplo A (by simp) hu hn, ?_, fun _ => rfl⟩
    intro h
    omega
  have hn1 : 1 ≤ A.m := by omega
  obtain ⟨hU, hL⟩ := lansy_max_eq (fun _ => false) lassq sqrt A hn1
  -- the triangle scan gives the greatest element over the triangle
  have key : ∃ r, lansy (fun _ => false) lassq sqrt Norm.Max uplo A = NormOutcome.returned r
      ∧ IsGreatest {x | ∃ i j, i < A.m ∧ j < A.m ∧ inTri uplo i j ∧ x = |A.e i j|} r := by
    rcases hu with hu | hu
    · subst hu
      obtain ⟨r, h1, h2, h3, h4⟩ := norm_scan_nested (List.range A.m)
        (fun j => List.range (j + 1)) (fun i j => |A.e i j|) 0
      refine ⟨r, ?_, ?_, ?_⟩
      · rw [hU, h1]
        rfl
      · rcases h4 with h4 | ⟨j, hj, i, hi, h4⟩
        · refine ⟨0, 0, by omega, by omega, Or.inr ⟨rfl, le_refl 0⟩, ?_⟩
          have h5 := h3 0 (List.mem_range.mpr (by omega)) 0 (List.mem_range.mpr (by omega))
          have h6 : (0 : K) ≤ |A.e 0 0| := abs_nonneg _
          rw [h4] at h5 ⊢
          exact le_antisymm h6 h5
        · have hj2 := List.mem_range.mp hj
          have hi2 := List.mem_range.mp hi
          exact ⟨i, j, by omega, hj2, Or.inr ⟨rfl, by omega⟩, h4⟩
      · rintro x ⟨i, j, hi, hj, ht, rfl⟩
        rcases ht with ⟨ht, -⟩ | ⟨-, ht⟩
        · cases ht
        · exact h3 j (List.mem_range.mpr hj) i (List.mem_range.mpr (by omega))
    · subst hu
      obtain ⟨r, h1, h2, h3, h4⟩ := norm_scan_nested (List.range A.m)
        (fun j => List.range' j (A.m - j)) (fun i j => |A.e i j|) 0
      refine ⟨r, ?_, ?_, ?_⟩
      · rw [hL, h1]
        rfl
      · rcases h4 with h4 | ⟨j, hj, i, hi, h4⟩
        · refine ⟨0, 0, by omega, by omega, Or.inl ⟨rfl, le_refl 0⟩, ?_⟩
          have h5 := h3 0 (List.mem_range.mpr (by omega)) 0
            (List.mem_range'_1.mpr ⟨le_refl 0, by omega⟩)
          have h6 : (0 : K) ≤ |A.e 0 0| := abs_nonneg _
          rw [h4] at h5 ⊢
          exact le_antisymm h6 h5
        · have hj2 := List.mem_range.mp hj
          have hi2 := List.mem_range'_1.mp hi
          exact ⟨i, j, by omega, hj2, Or.inl ⟨rfl, hi2.1⟩, h4⟩
      · rintro x ⟨i, j, hi, hj, ht, rfl⟩
        rcases ht with ⟨-, ht⟩ | ⟨ht, -⟩
        · exact h3 j (List.mem_range.mpr hj) i (List.mem_range'_1.mpr ⟨ht, by omega⟩)
        · cases ht
  obtain ⟨r, h1, h2⟩ := key
  refine ⟨r, h1, fun _ => ⟨h2, ?_⟩, fun h => absurd h hn⟩
  -- the symmetric matrix has the same set of absolute entries
  have hset : {x | ∃ i j, i < A.m ∧ j < A.m ∧ x = |lansy_S uplo A.e i j|}
      = {x | ∃ i j, i < A.m ∧ j < A.m ∧ inTri uplo i j ∧ x = |A.e i j|} := by
    ext x
    constructor
    · rintro ⟨i, j, hi, hj, rfl⟩
      by_cases ht : (uplo = Uplo.Lower ∧ j ≤ i) ∨ (uplo = Uplo.Upper ∧ i ≤ j)
      · refine ⟨i, j, hi, hj, ht, ?_⟩
        simp only [lansy_S]
        rw [if_pos ht]
      · refine ⟨j, i, hj, hi, ?_, ?_⟩
        · rcases hu with hu | hu
          · subst hu
            exact Or.inr ⟨rfl, by
              have : ¬ i ≤ j := fun h => ht (Or.inr ⟨rfl, h⟩)
              omega⟩
          · subst hu
            exact Or.inl ⟨rfl, by
              have : ¬ j ≤ i := fun h => ht (Or.inl ⟨rfl, h⟩)
              omega⟩
        · simp only [lansy_S]
          rw [if_neg ht]
    · rintro ⟨i, j, hi, hj, ht, rfl⟩
      refine ⟨i, j, hi, hj, ?_⟩
      have ht2 : (uplo = Uplo.Lower ∧ j ≤ i) ∨ (uplo = Uplo.Upper ∧ i ≤ j) := ht
      simp only [lansy_S]
      rw [if_pos ht2]
  rw [hset]
  exact h2

/-- C28 (witness): the upper triangle of the rational matrix with rows
`(4, 2)`, `(7, 5)`. -/
theorem lansy_max_witness :
    ∃ r, lansy (fun _ => false) (fun _ a b => (a, b)) (fun x => x) Norm.Max Uplo.Upper
          exampleSPDUpper = NormOutcome.returned r
      ∧ (1 ≤ exampleSPDUpper.m →
          IsGreatest {x | ∃ i j, i < exampleSPDUpper.m ∧ j < exampleSPDUpper.m
            ∧ inTri Uplo.Upper i j ∧ x = |exampleSPDUpper.e i j|} r
          ∧ IsGreatest {x | ∃ i j, i < exampleSPDUpper.m ∧ j < exampleSPDUpper.m
            ∧ x = |lansy_S Uplo.Upper exampleSPDUpper.e i j|} r)
      ∧ (exampleSPDUpper.m = 0 → r = 0) :=
  lansy_max (fun _ a b => (a, b)) (fun x => x) Uplo.Upper exampleSPDUpper (Or.inl rfl)

theorem lansy_one_inf_eq {K : Type} [LinearOrderedField K] (isnan : K → Bool)
    (lassq : LassqFn K) (sqrt : K → K) (normType : Norm) (A : Mat K) (hn : 1 ≤ A.m)
    (hN : normType = Norm.One ∨ normType = Norm.Inf) :
    lansy isnan lassq sqrt normType Uplo.Upper A
      = norm_result ((List.range A.m).foldl (fun st j =>
          norm_update isnan st
            ((List.range' (j + 1) (A.m - (j + 1))).foldl (fun t i => t + |A.e j i|)
              ((List.range (j + 1)).foldl (fun t i => t + |A.e i j|) 0))) (Except.ok 0))
    ∧ lansy isnan lassq sqrt normType Uplo.Lower A
      = norm_result ((List.range A.m).foldl (fun st j =>
          norm_update isnan st
            ((List.range' (j + 1) (A.m - (j + 1))).foldl (fun t i => t + |A.e i j|)
              ((List.range (j + 1)).foldl (fun t i => t + |A.e j i|) 0))) (Except.ok 0)) := by
  have h0 : ¬ A.m ≤ 0 := by omega
  rcases hN with h | h <;> subst h <;> constructor <;> simp [lansy, h0]

theorem lansy_S_symm {K : Type} (uplo : Uplo) (e : Nat → Nat → K)
    (hu : uplo = Uplo.Upper ∨ uplo = Uplo.Lower) (i j : Nat) :
    lansy_S uplo e i j = lansy_S uplo e j i := by
  simp only [lansy_S]
  rcases hu with h | h <;> subst h
  · by_cases h1 : i ≤ j
    · by_cases h2 : j ≤ i
      · have : i = j := le_antisymm h1 h2
        subst this
        rfl
      · simp [h1, h2]
    · have h2 : j ≤ i := by omega
      simp [h1, h2]
  · by_cases h1 : j ≤ i
    · by_cases h2 : i ≤ j
      · have : i = j := le_antisymm h2 h1
        subst this
        rfl
      · simp [h1, h2]
    · have h2 : i ≤ j := by omega
      simp [h1, h2]

theorem lansy_colsum {K : Type} [LinearOrderedField K] (A : Mat K) (n j : Nat) (hj : j < n) :
    (List.range' (j + 1) (n - (j + 1))).foldl (fun t i => t + |A.e j i|)
        ((List.range (j + 1)).foldl (fun t i => t + |A.e i j|) 0)
      = ∑ i in Finset.range n, |lansy_S Uplo.Upper A.e i j|
    ∧ (List.range' (j + 1) (n - (j + 1))).foldl (fun t i => t + |A.e i j|)
        ((List.range (j + 1)).foldl (fun t i => t + |A.e j i|) 0)
      = ∑ i in Finset.range n, |lansy_S Uplo.Lower A.e i j| := by
  constructor
  · rw [foldl_add_range', foldl_add_range, zero_add,
      sum_range_split n (j + 1) (by omega) (fun i => |lansy_S Uplo.Upper A.e i j|)]
    congr 1
    · apply Finset.sum_congr rfl
      intro i hi
      have hi2 := Finset.mem_range.mp hi
      have h : i ≤ j := by omega
      simp [lansy_S, h]
    · apply Finset.sum_congr rfl
      intro i _
      have h : ¬ (j + 1 + i ≤ j) := by omega
      simp [lansy_S, h]
  · rw [foldl_add_range', foldl_add_range, zero_add,
      sum_range_split n (j + 1) (by omega) (fun i => |lansy_S Uplo.Lower A.e i j|)]
    congr 1
    · apply Finset.sum_congr rfl
      intro i hi
      have hi2 := Finset.mem_range.mp hi
      by_cases h : j ≤ i
      · have : i = j := by omega
        subst this
        simp [lansy_S]
      · simp [lansy_S, h]
    · apply Finset.sum_congr rfl
      intro i _
      have h : j ≤ j + 1 + i := by omega
      simp [lansy_S, h]

theorem norm_scan_sums {K : Type} [LinearOrderedField K] (n : Nat) (g : Nat → K)
    (hg : ∀ j, 0 ≤ g j) (hn : 1 ≤ n) :
    ∃ r, (List.range n).foldl (fun st j => norm_update (fun _ => false) st (g j)) (Except.ok 0)
        = Except.ok r
      ∧ IsGreatest {x | ∃ j, j < n ∧ x = g j} r := by
  obtain ⟨r, h1, h2, h3, h4⟩ := norm_scan_list (List.range n) g 0
  refine ⟨r, h1, ?_, ?_⟩
  · rcases h4 with h4 | ⟨j, hj, h4⟩
    · refine ⟨0, by omega, ?_⟩
      have h5 := h3 0 (List.mem_range.mpr (by omega))
      rw [h4] at h5 ⊢
      exact le_antisymm (hg 0) h5
    · exact ⟨j, List.mem_range.mp hj, h4⟩
  · rintro x ⟨j, hj, rfl⟩
    exact h3 j (List.mem_range.mpr hj)

/-- C29: over an ordered field and for `uplo` Upper or Lower, `lansy(One, uplo,
A)` and `lansy(Inf, uplo, A)` return the same value `r`; when `n >= 1`, `r` is
the greatest over `j` of the sums over `i` of `|S(i,j)|`, where `S` is the
symmetric matrix whose `uplo` triangle is that of `A` (`S(i,j) = S(j,i)`, and
`S = A` on the triangle); when `n = 0`, `r = 0`. -/
theorem lansy_one_inf {K : Type} [LinearOrderedField K] (lassq : LassqFn K) (sqrt : K → K)
    (uplo : Uplo) (A : Mat K) (hu : uplo = Uplo.Upper ∨ uplo = Uplo.Lower) :
    ∃ r, lansy (fun _ => false) lassq sqrt Norm.One uplo A = NormOutcome.returned r
      ∧ lansy (fun _ => false) lassq sqrt Norm.Inf uplo A = NormOutcome.returned r
      ∧ (1 ≤ A.m →
          IsGreatest {x | ∃ j, j < A.m
            ∧ x = ∑ i in Finset.range A.m, |lansy_S uplo A.e i j|} r)
      ∧ (A.m = 0 → r = 0)
      ∧ (∀ i j, lansy_S uplo A.e i j = lansy_S uplo A.e j i)
      ∧ (∀ i j, inTri uplo i j → lansy_S uplo A.e i j = A.e i j) := by
  have hsym := lansy_S_symm uplo A.e hu
  have htri : ∀ i j, inTri uplo i j → lansy_S uplo A.e i j = A.e i j := by
    intro i j ht
    have ht2 : (uplo = Uplo.Lower ∧ j ≤ i) ∨ (uplo = Uplo.Upper ∧ i ≤ j) := ht
    simp only [lansy_S]
    rw [if_pos ht2]
  by_cases hn : A.m = 0
  · refine ⟨0, lansy_quick _ lassq sqrt Norm.One uplo A (by simp) hu hn,
      lansy_quick _ lassq sqrt Norm.Inf uplo A (by simp) hu hn, ?_, fun _ => rfl, hsym, htri⟩
    intro h
    omega
  have hn1 : 1 ≤ A.m := by omega
  obtain ⟨hU1, hL1⟩ := lansy_one_inf_eq (fun _ => false) lassq sqrt Norm.One A hn1 (Or.inl rfl)
  obtain ⟨hU2, hL2⟩ := lansy_one_inf_eq (fun _ => false) lassq sqrt Norm.Inf A hn1 (Or.inr rfl)
  obtain ⟨r, h1, h2⟩ := norm_scan_sums A.m
    (fun j => ∑ i in Finset.range A.m, |lansy_S uplo A.e i j|)
    (fun j => Finset.sum_nonneg (fun i _ => abs_nonneg _)) hn1
  refine ⟨r, ?_, ?_, fun _ => h2, fun h => absurd h hn, hsym, htri⟩
  · rcases hu with hu | hu
    · subst hu
      rw [hU1]
      rw [List.foldl_ext _ (fun st j => norm_update (fun _ => false) st
        (∑ i in Finset.range A.m, |lansy_S Uplo.Upper A.e i j|)) _
        (fun st j hj => by rw [(lansy_colsum A A.m j (List.mem_range.mp hj)).1]), h1]
      rfl
    · subst hu
      rw [hL1]
      rw [List.foldl_ext _ (fun st j => norm_update (fun _ => false) st
        (∑ i in Finset.range A.m, |lansy_S Uplo.Lower A.e i j|)) _
        (fun st j hj => by rw [(lansy_colsum A A.m j (List.mem_range.mp hj)).2]), h1]
      rfl
  · rcases hu with hu | hu
    · subst hu
      rw [hU2]
      rw [List.foldl_ext _ (fun st j => norm_update (fun _ => false) st
        (∑ i in Finset.range A.m, |lansy_S Uplo.Upper A.e i j|)) _
        (fun st j hj => by rw [(lansy_colsum A A.m j (List.mem_range.mp hj)).1]), h1]
      rfl
    · subst hu
      rw [hL2]
      rw [List.foldl_ext _ (fun st j => norm_update (fun _ => false) st
        (∑ i in Finset.range A.m, |lansy_S Uplo.Lower A.e i j|)) _
        (fun st j hj => by rw [(lansy_colsum A A.m j (List.mem_range.mp hj)).2]), h1]
      rfl

/-- C29 (witness): the lower triangle of the rational matrix with rows
`(4, 2)`, `(7, 5)`. -/
theorem lansy_one_inf_witness :
    ∃ r, lansy (fun _ => false) (fun _ a b => (a, b)) (fun x => x) Norm.One Uplo.Lower
          exampleSPDUpper = NormOutcome.returned r
      ∧ lansy (fun _ => false) (fun _ a b => (a, b)) (fun x => x) Norm.Inf Uplo.Lower
          exampleSPDUpper = NormOutcome.returned r
      ∧ (1 ≤ exampleSPDUpper.m →
          IsGreatest {x | ∃ j, j < exampleSPDUpper.m
            ∧ x = ∑ i in Finset.range exampleSPDUpper.m,
                |lansy_S Uplo.Lower exampleSPDUpper.e i j|} r)
      ∧ (exampleSPDUpper.m = 0 → r = 0)
      ∧ (∀ i j, lansy_S Uplo.Lower exampleSPDUpper.e i j
          = lansy_S Uplo.Lower exampleSPDUpper.e j i)
      ∧ (∀ i j, inTri Uplo.Lower i j
          → lansy_S Uplo.Lower exampleSPDUpper.e i j = exampleSPDUpper.e i j) :=
  lansy_one_inf (fun _ a b => (a, b)) (fun x => x) Uplo.Lower exampleSPDUpper (Or.inr rfl)

theorem lantr_max_eq {K : Type} [LinearOrderedField K] (isnan : K → Bool) (lassq : LassqFn K)
    (sqrt : K → K) (A : Mat K) (hm : 1 ≤ A.m) (hn : 1 ≤ A.n) :
    lantr isnan lassq sqrt Norm.Max Uplo.Upper Diag.NonUnit A
      = norm_result ((List.range A.n).foldl (fun st j =>
          (List.range (min j (A.m - 1) + 1)).foldl
            (fun st i => norm_update isnan st |A.e i j|) st) (Except.ok 0))
    ∧ lantr isnan lassq sqrt Norm.Max Uplo.Lower Diag.NonUnit A
      = norm_result ((List.range A.n).foldl (fun st j =>
          (List.range' j (A.m - j)).foldl
            (fun st i => norm_update isnan st |A.e i j|) st) (Except.ok 0))
    ∧ lantr isnan lassq sqrt Norm.Max Uplo.Upper Diag.Unit A
      = norm_result ((List.range A.n).foldl (fun st j =>
          (List.range (min j A.m)).foldl
            (fun st i => norm_update isnan st |A.e i j|) st) (Except.ok 1))
    ∧ lantr isnan lassq sqrt Norm.Max Uplo.Lower Diag.Unit A
      = norm_result ((List.range A.n).foldl (fun st j =>
          (List.range' (j + 1) (A.m - (j + 1))).foldl
            (fun st i => norm_update isnan st |A.e i j|) st) (Except.ok 1)) := by
  have h0 : ¬ (A.m = 0 ∨ A.n = 0) := by omega
  refine ⟨?_, ?_, ?_, ?_⟩ <;> simp [lantr, h0]

theorem lantr_quick {K : Type} [LinearOrderedField K] (isnan : K → Bool) (lassq : LassqFn K)
    (sqrt : K → K) (normType : Norm) (uplo : Uplo) (diag : Diag) (A : Mat K)
    (hN : normType ≠ Norm.Two) (hu : uplo = Uplo.Upper ∨ uplo = Uplo.Lower)
    (hn : A.m = 0 ∨ A.n = 0) :
    lantr isnan lassq sqrt normType uplo diag A = NormOutcome.returned 0 := by
  have h1 : ¬ (normType ≠ Norm.Fro ∧ normType ≠ Norm.Inf ∧ normType ≠ Norm.Max
      ∧ normType ≠ Norm.One) := by
    cases normType <;> simp at hN ⊢
  have h2 : ¬ (uplo ≠ Uplo.Lower ∧ uplo ≠ Uplo.Upper) := by
    rcases hu with h | h <;> simp [h]
  have h3 : ¬ (diag ≠ Diag.NonUnit ∧ diag ≠ Diag.Unit) := by
    cases diag <;> simp
  unfold lantr
  simp only []
  rw [if_neg h1, if_neg h2, if_neg h3, if_pos hn]

/-- C30: over an ordered field and for `uplo` Upper or Lower,
`lantr(Max, uplo, NonUnit, A)` returns a value that, for `m, n >= 1`, is the
greatest of the `|A(i,j)|` over the entries of the matrix with `i <= j`
(Upper) or `i >= j` (Lower); `lantr(Max, uplo, Unit, A)` returns a value that,
for `m, n >= 1`, is the greatest of 1 and the `|A(i,j)|` over the entries
strictly above (Upper) or strictly below (Lower) the diagonal; both are 0
when `m = 0` or `n = 0`. -/
theorem lantr_max {K : Type} [LinearOrderedField K] (lassq : LassqFn K) (sqrt : K → K)
    (uplo : Uplo) (A : Mat K) (hu : uplo = Uplo.Upper ∨ uplo = Uplo.Lower) :
    (∃ r, lantr (fun _ => false) lassq sqrt Norm.Max uplo Diag.NonUnit A
          = NormOutcome.returned r
      ∧ (1 ≤ A.m → 1 ≤ A.n →
          IsGreatest {x | ∃ i j, i < A.m ∧ j < A.n ∧ inTri uplo i j ∧ x = |A.e i j|} r)
      ∧ (A.m = 0 ∨ A.n = 0 → r = 0))
    ∧ (∃ r, lantr (fun _ => false) lassq sqrt Norm.Max uplo Diag.Unit A
          = NormOutcome.returned r
      ∧ (1 ≤ A.m → 1 ≤ A.n →
          IsGreatest {x | x = 1
            ∨ ∃ i j, i < A.m ∧ j < A.n ∧ inTri uplo i j ∧ i ≠ j ∧ x = |A.e i j|} r)
      ∧ (A.m = 0 ∨ A.n = 0 → r = 0)) := by
  by_cases h0 : A.m = 0 ∨ A.n = 0
  · have hq := fun d => lantr_quick (fun _ => false) lassq sqrt Norm.Max uplo d A (by simp) hu h0
    exact ⟨⟨0, hq _, (fun h1 h2 => by omega), fun _ => rfl⟩,
      ⟨0, hq _, (fun h1 h2 => by omega), fun _ => rfl⟩⟩
  have hm : 1 ≤ A.m := by omega
  have hn : 1 ≤ A.n := by omega
  obtain ⟨e1, e2, e3, e4⟩ := lantr_max_eq (fun _ => false) lassq sqrt A hm hn
  rcases hu with hu | hu
  · subst hu
    constructor
    · obtain ⟨r, h1, h2, h3, h4⟩ := norm_scan_nested (List.range A.n)
        (fun j => List.range (min j (A.m - 1) + 1)) (fun i j => |A.e i j|) 0
      refine ⟨r, by rw [e1, h1]; rfl, fun _ _ => ⟨?_, ?_⟩, fun h => absurd h h0⟩
      · rcases h4 with h4 | ⟨j, hj, i, hi, h4⟩
        · refine ⟨0, 0, by omega, by omega, Or.inr ⟨rfl, le_refl 0⟩, ?_⟩
          have h5 := h3 0 (List.mem_range.mpr (by omega)) 0 (List.mem_range.mpr (by omega))
          have h6 : (0 : K) ≤ |A.e 0 0| := abs_nonneg _
          rw [h4] at h5 ⊢
          exact le_antisymm h6 h5
        · have hj2 := List.mem_range.mp hj
          have hi2 := List.mem_range.mp hi
          exact ⟨i, j, by omega, hj2, Or.inr ⟨rfl, by omega⟩, h4⟩
      · rintro x ⟨i, j, hi, hj, ht, rfl⟩
        rcases ht with ⟨ht, -⟩ | ⟨-, ht⟩
        · cases ht
        · exact h3 j (List.mem_range.mpr hj) i (List.mem_range.mpr (by omega))
    · obtain ⟨r, h1, h2, h3, h4⟩ := norm_scan_nested (List.range A.n)
        (fun j => List.range (min j A.m)) (fun i j => |A.e i j|) 1
      refine ⟨r, by rw [e3, h1]; rfl, fun _ _ => ⟨?_, ?_⟩, fun h => absurd h h0⟩
      · rcases h4 with h4 | ⟨j, hj, i, hi, h4⟩
        · exact Or.inl h4
        · have hj2 := List.mem_range.mp hj
          have hi2 := List.mem_range.mp hi
          exact Or.inr ⟨i, j, by omega, hj2, Or.inr ⟨rfl, by omega⟩, by omega, h4⟩
      · rintro x (rfl | ⟨i, j, hi, hj, ht, hne, rfl⟩)
        · exact h2
        · rcases ht with ⟨ht, -⟩ | ⟨-, ht⟩
          · cases ht
          · exact h3 j (List.mem_range.mpr hj) i (List.mem_range.mpr (by omega))
  · subst hu
    constructor
    · obtain ⟨r, h1, h2, h3, h4⟩ := norm_scan_nested (List.range A.n)
        (fun j => List.range' j (A.m - j)) (fun i j => |A.e i j|) 0
      refine ⟨r, by rw [e2, h1]; rfl, fun _ _ => ⟨?_, ?_⟩, fun h => absurd h h0⟩
      · rcases h4 with h4 | ⟨j, hj, i, hi, h4⟩
        · refine ⟨0, 0, by omega, by omega, Or.inl ⟨rfl, le_refl 0⟩, ?_⟩
          have h5 := h3 0 (List.mem_range.mpr (by omega)) 0
            (List.mem_range'_1.mpr ⟨le_refl 0, by omega⟩)
          have h6 : (0 : K) ≤ |A.e 0 0| := abs_nonneg _
          rw [h4] at h5 ⊢
          exact le_antisymm h6 h5
        · have hj2 := List.mem_range.mp hj
          have hi2 := List.mem_range'_1.mp hi
          exact ⟨i, j, by omega, hj2, Or.inl ⟨rfl, hi2.1⟩, h4⟩
      · rintro x ⟨i, j, hi, hj, ht, rfl⟩
        rcases ht with ⟨-, ht⟩ | ⟨ht, -⟩
        · exact h3 j (List.mem_range.mpr hj) i (List.mem_range'_1.mpr ⟨ht, by omega⟩)
        · cases ht
    · obtain ⟨r, h1, h2, h3, h4⟩ := norm_scan_nested (List.range A.n)
        (fun j => List.range' (j + 1) (A.m - (j + 1))) (fun i j => |A.e i j|) 1
      refine ⟨r, by rw [e4, h1]; rfl, fun _ _ => ⟨?_, ?_⟩, fun h => absurd h h0⟩
      · rcases h4 with h4 | ⟨j, hj, i, hi, h4⟩
        · exact Or.inl h4
        · have hj2 := List.mem_range.mp hj
          have hi2 := List.mem_range'_1.mp hi
          exact Or.inr ⟨i, j, by omega, hj2, Or.inl ⟨rfl, by omega⟩, by omega, h4⟩
      · rintro x (rfl | ⟨i, j, hi, hj, ht, hne, rfl⟩)
        · exact h2
        · rcases ht with ⟨-, ht⟩ | ⟨ht, -⟩
          · exact h3 j (List.mem_range.mpr hj) i (List.mem_range'_1.mpr ⟨by omega, by omega⟩)
          · cases ht

/-- C30 (witness): the upper trapezoid of the 2-by-3 rational matrix with rows
`(1, -7, 2)`, `(9, -3, 4)`. -/
theorem lantr_max_witness :
    (∃ r, lantr (fun _ => false) (fun _ a b => (a, b)) (fun x => x) Norm.Max Uplo.Upper
          Diag.NonUnit exampleTrap = NormOutcome.returned r
      ∧ (1 ≤ exampleTrap.m → 1 ≤ exampleTrap.n →
          IsGreatest {x | ∃ i j, i < exampleTrap.m ∧ j < exampleTrap.n ∧ inTri Uplo.Upper i j
            ∧ x = |exampleTrap.e i j|} r)
      ∧ (exampleTrap.m = 0 ∨ exampleTrap.n = 0 → r = 0))
    ∧ (∃ r, lantr (fun _ => false) (fun _ a b => (a, b)) (fun x => x) Norm.Max Uplo.Upper
          Diag.Unit exampleTrap = NormOutcome.returned r
      ∧ (1 ≤ exampleTrap.m → 1 ≤ exampleTrap.n →
          IsGreatest {x | x = 1
            ∨ ∃ i j, i < exampleTrap.m ∧ j < exampleTrap.n ∧ inTri Uplo.Upper i j ∧ i ≠ j
              ∧ x = |exampleTrap.e i j|} r)
      ∧ (exampleTrap.m = 0 ∨ exampleTrap.n = 0 → r = 0)) :=
  lantr_max (fun _ a b => (a, b)) (fun x => x) Uplo.Upper exampleTrap (Or.inl rfl)

/-! ## `gghrd`: checks, quick return and loop structure -/

/-- C27 (amended): with `n = ncols(A) = 0` the first check
`ilo >= 0 && ilo < n` fails for every pair of integers `ilo`, `ihi`, so the
call ends in a precondition failure, with the memory untouched, and the quick
return `n <= 1` is not reached; for 1-by-1 matrices with `ilo = 0`, `ihi = 1`
the call returns 0 with `A`, `B`, `Q`, `Z` unchanged and no rotation kernel
invoked. -/
theorem gghrd_zero_size_rejected {K : Type} [Zero K] [Star K] (rotg : RotgFn K) (rot : RotFn K)
    (wantq wantz : Bool) (ilo ihi : Int) (eA eB eQ eZ : Nat → Nat → K) :
    gghrd rotg rot wantq wantz ilo ihi ⟨0, 0, eA⟩ ⟨0, 0, eB⟩ ⟨0, 0, eQ⟩ ⟨0, 0, eZ⟩
      = GghrdOutcome.checkFailed ⟨⟨0, 0, eA⟩, ⟨0, 0, eB⟩, ⟨0, 0, eQ⟩, ⟨0, 0, eZ⟩, []⟩
    ∧ gghrd rotg rot wantq wantz 0 1 ⟨1, 1, eA⟩ ⟨1, 1, eB⟩ ⟨1, 1, eQ⟩ ⟨1, 1, eZ⟩
      = GghrdOutcome.returned 0 ⟨⟨1, 1, eA⟩, ⟨1, 1, eB⟩, ⟨1, 1, eQ⟩, ⟨1, 1, eZ⟩, []⟩ := by
  constructor
  · simp only [gghrd]
    rw [if_pos]
    intro h
    have := h.1
    have := h.2
    simp at *
    omega
  · simp [gghrd]

/-- C27 (counterexample): the call on four 0-by-0 integer matrices with
`ilo = 0`, `ihi = 0` does not return 0: it ends in the failure of the check
`ilo >= 0 && ilo < n`. -/
theorem gghrd_zero_size_counterexample :
    gghrd rotg_int rot_exact false false 0 0
        (Mat.ofRows 0 0 []) (Mat.ofRows 0 0 []) (Mat.ofRows 0 0 []) (Mat.ofRows 0 0 [])
      = GghrdOutcome.checkFailed
          ⟨Mat.ofRows 0 0 [], Mat.ofRows 0 0 [], Mat.ofRows 0 0 [], Mat.ofRows 0 0 [], []⟩
    ∧ ∀ s, gghrd rotg_int rot_exact false false 0 0
        (Mat.ofRows 0 0 []) (Mat.ofRows 0 0 []) (Mat.ofRows 0 0 []) (Mat.ofRows 0 0 [])
      ≠ GghrdOutcome.returned 0 s := by
  have h : gghrd rotg_int rot_exact false false 0 0
        (Mat.ofRows 0 0 []) (Mat.ofRows 0 0 []) (Mat.ofRows 0 0 []) (Mat.ofRows 0 0 [])
      = GghrdOutcome.checkFailed
          ⟨Mat.ofRows 0 0 [], Mat.ofRows 0 0 [], Mat.ofRows 0 0 [], Mat.ofRows 0 0 [], []⟩ := by
    simp [gghrd, Mat.ofRows]
  refine ⟨h, ?_⟩
  intro s hs
  rw [h] at hs
  exact GghrdOutcome.noConfusion hs

theorem gghrd_run {K : Type} [Zero K] [Star K] (rotg : RotgFn K) (rot : RotFn K)
    (wantq wantz : Bool) (ilo ihi : Nat) (A B Q Z : Mat K)
    (hilo : ilo < ihi) (hihi : ihi ≤ A.n)
    (hA : A.m = A.n) (hB : B.m = A.n ∧ B.n = A.n) (hQ : Q.m = A.n ∧ Q.n = A.n)
    (hZ : Z.m = A.n ∧ Z.n = A.n) :
    gghrd rotg rot wantq wantz (ilo : Int) (ihi : Int) A B Q Z
      = if A.n ≤ 1 then GghrdOutcome.returned 0 ⟨A, B, Q, Z, []⟩
        else GghrdOutcome.returned 0
          (gghrd_loop rotg rot wantq wantz A.n ilo ihi ⟨A, gghrd_zero_lower A.n B, Q, Z, []⟩) := by
  obtain ⟨hB1, hB2⟩ := hB
  obtain ⟨hQ1, hQ2⟩ := hQ
  obtain ⟨hZ1, hZ2⟩ := hZ
  simp only [gghrd]
  rw [if_neg (by simp; omega), if_neg (by simp; omega), if_neg (by simp; omega),
    if_neg (by simp; omega), if_neg (by simp; omega), if_neg (by simp; omega),
    if_neg (by simp; omega), if_neg (by simp; omega), if_neg (by simp; omega)]
  simp only [Int.toNat_ofNat]

theorem Mat.set_e {K : Type} (A : Mat K) (i j : Nat) (x : K) (r c : Nat) :
    (A.set i j x).e r c = if r = i ∧ c = j then x else A.e r c := rfl

theorem gghrd_zero_lower_inner {K : Type} [Zero K] (j k : Nat) (B : Mat K) :
    ((List.range' (j + 1) k).foldl (fun B i => B.set i j 0) B).m = B.m
    ∧ ((List.range' (j + 1) k).foldl (fun B i => B.set i j 0) B).n = B.n
    ∧ ∀ r c, ((List.range' (j + 1) k).foldl (fun B i => B.set i j 0) B).e r c
        = if c = j ∧ j + 1 ≤ r ∧ r < j + 1 + k then 0 else B.e r c := by
  induction k with
  | zero =>
    refine ⟨rfl, rfl, ?_⟩
    intro r c
    rw [if_neg (by omega)]
    rfl
  | succ k ih =>
    obtain ⟨h1, h2, h3⟩ := ih
    rw [List.range'_1_concat, List.foldl_append]
    refine ⟨h1, h2, ?_⟩
    intro r c
    simp only [List.foldl_cons, List.foldl_nil]
    rw [Mat.set_e]
    by_cases hr : r = j + 1 + k ∧ c = j
    · rw [if_pos hr, if_pos (by omega)]
    · rw [if_neg hr, h3]
      by_cases h : c = j ∧ j + 1 ≤ r ∧ r < j + 1 + k
      · rw [if_pos h, if_pos (by omega)]
      · rw [if_neg h, if_neg (by omega)]

theorem gghrd_zero_lower_spec {K : Type} [Zero K] (n : Nat) (B : Mat K) :
    (gghrd_zero_lower n B).m = B.m ∧ (gghrd_zero_lower n B).n = B.n
    ∧ ∀ r c, (gghrd_zero_lower n B).e r c = if c < r ∧ r < n then 0 else B.e r c := by
  have key : ∀ J, J ≤ n →
      ((List.range J).foldl (fun B j =>
        (List.range' (j + 1) (n - (j + 1))).foldl (fun B i => B.set i j 0) B) B).m = B.m
      ∧ ((List.range J).foldl (fun B j =>
        (List.range' (j + 1) (n - (j + 1))).foldl (fun B i => B.set i j 0) B) B).n = B.n
      ∧ ∀ r c, ((List.range J).foldl (fun B j =>
        (List.range' (j + 1) (n - (j + 1))).foldl (fun B i => B.set i j 0) B) B).e r c
          = if c < J ∧ c < r ∧ r < n then 0 else B.e r c := by
    intro J
    induction J with
    | zero =>
      intro _
      refine ⟨rfl, rfl, ?_⟩
      intro r c
      rw [if_neg (by omega)]
      rfl
    | succ J ih =>
      intro hJ
      obtain ⟨h1, h2, h3⟩ := ih (by omega)
      rw [List.range_succ, List.foldl_append]
      simp only [List.foldl_cons, List.foldl_nil]
      obtain ⟨g1, g2, g3⟩ := gghrd_zero_lower_inner J (n - (J + 1))
        ((List.range J).foldl (fun B j =>
          (List.range' (j + 1) (n - (j + 1))).foldl (fun B i => B.set i j 0) B) B)
      refine ⟨g1.trans h1, g2.trans h2, ?_⟩
      intro r c
      rw [g3, h3]
      by_cases h : c = J ∧ J + 1 ≤ r ∧ r < J + 1 + (n - (J + 1))
      · rw [if_pos h, if_pos (by omega)]
      · rw [if_neg h]
        by_cases h5 : c < J ∧ c < r ∧ r < n
        · rw [if_pos h5, if_pos (by omega)]
        · rw [if_neg h5, if_neg (by omega)]
  obtain ⟨h1, h2, h3⟩ := key n (le_refl n)
  refine ⟨h1, h2, ?_⟩
  intro r c
  show ((List.range n).foldl _ B).e r c = _
  rw [h3]
  by_cases h : c < r ∧ r < n
  · rw [if_pos h, if_pos (by omega)]
  · rw [if_neg h, if_neg (by omega)]

theorem gghrd_inner_induction {K : Type} [Zero K] [Star K] (rotg : RotgFn K) (rot : RotFn K)
    (wantq wantz : Bool) (n ihi j : Nat) (P : Nat → GghrdState K → Prop)
    (hstep : ∀ i st, j + 2 ≤ i → i < ihi → P (i + 1) st →
      P i (gghrd_step rotg rot wantq wantz n ihi j st i))
    (st : GghrdState K) (hj : j + 2 ≤ ihi) (h0 : P ihi st) :
    P (j + 2) (gghrd_inner rotg rot wantq wantz n ihi j st) := by
  have key : ∀ k st, j + 2 + k ≤ ihi → P (j + 2 + k) st →
      P (j + 2) ((List.range' (j + 2) k).reverse.foldl
        (gghrd_step rotg rot wantq wantz n ihi j) st) := by
    intro k
    induction k with
    | zero =>
      intro st _ h
      exact h
    | succ k ih =>
      intro st hk h
      rw [List.range'_1_concat, List.reverse_append, List.reverse_singleton,
        List.singleton_append, List.foldl_cons]
      exact ih _ (by omega) (hstep (j + 2 + k) st (by omega) (by omega) h)
  have := key (ihi - (j + 2)) st (by omega) (by
    have e : j + 2 + (ihi - (j + 2)) = ihi := by omega
    rw [e]
    exact h0)
  exact this

theorem gghrd_loop_induction {K : Type} [Zero K] [Star K] (rotg : RotgFn K) (rot : RotFn K)
    (wantq wantz : Bool) (n ilo ihi : Nat) (Q : Nat → GghrdState K → Prop)
    (hstep : ∀ j st, ilo ≤ j → j + 2 < ihi → Q j st →
      Q (j + 1) (gghrd_inner rotg rot wantq wantz n ihi j st))
    (st : GghrdState K) (h0 : Q ilo st) :
    Q (ilo + (ihi - 2 - ilo)) (gghrd_loop rotg rot wantq wantz n ilo ihi st) := by
  have key : ∀ k, k ≤ ihi - 2 - ilo →
      Q (ilo + k) ((List.range' ilo k).foldl
        (fun st j => gghrd_inner rotg rot wantq wantz n ihi j st) st) := by
    intro k
    induction k with
    | zero =>
      intro _
      exact h0
    | succ k ih =>
      intro hk
      rw [List.range'_1_concat, List.foldl_append]
      simp only [List.foldl_cons, List.foldl_nil]
      exact hstep (ilo + k) _ (by omega) (by omega) (ih (by omega))
  exact key _ (le_refl _)

/-! ## `gghrd`: the zero patterns of `A` and `B` -/

theorem gghrd_rotate_rows_A_frame {K : Type} [Zero K] [Star K] (rotg : RotgFn K) (rot : RotFn K)
    (wantq : Bool) (n j : Nat) (st : GghrdState K) (i r k : Nat)
    (h : k < j ∨ (r ≠ i ∧ r ≠ i - 1)) :
    (gghrd_rotate_rows rotg rot wantq n j st i).A.e r k = st.A.e r k := by
  simp only [gghrd_rotate_rows, Mat.set, Mat.setRowSlice, Mat.sliceRow]
  rw [if_neg (by omega), if_neg (by omega), if_neg (by omega), if_neg (by omega),
    if_neg (by omega)]

theorem gghrd_rotate_rows_A_zero {K : Type} [Zero K] [Star K] (rotg : RotgFn K) (rot : RotFn K)
    (wantq : Bool) (n j : Nat) (st : GghrdState K) (i : Nat) :
    (gghrd_rotate_rows rotg rot wantq n j st i).A.e i j = 0 := by
  simp only [gghrd_rotate_rows, Mat.set, Mat.setRowSlice, Mat.sliceRow]
  rw [if_neg (by omega), if_neg (by omega)]
  simp

theorem gghrd_rotate_cols_A_frame {K : Type} [Zero K] (rotg : RotgFn K) (rot : RotFn K)
    (wantz : Bool) (n ihi : Nat) (st : GghrdState K) (i r k : Nat)
    (h : (k ≠ i ∧ k ≠ i - 1) ∨ ihi ≤ r) :
    (gghrd_rotate_cols rotg rot wantz n ihi st i).A.e r k = st.A.e r k := by
  simp only [gghrd_rotate_cols, Mat.setColSlice]
  rw [if_neg (by omega), if_neg (by omega)]

theorem gghrd_rotate_rows_B_frame {K : Type} [Zero K] [Star K] (rotg : RotgFn K) (rot : RotFn K)
    (wantq : Bool) (n j : Nat) (st : GghrdState K) (i r k : Nat)
    (h : k < i - 1 ∨ (r ≠ i ∧ r ≠ i - 1)) :
    (gghrd_rotate_rows rotg rot wantq n j st i).B.e r k = st.B.e r k := by
  simp only [gghrd_rotate_rows, Mat.setRowSlice]
  rw [if_neg (by omega), if_neg (by omega)]

theorem gghrd_rotate_cols_B_lower {K : Type} [Zero K] (rotg : RotgFn K) (rot : RotFn K)
    (wantz : Bool) (n ihi : Nat) (st : GghrdState K) (i r k : Nat) (hi : 1 ≤ i) (hk : k < r) :
    (gghrd_rotate_cols rotg rot wantz n ihi st i).B.e r k
      = if r = i ∧ k = i - 1 then 0 else st.B.e r k := by
  simp only [gghrd_rotate_cols, Mat.setColSlice, Mat.set]
  rw [if_neg (by omega), if_neg (by omega)]
  by_cases h : r = i ∧ k = i - 1
  · rw [if_pos h, if_pos h]
  · rw [if_neg h, if_neg h, if_neg (by omega), if_neg h]

theorem gghrd_step_shapes {K : Type} [Zero K] [Star K] (rotg : RotgFn K) (rot : RotFn K)
    (wantq wantz : Bool) (n ihi j : Nat) (st : GghrdState K) (i : Nat) :
    (gghrd_step rotg rot wantq wantz n ihi j st i).A.m = st.A.m
    ∧ (gghrd_step rotg rot wantq wantz n ihi j st i).A.n = st.A.n
    ∧ (gghrd_step rotg rot wantq wantz n ihi j st i).B.m = st.B.m
    ∧ (gghrd_step rotg rot wantq wantz n ihi j st i).B.n = st.B.n
    ∧ (gghrd_step rotg rot wantq wantz n ihi j st i).Q.m = st.Q.m
    ∧ (gghrd_step rotg rot wantq wantz n ihi j st i).Q.n = st.Q.n
    ∧ (gghrd_step rotg rot wantq wantz n ihi j st i).Z.m = st.Z.m
    ∧ (gghrd_step rotg rot wantq wantz n ihi j st i).Z.n = st.Z.n := by
  refine ⟨rfl, rfl, rfl, rfl, ?_, ?_, ?_, ?_⟩
  · simp only [gghrd_step, gghrd_rotate_cols, gghrd_rotate_rows]
    split <;> rfl
  · simp only [gghrd_step, gghrd_rotate_cols, gghrd_rotate_rows]
    split <;> rfl
  · simp only [gghrd_step, gghrd_rotate_cols, gghrd_rotate_rows]
    split <;> rfl
  · simp only [gghrd_step, gghrd_rotate_cols, gghrd_rotate_rows]
    split <;> rfl

theorem gghrd_step_hess {K : Type} [Zero K] [Star K] (rotg : RotgFn K) (rot : RotFn K)
    (wantq wantz : Bool) (n ilo ihi j : Nat) (st : GghrdState K) (i : Nat)
    (hi : j + 2 ≤ i) (h : HessZeros ilo ihi j (i + 1) st.A) :
    HessZeros ilo ihi j i (gghrd_step rotg rot wantq wantz n ihi j st i).A := by
  intro r k hk hr hc
  simp only [gghrd_step]
  rw [gghrd_rotate_cols_A_frame _ _ _ _ _ _ _ _ _ (Or.inl (by omega))]
  by_cases h1 : r = i ∧ k = j
  · rw [h1.1, h1.2]
    exact gghrd_rotate_rows_A_zero rotg rot wantq n j st i
  · rw [gghrd_rotate_rows_A_frame _ _ _ _ _ _ _ _ _ (by omega)]
    exact h r k hk hr (by omega)

theorem gghrd_loop_hess {K : Type} [Zero K] [Star K] (rotg : RotgFn K) (rot : RotFn K)
    (wantq wantz : Bool) (n ilo ihi : Nat) (st : GghrdState K) :
    ∀ r k, ilo ≤ k → k + 2 ≤ r → r < ihi →
      (gghrd_loop rotg rot wantq wantz n ilo ihi st).A.e r k = 0 := by
  have key := gghrd_loop_induction rotg rot wantq wantz n ilo ihi
    (fun J s => HessZeros ilo ihi J ihi s.A) ?_ st ?_
  · intro r k hk hr hr2
    exact key r k hk hr2 (Or.inl ⟨by omega, hr⟩)
  · intro j s hj hj2 hQ
    have h2 := gghrd_inner_induction rotg rot wantq wantz n ihi j
      (fun I s => HessZeros ilo ihi j I s.A) ?_ s (by omega) ?_
    · intro r k hk hr hc
      exact h2 r k hk hr (by omega)
    · intro i s2 hi hi2 hP
      exact gghrd_step_hess rotg rot wantq wantz n ilo ihi j s2 i hi hP
    · intro r k hk hr hc
      exact hQ r k hk hr (by omega)
  · intro r k hk hr hc
    omega

/-- C24: for arguments that pass the checks (`0 <= ilo < ihi <= n`, the four
matrices `n`-by-`n`), `gghrd` returns 0 and on exit `A(i, j) = 0` for every
column `j >= ilo` and every row `i` with `j + 2 <= i <= ihi - 1`, whatever
`rotg` and `rot` compute (their results are written to the scalars and
vectors they are given, and nowhere else). -/
theorem gghrd_hessenberg {K : Type} [Zero K] [Star K] (rotg : RotgFn K) (rot : RotFn K)
    (wantq wantz : Bool) (ilo ihi : Nat) (A B Q Z : Mat K)
    (hilo : ilo < ihi) (hihi : ihi ≤ A.n)
    (hA : A.m = A.n) (hB : B.m = A.n ∧ B.n = A.n) (hQ : Q.m = A.n ∧ Q.n = A.n)
    (hZ : Z.m = A.n ∧ Z.n = A.n) :
    ∃ s, gghrd rotg rot wantq wantz (ilo : Int) (ihi : Int) A B Q Z = GghrdOutcome.returned 0 s
      ∧ ∀ i j, ilo ≤ j → j + 2 ≤ i → i ≤ ihi - 1 → s.A.e i j = 0 := by
  rw [gghrd_run rotg rot wantq wantz ilo ihi A B Q Z hilo hihi hA hB hQ hZ]
  by_cases hn : A.n ≤ 1
  · rw [if_pos hn]
    refine ⟨_, rfl, ?_⟩
    intro i j _ h2 h3
    omega
  · rw [if_neg hn]
    refine ⟨_, rfl, ?_⟩
    intro i j h1 h2 h3
    exact gghrd_loop_hess rotg rot wantq wantz A.n ilo ihi _ i j h1 h2 (by omega)

theorem Mat.ext_of {K : Type} (A B : Mat K) (hm : A.m = B.m) (hn : A.n = B.n)
    (he : ∀ r c, A.e r c = B.e r c) : A = B := by
  obtain ⟨m1, n1, e1⟩ := A
  obtain ⟨m2, n2, e2⟩ := B
  simp only at hm hn he
  subst hm
  subst hn
  have : e1 = e2 := funext (fun r => funext (fun c => he r c))
  subst this
  rfl

theorem gghrd_step_lower {K : Type} [Zero K] [Star K] (rotg : RotgFn K) (rot : RotFn K)
    (wantq wantz : Bool) (n ihi j : Nat) (st : GghrdState K) (i : Nat) (hi : 1 ≤ i)
    (h : LowerZero n st.B) :
    LowerZero n (gghrd_step rotg rot wantq wantz n ihi j st i).B := by
  intro r k hk hr
  simp only [gghrd_step]
  rw [gghrd_rotate_cols_B_lower _ _ _ _ _ _ _ _ _ hi hk]
  by_cases h1 : r = i ∧ k = i - 1
  · rw [if_pos h1]
  · rw [if_neg h1, gghrd_rotate_rows_B_frame _ _ _ _ _ _ _ _ _ (by omega)]
    exact h r k hk hr

theorem gghrd_loop_lower {K : Type} [Zero K] [Star K] (rotg : RotgFn K) (rot : RotFn K)
    (wantq wantz : Bool) (n ilo ihi : Nat) (st : GghrdState K) (h : LowerZero n st.B) :
    LowerZero n (gghrd_loop rotg rot wantq wantz n ilo ihi st).B := by
  refine gghrd_loop_induction rotg rot wantq wantz n ilo ihi
    (fun _ s => LowerZero n s.B) ?_ st h
  intro j s _ hj2 hQ
  refine gghrd_inner_induction rotg rot wantq wantz n ihi j
    (fun _ s => LowerZero n s.B) ?_ s (by omega) hQ
  intro i s2 hi _ hP
  exact gghrd_step_lower rotg rot wantq wantz n ihi j s2 i (by omega) hP

/-- C25: for arguments that pass the checks, `gghrd` returns 0 and on exit
every entry of `B` strictly below the diagonal is zero, whatever the strictly
lower triangle of the input `B` held and whatever `rotg` and `rot` compute;
every pass of the loop body leaves `B` upper triangular again (the fill-in
`B(i, i-1)` is annihilated within the pass); and the whole outcome (`A`, `B`,
`Q`, `Z` and the rotations applied) is the same for any input `B` with the
same upper triangle. -/
theorem gghrd_triangular_B {K : Type} [Zero K] [Star K] (rotg : RotgFn K) (rot : RotFn K)
    (wantq wantz : Bool) (ilo ihi : Nat) (A B Q Z : Mat K)
    (hilo : ilo < ihi) (hihi : ihi ≤ A.n)
    (hA : A.m = A.n) (hB : B.m = A.n ∧ B.n = A.n) (hQ : Q.m = A.n ∧ Q.n = A.n)
    (hZ : Z.m = A.n ∧ Z.n = A.n) :
    ∃ s, gghrd rotg rot wantq wantz (ilo : Int) (ihi : Int) A B Q Z = GghrdOutcome.returned 0 s
      ∧ (∀ r k, k < r → r < A.n → s.B.e r k = 0)
      ∧ (∀ (st : GghrdState K) (i j : Nat), 1 ≤ i →
          (∀ r k, k < r → r < A.n → st.B.e r k = 0) →
          ∀ r k, k < r → r < A.n →
            (gghrd_step rotg rot wantq wantz A.n ihi j st i).B.e r k = 0)
      ∧ (∀ B2 : Mat K, B2.m = B.m → B2.n = B.n →
          (∀ r k, ¬ (k < r ∧ r < A.n) → B2.e r k = B.e r k) →
          gghrd rotg rot wantq wantz (ilo : Int) (ihi : Int) A B2 Q Z
            = GghrdOutcome.returned 0 s) := by
  have hstep : ∀ (st : GghrdState K) (i j : Nat), 1 ≤ i →
      (∀ r k, k < r → r < A.n → st.B.e r k = 0) →
      ∀ r k, k < r → r < A.n →
        (gghrd_step rotg rot wantq wantz A.n ihi j st i).B.e r k = 0 :=
    fun st i j hi h => gghrd_step_lower rotg rot wantq wantz A.n ihi j st i hi h
  rw [gghrd_run rotg rot wantq wantz ilo ihi A B Q Z hilo hihi hA hB hQ hZ]
  by_cases hn : A.n ≤ 1
  · rw [if_pos hn]
    refine ⟨_, rfl, ?_, hstep, ?_⟩
    · intro r k h1 h2
      omega
    · intro B2 h1 h2 h3
      rw [gghrd_run rotg rot wantq wantz ilo ihi A B2 Q Z hilo hihi hA
        ⟨h1.trans hB.1, h2.trans hB.2⟩ hQ hZ, if_pos hn]
      have : B2 = B := Mat.ext_of B2 B h1 h2 (fun r k => h3 r k (by omega))
      rw [this]
  · rw [if_neg hn]
    obtain ⟨z1, z2, z3⟩ := gghrd_zero_lower_spec A.n B
    refine ⟨_, rfl, ?_, hstep, ?_⟩
    · apply gghrd_loop_lower
      intro r k h1 h2
      simp only []
      rw [z3, if_pos ⟨h1, h2⟩]
    · intro B2 h1 h2 h3
      rw [gghrd_run rotg rot wantq wantz ilo ihi A B2 Q Z hilo hihi hA
        ⟨h1.trans hB.1, h2.trans hB.2⟩ hQ hZ, if_neg hn]
      obtain ⟨y1, y2, y3⟩ := gghrd_zero_lower_spec A.n B2
      have : gghrd_zero_lower A.n B2 = gghrd_zero_lower A.n B := by
        apply Mat.ext_of
        · rw [y1, z1, h1]
        · rw [y2, z2, h2]
        · intro r k
          rw [y3, z3]
          by_cases h : k < r ∧ r < A.n
          · rw [if_pos h, if_pos h]
          · rw [if_neg h, if_neg h]
            exact h3 r k h
      rw [this]

/-! ## `gghrd`: plane rotations as unitary equivalences -/

theorem matOf_congr {K : Type} (m n : Nat) (e f : Nat → Nat → K)
    (h : ∀ r k, r < m → k < n → e r k = f r k) : matOf m n e = matOf m n f := by
  ext r k
  simp only [matOf, Matrix.of_apply]
  exact h r.val k.val r.isLt k.isLt

theorem sum_two_corrections {K : Type} [CommRing K] (n p q : Nat) (hp : p < n) (hq : q < n)
    (f g : Nat → K) (dp dq : K)
    (h : ∀ l, f l = g l + (if l = p then dp else 0) + (if l = q then dq else 0))
    (hd : dp + dq = 0) :
    ∑ l in Finset.range n, f l = ∑ l in Finset.range n, g l := by
  rw [Finset.sum_congr rfl (fun l _ => h l), Finset.sum_add_distrib, Finset.sum_add_distrib,
    Finset.sum_ite_eq' (Finset.range n) p (fun _ => dp),
    Finset.sum_ite_eq' (Finset.range n) q (fun _ => dq),
    if_pos (Finset.mem_range.mpr hp), if_pos (Finset.mem_range.mpr hq), add_assoc, hd, add_zero]

theorem rot_rows_product {K : Type} [CommRing K] [StarRing K] (m n k : Nat) (p q : Nat)
    (hpq : p ≠ q) (hp : p < n) (hq : q < n) (c s : K)
    (hcs : c * c + s * star s = 1) (Qe Ae : Nat → Nat → K) :
    matOf m n (rotCols p q c (star s) Qe) * matOf n k (rotRows p q c s Ae)
      = matOf m n Qe * matOf n k Ae := by
  ext r t
  simp only [matOf, Matrix.mul_apply, Matrix.of_apply]
  rw [Fin.sum_univ_eq_sum_range
      (fun l => rotCols p q c (star s) Qe r.val l * rotRows p q c s Ae l t.val) n,
    Fin.sum_univ_eq_sum_range (fun l => Qe r.val l * Ae l t.val) n]
  apply sum_two_corrections n p q hp hq _ _
    ((c * Qe r p + star s * Qe r q) * (c * Ae p t + s * Ae q t) - Qe r p * Ae p t)
    ((c * Qe r q - s * Qe r p) * (c * Ae q t - star s * Ae p t) - Qe r q * Ae q t)
  · intro l
    simp only [rotCols, rotRows, star_star]
    by_cases h1 : l = p
    · subst h1
      simp [hpq]
    · by_cases h2 : l = q
      · subst h2
        simp [h1]
      · simp [h1, h2]
  · linear_combination (Qe r p * Ae p t + Qe r q * Ae q t) * hcs

theorem rot_cols_product {K : Type} [CommRing K] [StarRing K] (m n k : Nat) (p q : Nat)
    (hpq : p ≠ q) (hp : p < n) (hq : q < n) (c s : K) (hc : star c = c)
    (hcs : c * c + s * star s = 1) (Ae Ze : Nat → Nat → K) :
    matOf m n (rotCols p q c s Ae) * (matOf k n (rotCols p q c s Ze)).conjTranspose
      = matOf m n Ae * (matOf k n Ze).conjTranspose := by
  ext r t
  simp only [matOf, Matrix.mul_apply, Matrix.of_apply, Matrix.conjTranspose_apply]
  rw [Fin.sum_univ_eq_sum_range
      (fun l => rotCols p q c s Ae r.val l * star (rotCols p q c s Ze t.val l)) n,
    Fin.sum_univ_eq_sum_range (fun l => Ae r.val l * star (Ze t.val l)) n]
  apply sum_two_corrections n p q hp hq _ _
    ((c * Ae r p + s * Ae r q) * (c * star (Ze t p) + star s * star (Ze t q))
      - Ae r p * star (Ze t p))
    ((c * Ae r q - star s * Ae r p) * (c * star (Ze t q) - s * star (Ze t p))
      - Ae r q * star (Ze t q))
  · intro l
    simp only [rotCols]
    by_cases h1 : l = p
    · subst h1
      simp [hpq, star_add, star_mul', hc]
    · by_cases h2 : l = q
      · subst h2
        simp [h1, star_sub, star_mul', hc]
      · simp [h1, h2]
  · linear_combination (Ae r p * star (Ze t p) + Ae r q * star (Ze t q)) * hcs

theorem gghrd_rotate_rows_spec {K : Type} [CommRing K] [StarRing K] (rotg : RotgFn K)
    (rot : RotFn K) (n j : Nat) (st : GghrdState K) (i : Nat)
    (hi : j + 2 ≤ i) (hin : i < n)
    (hmeets : ∀ c ∈ (gghrd_rotate_rows rotg rot true n j st i).log, c.Meets)
    (hA0 : ∀ k, k < j → st.A.e (i - 1) k = 0 ∧ st.A.e i k = 0)
    (hB0 : ∀ k, k < i - 1 → st.B.e (i - 1) k = 0 ∧ st.B.e i k = 0) :
    ∃ c s : K, star c = c ∧ c * c + s * star s = 1
      ∧ (∀ r k, k < n →
          (gghrd_rotate_rows rotg rot true n j st i).A.e r k = rotRows (i - 1) i c s st.A.e r k)
      ∧ (∀ r k, k < n →
          (gghrd_rotate_rows rotg rot true n j st i).B.e r k = rotRows (i - 1) i c s st.B.e r k)
      ∧ (∀ r k, r < n →
          (gghrd_rotate_rows rotg rot true n j st i).Q.e r k
            = rotCols (i - 1) i c (star s) st.Q.e r k) := by
  obtain ⟨g, hg⟩ : ∃ g, g = rotg (st.A.e (i - 1) j) (st.A.e i j) := ⟨_, rfl⟩
  obtain ⟨A1, hA1⟩ : ∃ A1, A1 = ((st.A.set (i - 1) j g.1).set i j g.2.1).set i j 0 := ⟨_, rfl⟩
  have m1 := hmeets (RotCall.rotg (st.A.e (i - 1) j) (st.A.e i j) g.1 g.2.1 g.2.2.1 g.2.2.2)
    (by simp [gghrd_rotate_rows, hg])
  have m2 := hmeets (RotCall.rot (A1.sliceRow (i - 1) (j + 1) n) (A1.sliceRow i (j + 1) n)
      g.2.2.1 g.2.2.2
      (rot (A1.sliceRow (i - 1) (j + 1) n) (A1.sliceRow i (j + 1) n) g.2.2.1 g.2.2.2).1
      (rot (A1.sliceRow (i - 1) (j + 1) n) (A1.sliceRow i (j + 1) n) g.2.2.1 g.2.2.2).2)
    (by simp [gghrd_rotate_rows, hg, hA1])
  have m3 := hmeets (RotCall.rot (st.B.sliceRow (i - 1) (i - 1) n) (st.B.sliceRow i (i - 1) n)
      g.2.2.1 g.2.2.2
      (rot (st.B.sliceRow (i - 1) (i - 1) n) (st.B.sliceRow i (i - 1) n) g.2.2.1 g.2.2.2).1
      (rot (st.B.sliceRow (i - 1) (i - 1) n) (st.B.sliceRow i (i - 1) n) g.2.2.1 g.2.2.2).2)
    (by simp [gghrd_rotate_rows, hg])
  have m4 := hmeets (RotCall.rot (st.Q.sliceCol 0 n (i - 1)) (st.Q.sliceCol 0 n i)
      g.2.2.1 (star g.2.2.2)
      (rot (st.Q.sliceCol 0 n (i - 1)) (st.Q.sliceCol 0 n i) g.2.2.1 (star g.2.2.2)).1
      (rot (st.Q.sliceCol 0 n (i - 1)) (st.Q.sliceCol 0 n i) g.2.2.1 (star g.2.2.2)).2)
    (by simp [gghrd_rotate_rows, hg])
  simp only [RotCall.Meets] at m1 m2 m3 m4
  obtain ⟨m11, m12, m13, m14⟩ := m1
  have hAe : ∀ r k, A1.e r k = if r = i ∧ k = j then 0
      else if r = i - 1 ∧ k = j then g.1 else st.A.e r k := by
    intro r k
    rw [hA1]
    simp only [Mat.set]
    by_cases h1 : r = i ∧ k = j
    · rw [if_pos h1, if_pos h1]
    · rw [if_neg h1, if_neg h1, if_neg h1]
  refine ⟨g.2.2.1, g.2.2.2, m11, m12, ?_, ?_, ?_⟩
  · intro r k hk
    have e1 : (gghrd_rotate_rows rotg rot true n j st i).A.e r k
        = if r = i ∧ j + 1 ≤ k ∧ k < n then
            (rot (A1.sliceRow (i - 1) (j + 1) n) (A1.sliceRow i (j + 1) n)
              g.2.2.1 g.2.2.2).2.e (k - (j + 1))
          else if r = i - 1 ∧ j + 1 ≤ k ∧ k < n then
            (rot (A1.sliceRow (i - 1) (j + 1) n) (A1.sliceRow i (j + 1) n)
              g.2.2.1 g.2.2.2).1.e (k - (j + 1))
          else A1.e r k := by
      rw [hA1, hg]
      rfl
    rw [e1]
    simp only [rotRows]
    by_cases hk2 : j + 1 ≤ k
    · have hm := m2 (k - (j + 1)) (by simp only [Mat.sliceRow]; omega)
      simp only [Mat.sliceRow] at hm
      have ek : j + 1 + (k - (j + 1)) = k := by omega
      rw [ek, hAe, hAe, if_neg (by omega), if_neg (by omega), if_neg (by omega),
        if_neg (by omega)] at hm
      by_cases h1 : r = i
      · subst h1
        rw [if_pos ⟨rfl, hk2, hk⟩, if_neg (by omega), if_pos rfl]
        exact hm.2
      · by_cases h2 : r = i - 1
        · subst h2
          rw [if_neg (by omega), if_pos ⟨rfl, hk2, hk⟩, if_pos rfl]
          exact hm.1
        · rw [if_neg (by omega), if_neg (by omega), if_neg h2, if_neg h1, hAe,
            if_neg (by omega), if_neg (by omega)]
    · rw [if_neg (by omega), if_neg (by omega), hAe]
      by_cases hkj : k = j
      · subst hkj
        by_cases h1 : r = i
        · subst h1
          rw [if_pos ⟨rfl, rfl⟩, if_neg (by omega), if_pos rfl]
          exact m14.symm
        · by_cases h2 : r = i - 1
          · subst h2
            rw [if_neg (by omega), if_pos ⟨rfl, rfl⟩, if_pos rfl]
            exact m13
          · rw [if_neg (by omega), if_neg (by omega), if_neg h2, if_neg h1]
      · have hz := hA0 k (by omega)
        rw [if_neg (by omega), if_neg (by omega)]
        by_cases h1 : r = i
        · subst h1
          rw [if_neg (by omega), if_pos rfl, hz.1, hz.2]
          simp
        · by_cases h2 : r = i - 1
          · subst h2
            rw [if_pos rfl, hz.1, hz.2]
            simp
          · rw [if_neg h2, if_neg h1]
  · intro r k hk
    have e1 : (gghrd_rotate_rows rotg rot true n j st i).B.e r k
        = if r = i ∧ i - 1 ≤ k ∧ k < n then
            (rot (st.B.sliceRow (i - 1) (i - 1) n) (st.B.sliceRow i (i - 1) n)
              g.2.2.1 g.2.2.2).2.e (k - (i - 1))
          else if r = i - 1 ∧ i - 1 ≤ k ∧ k < n then
            (rot (st.B.sliceRow (i - 1) (i - 1) n) (st.B.sliceRow i (i - 1) n)
              g.2.2.1 g.2.2.2).1.e (k - (i - 1))
          else st.B.e r k := by
      rw [hg]
      rfl
    rw [e1]
    simp only [rotRows]
    by_cases hk2 : i - 1 ≤ k
    · have hm := m3 (k - (i - 1)) (by simp only [Mat.sliceRow]; omega)
      simp only [Mat.sliceRow] at hm
      have ek : i - 1 + (k - (i - 1)) = k := by omega
      rw [ek] at hm
      by_cases h1 : r = i
      · subst h1
        rw [if_pos ⟨rfl, hk2, hk⟩, if_neg (by omega), if_pos rfl]
        exact hm.2
      · by_cases h2 : r = i - 1
        · subst h2
          rw [if_neg (by omega), if_pos ⟨rfl, hk2, hk⟩, if_pos rfl]
          exact hm.1
        · rw [if_neg (by omega), if_neg (by omega), if_neg h2, if_neg h1]
    · have hz := hB0 k (by omega)
      rw [if_neg (by omega), if_neg (by omega)]
      by_cases h1 : r = i
      · subst h1
        rw [if_neg (by omega), if_pos rfl, hz.1, hz.2]
        simp
      · by_cases h2 : r = i - 1
        · subst h2
          rw [if_pos rfl, hz.1, hz.2]
          simp
        · rw [if_neg h2, if_neg h1]
  · intro r k hr
    have e1 : (gghrd_rotate_rows rotg rot true n j st i).Q.e r k
        = if k = i ∧ 0 ≤ r ∧ r < n then
            (rot (st.Q.sliceCol 0 n (i - 1)) (st.Q.sliceCol 0 n i)
              g.2.2.1 (star g.2.2.2)).2.e (r - 0)
          else if k = i - 1 ∧ 0 ≤ r ∧ r < n then
            (rot (st.Q.sliceCol 0 n (i - 1)) (st.Q.sliceCol 0 n i)
              g.2.2.1 (star g.2.2.2)).1.e (r - 0)
          else st.Q.e r k := by
      rw [hg]
      rfl
    rw [e1]
    simp only [rotCols]
    have hm := m4 r (by simp only [Mat.sliceCol]; omega)
    have hx : ∀ c, (st.Q.sliceCol 0 n c).e r = st.Q.e r c := by
      intro c
      simp only [Mat.sliceCol, Nat.zero_add]
    rw [hx, hx] at hm
    by_cases h1 : k = i
    · subst h1
      rw [if_pos ⟨rfl, Nat.zero_le r, hr⟩, if_neg (by omega), if_pos rfl, Nat.sub_zero]
      exact hm.2
    · by_cases h2 : k = i - 1
      · subst h2
        rw [if_neg (by omega), if_pos ⟨rfl, Nat.zero_le r, hr⟩, if_pos rfl, Nat.sub_zero]
        exact hm.1
      · rw [if_neg (by omega), if_neg (by omega), if_neg h2, if_neg h1]

theorem gghrd_rotate_cols_spec {K : Type} [CommRing K] [StarRing K] (rotg : RotgFn K)
    (rot : RotFn K) (n ihi : Nat) (st : GghrdState K) (i : Nat)
    (hi : 1 ≤ i) (hihi : i < ihi)
    (hmeets : ∀ c ∈ (gghrd_rotate_cols rotg rot true n ihi st i).log, c.Meets)
    (hA0 : ∀ r, ihi ≤ r → r < n → st.A.e r i = 0 ∧ st.A.e r (i - 1) = 0)
    (hB0 : ∀ r, i < r → r < n → st.B.e r i = 0 ∧ st.B.e r (i - 1) = 0) :
    ∃ c s : K, star c = c ∧ c * c + s * star s = 1
      ∧ (∀ r k, r < n →
          (gghrd_rotate_cols rotg rot true n ihi st i).A.e r k = rotCols i (i - 1) c s st.A.e r k)
      ∧ (∀ r k, r < n →
          (gghrd_rotate_cols rotg rot true n ihi st i).B.e r k = rotCols i (i - 1) c s st.B.e r k)
      ∧ (∀ r k, r < n →
          (gghrd_rotate_cols rotg rot true n ihi st i).Z.e r k
            = rotCols i (i - 1) c s st.Z.e r k) := by
  obtain ⟨g, hg⟩ : ∃ g, g = rotg (st.B.e i i) (st.B.e i (i - 1)) := ⟨_, rfl⟩
  obtain ⟨B2, hB2⟩ : ∃ B2, B2 = ((st.B.set i i g.1).set i (i - 1) g.2.1).set i (i - 1) 0 :=
    ⟨_, rfl⟩
  have m1 := hmeets (RotCall.rotg (st.B.e i i) (st.B.e i (i - 1)) g.1 g.2.1 g.2.2.1 g.2.2.2)
    (by simp [gghrd_rotate_cols, hg])
  have m2 := hmeets (RotCall.rot (st.A.sliceCol 0 ihi i) (st.A.sliceCol 0 ihi (i - 1))
      g.2.2.1 g.2.2.2
      (rot (st.A.sliceCol 0 ihi i) (st.A.sliceCol 0 ihi (i - 1)) g.2.2.1 g.2.2.2).1
      (rot (st.A.sliceCol 0 ihi i) (st.A.sliceCol 0 ihi (i - 1)) g.2.2.1 g.2.2.2).2)
    (by simp [gghrd_rotate_cols, hg])
  have m3 := hmeets (RotCall.rot (B2.sliceCol 0 i i) (B2.sliceCol 0 i (i - 1))
      g.2.2.1 g.2.2.2
      (rot (B2.sliceCol 0 i i) (B2.sliceCol 0 i (i - 1)) g.2.2.1 g.2.2.2).1
      (rot (B2.sliceCol 0 i i) (B2.sliceCol 0 i (i - 1)) g.2.2.1 g.2.2.2).2)
    (by simp [gghrd_rotate_cols, hg, hB2])
  have m4 := hmeets (RotCall.rot (st.Z.sliceCol 0 n i) (st.Z.sliceCol 0 n (i - 1))
      g.2.2.1 g.2.2.2
      (rot (st.Z.sliceCol 0 n i) (st.Z.sliceCol 0 n (i - 1)) g.2.2.1 g.2.2.2).1
      (rot (st.Z.sliceCol 0 n i) (st.Z.sliceCol 0 n (i - 1)) g.2.2.1 g.2.2.2).2)
    (by simp [gghrd_rotate_cols, hg])
  simp only [RotCall.Meets] at m1 m2 m3 m4
  obtain ⟨m11, m12, m13, m14⟩ := m1
  have hBe : ∀ r k, B2.e r k = if r = i ∧ k = i - 1 then 0
      else if r = i ∧ k = i then g.1 else st.B.e r k := by
    intro r k
    rw [hB2]
    simp only [Mat.set]
    by_cases h1 : r = i ∧ k = i - 1
    · rw [if_pos h1, if_pos h1]
    · rw [if_neg h1, if_neg h1, if_neg h1]
  have hx : ∀ (M : Mat K) (b c r : Nat), (M.sliceCol 0 b c).e r = M.e r c := by
    intro M b c r
    simp only [Mat.sliceCol, Nat.zero_add]
  refine ⟨g.2.2.1, g.2.2.2, m11, m12, ?_, ?_, ?_⟩
  · intro r k hr
    have e1 : (gghrd_rotate_cols rotg rot true n ihi st i).A.e r k
        = if k = i - 1 ∧ 0 ≤ r ∧ r < ihi then
            (rot (st.A.sliceCol 0 ihi i) (st.A.sliceCol 0 ihi (i - 1))
              g.2.2.1 g.2.2.2).2.e (r - 0)
          else if k = i ∧ 0 ≤ r ∧ r < ihi then
            (rot (st.A.sliceCol 0 ihi i) (st.A.sliceCol 0 ihi (i - 1))
              g.2.2.1 g.2.2.2).1.e (r - 0)
          else st.A.e r k := by
      rw [hg]
      rfl
    rw [e1]
    simp only [rotCols]
    by_cases hr2 : r < ihi
    · have hm := m2 r (by simp only [Mat.sliceCol]; omega)
      rw [hx, hx] at hm
      by_cases h1 : k = i
      · subst h1
        rw [if_neg (by omega), if_pos ⟨rfl, Nat.zero_le r, hr2⟩, if_pos rfl, Nat.sub_zero]
        exact hm.1
      · by_cases h2 : k = i - 1
        · subst h2
          rw [if_pos ⟨rfl, Nat.zero_le r, hr2⟩, if_neg (by omega), if_pos rfl, Nat.sub_zero]
          exact hm.2
        · rw [if_neg (by omega), if_neg (by omega), if_neg h1, if_neg h2]
    · have hz := hA0 r (by omega) hr
      rw [if_neg (by omega), if_neg (by omega)]
      by_cases h1 : k = i
      · subst h1
        rw [if_pos rfl, hz.1, hz.2]
        simp
      · by_cases h2 : k = i - 1
        · subst h2
          rw [if_neg (by omega), if_pos rfl, hz.1, hz.2]
          simp
        · rw [if_neg h1, if_neg h2]
  · intro r k hr
    have e1 : (gghrd_rotate_cols rotg rot true n ihi st i).B.e r k
        = if k = i - 1 ∧ 0 ≤ r ∧ r < i then
            (rot (B2.sliceCol 0 i i) (B2.sliceCol 0 i (i - 1)) g.2.2.1 g.2.2.2).2.e (r - 0)
          else if k = i ∧ 0 ≤ r ∧ r < i then
            (rot (B2.sliceCol 0 i i) (B2.sliceCol 0 i (i - 1)) g.2.2.1 g.2.2.2).1.e (r - 0)
          else B2.e r k := by
      rw [hB2, hg]
      rfl
    rw [e1]
    simp only [rotCols]
    by_cases hr2 : r < i
    · have hm := m3 r (by simp only [Mat.sliceCol]; omega)
      rw [hx, hx, hBe, hBe, if_neg (by omega), if_neg (by omega), if_neg (by omega),
        if_neg (by omega)] at hm
      by_cases h1 : k = i
      · subst h1
        rw [if_neg (by omega), if_pos ⟨rfl, Nat.zero_le r, hr2⟩, if_pos rfl, Nat.sub_zero]
        exact hm.1
      · by_cases h2 : k = i - 1
        · subst h2
          rw [if_pos ⟨rfl, Nat.zero_le r, hr2⟩, if_neg (by omega), if_pos rfl, Nat.sub_zero]
          exact hm.2
        · rw [if_neg (by omega), if_neg (by omega), if_neg h1, if_neg h2, hBe,
            if_neg (by omega), if_neg (by omega)]
    · rw [if_neg (by omega), if_neg (by omega), hBe]
      by_cases hri : r = i
      · subst hri
        by_cases h1 : k = r
        · subst h1
          rw [if_neg (by omega), if_pos ⟨rfl, rfl⟩, if_pos rfl]
          exact m13
        · by_cases h2 : k = r - 1
          · subst h2
            rw [if_pos ⟨rfl, rfl⟩, if_neg (by omega), if_pos rfl]
            exact m14.symm
          · rw [if_neg (by omega), if_neg (by omega), if_neg h1, if_neg h2]
      · have hz := hB0 r (by omega) hr
        rw [if_neg (by omega), if_neg (by omega)]
        by_cases h1 : k = i
        · subst h1
          rw [if_pos rfl, hz.1, hz.2]
          simp
        · by_cases h2 : k = i - 1
          · subst h2
            rw [if_neg (by omega), if_pos rfl, hz.1, hz.2]
            simp
          · rw [if_neg h1, if_neg h2]
  · intro r k hr
    have e1 : (gghrd_rotate_cols rotg rot true n ihi st i).Z.e r k
        = if k = i - 1 ∧ 0 ≤ r ∧ r < n then
            (rot (st.Z.sliceCol 0 n i) (st.Z.sliceCol 0 n (i - 1)) g.2.2.1 g.2.2.2).2.e (r - 0)
          else if k = i ∧ 0 ≤ r ∧ r < n then
            (rot (st.Z.sliceCol 0 n i) (st.Z.sliceCol 0 n (i - 1)) g.2.2.1 g.2.2.2).1.e (r - 0)
          else st.Z.e r k := by
      rw [hg]
      rfl
    rw [e1]
    simp only [rotCols]
    have hm := m4 r (by simp only [Mat.sliceCol]; omega)
    rw [hx, hx] at hm
    by_cases h1 : k = i
    · subst h1
      rw [if_neg (by omega), if_pos ⟨rfl, Nat.zero_le r, hr⟩, if_pos rfl, Nat.sub_zero]
      exact hm.1
    · by_cases h2 : k = i - 1
      · subst h2
        rw [if_pos ⟨rfl, Nat.zero_le r, hr⟩, if_neg (by omega), if_pos rfl, Nat.sub_zero]
        exact hm.2
      · rw [if_neg (by omega), if_neg (by omega), if_neg h1, if_neg h2]

theorem gghrd_rotate_rows_log {K : Type} [Zero K] [Star K] (rotg : RotgFn K) (rot : RotFn K)
    (wantq : Bool) (n j : Nat) (st : GghrdState K) (i : Nat) (c : RotCall K)
    (h : c ∈ st.log) : c ∈ (gghrd_rotate_rows rotg rot wantq n j st i).log := by
  simp only [gghrd_rotate_rows, List.mem_append]
  exact Or.inl (Or.inl h)

theorem gghrd_rotate_cols_log {K : Type} [Zero K] (rotg : RotgFn K) (rot : RotFn K)
    (wantz : Bool) (n ihi : Nat) (st : GghrdState K) (i : Nat) (c : RotCall K)
    (h : c ∈ st.log) : c ∈ (gghrd_rotate_cols rotg rot wantz n ihi st i).log := by
  simp only [gghrd_rotate_cols, List.mem_append]
  exact Or.inl (Or.inl h)

theorem gghrd_step_log {K : Type} [Zero K] [Star K] (rotg : RotgFn K) (rot : RotFn K)
    (wantq wantz : Bool) (n ihi j : Nat) (st : GghrdState K) (i : Nat) (c : RotCall K)
    (h : c ∈ st.log) : c ∈ (gghrd_step rotg rot wantq wantz n ihi j st i).log :=
  gghrd_rotate_cols_log rotg rot wantz n ihi _ i c
    (gghrd_rotate_rows_log rotg rot wantq n j st i c h)

theorem gghrd_step_equiv {K : Type} [CommRing K] [StarRing K] (rotg : RotgFn K) (rot : RotFn K)
    (n ilo ihi j : Nat) (MA MB UQ UZ : Matrix (Fin n) (Fin n) K) (st : GghrdState K) (i : Nat)
    (hj : ilo ≤ j) (hi : j + 2 ≤ i) (hihi : i < ihi) (hn : ihi ≤ n)
    (hmeets : ∀ c ∈ (gghrd_step rotg rot true true n ihi j st i).log, c.Meets)
    (h : EquivInv n ilo ihi j (i + 1) MA MB UQ UZ st) :
    EquivInv n ilo ihi j i MA MB UQ UZ (gghrd_step rotg rot true true n ihi j st i) := by
  obtain ⟨hMA, hMB, hUQ, hUZ, hL, hH, hT⟩ := h
  -- the row rotation
  obtain ⟨c, s, hc, hcs, eA1, eB1, eQ1⟩ := gghrd_rotate_rows_spec rotg rot n j st i hi
    (by omega)
    (fun x hx => hmeets x (gghrd_rotate_cols_log rotg rot true n ihi _ i x hx))
    (by
      intro k hk
      by_cases hk2 : k < ilo
      · exact ⟨hT _ _ (by omega) (by omega) (Or.inl hk2),
          hT _ _ (by omega) (by omega) (Or.inl hk2)⟩
      · exact ⟨hH _ _ (by omega) (by omega) (Or.inl ⟨hk, by omega⟩),
          hH _ _ (by omega) (by omega) (Or.inl ⟨hk, by omega⟩)⟩)
    (by
      intro k hk
      exact ⟨hL _ _ (by omega) (by omega), hL _ _ (by omega) (by omega)⟩)
  -- the column rotation
  obtain ⟨c2, s2, hc2, hcs2, eA2, eB2, eZ2⟩ := gghrd_rotate_cols_spec rotg rot n ihi
    (gghrd_rotate_rows rotg rot true n j st i) i (by omega) hihi hmeets
    (by
      intro r hr hr2
      rw [gghrd_rotate_rows_A_frame _ _ _ _ _ _ _ _ _ (Or.inr (by omega)),
        gghrd_rotate_rows_A_frame _ _ _ _ _ _ _ _ _ (Or.inr (by omega))]
      exact ⟨hT _ _ hr2 (by omega) (Or.inr hr), hT _ _ hr2 (by omega) (Or.inr hr)⟩)
    (by
      intro r hr hr2
      rw [gghrd_rotate_rows_B_frame _ _ _ _ _ _ _ _ _ (Or.inr (by omega)),
        gghrd_rotate_rows_B_frame _ _ _ _ _ _ _ _ _ (Or.inr (by omega))]
      exact ⟨hL _ _ hr hr2, hL _ _ (by omega) hr2⟩)
  have hpq : i - 1 ≠ i := by omega
  have hqp : i ≠ i - 1 := by omega
  have hp : i - 1 < n := by omega
  have hq : i < n := by omega
  have hcs' : c * c + star s * star (star s) = 1 := by
    rw [star_star, mul_comm (star s) s]
    exact hcs
  -- matrices after the row rotation
  have a1 : matOf n n (gghrd_rotate_rows rotg rot true n j st i).A.e
      = matOf n n (rotRows (i - 1) i c s st.A.e) :=
    matOf_congr n n _ _ (fun r k _ hk => eA1 r k hk)
  have b1 : matOf n n (gghrd_rotate_rows rotg rot true n j st i).B.e
      = matOf n n (rotRows (i - 1) i c s st.B.e) :=
    matOf_congr n n _ _ (fun r k _ hk => eB1 r k hk)
  have q1 : matOf n n (gghrd_rotate_rows rotg rot true n j st i).Q.e
      = matOf n n (rotCols (i - 1) i c (star s) st.Q.e) :=
    matOf_congr n n _ _ (fun r k hr _ => eQ1 r k hr)
  -- matrices after the column rotation
  have a2 : matOf n n (gghrd_step rotg rot true true n ihi j st i).A.e
      = matOf n n (rotCols i (i - 1) c2 s2 (gghrd_rotate_rows rotg rot true n j st i).A.e) :=
    matOf_congr n n _ _ (fun r k hr _ => eA2 r k hr)
  have b2 : matOf n n (gghrd_step rotg rot true true n ihi j st i).B.e
      = matOf n n (rotCols i (i - 1) c2 s2 (gghrd_rotate_rows rotg rot true n j st i).B.e) :=
    matOf_congr n n _ _ (fun r k hr _ => eB2 r k hr)
  have z2 : matOf n n (gghrd_step rotg rot true true n ihi j st i).Z.e
      = matOf n n (rotCols i (i - 1) c2 s2 st.Z.e) :=
    matOf_congr n n _ _ (fun r k hr _ => eZ2 r k hr)
  have q2 : (gghrd_step rotg rot true true n ihi j st i).Q
      = (gghrd_rotate_rows rotg rot true n j st i).Q := rfl
  refine ⟨?_, ?_, ?_, ?_, ?_, ?_, ?_⟩
  · rw [q2, a2, z2, Matrix.mul_assoc,
      rot_cols_product n n n i (i - 1) hqp hq hp c2 s2 hc2 hcs2, ← Matrix.mul_assoc, q1, a1,
      rot_rows_product n n n (i - 1) i hpq hp hq c s hcs]
    exact hMA
  · rw [q2, b2, z2, Matrix.mul_assoc,
      rot_cols_product n n n i (i - 1) hqp hq hp c2 s2 hc2 hcs2, ← Matrix.mul_assoc, q1, b1,
      rot_rows_product n n n (i - 1) i hpq hp hq c s hcs]
    exact hMB
  · rw [q2, q1, rot_cols_product n n n (i - 1) i hpq hp hq c (star s) hc hcs']
    exact hUQ
  · rw [z2, rot_cols_product n n n i (i - 1) hqp hq hp c2 s2 hc2 hcs2]
    exact hUZ
  · exact gghrd_step_lower rotg rot true true n ihi j st i (by omega) hL
  · exact gghrd_step_hess rotg rot true true n ilo ihi j st i hi hH
  · intro r k hr hk hc3
    simp only [gghrd_step]
    rw [gghrd_rotate_cols_A_frame _ _ _ _ _ _ _ _ _ (by omega),
      gghrd_rotate_rows_A_frame _ _ _ _ _ _ _ _ _ (by omega)]
    exact hT r k hr hk hc3

theorem gghrd_loop_equiv {K : Type} [CommRing K] [StarRing K] (rotg : RotgFn K) (rot : RotFn K)
    (n ilo ihi : Nat) (MA MB UQ UZ : Matrix (Fin n) (Fin n) K) (st : GghrdState K)
    (hn : ihi ≤ n)
    (h : EquivInv n ilo ihi ilo ihi MA MB UQ UZ st)
    (hmeets : ∀ c ∈ (gghrd_loop rotg rot true true n ilo ihi st).log, c.Meets) :
    EquivInv n ilo ihi (ilo + (ihi - 2 - ilo)) ihi MA MB UQ UZ
      (gghrd_loop rotg rot true true n ilo ihi st) := by
  have key := gghrd_loop_induction rotg rot true true n ilo ihi
    (fun J s => (∀ c ∈ st.log, c ∈ s.log)
      ∧ ((∀ c ∈ s.log, c.Meets) → EquivInv n ilo ihi J ihi MA MB UQ UZ s)) ?_ st
      ⟨fun c hc => hc, fun _ => h⟩
  · exact key.2 hmeets
  · intro j s hj hj2 hQ
    have h2 := gghrd_inner_induction rotg rot true true n ihi j
      (fun I s2 => (∀ c ∈ s.log, c ∈ s2.log)
        ∧ ((∀ c ∈ s2.log, c.Meets) → EquivInv n ilo ihi j I MA MB UQ UZ s2)) ?_ s (by omega)
      ⟨fun c hc => hc, hQ.2⟩
    · refine ⟨fun c hc => h2.1 c (hQ.1 c hc), ?_⟩
      intro hm
      obtain ⟨e1, e2, e3, e4, e5, e6, e7⟩ := h2.2 hm
      refine ⟨e1, e2, e3, e4, e5, ?_, e7⟩
      intro r k hk hr hc
      exact e6 r k hk hr (by omega)
    · intro i s2 hi hi2 hP
      refine ⟨fun c hc => gghrd_step_log rotg rot true true n ihi j s2 i c (hP.1 c hc), ?_⟩
      intro hm
      exact gghrd_step_equiv rotg rot n ilo ihi j MA MB UQ UZ s2 i hj hi hi2 hn hm
        (hP.2 (fun c hc => hm c (gghrd_step_log rotg rot true true n ihi j s2 i c hc)))

/-- C26: for arguments that pass the checks, `wantq = wantz = true`, and `A`
upper triangular in the columns before `ilo` and the rows from `ihi` on (no
condition at all when `ilo = 0` and `ihi = n`), if every `rotg` and `rot`
invocation of the run meets the contract of a unitary plane rotation in exact
arithmetic, then `gghrd` returns 0 with
`Q_out A_out Z_out^H = Q_in A_in Z_in^H` and
`Q_out B_out Z_out^H = Q_in triu(B_in) Z_in^H`, and `Q_out`, `Z_out` are
unitary whenever `Q_in`, `Z_in` are. -/
theorem gghrd_unitary_equivalence {K : Type} [CommRing K] [StarRing K] (rotg : RotgFn K)
    (rot : RotFn K) (ilo ihi : Nat) (A B Q Z : Mat K)
    (hilo : ilo < ihi) (hihi : ihi ≤ A.n)
    (hA : A.m = A.n) (hB : B.m = A.n ∧ B.n = A.n) (hQ : Q.m = A.n ∧ Q.n = A.n)
    (hZ : Z.m = A.n ∧ Z.n = A.n)
    (htri : ∀ r k, r < A.n → k < r → (k < ilo ∨ ihi ≤ r) → A.e r k = 0)
    (hmeets : ∀ c ∈ (gghrd rotg rot true true (ilo : Int) (ihi : Int) A B Q Z).state.log,
      c.Meets) :
    ∃ s, gghrd rotg rot true true (ilo : Int) (ihi : Int) A B Q Z = GghrdOutcome.returned 0 s
      ∧ matOf A.n A.n s.Q.e * matOf A.n A.n s.A.e * (matOf A.n A.n s.Z.e).conjTranspose
          = matOf A.n A.n Q.e * matOf A.n A.n A.e * (matOf A.n A.n Z.e).conjTranspose
      ∧ matOf A.n A.n s.Q.e * matOf A.n A.n s.B.e * (matOf A.n A.n s.Z.e).conjTranspose
          = matOf A.n A.n Q.e * matOf A.n A.n (triu B.e) * (matOf A.n A.n Z.e).conjTranspose
      ∧ ((matOf A.n A.n Q.e).conjTranspose * matOf A.n A.n Q.e = 1 →
          (matOf A.n A.n s.Q.e).conjTranspose * matOf A.n A.n s.Q.e = 1
          ∧ matOf A.n A.n s.Q.e * (matOf A.n A.n s.Q.e).conjTranspose = 1)
      ∧ ((matOf A.n A.n Z.e).conjTranspose * matOf A.n A.n Z.e = 1 →
          (matOf A.n A.n s.Z.e).conjTranspose * matOf A.n A.n s.Z.e = 1
          ∧ matOf A.n A.n s.Z.e * (matOf A.n A.n s.Z.e).conjTranspose = 1) := by
  rw [gghrd_run rotg rot true true ilo ihi A B Q Z hilo hihi hA hB hQ hZ] at hmeets ⊢
  have huni : ∀ (X Y : Matrix (Fin A.n) (Fin A.n) K),
      Y * Y.conjTranspose = X * X.conjTranspose → X.conjTranspose * X = 1 →
      Y.conjTranspose * Y = 1 ∧ Y * Y.conjTranspose = 1 := by
    intro X Y h1 h2
    have h3 : X * X.conjTranspose = 1 := Matrix.mul_eq_one_comm.mp h2
    rw [h3] at h1
    exact ⟨Matrix.mul_eq_one_comm.mp h1, h1⟩
  by_cases hn : A.n ≤ 1
  · rw [if_pos hn] at hmeets ⊢
    refine ⟨_, rfl, rfl, ?_, fun h => huni _ _ rfl h, fun h => huni _ _ rfl h⟩
    rw [matOf_congr A.n A.n B.e (triu B.e) (fun r k hr hk => by
      simp only [triu]
      rw [if_neg (by omega)])]
  · rw [if_neg hn] at hmeets ⊢
    obtain ⟨z1, z2, z3⟩ := gghrd_zero_lower_spec A.n B
    have hB0 : matOf A.n A.n (gghrd_zero_lower A.n B).e = matOf A.n A.n (triu B.e) :=
      matOf_congr A.n A.n _ _ (fun r k hr hk => by
        rw [z3]
        simp only [triu]
        by_cases h : k < r
        · rw [if_pos ⟨h, hr⟩, if_pos h]
        · rw [if_neg (fun h2 => h h2.1), if_neg h])
    obtain ⟨e1, e2, e3, e4, -, -, -⟩ := gghrd_loop_equiv rotg rot A.n ilo ihi
      (matOf A.n A.n Q.e * matOf A.n A.n A.e * (matOf A.n A.n Z.e).conjTranspose)
      (matOf A.n A.n Q.e * matOf A.n A.n (triu B.e) * (matOf A.n A.n Z.e).conjTranspose)
      (matOf A.n A.n Q.e * (matOf A.n A.n Q.e).conjTranspose)
      (matOf A.n A.n Z.e * (matOf A.n A.n Z.e).conjTranspose)
      ⟨A, gghrd_zero_lower A.n B, Q, Z, []⟩ hihi
      ⟨rfl, by rw [← hB0], rfl, rfl,
        (fun r k h1 h2 => by
          simp only []
          rw [z3, if_pos ⟨h1, h2⟩]),
        (fun r k h1 h2 h3 => by omega), htri⟩
      hmeets
    exact ⟨_, rfl, e1, e2, fun h => huni _ _ e3 h, fun h => huni _ _ e4 h⟩

/-! ## `gghrd` on concrete inputs -/

/-- C24 (witness): a 3-by-3 integer input with `ilo = 0`, `ihi = 3`. -/
theorem gghrd_hessenberg_witness :
    0 < 3 ∧ 3 ≤ exampleHA.n
    ∧ ∃ s, gghrd rotg_int rot_exact true true ((0 : Nat) : Int) ((3 : Nat) : Int)
          exampleHA exampleHB exampleHI exampleHI = GghrdOutcome.returned 0 s
        ∧ ∀ i j, 0 ≤ j → j + 2 ≤ i → i ≤ 3 - 1 → s.A.e i j = 0 :=
  ⟨by decide, by decide,
    gghrd_hessenberg rotg_int rot_exact true true 0 3 exampleHA exampleHB exampleHI exampleHI
      (by decide) (by decide) rfl ⟨rfl, rfl⟩ ⟨rfl, rfl⟩ ⟨rfl, rfl⟩⟩

/-- C25 (witness): a 3-by-3 integer input whose `B` has a nonzero strictly
lower triangle. -/
theorem gghrd_triangular_B_witness :
    0 < 3 ∧ 3 ≤ exampleHA.n ∧ exampleHB.e 1 0 ≠ 0
    ∧ ∃ s, gghrd rotg_int rot_exact true true ((0 : Nat) : Int) ((3 : Nat) : Int)
          exampleHA exampleHB exampleHI exampleHI = GghrdOutcome.returned 0 s
        ∧ (∀ r k, k < r → r < exampleHA.n → s.B.e r k = 0)
        ∧ (∀ (st : GghrdState ℤ) (i j : Nat), 1 ≤ i →
            (∀ r k, k < r → r < exampleHA.n → st.B.e r k = 0) →
            ∀ r k, k < r → r < exampleHA.n →
              (gghrd_step rotg_int rot_exact true true exampleHA.n 3 j st i).B.e r k = 0)
        ∧ (∀ B2 : Mat ℤ, B2.m = exampleHB.m → B2.n = exampleHB.n →
            (∀ r k, ¬ (k < r ∧ r < exampleHA.n) → B2.e r k = exampleHB.e r k) →
            gghrd rotg_int rot_exact true true ((0 : Nat) : Int) ((3 : Nat) : Int)
              exampleHA B2 exampleHI exampleHI = GghrdOutcome.returned 0 s) :=
  ⟨by decide, by decide, by decide,
    gghrd_triangular_B rotg_int rot_exact true true 0 3 exampleHA exampleHB exampleHI exampleHI
      (by decide) (by decide) rfl ⟨rfl, rfl⟩ ⟨rfl, rfl⟩ ⟨rfl, rfl⟩⟩

theorem exampleH_meets :
    ∀ c ∈ (gghrd rotg_int rot_exact true true ((0 : Nat) : Int) ((3 : Nat) : Int)
      exampleHA exampleHB exampleHI exampleHI).state.log, c.Meets := by
  decide

/-- C26 (witness): a 3-by-3 integer input with `ilo = 0`, `ihi = 3`, `Q = Z = I`
and quarter-turn rotations; every rotation call of the run meets its
contract. -/
theorem gghrd_unitary_equivalence_witness :
    (∀ c ∈ (gghrd rotg_int rot_exact true true ((0 : Nat) : Int) ((3 : Nat) : Int)
      exampleHA exampleHB exampleHI exampleHI).state.log, c.Meets)
    ∧ ∃ s, gghrd rotg_int rot_exact true true ((0 : Nat) : Int) ((3 : Nat) : Int)
          exampleHA exampleHB exampleHI exampleHI = GghrdOutcome.returned 0 s
      ∧ matOf exampleHA.n exampleHA.n s.Q.e * matOf exampleHA.n exampleHA.n s.A.e
            * (matOf exampleHA.n exampleHA.n s.Z.e).conjTranspose
          = matOf exampleHA.n exampleHA.n exampleHI.e * matOf exampleHA.n exampleHA.n exampleHA.e
            * (matOf exampleHA.n exampleHA.n exampleHI.e).conjTranspose
      ∧ matOf exampleHA.n exampleHA.n s.Q.e * matOf exampleHA.n exampleHA.n s.B.e
            * (matOf exampleHA.n exampleHA.n s.Z.e).conjTranspose
          = matOf exampleHA.n exampleHA.n exampleHI.e
            * matOf exampleHA.n exampleHA.n (triu exampleHB.e)
            * (matOf exampleHA.n exampleHA.n exampleHI.e).conjTranspose
      ∧ ((matOf exampleHA.n exampleHA.n exampleHI.e).conjTranspose
            * matOf exampleHA.n exampleHA.n exampleHI.e = 1 →
          (matOf exampleHA.n exampleHA.n s.Q.e).conjTranspose
              * matOf exampleHA.n exampleHA.n s.Q.e = 1
          ∧ matOf exampleHA.n exampleHA.n s.Q.e
              * (matOf exampleHA.n exampleHA.n s.Q.e).conjTranspose = 1)
      ∧ ((matOf exampleHA.n exampleHA.n exampleHI.e).conjTranspose
            * matOf exampleHA.n exampleHA.n exampleHI.e = 1 →
          (matOf exampleHA.n exampleHA.n s.Z.e).conjTranspose
              * matOf exampleHA.n exampleHA.n s.Z.e = 1
          ∧ matOf exampleHA.n exampleHA.n s.Z.e
              * (matOf exampleHA.n exampleHA.n s.Z.e).conjTranspose = 1) :=
  ⟨exampleH_meets,
    gghrd_unitary_equivalence rotg_int rot_exact 0 3 exampleHA exampleHB exampleHI exampleHI
      (by decide) (by decide) rfl ⟨rfl, rfl⟩ ⟨rfl, rfl⟩ ⟨rfl, rfl⟩
      (fun r k hr _ h => by
        have h3 : exampleHA.n = 3 := rfl
        omega)
      exampleH_meets⟩

/-- Companion of C26: the hypothesis on `A` cannot be dropped when `ihi < n`.
On a 4-by-4 integer input with `ilo = 0`, `ihi = 3`, `Q = Z = I` and
`A(3,1) = 1` below the diagonal in row 3, the checks pass, every rotation call
meets its contract and the call returns 0, but entry `(3, 1)` of
`Q_out A_out Z_out^H` is 0 while that of `Q_in A_in Z_in^H` is 1. -/
theorem gghrd_equivalence_needs_triangular :
    (∀ c ∈ (gghrd rotg_int rot_exact true true 0 3 exampleNA exampleNI exampleNI
      exampleNI).state.log, c.Meets)
    ∧ (∃ s, gghrd rotg_int rot_exact true true 0 3 exampleNA exampleNI exampleNI exampleNI
        = GghrdOutcome.returned 0 s)
    ∧ exampleNA.e 3 1 = 1
    ∧ (matOf 4 4 (gghrd rotg_int rot_exact true true 0 3 exampleNA exampleNI exampleNI
          exampleNI).state.Q.e
        * matOf 4 4 (gghrd rotg_int rot_exact true true 0 3 exampleNA exampleNI exampleNI
          exampleNI).state.A.e
        * (matOf 4 4 (gghrd rotg_int rot_exact true true 0 3 exampleNA exampleNI exampleNI
          exampleNI).state.Z.e).conjTranspose) 3 1 = 0
    ∧ (matOf 4 4 exampleNI.e * matOf 4 4 exampleNA.e
        * (matOf 4 4 exampleNI.e).conjTranspose) 3 1 = 1 := by
  refine ⟨by decide, ⟨_, rfl⟩, by decide, by decide, by decide⟩

/-! ## Step structure of `gelq2_work` and `gerq2_work` -/

theorem gelq2_step_calls {K : Type} (larfg : LarfgFn K) (larf_work : LarfWorkFn K)
    (m n k j : Nat) (s : State K) :
    ∃ (y v : Vec K) (t : K) (C C1 W1 : Mat K),
      (gelq2_step larfg larf_work m n k j s).log
        = s.log ++ (Call.larfg Direction.Forward StoreV.Rowwise j j n j (s.A.sliceRow j j n) y t
            :: (if j < k - 1 ∨ k < m then
                  [Call.larf_work Side.Right Direction.Forward StoreV.Rowwise (j + 1) m j n
                    v t C s.work C1 W1]
                else []))
      ∧ (gelq2_step larfg larf_work m n k j s).tau = s.tau.set j t
      ∧ v.len = n - j ∧ (∀ a, a < n - j → v.e a = y.e a)
      ∧ C.m = m - (j + 1) ∧ C.n = n - j
      ∧ (∀ i b, C.e i b = s.A.e (j + 1 + i) (j + b)) := by
  refine ⟨(larfg Direction.Forward StoreV.Rowwise (s.A.sliceRow j j n)).1,
    (s.A.setRowSlice j j n
      (larfg Direction.Forward StoreV.Rowwise (s.A.sliceRow j j n)).1).sliceRow j j n,
    (larfg Direction.Forward StoreV.Rowwise (s.A.sliceRow j j n)).2,
    (s.A.setRowSlice j j n
      (larfg Direction.Forward StoreV.Rowwise (s.A.sliceRow j j n)).1).slice (j + 1) m j n,
    (larf_work Side.Right Direction.Forward StoreV.Rowwise
      ((s.A.setRowSlice j j n
        (larfg Direction.Forward StoreV.Rowwise (s.A.sliceRow j j n)).1).sliceRow j j n)
      (larfg Direction.Forward StoreV.Rowwise (s.A.sliceRow j j n)).2
      ((s.A.setRowSlice j j n
        (larfg Direction.Forward StoreV.Rowwise (s.A.sliceRow j j n)).1).slice (j + 1) m j n)
      s.work).1,
    (larf_work Side.Right Direction.Forward StoreV.Rowwise
      ((s.A.setRowSlice j j n
        (larfg Direction.Forward StoreV.Rowwise (s.A.sliceRow j j n)).1).sliceRow j j n)
      (larfg Direction.Forward StoreV.Rowwise (s.A.sliceRow j j n)).2
      ((s.A.setRowSlice j j n
        (larfg Direction.Forward StoreV.Rowwise (s.A.sliceRow j j n)).1).slice (j + 1) m j n)
      s.work).2, ?_, gelq2_step_tau larfg larf_work m n k j s, rfl, ?_, rfl, rfl, ?_⟩
  · unfold gelq2_step
    by_cases hg : j < k - 1 ∨ k < m
    · simp only [if_pos hg, Vec.set, if_true, List.append_assoc, List.singleton_append]
    · simp only [if_neg hg]
  · intro a ha
    simp only [Mat.sliceRow]
    rw [Mat.setRowSlice_e_in _ _ _ _ _ _ _ ⟨rfl, by omega, by omega⟩]
    congr 1
    omega
  · intro i b
    simp only [Mat.slice, Mat.setRowSlice]
    rw [if_neg (by omega)]

theorem gelq2_state_succ {K : Type} (larfg : LarfgFn K) (larf_work : LarfWorkFn K)
    (A : Mat K) (tauw : Vec K) (work : Mat K) (j : Nat) :
    gelq2_state larfg larf_work A tauw work (j + 1)
      = gelq2_step larfg larf_work A.m A.n (min A.m A.n) j
          (gelq2_state larfg larf_work A tauw work j) := by
  simp only [gelq2_state, List.range_succ, List.foldl_append, List.foldl_cons, List.foldl_nil]

theorem gelq2_state_log {K : Type} (larfg : LarfgFn K) (larf_work : LarfWorkFn K)
    (A : Mat K) (tauw : Vec K) (work : Mat K) (j : Nat) :
    (gelq2_state larfg larf_work A tauw work (j + 1)).log
      = (gelq2_state larfg larf_work A tauw work j).log
        ++ gelq2_calls larfg larf_work A tauw work j := by
  obtain ⟨y, v, t, C, C1, W1, h, -⟩ := gelq2_step_calls larfg larf_work A.m A.n (min A.m A.n) j
    (gelq2_state larfg larf_work A tauw work j)
  rw [← gelq2_state_succ] at h
  simp only [gelq2_calls]
  rw [h, List.drop_left]

theorem gelq2_state_log_flatMap {K : Type} (larfg : LarfgFn K) (larf_work : LarfWorkFn K)
    (A : Mat K) (tauw : Vec K) (work : Mat K) (j : Nat) :
    (gelq2_state larfg larf_work A tauw work j).log
      = (List.range j).flatMap (gelq2_calls larfg larf_work A tauw work) := by
  induction j with
  | zero => rfl
  | succ j ih =>
    rw [gelq2_state_log, ih, List.range_succ, List.flatMap_append]
    simp

theorem gelq2_calls_eq {K : Type} (larfg : LarfgFn K) (larf_work : LarfWorkFn K)
    (A : Mat K) (tauw : Vec K) (work : Mat K) (j : Nat) :
    ∃ (y v : Vec K) (t : K) (C W C1 W1 : Mat K),
      gelq2_calls larfg larf_work A tauw work j
        = Call.larfg Direction.Forward StoreV.Rowwise j j A.n j
            ((gelq2_state larfg larf_work A tauw work j).A.sliceRow j j A.n) y t
          :: (if j < min A.m A.n - 1 ∨ min A.m A.n < A.m then
                [Call.larf_work Side.Right Direction.Forward StoreV.Rowwise (j + 1) A.m j A.n
                  v t C W C1 W1]
              else [])
      ∧ (gelq2_state larfg larf_work A tauw work (j + 1)).tau
          = (gelq2_state larfg larf_work A tauw work j).tau.set j t
      ∧ v.len = A.n - j ∧ (∀ a, a < A.n - j → v.e a = y.e a)
      ∧ C.m = A.m - (j + 1) ∧ C.n = A.n - j
      ∧ (∀ i b, C.e i b = (gelq2_state larfg larf_work A tauw work j).A.e (j + 1 + i) (j + b)) := by
  obtain ⟨y, v, t, C, C1, W1, h, h2, h3⟩ := gelq2_step_calls larfg larf_work A.m A.n
    (min A.m A.n) j (gelq2_state larfg larf_work A tauw work j)
  rw [← gelq2_state_succ] at h h2
  refine ⟨y, v, t, C, (gelq2_state larfg larf_work A tauw work j).work, C1, W1, ?_, h2, h3⟩
  simp only [gelq2_calls]
  rw [h, List.drop_left]

theorem gelq2_state_frame {K : Type} (larfg : LarfgFn K) (larf_work : LarfWorkFn K)
    (A : Mat K) (tauw : Vec K) (work : Mat K) (j0 d : Nat) :
    (∀ r c, r < j0 ∨ c < j0 →
      (gelq2_state larfg larf_work A tauw work (j0 + d)).A.e r c
        = (gelq2_state larfg larf_work A tauw work j0).A.e r c)
    ∧ (∀ i, i < j0 ∨ j0 + d ≤ i →
      (gelq2_state larfg larf_work A tauw work (j0 + d)).tau.e i
        = (gelq2_state larfg larf_work A tauw work j0).tau.e i)
    ∧ (gelq2_state larfg larf_work A tauw work (j0 + d)).tau.len
        = (gelq2_state larfg larf_work A tauw work j0).tau.len := by
  induction d with
  | zero => exact ⟨fun _ _ _ => rfl, fun _ _ => rfl, rfl⟩
  | succ d ih =>
    obtain ⟨h1, h2, h3⟩ := ih
    rw [← Nat.add_assoc, gelq2_state_succ]
    refine ⟨?_, ?_, ?_⟩
    · intro r c hrc
      rw [gelq2_step_A_frame _ _ _ _ _ _ _ _ _ (by omega)]
      exact h1 r c hrc
    · intro i hi
      rw [gelq2_step_tau]
      simp only [Vec.set]
      rw [if_neg (by omega)]
      exact h2 i (by omega)
    · rw [gelq2_step_tau]
      exact h3

theorem gelq2_work_eq_state {K : Type} (larfg : LarfgFn K) (larf_work : LarfWorkFn K)
    (A : Mat K) (tauw : Vec K) (work : Mat K) (hsize : min A.m A.n ≤ tauw.len) :
    gelq2_work larfg larf_work A tauw work
      = Outcome.returned 0 (gelq2_state larfg larf_work A tauw work (min A.m A.n)) :=
  gelq2_work_eq_loop larfg larf_work A tauw work hsize

/-- C31: when the check passes (`size(tauw) >= k`, `k = min(m, n)`),
`gelq2_work` returns after exactly the passes `j = 0, 1, ..., k-1` of its loop
body, in ascending order, and its trace is the concatenation of the calls of
these passes.  Pass `j` calls `larfg` FORWARD, row-wise, on `w = A(j, j:n)`
with its scalar going to `tauw[j]` (where it still is on exit), and then
`larf_work` from the right, FORWARD, row-wise, with that vector and scalar on
`Q11 = A(j+1:m, j:n)` if and only if `j + 1 < m`, that is if and only if `Q11`
has at least one row; the guard `j < k-1 || k < m` is equivalent to
`j + 1 < m` for every `j < k`, and `Q11` has at least one column. -/
theorem gelq2_step_structure {K : Type} (larfg : LarfgFn K) (larf_work : LarfWorkFn K)
    (A : Mat K) (tauw : Vec K) (work : Mat K) (hsize : min A.m A.n ≤ tauw.len) :
    ∃ out : State K,
      gelq2_work larfg larf_work A tauw work = Outcome.returned 0 out
      ∧ out = gelq2_state larfg larf_work A tauw work (min A.m A.n)
      ∧ out.log = (List.range (min A.m A.n)).flatMap (gelq2_calls larfg larf_work A tauw work)
      ∧ ∀ j, j < min A.m A.n →
          ((j < min A.m A.n - 1 ∨ min A.m A.n < A.m) ↔ j + 1 < A.m)
          ∧ ∃ (y v : Vec K) (t : K) (C W C1 W1 : Mat K),
              gelq2_calls larfg larf_work A tauw work j
                = Call.larfg Direction.Forward StoreV.Rowwise j j A.n j
                    ((gelq2_state larfg larf_work A tauw work j).A.sliceRow j j A.n) y t
                  :: (if j + 1 < A.m then
                        [Call.larf_work Side.Right Direction.Forward StoreV.Rowwise
                          (j + 1) A.m j A.n v t C W C1 W1]
                      else [])
              ∧ out.tau.e j = t
              ∧ v.len = A.n - j ∧ (∀ a, a < A.n - j → v.e a = y.e a)
              ∧ C.m = A.m - (j + 1) ∧ C.n = A.n - j
              ∧ (∀ i b, C.e i b
                  = (gelq2_state larfg larf_work A tauw work j).A.e (j + 1 + i) (j + b))
              ∧ (j + 1 < A.m ↔ 1 ≤ C.m) ∧ 1 ≤ C.n := by
  refine ⟨_, gelq2_work_eq_state larfg larf_work A tauw work hsize, rfl,
    gelq2_state_log_flatMap larfg larf_work A tauw work _, ?_⟩
  intro j hj
  have hguard : (j < min A.m A.n - 1 ∨ min A.m A.n < A.m) ↔ j + 1 < A.m := by omega
  refine ⟨hguard, ?_⟩
  obtain ⟨y, v, t, C, W, C1, W1, h1, h2, h3, h4, h5, h6, h7⟩ :=
    gelq2_calls_eq larfg larf_work A tauw work j
  refine ⟨y, v, t, C, W, C1, W1, ?_, ?_, h3, h4, h5, h6, h7, by omega, by omega⟩
  · rw [h1]
    by_cases hg : j + 1 < A.m
    · rw [if_pos hg, if_pos (hguard.mpr hg)]
    · rw [if_neg hg, if_neg (fun h => hg (hguard.mp h))]
  · have e : min A.m A.n = (j + 1) + (min A.m A.n - (j + 1)) := by omega
    rw [e, (gelq2_state_frame larfg larf_work A tauw work (j + 1)
      (min A.m A.n - (j + 1))).2.1 j (Or.inl (by omega)), h2]
    simp [Vec.set]

/-- C31 (witness): the rational matrix with rows `(3, 4)`, `(1, 2)`. -/
theorem gelq2_step_structure_witness :
    min exampleA.m exampleA.n ≤ exampleTau.len
    ∧ ∃ out : State ℚ,
      gelq2_work larfg_exact larf_exact exampleA exampleTau exampleWork = Outcome.returned 0 out
      ∧ out = gelq2_state larfg_exact larf_exact exampleA exampleTau exampleWork
          (min exampleA.m exampleA.n)
      ∧ out.log = (List.range (min exampleA.m exampleA.n)).flatMap
          (gelq2_calls larfg_exact larf_exact exampleA exampleTau exampleWork)
      ∧ ∀ j, j < min exampleA.m exampleA.n →
          ((j < min exampleA.m exampleA.n - 1 ∨ min exampleA.m exampleA.n < exampleA.m)
            ↔ j + 1 < exampleA.m)
          ∧ ∃ (y v : Vec ℚ) (t : ℚ) (C W C1 W1 : Mat ℚ),
              gelq2_calls larfg_exact larf_exact exampleA exampleTau exampleWork j
                = Call.larfg Direction.Forward StoreV.Rowwise j j exampleA.n j
                    ((gelq2_state larfg_exact larf_exact exampleA exampleTau exampleWork
                      j).A.sliceRow j j exampleA.n) y t
                  :: (if j + 1 < exampleA.m then
                        [Call.larf_work Side.Right Direction.Forward StoreV.Rowwise
                          (j + 1) exampleA.m j exampleA.n v t C W C1 W1]
                      else [])
              ∧ out.tau.e j = t
              ∧ v.len = exampleA.n - j ∧ (∀ a, a < exampleA.n - j → v.e a = y.e a)
              ∧ C.m = exampleA.m - (j + 1) ∧ C.n = exampleA.n - j
              ∧ (∀ i b, C.e i b
                  = (gelq2_state larfg_exact larf_exact exampleA exampleTau exampleWork
                      j).A.e (j + 1 + i) (j + b))
              ∧ (j + 1 < exampleA.m ↔ 1 ≤ C.m) ∧ 1 ≤ C.n :=
  ⟨by decide,
    gelq2_step_structure larfg_exact larf_exact exampleA exampleTau exampleWork (by decide)⟩

theorem gerq2_step_calls {K : Type} (larfg : LarfgFn K) (larf_work : LarfWorkFn K)
    (m n k i2 : Nat) (s : State K) :
    ∃ (y v : Vec K) (t : K) (C C1 W1 : Mat K),
      (gerq2_step larfg larf_work m n k i2 s).log
        = s.log ++ (Call.larfg Direction.Backward StoreV.Rowwise (m - 1 - i2) 0 (n - i2)
              (k - 1 - i2) (s.A.sliceRow (m - 1 - i2) 0 (n - i2)) y t
            :: (if m > i2 + 1 then
                  [Call.larf_work Side.Right Direction.Backward StoreV.Rowwise
                    0 (m - 1 - i2) 0 (n - i2) v t C s.work C1 W1]
                else []))
      ∧ (gerq2_step larfg larf_work m n k i2 s).tau = s.tau.set (k - 1 - i2) t
      ∧ v.len = n - i2 ∧ (∀ a, a < n - i2 → v.e a = y.e a)
      ∧ C.m = m - 1 - i2 ∧ C.n = n - i2
      ∧ (∀ i b, i < m - 1 - i2 → C.e i b = s.A.e i b) := by
  refine ⟨(larfg Direction.Backward StoreV.Rowwise (s.A.sliceRow (m - 1 - i2) 0 (n - i2))).1,
    (s.A.setRowSlice (m - 1 - i2) 0 (n - i2)
      (larfg Direction.Backward StoreV.Rowwise
        (s.A.sliceRow (m - 1 - i2) 0 (n - i2))).1).sliceRow (m - 1 - i2) 0 (n - i2),
    (larfg Direction.Backward StoreV.Rowwise (s.A.sliceRow (m - 1 - i2) 0 (n - i2))).2,
    (s.A.setRowSlice (m - 1 - i2) 0 (n - i2)
      (larfg Direction.Backward StoreV.Rowwise
        (s.A.sliceRow (m - 1 - i2) 0 (n - i2))).1).slice 0 (m - 1 - i2) 0 (n - i2),
    (larf_work Side.Right Direction.Backward StoreV.Rowwise
      ((s.A.setRowSlice (m - 1 - i2) 0 (n - i2)
        (larfg Direction.Backward StoreV.Rowwise
          (s.A.sliceRow (m - 1 - i2) 0 (n - i2))).1).sliceRow (m - 1 - i2) 0 (n - i2))
      (larfg Direction.Backward StoreV.Rowwise (s.A.sliceRow (m - 1 - i2) 0 (n - i2))).2
      ((s.A.setRowSlice (m - 1 - i2) 0 (n - i2)
        (larfg Direction.Backward StoreV.Rowwise
          (s.A.sliceRow (m - 1 - i2) 0 (n - i2))).1).slice 0 (m - 1 - i2) 0 (n - i2))
      s.work).1,
    (larf_work Side.Right Direction.Backward StoreV.Rowwise
      ((s.A.setRowSlice (m - 1 - i2) 0 (n - i2)
        (larfg Direction.Backward StoreV.Rowwise
          (s.A.sliceRow (m - 1 - i2) 0 (n - i2))).1).sliceRow (m - 1 - i2) 0 (n - i2))
      (larfg Direction.Backward StoreV.Rowwise (s.A.sliceRow (m - 1 - i2) 0 (n - i2))).2
      ((s.A.setRowSlice (m - 1 - i2) 0 (n - i2)
        (larfg Direction.Backward StoreV.Rowwise
          (s.A.sliceRow (m - 1 - i2) 0 (n - i2))).1).slice 0 (m - 1 - i2) 0 (n - i2))
      s.work).2, ?_, gerq2_step_tau larfg larf_work m n k i2 s, rfl, ?_, rfl, rfl, ?_⟩
  · unfold gerq2_step
    by_cases hg : m > i2 + 1
    · simp only [if_pos hg, Vec.set, if_true, List.append_assoc, List.singleton_append]
    · simp only [if_neg hg]
  · intro a ha
    simp only [Mat.sliceRow]
    rw [Mat.setRowSlice_e_in _ _ _ _ _ _ _ ⟨rfl, by omega, by omega⟩]
    congr 1
    omega
  · intro i b hi
    simp only [Mat.slice, Mat.setRowSlice]
    rw [if_neg (by omega), Nat.zero_add, Nat.zero_add]

theorem gerq2_state_succ {K : Type} (larfg : LarfgFn K) (larf_work : LarfWorkFn K)
    (A : Mat K) (tau : Vec K) (work : Mat K) (i2 : Nat) :
    gerq2_state larfg larf_work A tau work (i2 + 1)
      = gerq2_step larfg larf_work A.m A.n (min A.m A.n) i2
          (gerq2_state larfg larf_work A tau work i2) := by
  simp only [gerq2_state, List.range_succ, List.foldl_append, List.foldl_cons, List.foldl_nil]

theorem gerq2_state_log {K : Type} (larfg : LarfgFn K) (larf_work : LarfWorkFn K)
    (A : Mat K) (tau : Vec K) (work : Mat K) (i2 : Nat) :
    (gerq2_state larfg larf_work A tau work (i2 + 1)).log
      = (gerq2_state larfg larf_work A tau work i2).log
        ++ gerq2_calls larfg larf_work A tau work i2 := by
  obtain ⟨y, v, t, C, C1, W1, h, -⟩ := gerq2_step_calls larfg larf_work A.m A.n (min A.m A.n) i2
    (gerq2_state larfg larf_work A tau work i2)
  rw [← gerq2_state_succ] at h
  simp only [gerq2_calls]
  rw [h, List.drop_left]

theorem gerq2_state_log_flatMap {K : Type} (larfg : LarfgFn K) (larf_work : LarfWorkFn K)
    (A : Mat K) (tau : Vec K) (work : Mat K) (i2 : Nat) :
    (gerq2_state larfg larf_work A tau work i2).log
      = (List.range i2).flatMap (gerq2_calls larfg larf_work A tau work) := by
  induction i2 with
  | zero => rfl
  | succ j ih =>
    rw [gerq2_state_log, ih, List.range_succ, List.flatMap_append]
    simp

theorem gerq2_calls_eq {K : Type} (larfg : LarfgFn K) (larf_work : LarfWorkFn K)
    (A : Mat K) (tau : Vec K) (work : Mat K) (i2 : Nat) :
    ∃ (y v : Vec K) (t : K) (C W C1 W1 : Mat K),
      gerq2_calls larfg larf_work A tau work i2
        = Call.larfg Direction.Backward StoreV.Rowwise (A.m - 1 - i2) 0 (A.n - i2)
            (min A.m A.n - 1 - i2)
            ((gerq2_state larfg larf_work A tau work i2).A.sliceRow (A.m - 1 - i2) 0 (A.n - i2))
            y t
          :: (if A.m > i2 + 1 then
                [Call.larf_work Side.Right Direction.Backward StoreV.Rowwise
                  0 (A.m - 1 - i2) 0 (A.n - i2) v t C W C1 W1]
              else [])
      ∧ (gerq2_state larfg larf_work A tau work (i2 + 1)).tau
          = (gerq2_state larfg larf_work A tau work i2).tau.set (min A.m A.n - 1 - i2) t
      ∧ v.len = A.n - i2 ∧ (∀ a, a < A.n - i2 → v.e a = y.e a)
      ∧ C.m = A.m - 1 - i2 ∧ C.n = A.n - i2
      ∧ (∀ i b, i < A.m - 1 - i2 →
          C.e i b = (gerq2_state larfg larf_work A tau work i2).A.e i b) := by
  obtain ⟨y, v, t, C, C1, W1, h, h2, h3⟩ := gerq2_step_calls larfg larf_work A.m A.n
    (min A.m A.n) i2 (gerq2_state larfg larf_work A tau work i2)
  rw [← gerq2_state_succ] at h h2
  refine ⟨y, v, t, C, (gerq2_state larfg larf_work A tau work i2).work, C1, W1, ?_, h2, h3⟩
  simp only [gerq2_calls]
  rw [h, List.drop_left]

theorem gerq2_state_frame {K : Type} (larfg : LarfgFn K) (larf_work : LarfWorkFn K)
    (A : Mat K) (tau : Vec K) (work : Mat K) (i0 d : Nat) (hd : i0 + d ≤ min A.m A.n) :
    (∀ r c, A.m ≤ r + i0 ∨ A.n ≤ c + i0 →
      (gerq2_state larfg larf_work A tau work (i0 + d)).A.e r c
        = (gerq2_state larfg larf_work A tau work i0).A.e r c)
    ∧ (∀ i, min A.m A.n ≤ i + i0 ∨ i + (i0 + d) < min A.m A.n →
      (gerq2_state larfg larf_work A tau work (i0 + d)).tau.e i
        = (gerq2_state larfg larf_work A tau work i0).tau.e i)
    ∧ (gerq2_state larfg larf_work A tau work (i0 + d)).tau.len
        = (gerq2_state larfg larf_work A tau work i0).tau.len := by
  induction d with
  | zero => exact ⟨fun _ _ _ => rfl, fun _ _ => rfl, rfl⟩
  | succ d ih =>
    obtain ⟨h1, h2, h3⟩ := ih (by omega)
    rw [← Nat.add_assoc, gerq2_state_succ]
    refine ⟨?_, ?_, ?_⟩
    · intro r c hrc
      rw [gerq2_step_A_frame _ _ _ _ _ _ _ _ _ (by omega)]
      exact h1 r c hrc
    · intro i hi
      rw [gerq2_step_tau]
      simp only [Vec.set]
      rw [if_neg (by omega)]
      exact h2 i (by omega)
    · rw [gerq2_step_tau]
      exact h3

theorem gerq2_work_eq_state {K : Type} (larfg : LarfgFn K) (larf_work : LarfWorkFn K)
    (A : Mat K) (tau : Vec K) (work : Mat K) (hsize : min A.m A.n ≤ tau.len) :
    gerq2_work larfg larf_work A tau work
      = Outcome.returned 0 (gerq2_state larfg larf_work A tau work (min A.m A.n)) :=
  gerq2_work_eq_loop larfg larf_work A tau work hsize

theorem range_reverse_eq_map (k : Nat) :
    (List.range k).reverse = (List.range k).map (fun x => k - 1 - x) := by
  rw [List.range_eq_range', List.reverse_range', ← List.range_eq_range']
  simp

theorem range_eq_reverse_map (k : Nat) :
    List.range k = ((List.range k).reverse).map (fun i => k - 1 - i) := by
  rw [range_reverse_eq_map, List.map_map]
  conv_lhs => rw [← List.map_id (List.range k)]
  apply List.map_congr_left
  intro x hx
  have := List.mem_range.mp hx
  simp only [id, Function.comp]
  omega

theorem gerq2_state_tauWrites {K : Type} (larfg : LarfgFn K) (larf_work : LarfWorkFn K)
    (A : Mat K) (tau : Vec K) (work : Mat K) (i2 : Nat) :
    (gerq2_state larfg larf_work A tau work i2).log.flatMap Call.tauWrites
      = (List.range i2).map (fun x => min A.m A.n - 1 - x) := by
  induction i2 with
  | zero => rfl
  | succ j ih =>
    obtain ⟨y, v, t, C, W, C1, W1, h, -⟩ := gerq2_calls_eq larfg larf_work A tau work j
    rw [gerq2_state_log, List.flatMap_append, ih, h, List.range_succ, List.map_append]
    congr 1
    by_cases hg : A.m > j + 1
    · simp [hg, Call.tauWrites]
    · simp [hg, Call.tauWrites]

/-- C32: when the check passes (`size(tau) >= k`, `k = min(m, n)`),
`gerq2_work` returns after the passes of its loop body that generate the
reflectors `i = k-1, k-2, ..., 0`, in that order (pass `i2 = k-1-i`), and its
trace is the concatenation of the calls of these passes.  Reflector `i` comes
from `larfg` BACKWARD, row-wise, on row `m-k+i` restricted to the columns
`0 .. n-k+i` (the range `[0, n-k+i+1)`), so its pivot is the last entry,
column `n-k+i`; its scalar goes to `tau[i]`, where it still is on exit.  It is
then applied by `larf_work` from the right, BACKWARD, row-wise, to
`A(0:m-k+i, 0:n-k+i+1)` if and only if that block has at least one row (the
guard `m > i2 + 1`).  The positions of `tau` written are `k-1, k-2, ..., 0`,
each once; the entries of index `>= k` and the length are those on entry. -/
theorem gerq2_step_structure {K : Type} (larfg : LarfgFn K) (larf_work : LarfWorkFn K)
    (A : Mat K) (tau : Vec K) (work : Mat K) (hsize : min A.m A.n ≤ tau.len) :
    ∃ out : State K,
      gerq2_work larfg larf_work A tau work = Outcome.returned 0 out
      ∧ out = gerq2_state larfg larf_work A tau work (min A.m A.n)
      ∧ out.log = ((List.range (min A.m A.n)).reverse).flatMap
          (fun i => gerq2_calls larfg larf_work A tau work (min A.m A.n - 1 - i))
      ∧ (∀ i, i < min A.m A.n →
          (A.m > (min A.m A.n - 1 - i) + 1 ↔ 1 ≤ A.m - min A.m A.n + i)
          ∧ ∃ (x y v : Vec K) (t : K) (C W C1 W1 : Mat K),
              gerq2_calls larfg larf_work A tau work (min A.m A.n - 1 - i)
                = Call.larfg Direction.Backward StoreV.Rowwise
                    (A.m - min A.m A.n + i) 0 (A.n - min A.m A.n + i + 1) i x y t
                  :: (if 1 ≤ A.m - min A.m A.n + i then
                        [Call.larf_work Side.Right Direction.Backward StoreV.Rowwise
                          0 (A.m - min A.m A.n + i) 0 (A.n - min A.m A.n + i + 1)
                          v t C W C1 W1]
                      else [])
              ∧ x = (gerq2_state larfg larf_work A tau work
                      (min A.m A.n - 1 - i)).A.sliceRow
                      (A.m - min A.m A.n + i) 0 (A.n - min A.m A.n + i + 1)
              ∧ 0 + Direction.Backward.pivot x.len = A.n - min A.m A.n + i
              ∧ out.tau.e i = t
              ∧ v.len = A.n - min A.m A.n + i + 1
              ∧ (∀ a, a < A.n - min A.m A.n + i + 1 → v.e a = y.e a)
              ∧ C.m = A.m - min A.m A.n + i ∧ C.n = A.n - min A.m A.n + i + 1
              ∧ (∀ r b, r < A.m - min A.m A.n + i → C.e r b
                  = (gerq2_state larfg larf_work A tau work
                      (min A.m A.n - 1 - i)).A.e r b))
      ∧ out.log.flatMap Call.tauWrites = (List.range (min A.m A.n)).reverse
      ∧ (∀ i, min A.m A.n ≤ i → out.tau.e i = tau.e i)
      ∧ out.tau.len = tau.len := by
  refine ⟨_, gerq2_work_eq_state larfg larf_work A tau work hsize, rfl, ?_, ?_, ?_, ?_, ?_⟩
  · rw [gerq2_state_log_flatMap]
    conv_lhs => rw [range_eq_reverse_map (min A.m A.n)]
    rw [List.flatMap_map]
  · intro i hi
    refine ⟨by omega, ?_⟩
    obtain ⟨y, v, t, C, W, C1, W1, h1, h2, h3, h4, h5, h6, h7⟩ :=
      gerq2_calls_eq larfg larf_work A tau work (min A.m A.n - 1 - i)
    have e1 : A.m - 1 - (min A.m A.n - 1 - i) = A.m - min A.m A.n + i := by omega
    have e2 : A.n - (min A.m A.n - 1 - i) = A.n - min A.m A.n + i + 1 := by omega
    have e3 : min A.m A.n - 1 - (min A.m A.n - 1 - i) = i := by omega
    have e4 : min A.m A.n - 1 - i + 1 = min A.m A.n - i := by omega
    rw [e1, e2, e3] at h1
    rw [e3, e4] at h2
    rw [e2] at h3 h4 h6
    rw [e1] at h5 h7
    refine ⟨_, y, v, t, C, W, C1, W1, ?_, rfl, ?_, ?_, h3, h4, h5, h6, h7⟩
    · rw [h1]
      by_cases hg : 1 ≤ A.m - min A.m A.n + i
      · rw [if_pos hg, if_pos (by omega)]
      · rw [if_neg hg, if_neg (by omega)]
    · simp only [Mat.sliceRow, Direction.pivot]
      omega
    · have e : min A.m A.n = (min A.m A.n - i) + i := by omega
      have hf := (gerq2_state_frame larfg larf_work A tau work (min A.m A.n - i) i
        (by omega)).2.1 i (Or.inl (by omega))
      rw [← e] at hf
      rw [hf, h2]
      simp [Vec.set]
  · rw [gerq2_state_tauWrites, range_reverse_eq_map]
  · intro i hi
    have hf := (gerq2_state_frame larfg larf_work A tau work 0 (min A.m A.n)
      (by omega)).2.1 i (Or.inl (by omega))
    rw [Nat.zero_add] at hf
    rw [hf]
    rfl
  · have hf := (gerq2_state_frame larfg larf_work A tau work 0 (min A.m A.n) (by omega)).2.2
    rw [Nat.zero_add] at hf
    rw [hf]
    rfl

/-- C32 (witness): the rational matrix with rows `(3, 4)`, `(1, 2)`. -/
theorem gerq2_step_structure_witness :
    min exampleA.m exampleA.n ≤ exampleTau.len
    ∧ ∃ out : State ℚ,
      gerq2_work larfg_exact larf_exact exampleA exampleTau exampleWork = Outcome.returned 0 out
      ∧ out = gerq2_state larfg_exact larf_exact exampleA exampleTau exampleWork
          (min exampleA.m exampleA.n)
      ∧ out.log = ((List.range (min exampleA.m exampleA.n)).reverse).flatMap
          (fun i => gerq2_calls larfg_exact larf_exact exampleA exampleTau exampleWork
            (min exampleA.m exampleA.n - 1 - i))
      ∧ (∀ i, i < min exampleA.m exampleA.n →
          (exampleA.m > (min exampleA.m exampleA.n - 1 - i) + 1
            ↔ 1 ≤ exampleA.m - min exampleA.m exampleA.n + i)
          ∧ ∃ (x y v : Vec ℚ) (t : ℚ) (C W C1 W1 : Mat ℚ),
              gerq2_calls larfg_exact larf_exact exampleA exampleTau exampleWork
                  (min exampleA.m exampleA.n - 1 - i)
                = Call.larfg Direction.Backward StoreV.Rowwise
                    (exampleA.m - min exampleA.m exampleA.n + i) 0
                    (exampleA.n - min exampleA.m exampleA.n + i + 1) i x y t
                  :: (if 1 ≤ exampleA.m - min exampleA.m exampleA.n + i then
                        [Call.larf_work Side.Right Direction.Backward StoreV.Rowwise
                          0 (exampleA.m - min exampleA.m exampleA.n + i) 0
                          (exampleA.n - min exampleA.m exampleA.n + i + 1)
                          v t C W C1 W1]
                      else [])
              ∧ x = (gerq2_state larfg_exact larf_exact exampleA exampleTau exampleWork
                      (min exampleA.m exampleA.n - 1 - i)).A.sliceRow
                      (exampleA.m - min exampleA.m exampleA.n + i) 0
                      (exampleA.n - min exampleA.m exampleA.n + i + 1)
              ∧ 0 + Direction.Backward.pivot x.len = exampleA.n - min exampleA.m exampleA.n + i
              ∧ out.tau.e i = t
              ∧ v.len = exampleA.n - min exampleA.m exampleA.n + i + 1
              ∧ (∀ a, a < exampleA.n - min exampleA.m exampleA.n + i + 1 → v.e a = y.e a)
              ∧ C.m = exampleA.m - min exampleA.m exampleA.n + i
              ∧ C.n = exampleA.n - min exampleA.m exampleA.n + i + 1
              ∧ (∀ r b, r < exampleA.m - min exampleA.m exampleA.n + i → C.e r b
                  = (gerq2_state larfg_exact larf_exact exampleA exampleTau exampleWork
                      (min exampleA.m exampleA.n - 1 - i)).A.e r b))
      ∧ out.log.flatMap Call.tauWrites = (List.range (min exampleA.m exampleA.n)).reverse
      ∧ (∀ i, min exampleA.m exampleA.n ≤ i → out.tau.e i = exampleTau.e i)
      ∧ out.tau.len = exampleTau.len :=
  ⟨by decide,
    gerq2_step_structure larfg_exact larf_exact exampleA exampleTau exampleWork (by decide)⟩

/-- C33: finalized entries are never touched again.  When the check passes,
pass `j` of `gelq2_work` leaves unchanged every entry `A(r, c)` with `r < j`
or `c < j` and every `tauw[i]` with `i ≠ j`, and pass `i2` of `gerq2_work`
leaves unchanged every entry `A(r, c)` with `r > m-1-i2` or `c >= n-i2` and
every `tau[i]` with `i ≠ k-1-i2` (a sub-kernel writes only the views it is
given and the workspace).  Hence on exit row `j`, column `j` and `tauw[j]`
(for `gerq2_work`, row `m-1-i2`, column `n-1-i2` and `tau[k-1-i2]`), and
everything finalized before them, are what the pass that produced them left. -/
theorem finalized_entries_frame {K : Type} (larfg : LarfgFn K) (larf_work : LarfWorkFn K)
    (A : Mat K) (tau : Vec K) (work : Mat K) (hsize : min A.m A.n ≤ tau.len) :
    (∃ out : State K,
      gelq2_work larfg larf_work A tau work = Outcome.returned 0 out
      ∧ ∀ j, j < min A.m A.n →
          (∀ r c, r < j ∨ c < j →
            (gelq2_state larfg larf_work A tau work (j + 1)).A.e r c
              = (gelq2_state larfg larf_work A tau work j).A.e r c)
          ∧ (∀ i, i ≠ j →
            (gelq2_state larfg larf_work A tau work (j + 1)).tau.e i
              = (gelq2_state larfg larf_work A tau work j).tau.e i)
          ∧ (∀ r c, r ≤ j ∨ c ≤ j →
            out.A.e r c = (gelq2_state larfg larf_work A tau work (j + 1)).A.e r c)
          ∧ out.tau.e j = (gelq2_state larfg larf_work A tau work (j + 1)).tau.e j)
    ∧ (∃ out : State K,
      gerq2_work larfg larf_work A tau work = Outcome.returned 0 out
      ∧ ∀ i2, i2 < min A.m A.n →
          (∀ r c, r > A.m - 1 - i2 ∨ c ≥ A.n - i2 →
            (gerq2_state larfg larf_work A tau work (i2 + 1)).A.e r c
              = (gerq2_state larfg larf_work A tau work i2).A.e r c)
          ∧ (∀ i, i ≠ min A.m A.n - 1 - i2 →
            (gerq2_state larfg larf_work A tau work (i2 + 1)).tau.e i
              = (gerq2_state larfg larf_work A tau work i2).tau.e i)
          ∧ (∀ r c, r ≥ A.m - 1 - i2 ∨ c ≥ A.n - 1 - i2 →
            out.A.e r c = (gerq2_state larfg larf_work A tau work (i2 + 1)).A.e r c)
          ∧ out.tau.e (min A.m A.n - 1 - i2)
              = (gerq2_state larfg larf_work A tau work (i2 + 1)).tau.e
                  (min A.m A.n - 1 - i2)) := by
  refine ⟨⟨_, gelq2_work_eq_state larfg larf_work A tau work hsize, ?_⟩,
    ⟨_, gerq2_work_eq_state larfg larf_work A tau work hsize, ?_⟩⟩
  · intro j hj
    have e : min A.m A.n = (j + 1) + (min A.m A.n - (j + 1)) := by omega
    have hf := gelq2_state_frame larfg larf_work A tau work (j + 1) (min A.m A.n - (j + 1))
    rw [← e] at hf
    refine ⟨?_, ?_, ?_, ?_⟩
    · intro r c hrc
      rw [gelq2_state_succ]
      exact gelq2_step_A_frame _ _ _ _ _ _ _ _ _ hrc
    · intro i hi
      rw [gelq2_state_succ, gelq2_step_tau]
      simp only [Vec.set]
      rw [if_neg hi]
    · intro r c hrc
      exact hf.1 r c (by omega)
    · exact hf.2.1 j (Or.inl (by omega))
  · intro i2 hi2
    have e : min A.m A.n = (i2 + 1) + (min A.m A.n - (i2 + 1)) := by omega
    have hf := gerq2_state_frame larfg larf_work A tau work (i2 + 1)
      (min A.m A.n - (i2 + 1)) (by omega)
    rw [← e] at hf
    refine ⟨?_, ?_, ?_, ?_⟩
    · intro r c hrc
      rw [gerq2_state_succ]
      exact gerq2_step_A_frame _ _ _ _ _ _ _ _ _ hrc
    · intro i hi
      rw [gerq2_state_succ, gerq2_step_tau]
      simp only [Vec.set]
      rw [if_neg hi]
    · intro r c hrc
      exact hf.1 r c (by omega)
    · exact hf.2.1 _ (Or.inl (by omega))

/-- C33 (witness): the rational matrix with rows `(3, 4)`, `(1, 2)`. -/
theorem finalized_entries_frame_witness :
    min exampleA.m exampleA.n ≤ exampleTau.len
    ∧ (∃ out : State ℚ,
      gelq2_work larfg_exact larf_exact exampleA exampleTau exampleWork = Outcome.returned 0 out
      ∧ ∀ j, j < min exampleA.m exampleA.n →
          (∀ r c, r < j ∨ c < j →
            (gelq2_state larfg_exact larf_exact exampleA exampleTau exampleWork (j + 1)).A.e r c
              = (gelq2_state larfg_exact larf_exact exampleA exampleTau exampleWork j).A.e r c)
          ∧ (∀ i, i ≠ j →
            (gelq2_state larfg_exact larf_exact exampleA exampleTau exampleWork (j + 1)).tau.e i
              = (gelq2_state larfg_exact larf_exact exampleA exampleTau exampleWork j).tau.e i)
          ∧ (∀ r c, r ≤ j ∨ c ≤ j →
            out.A.e r c
              = (gelq2_state larfg_exact larf_exact exampleA exampleTau exampleWork
                  (j + 1)).A.e r c)
          ∧ out.tau.e j
              = (gelq2_state larfg_exact larf_exact exampleA exampleTau exampleWork
                  (j + 1)).tau.e j)
    ∧ (∃ out : State ℚ,
      gerq2_work larfg_exact larf_exact exampleA exampleTau exampleWork = Outcome.returned 0 out
      ∧ ∀ i2, i2 < min exampleA.m exampleA.n →
          (∀ r c, r > exampleA.m - 1 - i2 ∨ c ≥ exampleA.n - i2 →
            (gerq2_state larfg_exact larf_exact exampleA exampleTau exampleWork (i2 + 1)).A.e r c
              = (gerq2_state larfg_exact larf_exact exampleA exampleTau exampleWork i2).A.e r c)
          ∧ (∀ i, i ≠ min exampleA.m exampleA.n - 1 - i2 →
            (gerq2_state larfg_exact larf_exact exampleA exampleTau exampleWork (i2 + 1)).tau.e i
              = (gerq2_state larfg_exact larf_exact exampleA exampleTau exampleWork i2).tau.e i)
          ∧ (∀ r c, r ≥ exampleA.m - 1 - i2 ∨ c ≥ exampleA.n - 1 - i2 →
            out.A.e r c
              = (gerq2_state larfg_exact larf_exact exampleA exampleTau exampleWork
                  (i2 + 1)).A.e r c)
          ∧ out.tau.e (min exampleA.m exampleA.n - 1 - i2)
              = (gerq2_state larfg_exact larf_exact exampleA exampleTau exampleWork
                  (i2 + 1)).tau.e (min exampleA.m exampleA.n - 1 - i2)) :=
  ⟨by decide,
    finalized_entries_frame larfg_exact larf_exact exampleA exampleTau exampleWork (by decide)⟩

theorem idx_sub_exact (w a b : Nat) (ha : a < 2 ^ w) (hb : b ≤ a) : idx_sub w a b = a - b := by
  unfold idx_sub
  have hb2 : b % 2 ^ w = b := Nat.mod_eq_of_lt (by omega)
  rw [hb2]
  have e : a + (2 ^ w - b) = (a - b) + 2 ^ w := by omega
  rw [e, Nat.add_mod_right]
  exact Nat.mod_eq_of_lt (by omega)

theorem gelq2_step_inBounds {K : Type} (larfg : LarfgFn K) (larf_work : LarfWorkFn K)
    (m n j : Nat) (s : State K) (hj : j < min m n)
    (h : ∀ c ∈ s.log, c.InBounds m n (min m n)) :
    ∀ c ∈ (gelq2_step larfg larf_work m n (min m n) j s).log, c.InBounds m n (min m n) := by
  intro c hc
  rcases gelq2_step_log_cases larfg larf_work m n (min m n) j s c hc with hc | hc | hc
  · exact h c hc
  · rw [hc]
    simp only [Call.InBounds, Mat.sliceRow, and_true]
    omega
  · rw [hc]
    simp only [Call.InBounds, Mat.sliceRow, Mat.slice, and_true]
    omega

theorem gerq2_step_inBounds {K : Type} (larfg : LarfgFn K) (larf_work : LarfWorkFn K)
    (m n i2 : Nat) (s : State K) (hi2 : i2 < min m n)
    (h : ∀ c ∈ s.log, c.InBounds m n (min m n)) :
    ∀ c ∈ (gerq2_step larfg larf_work m n (min m n) i2 s).log, c.InBounds m n (min m n) := by
  intro c hc
  rcases gerq2_step_log_cases larfg larf_work m n (min m n) i2 s c hc with hc | hc | hc
  · exact h c hc
  · rw [hc]
    simp only [Call.InBounds, Mat.sliceRow, and_true]
    omega
  · rw [hc]
    simp only [Call.InBounds, Mat.sliceRow, Mat.slice, and_true]
    omega

theorem gelq2_work_inBounds {K : Type} (larfg : LarfgFn K) (larf_work : LarfWorkFn K)
    (A : Mat K) (tauw : Vec K) (work : Mat K) :
    ∀ c ∈ (gelq2_work larfg larf_work A tauw work).state.log,
      c.InBounds A.m A.n (min A.m A.n) := by
  by_cases hsize : min A.m A.n ≤ tauw.len
  · rw [gelq2_work_eq_loop larfg larf_work A tauw work hsize]
    exact foldl_log_forall _ _ _
      (fun s j hj hs => gelq2_step_inBounds larfg larf_work A.m A.n j s (List.mem_range.mp hj) hs)
      _ (fun c hc => by cases hc)
  · intro c hc
    have hlt : tauw.len < min A.m A.n := by omega
    simp only [gelq2_work, if_pos hlt, Outcome.state] at hc
    cases hc

theorem gerq2_work_inBounds {K : Type} (larfg : LarfgFn K) (larf_work : LarfWorkFn K)
    (A : Mat K) (tau : Vec K) (work : Mat K) :
    ∀ c ∈ (gerq2_work larfg larf_work A tau work).state.log,
      c.InBounds A.m A.n (min A.m A.n) := by
  by_cases hsize : min A.m A.n ≤ tau.len
  · rw [gerq2_work_eq_loop larfg larf_work A tau work hsize]
    exact foldl_log_forall _ _ _
      (fun s j hj hs => gerq2_step_inBounds larfg larf_work A.m A.n j s (List.mem_range.mp hj) hs)
      _ (fun c hc => by cases hc)
  · intro c hc
    have hlt : tau.len < min A.m A.n := by omega
    simp only [gerq2_work, if_pos hlt, Outcome.state] at hc
    cases hc

/-- C34: slices stay in bounds.  For every `m, n >= 0`, every sub-kernel call
made by `gelq2_work` (row `j`, ranges `[j, n)` and `[j+1, m)`) and by
`gerq2_work` (row `m-1-i2`, ranges `[0, n-i2)` and `[0, m-1-i2)`) is handed
views with a row index below `m`, ranges with `lo <= hi <=` the dimension of
`A`, and a `tau` index below `k = min(m, n)`, which the check makes a valid
position of `tau` whenever a call is made.  In an unsigned index type of `w`
bits that holds `m` and `n`, none of the subtractions `k-1`, `k-1-i2`,
`m-1-i2`, `n-i2` wraps in a pass that is executed (`j < k`, `i2 < k`): the
subtrahend never exceeds the minuend, and the machine result is the exact
difference. -/
theorem slices_in_bounds {K : Type} (larfg : LarfgFn K) (larf_work : LarfWorkFn K)
    (A : Mat K) (tau : Vec K) (work : Mat K) (w : Nat)
    (hm : A.m < 2 ^ w) (hn : A.n < 2 ^ w) :
    (∀ c ∈ (gelq2_work larfg larf_work A tau work).state.log,
      c.InBounds A.m A.n (min A.m A.n))
    ∧ (∀ c ∈ (gerq2_work larfg larf_work A tau work).state.log,
      c.InBounds A.m A.n (min A.m A.n))
    ∧ ((gelq2_work larfg larf_work A tau work).state.log ≠ [] → min A.m A.n ≤ tau.len)
    ∧ ((gerq2_work larfg larf_work A tau work).state.log ≠ [] → min A.m A.n ≤ tau.len)
    ∧ (∀ j, j < min A.m A.n →
        1 ≤ min A.m A.n ∧ idx_sub w (min A.m A.n) 1 = min A.m A.n - 1
        ∧ ((min A.m A.n - 1 : Nat) : Int) = (min A.m A.n : Int) - 1
        ∧ j < A.m ∧ j ≤ A.n ∧ j + 1 ≤ A.m)
    ∧ (∀ i2, i2 < min A.m A.n →
        1 ≤ min A.m A.n ∧ i2 ≤ min A.m A.n - 1 ∧ 1 ≤ A.m ∧ i2 ≤ A.m - 1 ∧ i2 ≤ A.n
        ∧ idx_sub w (idx_sub w (min A.m A.n) 1) i2 = min A.m A.n - 1 - i2
        ∧ idx_sub w (idx_sub w A.m 1) i2 = A.m - 1 - i2
        ∧ idx_sub w A.n i2 = A.n - i2
        ∧ ((min A.m A.n - 1 - i2 : Nat) : Int) = (min A.m A.n : Int) - 1 - i2
        ∧ ((A.m - 1 - i2 : Nat) : Int) = (A.m : Int) - 1 - i2
        ∧ ((A.n - i2 : Nat) : Int) = (A.n : Int) - i2
        ∧ min A.m A.n - 1 - i2 < min A.m A.n
        ∧ A.m - 1 - i2 < A.m ∧ A.n - i2 ≤ A.n ∧ A.m - 1 - i2 ≤ A.m) := by
  refine ⟨gelq2_work_inBounds larfg larf_work A tau work,
    gerq2_work_inBounds larfg larf_work A tau work, ?_, ?_, ?_, ?_⟩
  · intro h
    by_contra hlt
    apply h
    have hlt2 : tau.len < min A.m A.n := by omega
    simp only [gelq2_work, if_pos hlt2, Outcome.state]
  · intro h
    by_contra hlt
    apply h
    have hlt2 : tau.len < min A.m A.n := by omega
    simp only [gerq2_work, if_pos hlt2, Outcome.state]
  · intro j hj
    have hk : min A.m A.n < 2 ^ w := by omega
    refine ⟨by omega, idx_sub_exact w _ 1 hk (by omega), by omega, by omega, by omega,
      by omega⟩
  · intro i2 hi2
    have hk : min A.m A.n < 2 ^ w := by omega
    refine ⟨by omega, by omega, by omega, by omega, by omega, ?_, ?_,
      idx_sub_exact w _ i2 hn (by omega), by omega, by omega, by omega, by omega, by omega,
      by omega, by omega⟩
    · rw [idx_sub_exact w _ 1 hk (by omega)]
      exact idx_sub_exact w _ i2 (by omega) (by omega)
    · rw [idx_sub_exact w _ 1 hm (by omega)]
      exact idx_sub_exact w _ i2 (by omega) (by omega)

/-- C34 (witness): the rational matrix with rows `(3, 4)`, `(1, 2)` and
8-bit indices. -/
theorem slices_in_bounds_witness :
    exampleA.m < 2 ^ 8 ∧ exampleA.n < 2 ^ 8 ∧
    ((∀ c ∈ (gelq2_work larfg_exact larf_exact exampleA exampleTau exampleWork).state.log,
      c.InBounds exampleA.m exampleA.n (min exampleA.m exampleA.n))
    ∧ (∀ c ∈ (gerq2_work larfg_exact larf_exact exampleA exampleTau exampleWork).state.log,
      c.InBounds exampleA.m exampleA.n (min exampleA.m exampleA.n))
    ∧ ((gelq2_work larfg_exact larf_exact exampleA exampleTau exampleWork).state.log ≠ [] → min exampleA.m exampleA.n ≤ exampleTau.len)
    ∧ ((gerq2_work larfg_exact larf_exact exampleA exampleTau exampleWork).state.log ≠ [] → min exampleA.m exampleA.n ≤ exampleTau.len)
    ∧ (∀ j, j < min exampleA.m exampleA.n →
        1 ≤ min exampleA.m exampleA.n ∧ idx_sub 8 (min exampleA.m exampleA.n) 1 = min exampleA.m exampleA.n - 1
        ∧ ((min exampleA.m exampleA.n - 1 : Nat) : Int) = (min exampleA.m exampleA.n : Int) - 1
        ∧ j < exampleA.m ∧ j ≤ exampleA.n ∧ j + 1 ≤ exampleA.m)
    ∧ (∀ i2, i2 < min exampleA.m exampleA.n →
        1 ≤ min exampleA.m exampleA.n ∧ i2 ≤ min exampleA.m exampleA.n - 1 ∧ 1 ≤ exampleA.m ∧ i2 ≤ exampleA.m - 1 ∧ i2 ≤ exampleA.n
        ∧ idx_sub 8 (idx_sub 8 (min exampleA.m exampleA.n) 1) i2 = min exampleA.m exampleA.n - 1 - i2
        ∧ idx_sub 8 (idx_sub 8 exampleA.m 1) i2 = exampleA.m - 1 - i2
        ∧ idx_sub 8 exampleA.n i2 = exampleA.n - i2
        ∧ ((min exampleA.m exampleA.n - 1 - i2 : Nat) : Int) = (min exampleA.m exampleA.n : Int) - 1 - i2
        ∧ ((exampleA.m - 1 - i2 : Nat) : Int) = (exampleA.m : Int) - 1 - i2
        ∧ ((exampleA.n - i2 : Nat) : Int) = (exampleA.n : Int) - i2
        ∧ min exampleA.m exampleA.n - 1 - i2 < min exampleA.m exampleA.n
        ∧ exampleA.m - 1 - i2 < exampleA.m ∧ exampleA.n - i2 ≤ exampleA.n ∧ exampleA.m - 1 - i2 ≤ exampleA.m)) :=
  ⟨by decide, by decide,
    slices_in_bounds larfg_exact larf_exact exampleA exampleTau exampleWork 8
      (by decide) (by decide)⟩

end tlapack
